import Mathlib

/-!
Mini_Seastar: a Lean 4 model of the runtime core

Shallow embedding of `Packet.h`, `Future.h` and the pending-task part of
`Reactor.cpp`, followed by theorems about the embedded definitions.

Conventions
* `size_t` values are natural numbers; every `size_t` addition or subtraction of the
  source is taken modulo `2^64` explicitly.
* Heap objects are addressed by their index in a list; an address is never reused.
* `std::shared_ptr<char[]>` is a nullable block address together with the use count
  stored in the block (the control block).
-/

namespace MiniSeastar

/-! ## Packet.h -/

/-- Number of values of a `size_t`. -/
def SIZE_MOD : Nat := 2 ^ 64

/-- A `char`. -/
abbrev Byte := Nat

/-- The array behind a `std::shared_ptr<char[]>` with the use count of its control block. -/
structure Block where
  bytes : List Byte
  use_count : Nat
deriving DecidableEq, Repr

/-- All arrays allocated so far; the address of a block is its index. -/
abbrev Heap := List Block

/-- A `char*`: a block and a byte offset into it. -/
structure Ptr where
  block : Nat
  off : Nat
deriving DecidableEq, Repr

/-- Pointer arithmetic `p + k` on a possibly null pointer. -/
def Ptr.add : Option Ptr → Nat → Option Ptr
  | none, _ => none
  | some p, k => some { block := p.block, off := p.off + k }

/-- The class `Packet`: `data_`, `offset_`, `size_`. -/
structure Packet where
  data_ : Option Nat
  offset_ : Nat
  size_ : Nat
deriving DecidableEq, Repr

/-- Copying a `shared_ptr`: the use count of a non-null pointer grows by one. -/
def Heap.acquire (h : Heap) : Option Nat → Heap
  | none => h
  | some b =>
    match h[b]? with
    | none => h
    | some blk => h.set b { blk with use_count := blk.use_count + 1 }

/-- Destroying a `shared_ptr`: the use count of a non-null pointer drops by one and the
array is deleted when it reaches zero. -/
def Heap.release (h : Heap) : Option Nat → Heap
  | none => h
  | some b =>
    match h[b]? with
    | none => h
    | some blk =>
      if blk.use_count - 1 = 0 then h.set b { bytes := [], use_count := 0 }
      else h.set b { blk with use_count := blk.use_count - 1 }

/-- The default constructor `Packet()`. -/
def Packet.new : Packet := { data_ := none, offset_ := 0, size_ := 0 }

/-- The constructor `Packet(size_t size)`; a fresh array is zero-filled in the model. -/
def Packet.new_size (h : Heap) (size : Nat) : Packet × Heap :=
  if 0 < size then
    ({ data_ := some h.length, offset_ := 0, size_ := size },
      h ++ [{ bytes := List.replicate size 0, use_count := 1 }])
  else ({ data_ := none, offset_ := 0, size_ := size }, h)

/-- The `memcpy(data_.get(), data, size)` of the copying constructor. -/
def Heap.memcpy (h : Heap) (dst : Option Nat) (src : List Byte) (size : Nat) : Heap :=
  match dst with
  | none => h
  | some b =>
    match h[b]? with
    | none => h
    | some blk => h.set b { blk with bytes := src.take size ++ blk.bytes.drop size }

/-- The constructor `Packet(const char* data, size_t size)`; `none` is a null `data`. -/
def Packet.new_copy (h : Heap) (data : Option (List Byte)) (size : Nat) : Packet × Heap :=
  let r := Packet.new_size h size
  match data with
  | some src => if 0 < r.1.size_ then (r.1, r.2.memcpy r.1.data_ src size) else r
  | none => r

/-- The static `Packet::from_string`. -/
def Packet.from_string (h : Heap) (str : List Byte) : Packet × Heap :=
  Packet.new_copy h (some str) str.length

/-- The method `Packet::share`. -/
def Packet.share (p : Packet) (h : Heap) : Packet × Heap :=
  ({ data_ := p.data_, offset_ := p.offset_, size_ := p.size_ }, h.acquire p.data_)

/-- The method `Packet::slice`. -/
def Packet.slice (p : Packet) (h : Heap) (start length : Nat) : Packet × Heap :=
  if start ≥ p.size_ then (Packet.new, h)
  else
    let length := if (start + length) % SIZE_MOD > p.size_ then p.size_ - start else length
    ({ data_ := p.data_, offset_ := (p.offset_ + start) % SIZE_MOD, size_ := length },
      h.acquire p.data_)

/-- The method `Packet::drop_front`. -/
def Packet.drop_front (p : Packet) (h : Heap) (n : Nat) : Packet × Heap :=
  p.slice h n ((p.size_ + SIZE_MOD - n) % SIZE_MOD)

/-- The method `Packet::data`. -/
def Packet.data (p : Packet) : Option Ptr :=
  match p.data_ with
  | none => none
  | some b => some { block := b, off := p.offset_ }

/-- The method `Packet::size`. -/
def Packet.size (p : Packet) : Nat := p.size_

/-- The method `Packet::to_string`: the `size_` bytes at `data()`. -/
def Packet.to_string (p : Packet) (h : Heap) : List Byte :=
  match p.data_ with
  | none => []
  | some b =>
    match h[b]? with
    | none => []
    | some blk => (blk.bytes.drop p.offset_).take p.size_

/-- The method `Packet::use_count`; an empty `shared_ptr` reports zero. -/
def Packet.use_count (p : Packet) (h : Heap) : Nat :=
  match p.data_ with
  | none => 0
  | some b =>
    match h[b]? with
    | none => 0
    | some blk => blk.use_count

/-- The destructor of a `Packet`. -/
def Packet.destroy (p : Packet) (h : Heap) : Heap := h.release p.data_

/-- A packet is well formed in a heap when it is either storage-less and empty, or views
a live array within its bounds. Packets built by `from_string`, by `share` and by a
`slice` whose `start + length` does not wrap around are well formed. -/
def Packet.wf (p : Packet) (h : Heap) : Bool :=
  match p.data_ with
  | none => p.offset_ = 0 ∧ p.size_ = 0
  | some b =>
    match h[b]? with
    | none => false
    | some blk =>
      p.offset_ + p.size_ ≤ blk.bytes.length ∧ blk.bytes.length < SIZE_MOD ∧ 0 < blk.use_count

/-! ## Future.h and the pending queue of Reactor.cpp

One thread is modelled: a heap of `State<T>` cells, a heap of `Promise<T>` objects, the
thread-local `Reactor::instance_`, and a ghost trace of observable events. All cells hold
values of one type `V`; the specialisations `Promise<void>` and `Future<void>` are the
instance `V = Unit`. `LocalPtr` keeps an object alive while it is referenced, so the
model never frees a cell or a promise. Moving a value is modelled as copying it. A
`std::function` is represented by the closures the source builds for it; callables
written by the user are pure functions (`Func`) or posting trees (`UserTask`) carrying a
ghost identifier. An address outside the heap cannot be produced by the operations below;
dereferencing one is reported as the failure `invalid pointer`. -/

/-- A callable handed to `then`: a ghost identifier naming the closure and its result as a
function of the argument. -/
structure Func (V : Type) where
  id : Nat
  fn : V → V

/-- The closure `task` of `Future<T>::then`, `[p = next_promise, f = std::move(func)]`. -/
structure Callback (V : Type) where
  p : Nat
  f : Func V

/-- The struct `State<T>`: `value`, `ready`, `callback`. -/
structure State (V : Type) where
  value : V
  ready : Bool
  callback : Option (Callback V)

/-- The fields of `Promise<T>`: the `LocalPtr` to the cell and `future_retrieved_`. -/
structure Promise where
  state : Option Nat
  future_retrieved_ : Bool
deriving DecidableEq, Repr

/-- The field of `Future<T>`: the `LocalPtr` to the cell. -/
structure Future where
  state : Option Nat
deriving DecidableEq, Repr

/-- A callable written by the user of the runtime: a ghost identifier and the callables it
passes to `schedule_task` when it runs, in call order. -/
inductive UserTask where
  | mk (id : Nat) (posts : List UserTask)

/-- Ghost identifier of a user task. -/
def UserTask.id : UserTask → Nat
  | .mk i _ => i

/-- The callables a user task schedules when it runs. -/
def UserTask.posts : UserTask → List UserTask
  | .mk _ ps => ps

/-- An element of `pending_tasks`: the closure `bound_task` of `Promise<T>::set_value`,
`[s = state]`, or a user callable. -/
inductive Task where
  | bound_task (s : Nat)
  | user (t : UserTask)

/-- The part of `Reactor` used by `schedule` and the drain loop of `run`. -/
structure Reactor where
  pending_tasks : List Task

/-- Ghost events recorded in program order. -/
inductive Event (V : Type) where
  | resolved (s : Nat) (v : V)
  | applied (f : Nat) (v : V)
  | ran (id : Nat)
  | no_reactor
  | epoll_wait
deriving DecidableEq, Repr

/-- The state of one thread. -/
structure World (V : Type) where
  states : List (State V)
  promises : List Promise
  instance_ : Option Reactor
  trace : List (Event V)

/-- The method `Reactor::schedule`: `pending_tasks.push_back`. -/
def Reactor.schedule (r : Reactor) (task : Task) : Reactor :=
  { r with pending_tasks := r.pending_tasks ++ [task] }

/-- The function `schedule_task` of `Reactor.cpp`: forwards to the thread's reactor, or
prints an error and drops the task when the thread has none. -/
def schedule_task {V : Type} (w : World V) (task : Task) : World V :=
  match w.instance_ with
  | some r => { w with instance_ := some (r.schedule task) }
  | none => { w with trace := w.trace ++ [Event.no_reactor] }

/-- The constructor `Promise()`: a fresh cell from `make_local<State<T>>()`, held by a
fresh promise object. Returns the address of the promise. -/
def Promise.new {V : Type} [Inhabited V] (w : World V) : Nat × World V :=
  (w.promises.length,
    { w with
      states := w.states ++ [{ value := default, ready := false, callback := none }]
      promises := w.promises ++ [{ state := some w.states.length, future_retrieved_ := false }] })

/-- The move constructor `Promise(Promise&& other)`: the new object takes the cell pointer
and a copy of `future_retrieved_`; the pointer of `other` becomes null. Returns the
address of the new object. -/
def Promise.move_ctor {V : Type} (w : World V) (other : Nat) : Nat × World V :=
  match w.promises[other]? with
  | none => (w.promises.length, w)
  | some po =>
    (w.promises.length,
      { w with
        promises := w.promises.set other { po with state := none } ++
          [{ state := po.state, future_retrieved_ := po.future_retrieved_ }] })

/-- The move assignment `Promise::operator=(Promise&& other)` on the object `this`. -/
def Promise.move_assign {V : Type} (w : World V) (this other : Nat) : World V :=
  if this ≠ other then
    match w.promises[this]?, w.promises[other]? with
    | some _, some po =>
      { w with
        promises := (w.promises.set other { po with state := none }).set this
          { state := po.state, future_retrieved_ := po.future_retrieved_ } }
    | _, _ => w
  else w

/-- The method `Promise<T>::get_future`. -/
def Promise.get_future {V : Type} (w : World V) (p : Nat) : Except String Future × World V :=
  match w.promises[p]? with
  | none => (.error "invalid pointer", w)
  | some pr =>
    if pr.future_retrieved_ then (.error "Future already retrieved", w)
    else
      match pr.state with
      | none => (.error "No state", w)
      | some s =>
        (.ok { state := some s },
          { w with promises := w.promises.set p { pr with future_retrieved_ := true } })

/-- The method `Promise<T>::set_value`. -/
def Promise.set_value {V : Type} (w : World V) (p : Nat) (val : V) :
    Except String Unit × World V :=
  match w.promises[p]? with
  | none => (.error "invalid pointer", w)
  | some pr =>
    match pr.state with
    | none => (.ok (), w)
    | some s =>
      match w.states[s]? with
      | none => (.error "invalid pointer", w)
      | some st =>
        if st.ready then (.error "Promise already satisfied", w)
        else
          let w1 : World V :=
            { w with
              states := w.states.set s { st with value := val, ready := true }
              trace := w.trace ++ [Event.resolved s val] }
          match st.callback with
          | some _ => (.ok (), schedule_task w1 (Task.bound_task s))
          | none => (.ok (), w1)

/-- Calling the closure `task` of `then` on `value`: `p->set_value(f(std::move(value)))`. -/
def Callback.call {V : Type} (cb : Callback V) (w : World V) (value : V) :
    Except String Unit × World V :=
  Promise.set_value { w with trace := w.trace ++ [Event.applied cb.f.id value] } cb.p
    (cb.f.fn value)

/-- The method `Future<T>::then`. -/
def Future.then_ {V : Type} [Inhabited V] (fut : Future) (w : World V) (func : Func V) :
    Except String Future × World V :=
  let np := Promise.new w
  match Promise.get_future np.2 np.1 with
  | (.error e, w2) => (.error e, w2)
  | (.ok next_future, w2) =>
    let task : Callback V := { p := np.1, f := func }
    match fut.state with
    | none => (.error "No state", w2)
    | some s =>
      match w2.states[s]? with
      | none => (.error "invalid pointer", w2)
      | some st =>
        if st.ready then
          match task.call w2 st.value with
          | (.error e, w3) => (.error e, w3)
          | (.ok _, w3) => (.ok next_future, w3)
        else
          (.ok next_future,
            { w2 with states := w2.states.set s { st with callback := some task } })

/-- The static `Future<T>::make_ready`. -/
def Future.make_ready {V : Type} (w : World V) (val : V) : Future × World V :=
  ({ state := some w.states.length },
    { w with states := w.states ++ [{ value := val, ready := true, callback := none }] })

/-- A chain `fut.then(f1).then(f2)...then(fk)`. -/
def Future.then_chain {V : Type} [Inhabited V] (fut : Future) (w : World V) :
    List (Func V) → Except String Future × World V
  | [] => (.ok fut, w)
  | f :: fs =>
    match fut.then_ w f with
    | (.error e, w1) => (.error e, w1)
    | (.ok next, w1) => Future.then_chain next w1 fs

/-- Running one pending task. The closure `bound_task` calls `s->callback(s->value)`; an
empty `std::function` throws `bad_function_call`. A user task runs and schedules its
posts in order. -/
def Task.run {V : Type} (task : Task) (w : World V) : Except String Unit × World V :=
  match task with
  | .bound_task s =>
    match w.states[s]? with
    | none => (.error "invalid pointer", w)
    | some st =>
      match st.callback with
      | none => (.error "bad_function_call", w)
      | some cb => cb.call w st.value
  | .user t =>
    (.ok (), (t.posts.map Task.user).foldl schedule_task
      { w with trace := w.trace ++ [Event.ran t.id] })

/-- The drain loop at the head of each iteration of `Reactor::run`, called on the reactor
of the thread: `while (!pending_tasks.empty())` pop the front and call it. The loop may
run forever, so the model counts calls: `none` means that `fuel` calls did not empty the
queue. An exception thrown by a task leaves the loop. -/
def Reactor.drain {V : Type} (fuel : Nat) (w : World V) :
    Option (Except String Unit × World V) :=
  match w.instance_ with
  | none => some (.error "no reactor", w)
  | some r =>
    match r.pending_tasks with
    | [] => some (.ok (), w)
    | task :: rest =>
      match fuel with
      | 0 => none
      | n + 1 =>
        match task.run { w with instance_ := some { r with pending_tasks := rest } } with
        | (.error e, w1) => some (.error e, w1)
        | (.ok _, w1) => Reactor.drain n w1

/-- One iteration of `Reactor::run` up to the readiness wait: the drain loop, then the
call of `epoll_wait`. -/
def Reactor.run_to_wait {V : Type} (fuel : Nat) (w : World V) :
    Option (Except String Unit × World V) :=
  match Reactor.drain fuel w with
  | some (.ok _, w1) => some (.ok (), { w1 with trace := w1.trace ++ [Event.epoll_wait] })
  | other => other

/-- The operations a program can perform on the thread state. -/
inductive Op (V : Type) where
  | new_promise
  | move_ctor (other : Nat)
  | move_assign (this other : Nat)
  | get_future (p : Nat)
  | set_value (p : Nat) (val : V)
  | then_ (fut : Future) (func : Func V)
  | make_ready (val : V)
  | schedule (task : Task)
  | run_front

/-- The thread state after one operation; `run_front` is one turn of the drain loop. -/
def Op.apply {V : Type} [Inhabited V] (w : World V) : Op V → World V
  | .new_promise => (Promise.new w).2
  | .move_ctor other => (Promise.move_ctor w other).2
  | .move_assign this other => Promise.move_assign w this other
  | .get_future p => (Promise.get_future w p).2
  | .set_value p val => (Promise.set_value w p val).2
  | .then_ fut func => (fut.then_ w func).2
  | .make_ready val => (Future.make_ready w val).2
  | .schedule task => schedule_task w task
  | .run_front =>
    match w.instance_ with
    | none => w
    | some r =>
      match r.pending_tasks with
      | [] => w
      | task :: rest =>
        (task.run { w with instance_ := some { r with pending_tasks := rest } }).2

/-- The thread state after a sequence of operations. -/
def Op.apply_all {V : Type} [Inhabited V] (w : World V) : List (Op V) → World V
  | [] => w
  | op :: ops => Op.apply_all (Op.apply w op) ops

/-- Where the promise found at address `q` is found after an operation: still at `q`,
unless a move assignment from another promise has overwritten that object, and also in
the destination of a move out of `q`. -/
def Op.follow {V : Type} (w : World V) (q : Nat) : Op V → List Nat
  | .move_ctor other => if other = q then [q, w.promises.length] else [q]
  | .move_assign this other =>
    if this = other then [q]
    else if other = q then
      match w.promises[this]? with
      | some _ => [q, this]
      | none => [q]
    else if this = q then
      match w.promises[other]? with
      | some _ => []
      | none => [q]
    else [q]
  | _ => [q]

/-- Where the promises found at the addresses `qs` are found after a sequence of
operations. -/
def Op.follow_all {V : Type} [Inhabited V] (w : World V) (qs : List Nat) :
    List (Op V) → List Nat
  | [] => qs
  | op :: ops => Op.follow_all (Op.apply w op) (qs.flatMap (fun q => Op.follow w q op)) ops

mutual
/-- Number of task executions caused by a user task and by everything posted from it. -/
def UserTask.weight : UserTask → Nat
  | .mk _ ps => 1 + UserTask.weight_list ps
/-- Total weight of a list of user tasks. -/
def UserTask.weight_list : List UserTask → Nat
  | [] => 0
  | t :: ts => t.weight + UserTask.weight_list ts
end

/-- The identifiers of user tasks by generation, `depth` generations deep: first the given
tasks in order, then the tasks they post (parents in order, the posts of one parent in
call order), then the posts of those, and so on. -/
def UserTask.generations : Nat → List UserTask → List Nat
  | 0, _ => []
  | d + 1, q => q.map UserTask.id ++ UserTask.generations d (q.flatMap UserTask.posts)

/-- The empty thread state with a reactor whose queue is empty. -/
def World.init (V : Type) : World V :=
  { states := [], promises := [], instance_ := some { pending_tasks := [] }, trace := [] }

/-- The events of a chain of `then` calls on a ready future holding `v` when the next
fresh cell has address `n`: each callable is applied to the value of the previous cell and
its result resolves the next fresh cell. -/
def Future.chain_trace {V : Type} : Nat → V → List (Func V) → List (Event V)
  | _, _, [] => []
  | n, v, f :: fs =>
    Event.applied f.id v :: Event.resolved n (f.fn v) :: Future.chain_trace (n + 1) (f.fn v) fs

/-- The thread state after `Promise<int> p;` in the empty state: promise 0 holds cell 0. -/
def World.one_promise : World Int := (Promise.new (World.init Int)).2

/-- The callable `[](int x) { return x + 1; }` with ghost identifier `id`. -/
def Func.plus_one (id : Nat) : Func Int := { id := id, fn := fun x => x + 1 }

/-- A user task `A` that posts `B` then `C`, where `B` posts `D`; the identifiers are
1, 2, 3 and 4. -/
def UserTask.example_A : UserTask := .mk 1 [.mk 2 [.mk 4 []], .mk 3 []]

/-- The thread state after `schedule_task(A)` in the empty state. -/
def World.scheduled_A : World Int := schedule_task (World.init Int) (Task.user UserTask.example_A)

/-- The thread state after `then(+1)` on the future of the fresh promise 0. -/
def World.pending_then : World Int :=
  ((Future.mk (some 0)).then_ World.one_promise (Func.plus_one 1)).2

/-- The thread state after `Promise<int> p;` and `schedule_task(A)` in the empty state. -/
def World.one_promise_busy : World Int :=
  schedule_task World.one_promise (Task.user UserTask.example_A)

/-- The packet `full` of `test_packet.cpp`, built from the bytes of `"[Header]Payload"` in
an empty heap. -/
def test_full : Packet × Heap :=
  Packet.from_string [] [91, 72, 101, 97, 100, 101, 114, 93, 80, 97, 121, 108, 111, 97, 100]

/-! ## TcpConnection.h (second generation)

One connection on one thread. The state couples the thread state of the promises with
the packet heap, the fields of the connection, and the environment: `reads` and `writes`
are the results the kernel will return to the next `::read` and `::write` calls on the
descriptor. Calls into the reactor and syscalls are recorded in ghost logs. When a loop
needs a kernel result and the script is exhausted the call is reported as the failure
`script exhausted`. -/

/-- The value of a cell used by a connection: a `Packet` for `Future<Packet>`, an
`ssize_t` for `Future<ssize_t>`. -/
inductive Val where
  | packet (p : Packet)
  | ssize (n : Int)
deriving DecidableEq, Repr

instance : Inhabited Val := ⟨Val.packet Packet.new⟩

/-- The bit `EPOLLIN` of `<sys/epoll.h>`. -/
def EPOLLIN : Nat := 1

/-- The bit `EPOLLOUT` of `<sys/epoll.h>`. -/
def EPOLLOUT : Nat := 4

/-- The bit `EPOLLERR` of `<sys/epoll.h>`. -/
def EPOLLERR : Nat := 8

/-- The bit `EPOLLHUP` of `<sys/epoll.h>`. -/
def EPOLLHUP : Nat := 16

/-- Number of values of a `uint32_t`. -/
def UINT32_MOD : Nat := 2 ^ 32

/-- The constant `kReadBufSize`. -/
def kReadBufSize : Nat := 16384

/-- The result of one `::read(fd, buf, kReadBufSize)`: the bytes received (none at end of
stream, where the call returns 0), or -1 with `EAGAIN`, or -1 with another error. -/
inductive ReadResult where
  | ok (bytes : List Byte)
  | eagain
  | error
deriving DecidableEq, Repr

/-- The result of one `::write(fd, data, remaining)`: the number of bytes accepted, or -1
with `EAGAIN`, or -1 with another error. -/
inductive WriteResult where
  | ok (n : Nat)
  | eagain
  | error
deriving DecidableEq, Repr

/-- Ghost record of a syscall on the descriptor: a read with its result, or a write with
the bytes offered and its result. -/
inductive Syscall where
  | read (r : ReadResult)
  | write (offered : List Byte) (r : WriteResult)
deriving DecidableEq, Repr

/-- Ghost record of a call into the reactor. -/
inductive ReactorCall where
  | add (fd : Int) (events : Nat)
  | modify_events (fd : Int) (events : Nat)
  | remove (fd : Int)
deriving DecidableEq, Repr

/-- The fields of `TcpConnection`; `fd` is `socket_.fd()`. -/
structure TcpConnection where
  fd : Int
  input_buffer_ : List Byte
  read_index_ : Nat
  pending_read_ : Option Nat
  output_buffer_ : List Byte
  write_index_ : Nat
  pending_write_ : Option Nat
  total_write_size_ : Int
  closed_ : Bool
  current_events_ : Nat
deriving DecidableEq, Repr

/-- A connection with its thread state, packet heap, ghost logs and kernel scripts. -/
structure Sys where
  world : World Val
  heap : Heap
  conn : TcpConnection
  reactor_calls : List ReactorCall
  syscalls : List Syscall
  reads : List ReadResult
  writes : List WriteResult

/-- The constructor `Promise()` for a cell whose value-initialised payload is `init`. -/
def Promise.new_of {V : Type} (w : World V) (init : V) : Nat × World V :=
  (w.promises.length,
    { w with
      states := w.states ++ [{ value := init, ready := false, callback := none }]
      promises := w.promises ++ [{ state := some w.states.length, future_retrieved_ := false }] })

/-- The conversion `static_cast<ssize_t>` of a `size_t`. -/
def to_ssize (n : Nat) : Int :=
  if n % SIZE_MOD < 2 ^ 63 then (n % SIZE_MOD : Nat) else (n % SIZE_MOD : Nat) - (SIZE_MOD : Int)

/-- The method `std::vector<char>::resize`: truncation, or padding with zero bytes. -/
def vector_resize (v : List Byte) (n : Nat) : List Byte :=
  v.take n ++ List.replicate (n - v.length) 0

/-- The method `TcpConnection::readable_bytes`. -/
def TcpConnection.readable_bytes (c : TcpConnection) : Nat :=
  (c.input_buffer_.length + SIZE_MOD - c.read_index_) % SIZE_MOD

/-- The bytes at `peek()`: the input buffer from the read cursor on. -/
def TcpConnection.peek (c : TcpConnection) : List Byte :=
  c.input_buffer_.drop c.read_index_

/-- The method `TcpConnection::retrieve_all`. -/
def TcpConnection.retrieve_all (c : TcpConnection) : TcpConnection :=
  { c with input_buffer_ := [], read_index_ := 0 }

/-- The statement pair `promise->set_value(v); return promise->get_future();`. -/
def Sys.resolve_and_return (s : Sys) (promise : Nat) (v : Val) : Except String Future × Sys :=
  match Promise.set_value s.world promise v with
  | (.error e, w1) => (.error e, { s with world := w1 })
  | (.ok _, w1) =>
    match Promise.get_future w1 promise with
    | (r, w2) => (r, { s with world := w2 })

/-- The method `TcpConnection::read`. -/
def TcpConnection.read (s : Sys) : Except String Future × Sys :=
  let np := Promise.new_of s.world (Val.packet Packet.new)
  let s1 : Sys := { s with world := np.2 }
  if s1.conn.closed_ then
    s1.resolve_and_return np.1 (Val.packet Packet.new)
  else if s1.conn.readable_bytes > 0 then
    let pkt := Packet.new_copy s1.heap (some s1.conn.peek) s1.conn.readable_bytes
    let s2 : Sys := { s1 with heap := pkt.2, conn := s1.conn.retrieve_all }
    s2.resolve_and_return np.1 (Val.packet pkt.1)
  else
    let s2 : Sys := { s1 with conn := { s1.conn with pending_read_ := some np.1 } }
    match Promise.get_future s2.world np.1 with
    | (r, w2) => (r, { s2 with world := w2 })

/-- How the loop `while (remaining > 0)` of `write` ends: the loop condition fails or the
loop breaks on `EAGAIN` (with the offset reached and the bytes remaining), or a write
fails, or the script is exhausted. -/
inductive WriteLoopEnd where
  | exit (off remaining : Nat)
  | failed
  | exhausted
deriving DecidableEq, Repr

/-- The loop `while (remaining > 0)` of `TcpConnection::write` over the bytes `data` of
the packet, from offset `off` with `remaining` bytes left; returns how it ends, the
script left and the syscall log. -/
def TcpConnection.write_loop (data : List Byte) :
    List WriteResult → Nat → Nat → List Syscall →
      WriteLoopEnd × List WriteResult × List Syscall
  | [], off, remaining, log =>
    if remaining > 0 then (.exhausted, [], log) else (.exit off remaining, [], log)
  | r :: rs, off, remaining, log =>
    if remaining > 0 then
      let log1 := log ++ [Syscall.write ((data.drop off).take remaining) r]
      match r with
      | .ok n =>
        if n > 0 then
          TcpConnection.write_loop data rs (off + n) ((remaining + SIZE_MOD - n) % SIZE_MOD) log1
        else TcpConnection.write_loop data rs off remaining log1
      | .eagain => (.exit off remaining, rs, log1)
      | .error => (.failed, rs, log1)
    else (.exit off remaining, r :: rs, log)

/-- The method `TcpConnection::enable_write`. -/
def TcpConnection.enable_write (s : Sys) : Sys :=
  if s.conn.current_events_ &&& EPOLLOUT = 0 then
    let ev := s.conn.current_events_ ||| EPOLLOUT
    { s with
      conn := { s.conn with current_events_ := ev }
      reactor_calls := s.reactor_calls ++ [ReactorCall.modify_events s.conn.fd ev] }
  else s

/-- The method `TcpConnection::disable_write`; `~EPOLLOUT` is taken in 32 bits. -/
def TcpConnection.disable_write (s : Sys) : Sys :=
  if s.conn.current_events_ &&& EPOLLOUT ≠ 0 then
    let ev := s.conn.current_events_ &&& (UINT32_MOD - 1 - EPOLLOUT)
    { s with
      conn := { s.conn with current_events_ := ev }
      reactor_calls := s.reactor_calls ++ [ReactorCall.modify_events s.conn.fd ev] }
  else s

/-- The end of `write`: the parameter `p` is destroyed when the function returns. -/
def Sys.drop_packet (r : Except String Future × Sys) (p : Packet) : Except String Future × Sys :=
  (r.1, { r.2 with heap := p.destroy r.2.heap })

/-- The method `TcpConnection::write`. -/
def TcpConnection.write (s : Sys) (p : Packet) : Except String Future × Sys :=
  let np := Promise.new_of s.world (Val.ssize 0)
  let s1 : Sys := { s with world := np.2 }
  if s1.conn.closed_ then
    Sys.drop_packet (s1.resolve_and_return np.1 (Val.ssize (-1))) p
  else if p.size = 0 then
    Sys.drop_packet (s1.resolve_and_return np.1 (Val.ssize 0)) p
  else
    let data := p.to_string s1.heap
    let total := to_ssize p.size
    match TcpConnection.write_loop data s1.writes 0 p.size s1.syscalls with
    | (.exhausted, rest, log) =>
      Sys.drop_packet (.error "script exhausted", { s1 with writes := rest, syscalls := log }) p
    | (.failed, rest, log) =>
      Sys.drop_packet
        (Sys.resolve_and_return { s1 with writes := rest, syscalls := log } np.1
          (Val.ssize (-1))) p
    | (.exit off remaining, rest, log) =>
      let s2 : Sys := { s1 with writes := rest, syscalls := log }
      if remaining = 0 then
        Sys.drop_packet (s2.resolve_and_return np.1 (Val.ssize total)) p
      else
        let s3 : Sys :=
          { s2 with
            conn := { s2.conn with
              output_buffer_ := (data.drop off).take remaining
              write_index_ := 0
              total_write_size_ := total
              pending_write_ := some np.1 } }
        let s4 := TcpConnection.enable_write s3
        match Promise.get_future s4.world np.1 with
        | (r, w2) => Sys.drop_packet (r, { s4 with world := w2 }) p

/-- The statement `auto p = std::move(pending); p->set_value(v);` once the slot has been
emptied: the promise `p` is resolved with `v`. -/
def Sys.fulfil (s : Sys) (p : Nat) (v : Val) : Except String Unit × Sys :=
  match Promise.set_value s.world p v with
  | (r, w1) => (r, { s with world := w1 })

/-- The method `TcpConnection::handle_close`. -/
def TcpConnection.handle_close (s : Sys) : Except String Unit × Sys :=
  if s.conn.closed_ then (.ok (), s)
  else
    let s1 : Sys :=
      { s with
        conn := { s.conn with closed_ := true }
        reactor_calls := s.reactor_calls ++ [ReactorCall.remove s.conn.fd] }
    let r2 : Except String Unit × Sys :=
      match s1.conn.pending_read_ with
      | some p =>
        Sys.fulfil { s1 with conn := { s1.conn with pending_read_ := none } } p
          (Val.packet Packet.new)
      | none => (.ok (), s1)
    match r2 with
    | (.error e, s2) => (.error e, s2)
    | (.ok _, s2) =>
      match s2.conn.pending_write_ with
      | some p =>
        Sys.fulfil { s2 with conn := { s2.conn with pending_write_ := none } } p
          (Val.ssize (-1))
      | none => (.ok (), s2)

/-- The input buffer after one successful `::read` of `bytes` at its end: the buffer is
resized by `kReadBufSize` zero bytes, the kernel stores the bytes received at the old end,
and the buffer is resized to the old size plus the number of bytes received. -/
def TcpConnection.read_into (old : List Byte) (bytes : List Byte) : List Byte :=
  vector_resize
    (old ++ (bytes.take kReadBufSize ++ List.replicate (kReadBufSize - bytes.length) 0))
    (old.length + bytes.length)

/-- How the loop of `drain_socket` ends: it returns, or it calls `handle_close` and
returns, or the script is exhausted. -/
inductive DrainEnd where
  | returned
  | close
  | exhausted
deriving DecidableEq, Repr

/-- The loop `while (true)` of `TcpConnection::drain_socket` on the input buffer; returns
how it ends, the buffer, the script left and the syscall log. -/
def TcpConnection.drain_loop :
    List ReadResult → List Byte → List Syscall →
      DrainEnd × List Byte × List ReadResult × List Syscall
  | [], buf, log => (.exhausted, buf, [], log)
  | r :: rs, buf, log =>
    let log1 := log ++ [Syscall.read r]
    match r with
    | .ok bytes =>
      if bytes.length > 0 then
        if bytes.length < kReadBufSize then
          (.returned, TcpConnection.read_into buf bytes, rs, log1)
        else TcpConnection.drain_loop rs (TcpConnection.read_into buf bytes) log1
      else (.close, vector_resize (vector_resize buf (buf.length + kReadBufSize)) buf.length,
        rs, log1)
    | .eagain =>
      (.returned, vector_resize (vector_resize buf (buf.length + kReadBufSize)) buf.length,
        rs, log1)
    | .error =>
      (.close, vector_resize (vector_resize buf (buf.length + kReadBufSize)) buf.length,
        rs, log1)

/-- The method `TcpConnection::drain_socket`. -/
def TcpConnection.drain_socket (s : Sys) : Except String Unit × Sys :=
  match TcpConnection.drain_loop s.reads s.conn.input_buffer_ s.syscalls with
  | (.exhausted, buf, rest, log) =>
    (.error "script exhausted",
      { s with conn := { s.conn with input_buffer_ := buf }, reads := rest, syscalls := log })
  | (.returned, buf, rest, log) =>
    (.ok (),
      { s with conn := { s.conn with input_buffer_ := buf }, reads := rest, syscalls := log })
  | (.close, buf, rest, log) =>
    TcpConnection.handle_close
      { s with conn := { s.conn with input_buffer_ := buf }, reads := rest, syscalls := log }

/-- The method `TcpConnection::handle_readable`. -/
def TcpConnection.handle_readable (s : Sys) : Except String Unit × Sys :=
  match TcpConnection.drain_socket s with
  | (.error e, s1) => (.error e, s1)
  | (.ok _, s1) =>
    match s1.conn.pending_read_ with
    | some p =>
      if s1.conn.readable_bytes > 0 then
        let pkt := Packet.new_copy s1.heap (some s1.conn.peek) s1.conn.readable_bytes
        Sys.fulfil
          { s1 with
            heap := pkt.2
            conn := { s1.conn.retrieve_all with pending_read_ := none } } p (Val.packet pkt.1)
      else (.ok (), s1)
    | none => (.ok (), s1)

/-- How the loop of `flush_output` ends: the loop condition fails, or it returns on
`EAGAIN`, or a write fails, or the script is exhausted. -/
inductive FlushEnd where
  | completed
  | would_block
  | failed
  | exhausted
deriving DecidableEq, Repr

/-- The loop `while (write_index_ < output_buffer_.size())` of
`TcpConnection::flush_output`; returns how it ends, the write cursor, the script left and
the syscall log. -/
def TcpConnection.flush_loop (out : List Byte) :
    List WriteResult → Nat → List Syscall →
      FlushEnd × Nat × List WriteResult × List Syscall
  | [], write_index, log =>
    if write_index < out.length then (.exhausted, write_index, [], log)
    else (.completed, write_index, [], log)
  | r :: rs, write_index, log =>
    if write_index < out.length then
      let remaining := (out.length + SIZE_MOD - write_index) % SIZE_MOD
      let log1 := log ++ [Syscall.write ((out.drop write_index).take remaining) r]
      match r with
      | .ok n =>
        if n > 0 then
          TcpConnection.flush_loop out rs ((write_index + n) % SIZE_MOD) log1
        else TcpConnection.flush_loop out rs write_index log1
      | .eagain => (.would_block, write_index, rs, log1)
      | .error => (.failed, write_index, rs, log1)
    else (.completed, write_index, r :: rs, log)

/-- The method `TcpConnection::flush_output`. -/
def TcpConnection.flush_output (s : Sys) : Except String Unit × Sys :=
  match TcpConnection.flush_loop s.conn.output_buffer_ s.writes s.conn.write_index_
      s.syscalls with
  | (.exhausted, wi, rest, log) =>
    (.error "script exhausted",
      { s with conn := { s.conn with write_index_ := wi }, writes := rest, syscalls := log })
  | (.would_block, wi, rest, log) =>
    (.ok (),
      { s with conn := { s.conn with write_index_ := wi }, writes := rest, syscalls := log })
  | (.failed, wi, rest, log) =>
    let s1 := TcpConnection.disable_write
      { s with conn := { s.conn with write_index_ := wi }, writes := rest, syscalls := log }
    match s1.conn.pending_write_ with
    | some p =>
      Sys.fulfil { s1 with conn := { s1.conn with pending_write_ := none } } p
        (Val.ssize (-1))
    | none => (.ok (), s1)
  | (.completed, _, rest, log) =>
    let s1 := TcpConnection.disable_write
      { s with
        conn := { s.conn with output_buffer_ := [], write_index_ := 0 }
        writes := rest
        syscalls := log }
    match s1.conn.pending_write_ with
    | some p =>
      Sys.fulfil { s1 with conn := { s1.conn with pending_write_ := none } } p
        (Val.ssize s1.conn.total_write_size_)
    | none => (.ok (), s1)

/-- The method `TcpConnection::handle_writable`. -/
def TcpConnection.handle_writable (s : Sys) : Except String Unit × Sys :=
  TcpConnection.flush_output s

/-- The method `TcpConnection::handle_events`. -/
def TcpConnection.handle_events (s : Sys) (events : Nat) : Except String Unit × Sys :=
  if events &&& (EPOLLERR ||| EPOLLHUP) ≠ 0 then TcpConnection.handle_close s
  else
    let r1 : Except String Unit × Sys :=
      if events &&& EPOLLIN ≠ 0 then TcpConnection.handle_readable s else (.ok (), s)
    match r1 with
    | (.error e, s1) => (.error e, s1)
    | (.ok _, s1) =>
      if events &&& EPOLLOUT ≠ 0 then TcpConnection.handle_writable s1 else (.ok (), s1)

/-- The factory `TcpConnection::create` on a thread state `w` and packet heap `h`: the
fields after construction and `register_to_reactor`, with the kernel scripts `reads` and
`writes` for the descriptor. -/
def TcpConnection.create (w : World Val) (h : Heap) (fd : Int) (reads : List ReadResult)
    (writes : List WriteResult) : Sys :=
  { world := w
    heap := h
    conn :=
      { fd := fd, input_buffer_ := [], read_index_ := 0, pending_read_ := none,
        output_buffer_ := [], write_index_ := 0, pending_write_ := none,
        total_write_size_ := 0, closed_ := false, current_events_ := EPOLLIN }
    reactor_calls := [ReactorCall.add fd EPOLLIN]
    syscalls := []
    reads := reads
    writes := writes }

/-- The write script accepts all `remaining` bytes before any `EAGAIN` or error: every
result up to that point is a count of accepted bytes, not larger than what was offered. -/
def WriteResult.accepts_all : List WriteResult → Nat → Bool
  | _, 0 => true
  | [], _ + 1 => false
  | .ok n :: rs, rem + 1 => n ≤ rem + 1 && WriteResult.accepts_all rs (rem + 1 - n)
  | .eagain :: _, _ + 1 => false
  | .error :: _, _ + 1 => false

/-- The write script fails with an error other than `EAGAIN` while bytes remain, every
earlier result being a count of accepted bytes, not larger than what was offered. -/
def WriteResult.fails : List WriteResult → Nat → Bool
  | _, 0 => false
  | [], _ + 1 => false
  | .ok n :: rs, rem + 1 => n ≤ rem + 1 && WriteResult.fails rs (rem + 1 - n)
  | .eagain :: _, _ + 1 => false
  | .error :: _, _ + 1 => true

/-- A packet holding the three bytes 10, 20, 30 in an otherwise empty heap. -/
def Sys.example_packet : Packet × Heap := Packet.from_string [] [10, 20, 30]

/-- A fresh connection on descriptor 7; the kernel will deliver three bytes and then
report `EAGAIN` on reads, and will accept three bytes on the first write. -/
def Sys.example_open : Sys :=
  TcpConnection.create (World.init Val) Sys.example_packet.2 7
    [ReadResult.ok [1, 2, 3], ReadResult.eagain] [WriteResult.ok 3]

/-- The connection `example_open` after `handle_close`. -/
def Sys.example_closed : Sys := (TcpConnection.handle_close Sys.example_open).2

/-- An open connection whose input buffer holds three unread bytes and that has no read
pending. -/
def Sys.example_buffered : Sys :=
  { Sys.example_open with
    conn := { Sys.example_open.conn with input_buffer_ := [1, 2, 3] }
    reads := [ReadResult.eagain] }

/-! ## Poolable.h: the thread-local slab pool

A `Node*` is `none` for `nullptr` and `some a` for the node in slot `a` of the memory the
pool has obtained from `::operator new`; slots are numbered in the order in which the
chunks were obtained, so the nodes of one chunk are consecutive. A slot holds what the
`next` member of the `union Node` reads; the bytes of an object constructed in the node
overlap it. The calls are those of the owning thread, for which the thread assertion
holds. -/

/-- The type `Node*`. -/
abbrev NodePtr := Option Nat

/-- The class `Poolable<T, ChunkSize>::ThreadLocalPool`, with the template parameter
`ChunkSize` (at least 1) and the memory of the chunks it owns. -/
structure ThreadLocalPool where
  ChunkSize : Nat
  head_ : NodePtr
  chunks_ : List Nat
  memory : List NodePtr
deriving DecidableEq, Repr

/-- The loop `for (i = 0; i < ChunkSize - 1; ++i) chunk[i].next = &chunk[i + 1];` of
`allocate_chunk`, on the memory `memory` and the chunk that starts in slot `chunk`. -/
def ThreadLocalPool.link_chunk (ChunkSize chunk : Nat) (memory : List NodePtr) :
    List NodePtr :=
  (List.range (ChunkSize - 1)).foldl (fun m i => m.set (chunk + i) (some (chunk + i + 1)))
    memory

/-- The method `ThreadLocalPool::allocate_chunk`: `ChunkSize` new nodes are obtained,
the chunk is recorded, its nodes are linked in order, the last one to the old head, and
the chunk becomes the head of the free list. -/
def ThreadLocalPool.allocate_chunk (p : ThreadLocalPool) : ThreadLocalPool :=
  let chunk := p.memory.length
  let fresh := p.memory ++ List.replicate p.ChunkSize none
  let linked := ThreadLocalPool.link_chunk p.ChunkSize chunk fresh
  { p with
    chunks_ := p.chunks_ ++ [chunk]
    memory := linked.set (chunk + (p.ChunkSize - 1)) p.head_
    head_ := some chunk }

/-- The constructor `ThreadLocalPool()`. -/
def ThreadLocalPool.new (ChunkSize : Nat) : ThreadLocalPool :=
  ThreadLocalPool.allocate_chunk
    { ChunkSize := ChunkSize, head_ := none, chunks_ := [], memory := [] }

/-- The method `ThreadLocalPool::allocate`; `none` when `head_->next` would be read
outside the memory of the pool. -/
def ThreadLocalPool.allocate (p : ThreadLocalPool) : Option (Nat × ThreadLocalPool) :=
  let p1 := if p.head_ = none then p.allocate_chunk else p
  match p1.head_ with
  | none => none
  | some node =>
    match p1.memory[node]? with
    | none => none
    | some next => some (node, { p1 with head_ := next })

/-- The method `ThreadLocalPool::deallocate` on the non-null pointer `ptr`; `none` when
`node->next` would be written outside the memory of the pool. -/
def ThreadLocalPool.deallocate (p : ThreadLocalPool) (ptr : Nat) : Option ThreadLocalPool :=
  if ptr < p.memory.length then
    some { p with memory := p.memory.set ptr p.head_, head_ := some ptr }
  else none

/-- The function `Poolable::operator new`: the size assertion holds for `T`. -/
def Poolable.operator_new (p : ThreadLocalPool) : Option (Nat × ThreadLocalPool) :=
  p.allocate

/-- The function `Poolable::operator delete`: a null pointer is ignored. -/
def Poolable.operator_delete (p : ThreadLocalPool) (ptr : NodePtr) : Option ThreadLocalPool :=
  match ptr with
  | none => some p
  | some a => p.deallocate a

/-- The constructor of an object in the node `ptr`: the storage of the node, which
overlaps its `next` member, is overwritten, so that `next` now reads `bytes`. -/
def ThreadLocalPool.construct (p : ThreadLocalPool) (ptr : Nat) (bytes : NodePtr) :
    ThreadLocalPool :=
  { p with memory := p.memory.set ptr bytes }

/-- The calls `deallocate(p1); ...; deallocate(pn)` in this order. -/
def ThreadLocalPool.deallocate_all : ThreadLocalPool → List Nat → Option ThreadLocalPool
  | p, [] => some p
  | p, a :: rest =>
    match p.deallocate a with
    | none => none
    | some p1 => ThreadLocalPool.deallocate_all p1 rest

/-- The call `allocate()` made `n` times; the pointers returned, in order. -/
def ThreadLocalPool.allocate_n : ThreadLocalPool → Nat → Option (List Nat × ThreadLocalPool)
  | p, 0 => some ([], p)
  | p, n + 1 =>
    match p.allocate with
    | none => none
    | some (a, p1) =>
      match ThreadLocalPool.allocate_n p1 n with
      | none => none
      | some (rest, p2) => some (a :: rest, p2)

/-- The expression `new T(...)` evaluated once for every element of `objects`, with no
`delete` in between: each time a node is allocated and the object is constructed in it.
The pointers returned, in order. -/
def ThreadLocalPool.new_objects :
    ThreadLocalPool → List NodePtr → Option (List Nat × ThreadLocalPool)
  | p, [] => some ([], p)
  | p, bytes :: objects =>
    match p.allocate with
    | none => none
    | some (a, p1) =>
      match ThreadLocalPool.new_objects (p1.construct a bytes) objects with
      | none => none
      | some (rest, p2) => some (a :: rest, p2)

/-- The free list of `memory` leads from `hd` through exactly the nodes `l` to `tl`. -/
def ThreadLocalPool.lseg (memory : List NodePtr) : NodePtr → List Nat → NodePtr → Prop
  | hd, [], tl => hd = tl
  | hd, a :: l, tl =>
    hd = some a ∧ ∃ next, memory[a]? = some next ∧ ThreadLocalPool.lseg memory next l tl

/-- The state of a pool with chunks of `K` nodes in which the first `m` slots have been
handed out in order and nothing has been given back: `c` chunks, the free list is the
rest of the last chunk. -/
def ThreadLocalPool.handed_out (p : ThreadLocalPool) (K c m : Nat) : Prop :=
  p.ChunkSize = K ∧ 1 ≤ c ∧ m ≤ c * K ∧ (c = 1 ∨ (c - 1) * K < m) ∧
  p.chunks_ = (List.range c).map (fun i => i * K) ∧
  p.memory.length = c * K ∧
  p.head_ = (if m < c * K then some m else none) ∧
  ∀ a, m ≤ a → a < c * K →
    p.memory[a]? = some (if a + 1 < c * K then some (a + 1) else none)

/-- A pool with chunks of four nodes. -/
def ThreadLocalPool.example_pool : ThreadLocalPool := ThreadLocalPool.new 4

/-- The pool `example_pool` after its four nodes have been handed out. -/
def ThreadLocalPool.example_in_use : ThreadLocalPool :=
  match ThreadLocalPool.example_pool.allocate_n 4 with
  | some (_, p) => p
  | none => ThreadLocalPool.example_pool

/-! ## IntrusivePtr.h (third generation)

The objects derived from `RefCounted` live in a heap indexed by address, a deleted object
leaves `none`; the variables of type `LocalPtr<T>` live in a second heap, a variable
whose lifetime has ended leaves `none`. A `T*` is `none` for `nullptr`. The handles are
variables outside the objects: the destructor of `T` destroys no handle. An operation on
a variable or an object that no longer exists has no defined behaviour and yields
`none`. -/

/-- The base class `RefCounted<Derived>`: the counter `ref_count_`, a `uint32_t`. -/
structure RefCounted where
  ref_count_ : Nat
deriving DecidableEq, Repr

/-- The class `LocalPtr<T>`: the raw pointer `ptr_`. -/
structure LocalPtr where
  ptr_ : Option Nat
deriving DecidableEq, Repr

/-- The objects and the handle variables of one thread. -/
structure Store where
  objects : List (Option RefCounted)
  handles : List (Option LocalPtr)
deriving DecidableEq, Repr

/-- The store without objects and variables. -/
def Store.empty : Store := { objects := [], handles := [] }

/-- The number of live handles whose `ptr_` is the object `o`. -/
def Store.handle_count (s : Store) (o : Nat) : Nat :=
  s.handles.count (some { ptr_ := some o })

/-- The method `RefCounted::add_ref`: `++ref_count_` on 32 bits. -/
def RefCounted.add_ref (s : Store) (o : Nat) : Option Store :=
  match s.objects[o]? with
  | some (some r) =>
    some { s with
      objects := s.objects.set o (some { ref_count_ := (r.ref_count_ + 1) % UINT32_MOD }) }
  | _ => none

/-- The method `RefCounted::release`: `--ref_count_` on 32 bits, and `delete` of the
object when the result is zero. -/
def RefCounted.release (s : Store) (o : Nat) : Option Store :=
  match s.objects[o]? with
  | some (some r) =>
    let count := (r.ref_count_ + UINT32_MOD - 1) % UINT32_MOD
    if count = 0 then some { s with objects := s.objects.set o none }
    else some { s with objects := s.objects.set o (some { ref_count_ := count }) }
  | _ => none

/-- The method `RefCounted::use_count`. -/
def RefCounted.use_count (s : Store) (o : Nat) : Option Nat :=
  match s.objects[o]? with
  | some (some r) => some r.ref_count_
  | _ => none

/-- The method `LocalPtr::get` of the variable `h`. -/
def LocalPtr.get (s : Store) (h : Nat) : Option (Option Nat) :=
  match s.handles[h]? with
  | some (some l) => some l.ptr_
  | _ => none

/-- The constructor `LocalPtr()`; returns the new variable. -/
def LocalPtr.null (s : Store) : Nat × Store :=
  (s.handles.length, { s with handles := s.handles ++ [some { ptr_ := none }] })

/-- The constructor `explicit LocalPtr(T* p)`; returns the new variable. -/
def LocalPtr.of_raw (s : Store) (p : Option Nat) : Option (Nat × Store) :=
  let s1 : Store := { s with handles := s.handles ++ [some { ptr_ := p }] }
  match p with
  | none => some (s.handles.length, s1)
  | some o =>
    match RefCounted.add_ref s1 o with
    | none => none
    | some s2 => some (s.handles.length, s2)

/-- The destructor `~LocalPtr()` of the variable `h`. -/
def LocalPtr.destroy (s : Store) (h : Nat) : Option Store :=
  match s.handles[h]? with
  | some (some l) =>
    let s1 : Store := { s with handles := s.handles.set h none }
    match l.ptr_ with
    | none => some s1
    | some o => RefCounted.release s1 o
  | _ => none

/-- The copy constructor `LocalPtr(const LocalPtr& other)`; returns the new variable. -/
def LocalPtr.copy (s : Store) (other : Nat) : Option (Nat × Store) :=
  match LocalPtr.get s other with
  | none => none
  | some p =>
    let s1 : Store := { s with handles := s.handles ++ [some { ptr_ := p }] }
    match p with
    | none => some (s.handles.length, s1)
    | some o =>
      match RefCounted.add_ref s1 o with
      | none => none
      | some s2 => some (s.handles.length, s2)

/-- The call `std::swap(a.ptr_, b.ptr_)` on two variables. -/
def LocalPtr.swap_ptr (s : Store) (a b : Nat) : Option Store :=
  match LocalPtr.get s a, LocalPtr.get s b with
  | some p, some q =>
    some { s with
      handles := (s.handles.set a (some { ptr_ := q })).set b (some { ptr_ := p }) }
  | _, _ => none

/-- The copy assignment `this = other`: a temporary copy of `other`, a swap of the
pointers, and the destruction of the temporary. -/
def LocalPtr.copy_assign (s : Store) (this other : Nat) : Option Store :=
  match LocalPtr.get s this with
  | none => none
  | some _ =>
    match LocalPtr.copy s other with
    | none => none
    | some (temp, s1) =>
      match LocalPtr.swap_ptr s1 this temp with
      | none => none
      | some s2 => LocalPtr.destroy s2 temp

/-- The move constructor `LocalPtr(LocalPtr&& other)`; returns the new variable. -/
def LocalPtr.move (s : Store) (other : Nat) : Option (Nat × Store) :=
  match LocalPtr.get s other with
  | none => none
  | some p =>
    let moved : LocalPtr := { ptr_ := p }
    let source : LocalPtr := { ptr_ := none }
    some (s.handles.length,
      { s with handles := (s.handles ++ [some moved]).set other (some source) })

/-- The move assignment `this = std::move(other)`. -/
def LocalPtr.move_assign (s : Store) (this other : Nat) : Option Store :=
  match LocalPtr.get s this, LocalPtr.get s other with
  | some p, some q =>
    if this ≠ other then
      let released : Option Store :=
        match p with
        | none => some s
        | some o => RefCounted.release s o
      match released with
      | none => none
      | some s1 =>
        some { s1 with
          handles := (s1.handles.set this (some { ptr_ := q })).set other
            (some { ptr_ := none }) }
    else some s
  | _, _ => none

/-- The function `make_local<T>(args...)`: `new T(...)` creates an object whose counter
is 0, and the handle returned is constructed from the raw pointer. -/
def make_local (s : Store) : Option (Nat × Store) :=
  LocalPtr.of_raw { s with objects := s.objects ++ [some { ref_count_ := 0 }] }
    (some s.objects.length)

/-- The operations on handles of a program. -/
inductive PtrOp where
  | make_local
  | null
  | copy (other : Nat)
  | move (other : Nat)
  | copy_assign (this other : Nat)
  | move_assign (this other : Nat)
  | destroy (h : Nat)
deriving DecidableEq, Repr

/-- One operation on handles. -/
def PtrOp.apply (s : Store) : PtrOp → Option Store
  | .make_local => (MiniSeastar.make_local s).map Prod.snd
  | .null => some (LocalPtr.null s).2
  | .copy other => (LocalPtr.copy s other).map Prod.snd
  | .move other => (LocalPtr.move s other).map Prod.snd
  | .copy_assign this other => LocalPtr.copy_assign s this other
  | .move_assign this other => LocalPtr.move_assign s this other
  | .destroy h => LocalPtr.destroy s h

/-- A sequence of operations on handles, from left to right. -/
def PtrOp.run : Store → List PtrOp → Option Store
  | s, [] => some s
  | s, op :: ops =>
    match PtrOp.apply s op with
    | none => none
    | some s1 => PtrOp.run s1 ops

/-- The objects `objects` are accounted for by the numbers `cnt` of handles: an object
with handles exists and its counter is their number, and there is no object where there
is no handle. -/
def Store.accounts (objects : List (Option RefCounted)) (cnt : Nat → Nat) : Prop :=
  ∀ o, (0 < cnt o ∧ objects[o]? = some (some { ref_count_ := cnt o })) ∨
    (cnt o = 0 ∧ (objects[o]? = some none ∨ objects[o]? = none))

/-- The counter of every object is the number of its live handles, and the objects that
exist are those with a handle. -/
def Store.counted (s : Store) : Prop := Store.accounts s.objects s.handle_count

/-- The operations of a small program: two objects, copies, a move and assignments. -/
def PtrOp.example_ops : List PtrOp :=
  [.make_local, .copy 0, .make_local, .move 1, .copy_assign 2 0, .destroy 3]

/-- The store reached by `PtrOp.example_ops`: the first object has two handles, the
second one has been deleted. -/
def Store.example_store : Store :=
  { objects := [some { ref_count_ := 2 }, none]
    handles := [some { ptr_ := some 0 }, some { ptr_ := none }, some { ptr_ := some 0 },
      none, none] }

/-- The store after one `make_local`: one object with one handle. -/
def Store.example_single : Store :=
  { objects := [some { ref_count_ := 1 }], handles := [some { ptr_ := some 0 }] }

/-! ## SpscQueue.h and the mailbox of Reactor.cpp

The queue is used by one thread at a time, so that the atomic loads and stores are plain
reads and writes. A slot of `ring_data_` is `none` while no object is constructed in it. -/

/-- The class `SpscQueue<T, Capacity>`, with the template parameter `Capacity` (a power
of 2, by the `static_assert`). -/
structure SpscQueue (T : Type) where
  Capacity : Nat
  head_ : Nat
  cached_tail_ : Nat
  tail_ : Nat
  cached_head_ : Nat
  ring_data_ : List (Option T)

/-- The constant `Mask = Capacity - 1`. -/
def SpscQueue.Mask {T : Type} (q : SpscQueue T) : Nat := q.Capacity - 1

/-- The constructor `SpscQueue()`. -/
def SpscQueue.new (T : Type) (Capacity : Nat) : SpscQueue T :=
  { Capacity := Capacity, head_ := 0, cached_tail_ := 0, tail_ := 0, cached_head_ := 0,
    ring_data_ := List.replicate Capacity none }

/-- The end of `emplace`: the item is constructed in the slot `head` and `next_head` is
stored to `head_`. -/
def SpscQueue.construct_at {T : Type} (q : SpscQueue T) (head : Nat) (item : T)
    (next_head : Nat) : SpscQueue T :=
  { q with ring_data_ := q.ring_data_.set head (some item), head_ := next_head }

/-- The method `SpscQueue::emplace`; the Boolean is the value returned. -/
def SpscQueue.emplace {T : Type} (q : SpscQueue T) (item : T) : Bool × SpscQueue T :=
  let head := q.head_
  let next_head := (head + 1) &&& q.Mask
  if next_head = q.cached_tail_ then
    let q1 : SpscQueue T := { q with cached_tail_ := q.tail_ }
    if next_head = q1.cached_tail_ then (false, q1)
    else (true, q1.construct_at head item next_head)
  else (true, q.construct_at head item next_head)

/-- The methods `SpscQueue::push`, which forward to `emplace`. -/
def SpscQueue.push {T : Type} (q : SpscQueue T) (item : T) : Bool × SpscQueue T :=
  q.emplace item

/-- The end of `pop`: the object in the slot `tail` is moved out and destroyed, and the
next index is stored to `tail_`; `none` when the slot holds no object. -/
def SpscQueue.take_at {T : Type} (q : SpscQueue T) (tail : Nat) :
    Option (Bool × T × SpscQueue T) :=
  match q.ring_data_[tail]? with
  | some (some src) =>
    some (true, src,
      { q with ring_data_ := q.ring_data_.set tail none, tail_ := (tail + 1) &&& q.Mask })
  | _ => none

/-- The method `SpscQueue::pop` with the output argument `item`: the value returned, the
output argument afterwards, and the queue. -/
def SpscQueue.pop {T : Type} (q : SpscQueue T) (item : T) :
    Option (Bool × T × SpscQueue T) :=
  let tail := q.tail_
  if tail = q.cached_head_ then
    let q1 : SpscQueue T := { q with cached_head_ := q.head_ }
    if tail = q1.cached_head_ then some (false, item, q1)
    else q1.take_at tail
  else q.take_at tail

/-- A call on the queue: `push(item)` or `pop(item)` into the variable of the caller. -/
inductive QueueOp (T : Type) where
  | push (item : T)
  | pop

/-- What a call returned: the Boolean of `push`, or the Boolean of `pop` together with
the output argument afterwards. -/
inductive QueueResult (T : Type) where
  | pushed (ok : Bool)
  | popped (ok : Bool) (item : T)

/-- A sequence of calls made by one thread, `pop` always into the same variable, whose
value is `item` at the start. -/
def SpscQueue.run {T : Type} :
    SpscQueue T → T → List (QueueOp T) → Option (List (QueueResult T) × SpscQueue T)
  | q, _, [] => some ([], q)
  | q, item, .push x :: ops =>
    match q.push x with
    | (ok, q1) =>
      match SpscQueue.run q1 item ops with
      | none => none
      | some (rs, q2) => some (.pushed ok :: rs, q2)
  | q, item, .pop :: ops =>
    match q.pop item with
    | none => none
    | some (ok, item1, q1) =>
      match SpscQueue.run q1 item1 ops with
      | none => none
      | some (rs, q2) => some (.popped ok item1 :: rs, q2)

/-- The reference queue: a first-in first-out list that holds at most `bound` items. The
results of the calls, and the list at the end. -/
def Fifo.run {T : Type} (bound : Nat) :
    List T → T → List (QueueOp T) → List (QueueResult T) × List T
  | l, _, [] => ([], l)
  | l, item, .push x :: ops =>
    if l.length < bound then
      match Fifo.run bound (l ++ [x]) item ops with
      | (rs, l1) => (.pushed true :: rs, l1)
    else
      match Fifo.run bound l item ops with
      | (rs, l1) => (.pushed false :: rs, l1)
  | [], item, .pop :: ops =>
    match Fifo.run bound [] item ops with
    | (rs, l1) => (.popped false item :: rs, l1)
  | x :: l, _, .pop :: ops =>
    match Fifo.run bound l x ops with
    | (rs, l1) => (.popped true x :: rs, l1)

/-- A `std::function<void()>` in the mailbox: `none` is the empty function, `some id` a
callable, named by `id`, that does not use the mailbox itself. -/
abbrev MailTask := Option Nat

/-- The method `Reactor::handle_incoming_tasks` on the mailbox `q`, with the local
variable `task` and the log `ran` of the tasks invoked; `fuel` bounds the iterations of
the loop. -/
def Reactor.handle_incoming_tasks :
    Nat → SpscQueue MailTask → MailTask → List Nat → Option (SpscQueue MailTask × List Nat)
  | 0, _, _, _ => none
  | fuel + 1, q, task, ran =>
    match q.pop task with
    | none => none
    | some (false, _, q1) => some (q1, ran)
    | some (true, task1, q1) =>
      match task1 with
      | some id => Reactor.handle_incoming_tasks fuel q1 task1 (ran ++ [id])
      | none => Reactor.handle_incoming_tasks fuel q1 task1 ran

/-- The queue `q` holds exactly the items `l`, oldest first: there are counts of all the
pops `Tl`, of the pops and pushes seen in the cached indices `Tc` and `Hc`, of which the
indices are the remainders, and the slots from the tail on hold the items. -/
def SpscQueue.holds {T : Type} (q : SpscQueue T) (l : List T) : Prop :=
  ∃ k Tc Tl Hc : Nat,
    q.Capacity = 2 ^ k ∧ q.ring_data_.length = q.Capacity ∧
    Tc ≤ Tl ∧ Tl ≤ Hc ∧ Hc ≤ Tl + l.length ∧ Tl + l.length + 1 ≤ Tc + q.Capacity ∧
    q.tail_ = Tl % q.Capacity ∧ q.head_ = (Tl + l.length) % q.Capacity ∧
    q.cached_tail_ = Tc % q.Capacity ∧ q.cached_head_ = Hc % q.Capacity ∧
    ∀ i x, l[i]? = some x → q.ring_data_[(Tl + i) % q.Capacity]? = some (some x)

/-- The calls of a small producer and consumer: three tasks are posted, the second one
empty, one is taken, and a fourth is posted. -/
def QueueOp.example_ops : List (QueueOp MailTask) :=
  [.push (some 1), .push none, .push (some 2), .pop, .push (some 3)]

/-! ## The timers of Reactor.cpp (second generation)

A `TimePoint` is its count of nanoseconds. The difference of two instants that
`reset_timer_fd` stores in an `int64_t` is reduced to the range of that type. A callback
is named by a number; it does not use the timers of the reactor itself. -/

/-- The least value of an `int64_t`. -/
def INT64_MIN : Int := -9223372036854775808

/-- The greatest value of an `int64_t`. -/
def INT64_MAX : Int := 9223372036854775807

/-- The value an `int64_t` holds for the arithmetic result `x`: `x` itself when it is
between `INT64_MIN` and `INT64_MAX`, and otherwise the value in that range that differs
from `x` by a multiple of `2^64`. -/
def int64_wrap (x : Int) : Int :=
  (x + 9223372036854775808) % 18446744073709551616 - 9223372036854775808

/-- The struct `TimerTask`; `callback` is `none` for an empty `std::function`. -/
structure TimerTask where
  expire_time : Int
  callback : Option Nat
  id : Nat
deriving DecidableEq, Repr

/-- The argument `new_value` of a call of `timerfd_settime`. -/
structure Itimerspec where
  value_tv_sec : Int
  value_tv_nsec : Int
  interval_tv_sec : Int
  interval_tv_nsec : Int
deriving DecidableEq, Repr

/-- The timer part of the class `Reactor`: the tasks in the priority queue `timers_`,
and the logs of the calls of `timerfd_settime` and of the tasks whose callback has been
invoked. -/
structure TimerReactor where
  timers_ : List TimerTask
  settime_calls : List Itimerspec
  invoked : List TimerTask
deriving DecidableEq, Repr

/-- The least expiration time in a priority queue ordered by `std::greater<TimerTask>`. -/
def PriorityQueue.top_time : List TimerTask → Option Int
  | [] => none
  | t :: l =>
    match PriorityQueue.top_time l with
    | none => some t.expire_time
    | some m => some (min t.expire_time m)

/-- The tasks that may be at the top of the priority queue: those with the least
expiration time. -/
def PriorityQueue.candidates (l : List TimerTask) : List TimerTask :=
  match PriorityQueue.top_time l with
  | none => []
  | some m => l.filter (fun t => t.expire_time = m)

/-- The call `timers_.top()`, `none` on an empty queue. Which of several tasks with the
least expiration time is at the top depends on the layout of the heap: `choice` selects
it. -/
def PriorityQueue.top (choice : Nat) (l : List TimerTask) : Option TimerTask :=
  (PriorityQueue.candidates l)[choice % (PriorityQueue.candidates l).length]?

/-- The call `timers_.pop()`: the task at the top is removed. -/
def PriorityQueue.pop (choice : Nat) (l : List TimerTask) : List TimerTask :=
  match PriorityQueue.top choice l with
  | none => l
  | some t => l.erase t

/-- The call `timers_.push(task)`. -/
def PriorityQueue.push (l : List TimerTask) (task : TimerTask) : List TimerTask :=
  l ++ [task]

/-- The method `Reactor::reset_timer_fd`; `now` is the value of `Clock::now()`. The
difference `next_expire - now` is computed in the `int64_t` `diff_ns`. -/
def Reactor.reset_timer_fd (r : TimerReactor) (now : Int) : TimerReactor :=
  match PriorityQueue.top 0 r.timers_ with
  | none => r
  | some top =>
    let next_expire := top.expire_time
    let diff_ns := int64_wrap (next_expire - now)
    let diff_ns := if diff_ns < 100 then 100 else diff_ns
    let new_value : Itimerspec :=
      { value_tv_sec := diff_ns.tdiv 1000000000
        value_tv_nsec := diff_ns.tmod 1000000000
        interval_tv_sec := 0
        interval_tv_nsec := 0 }
    { r with settime_calls := r.settime_calls ++ [new_value] }

/-- The loop `while (!timers_.empty() && timers_.top().expire_time <= now)` of
`handle_timer_events`; `choices` selects the top of the queue in each iteration and
`fuel` bounds the iterations. -/
def Reactor.fire_expired : Nat → Int → List Nat → TimerReactor → Option TimerReactor
  | 0, _, _, _ => none
  | fuel + 1, now, choices, r =>
    match PriorityQueue.top (choices.headD 0) r.timers_ with
    | none => some r
    | some task =>
      if task.expire_time ≤ now then
        let r1 : TimerReactor :=
          { r with timers_ := PriorityQueue.pop (choices.headD 0) r.timers_ }
        let r2 : TimerReactor :=
          if task.callback.isSome then { r1 with invoked := r1.invoked ++ [task] } else r1
        Reactor.fire_expired fuel now choices.tail r2
      else some r

/-- The method `Reactor::handle_timer_events`, after the read of the timer descriptor;
`now` is the value of `Clock::now()` in the method and `rearm_now` the one in
`reset_timer_fd`. -/
def Reactor.handle_timer_events (fuel : Nat) (now rearm_now : Int) (choices : List Nat)
    (r : TimerReactor) : Option TimerReactor :=
  match Reactor.fire_expired fuel now choices r with
  | none => none
  | some r1 =>
    if r1.timers_ ≠ [] then some (Reactor.reset_timer_fd r1 rearm_now) else some r1

/-- A reactor with four timers, two of them for the same instant. -/
def TimerReactor.example_timers : TimerReactor :=
  { timers_ := [
      { expire_time := 30, callback := some 3, id := 0 },
      { expire_time := 10, callback := some 1, id := 0 },
      { expire_time := 20, callback := none, id := 0 },
      { expire_time := 10, callback := some 2, id := 0 }]
    settime_calls := []
    invoked := [] }

/-! ## Scheduling timers: `run_at` and `run_after` of Reactor.cpp -/

/-- The method `Reactor::run_at`; `rearm_now` is the value of `Clock::now()` in
`reset_timer_fd`. The task pushed has the id 0. -/
def Reactor.run_at (r : TimerReactor) (timestamp : Int) (callback : Option Nat)
    (rearm_now : Int) : TimerReactor :=
  let earliest_changed : Bool :=
    match PriorityQueue.top 0 r.timers_ with
    | none => true
    | some top => decide (timestamp < top.expire_time)
  let r1 : TimerReactor :=
    { r with
      timers_ := PriorityQueue.push r.timers_
        { expire_time := timestamp, callback := callback, id := 0 } }
  if earliest_changed then Reactor.reset_timer_fd r1 rearm_now else r1

/-- The method `Reactor::run_after`: `delay_ms` milliseconds after `now`, the value of
`Clock::now()` in the method. -/
def Reactor.run_after (r : TimerReactor) (delay_ms : Int) (callback : Option Nat)
    (now rearm_now : Int) : TimerReactor :=
  let expire_time := now + delay_ms * 1000000
  Reactor.run_at r expire_time callback rearm_now

/-- A reactor without timers. -/
def TimerReactor.idle : TimerReactor := { timers_ := [], settime_calls := [], invoked := [] }

/-- The timer fan-out scenario: on a reactor without timers, `run_after(10, cb1)`,
`run_after(10, cb2)` and `run_after(20, cb3)` are called at the instants `n0`, `n1` and
`n2`, and the timer events are handled at the instants `t1` and `t2`; the clock is read
again at `n0`, `n1`, `n2`, `t1` and `t2` when the descriptor is re-armed. -/
def TimerReactor.fan_out (n0 n1 n2 t1 t2 : Int) (choices1 choices2 : List Nat) :
    Option TimerReactor :=
  let r1 := Reactor.run_after TimerReactor.idle 10 (some 1) n0 n0
  let r2 := Reactor.run_after r1 10 (some 2) n1 n1
  let r3 := Reactor.run_after r2 20 (some 3) n2 n2
  match Reactor.handle_timer_events 4 t1 t1 choices1 r3 with
  | none => none
  | some r4 => Reactor.handle_timer_events 4 t2 t2 choices2 r4

/-! ## Handler registration: `add`, `modify_events` and `remove` of Reactor.cpp

An `EventHandler` is named by a number. The map `handlers` is a list of pairs with one
pair per key. The results of the `epoll_ctl` calls are taken from a script, and the
calls are recorded with the mask they program. -/

/-- The bit `EPOLLET` of `<sys/epoll.h>`. -/
def EPOLLET : Nat := 2 ^ 31

/-- The result of one `epoll_ctl`: 0, or -1 with `EEXIST`, or -1 with another error. -/
inductive EpollResult where
  | ok
  | eexist
  | error
deriving DecidableEq, Repr

/-- Ghost record of a call of `epoll_ctl`: the operation, the descriptor and, for
`EPOLL_CTL_ADD` and `EPOLL_CTL_MOD`, the mask `ev.events`. -/
inductive EpollCtl where
  | ctl_add (fd : Int) (events : Nat)
  | ctl_mod (fd : Int) (events : Nat)
  | ctl_del (fd : Int)
deriving DecidableEq, Repr

/-- The part of the class `Reactor` used by the registration of handlers: the map
`handlers`, the log of the `epoll_ctl` calls, the log of the `perror` calls, and the
results the kernel will return to the next `epoll_ctl` calls. -/
structure HandlerReactor where
  handlers : List (Int × Nat)
  epoll_calls : List EpollCtl
  perrors : List String
  results : List EpollResult
deriving DecidableEq, Repr

/-- The lookup `handlers.find(fd)`: the handler of `fd`, `none` for `handlers.end()`. -/
def HandlerMap.find (m : List (Int × Nat)) (fd : Int) : Option Nat :=
  match m with
  | [] => none
  | (k, v) :: rest => if k = fd then some v else HandlerMap.find rest fd

/-- The assignment `handlers[fd] = handler`. -/
def HandlerMap.assign (m : List (Int × Nat)) (fd : Int) (handler : Nat) : List (Int × Nat) :=
  match m with
  | [] => [(fd, handler)]
  | (k, v) :: rest =>
    if k = fd then (k, handler) :: rest else (k, v) :: HandlerMap.assign rest fd handler

/-- The call `handlers.erase(fd)`. -/
def HandlerMap.erase (m : List (Int × Nat)) (fd : Int) : List (Int × Nat) :=
  m.filter (fun e => e.1 ≠ fd)

/-- The method `Reactor::add`; an error is the exception thrown. The argument `events`
is a `uint32_t`. Each `epoll_ctl` call is recorded when it is made, and its result is
then taken from the script. -/
def Reactor.add (r : HandlerReactor) (fd : Int) (events : Nat) (handler : Nat) :
    Except String Unit × HandlerReactor :=
  let ev := events ||| EPOLLET
  let r1 : HandlerReactor :=
    { r with
      handlers := HandlerMap.assign r.handlers fd handler
      epoll_calls := r.epoll_calls ++ [.ctl_add fd ev] }
  match r1.results with
  | [] => (.error "script exhausted", r1)
  | .ok :: rest => (.ok (), { r1 with results := rest })
  | .eexist :: rest =>
    let r2 : HandlerReactor :=
      { r1 with epoll_calls := r1.epoll_calls ++ [.ctl_mod fd ev], results := rest }
    match r2.results with
    | [] => (.error "script exhausted", r2)
    | .ok :: rest2 => (.ok (), { r2 with results := rest2 })
    | _ :: rest2 =>
      (.error ("Reactor::add failed for fd " ++ toString fd),
        { r2 with perrors := r2.perrors ++ ["epoll_ctl ADD failed"], results := rest2 })
  | .error :: rest =>
    (.error ("Reactor::add failed for fd " ++ toString fd),
      { r1 with perrors := r1.perrors ++ ["epoll_ctl ADD failed"], results := rest })

/-- The method `Reactor::modify_events`. The argument `events` is a `uint32_t`. The
`epoll_ctl` call is recorded when it is made, and its result is then taken from the
script. -/
def Reactor.modify_events (r : HandlerReactor) (fd : Int) (events : Nat) :
    Except String Unit × HandlerReactor :=
  let ev := events ||| EPOLLET
  let r1 : HandlerReactor := { r with epoll_calls := r.epoll_calls ++ [.ctl_mod fd ev] }
  match r1.results with
  | [] => (.error "script exhausted", r1)
  | .ok :: rest => (.ok (), { r1 with results := rest })
  | _ :: rest =>
    (.ok (), { r1 with perrors := r1.perrors ++ ["epoll_ctl MOD failed"], results := rest })

/-- The method `Reactor::remove`; the result of `epoll_ctl` is not looked at. -/
def Reactor.remove (r : HandlerReactor) (fd : Int) : HandlerReactor :=
  { r with
    handlers := HandlerMap.erase r.handlers fd
    epoll_calls := r.epoll_calls ++ [.ctl_del fd]
    results := r.results.tail }

/-- The mask programmed by a recorded call, if it programs one. -/
def EpollCtl.mask : EpollCtl → Option Nat
  | .ctl_add _ events => some events
  | .ctl_mod _ events => some events
  | .ctl_del _ => none

/-- A reactor with handlers for the descriptors 5 and 7, whose next three `epoll_ctl`
calls succeed. -/
def HandlerReactor.example_reactor : HandlerReactor :=
  { handlers := [(5, 50), (7, 70)], epoll_calls := [], perrors := [],
    results := [.ok, .ok, .ok] }

/-! ## Sequences of operations on a connection -/

/-- An operation on a connection: a call of `read()`, a call of `write(p)`, or a call
of the handler registered in the reactor with an event mask. -/
inductive ConnOp where
  | read
  | write (p : Packet)
  | handle_events (events : Nat)
deriving DecidableEq, Repr

/-- The state after one operation; a future returned is dropped. -/
def ConnOp.apply (s : Sys) : ConnOp → Sys
  | .read => (TcpConnection.read s).2
  | .write p => (TcpConnection.write s p).2
  | .handle_events events => (TcpConnection.handle_events s events).2

/-- The state after a sequence of operations, from left to right. -/
def ConnOp.run (s : Sys) (ops : List ConnOp) : Sys := ops.foldl ConnOp.apply s

/-- The bytes handed to the descriptor according to a syscall log: for every write, in
order, the bytes the kernel has accepted. -/
def Syscall.emitted : List Syscall → List Byte
  | [] => []
  | .write offered (.ok n) :: rest => offered.take n ++ Syscall.emitted rest
  | _ :: rest => Syscall.emitted rest

/-- A recorded syscall respects the contract of the kernel: a write accepts at most
the bytes offered, a read delivers at most `kReadBufSize` bytes. -/
def Syscall.conforms : Syscall → Bool
  | .write offered (.ok n) => n ≤ offered.length
  | .read (.ok bytes) => bytes.length ≤ kReadBufSize
  | _ => true

/-- The write-drain run by an operation ends in a write error other than `EAGAIN`. -/
def ConnOp.drain_fails (s : Sys) : ConnOp → Bool
  | .handle_events events =>
    if events &&& (EPOLLERR ||| EPOLLHUP) ≠ 0 then false
    else
      let r1 : Except String Unit × Sys :=
        if events &&& EPOLLIN ≠ 0 then TcpConnection.handle_readable s else (.ok (), s)
      match r1 with
      | (.error _, _) => false
      | (.ok _, s1) =>
        if events &&& EPOLLOUT ≠ 0 then
          (TcpConnection.flush_loop s1.conn.output_buffer_ s1.writes s1.conn.write_index_
            s1.syscalls).1 = FlushEnd.failed
        else false
  | _ => false

/-- A sequence of operations in which every packet written is well formed, the kernel
respects its contract, and no write-drain ends in a write error. -/
def ConnOp.admissible : Sys → List ConnOp → Bool
  | _, [] => true
  | s, op :: ops =>
    (match op with
      | .write p => p.wf s.heap
      | _ => true) &&
    !ConnOp.drain_fails s op &&
    (ConnOp.apply s op).syscalls.all Syscall.conforms &&
    ConnOp.admissible (ConnOp.apply s op) ops

/-- The invariant of the event mask: the bit `EPOLLOUT` is set exactly when the output
buffer is not empty. -/
def TcpConnection.writable_iff_output (c : TcpConnection) : Prop :=
  c.current_events_ &&& EPOLLOUT ≠ 0 ↔ c.output_buffer_ ≠ []

/-- A fresh connection on descriptor 7 to which the kernel reports `EAGAIN` after one
byte of the first write, accepts the other bytes in two write-drains, and then fails. -/
def Sys.example_slow : Sys :=
  TcpConnection.create (World.init Val) Sys.example_packet.2 7 []
    [WriteResult.ok 1, WriteResult.eagain, WriteResult.ok 1, WriteResult.eagain,
      WriteResult.ok 1, WriteResult.error]

/-- A fresh connection on descriptor 7 to which the kernel reports `EAGAIN` after one
byte of the first write and an error in the write-drain. -/
def Sys.example_drain_error : Sys :=
  TcpConnection.create (World.init Val) Sys.example_packet.2 7 []
    [WriteResult.ok 1, WriteResult.eagain, WriteResult.error]

/-- The connection `example_slow` after a back-pressured `write` of the example packet
and a `read()`: a write and a read are pending. -/
def Sys.example_pending : Sys :=
  ConnOp.run Sys.example_slow [ConnOp.write Sys.example_packet.1, ConnOp.read]

/-- A fresh connection on descriptor 7 to which the kernel reports an error on the
first write. -/
def Sys.example_write_error : Sys :=
  TcpConnection.create (World.init Val) Sys.example_packet.2 7 [] [WriteResult.error]

/-- The write results of a series of write-drains that each end in `EAGAIN`: for every
drain, the counts of bytes accepted followed by `EAGAIN`. -/
def WriteResult.blocked_drains : List (List Nat) → List WriteResult
  | [] => []
  | seg :: segs =>
    seg.map WriteResult.ok ++ WriteResult.eagain :: WriteResult.blocked_drains segs



/-! ## The read-drain as a function of the read results -/

/-- The bytes one `::read` has stored in the buffer. -/
def ReadResult.payload : ReadResult → List Byte
  | .ok bytes => bytes
  | _ => []

/-- A read that has filled the whole chunk of `kReadBufSize` bytes. -/
def ReadResult.is_full : ReadResult → Bool
  | .ok bytes => bytes.length = kReadBufSize
  | _ => false

/-- The read calls of one read-drain as the specification words it: the results up to
and including the first that is not a full chunk. -/
def ReadResult.consumed : List ReadResult → List ReadResult
  | [] => []
  | r :: rs => if r.is_full then r :: ReadResult.consumed rs else [r]

/-- How a read-drain ends as the specification words it: after full chunks, a short read
or would-block returns, a read of 0 bytes or another error transitions to close. -/
def ReadResult.drain_end : List ReadResult → DrainEnd
  | [] => DrainEnd.exhausted
  | r :: rs =>
    if r.is_full then ReadResult.drain_end rs
    else
      match r with
      | .ok bytes => if bytes.length = 0 then DrainEnd.close else DrainEnd.returned
      | .eagain => DrainEnd.returned
      | .error => DrainEnd.close

/-- A fresh connection on descriptor 7 on which a `read()` is pending (promise 0, cell
0); the kernel will deliver one full chunk of 16384 bytes and then report end of stream
with a read of 0 bytes. -/
def Sys.example_eof : Sys :=
  (TcpConnection.read (TcpConnection.create (World.init Val) [] 7
    [ReadResult.ok (List.replicate kReadBufSize 65), ReadResult.ok []] [])).2

/-- A connection on descriptor 7 with a back-pressured write pending: the bytes 20, 30
of the example packet are in the output buffer and the bit `EPOLLOUT` is set. The kernel
will report end of stream on the next read and accept two bytes on the next write. -/
def Sys.example_half_closed : Sys :=
  (TcpConnection.write
    (TcpConnection.create (World.init Val) Sys.example_packet.2 7 [ReadResult.ok []]
      [WriteResult.ok 1, WriteResult.eagain, WriteResult.ok 2])
    Sys.example_packet.1).2



/-- A fresh connection on descriptor 7 on which `read()` has been called twice while the
input buffer was empty: promise 0 (cell 0) was stored in the pending read slot by the
first call and promise 1 (cell 1) by the second. -/
def Sys.example_two_reads : Sys :=
  ConnOp.run (TcpConnection.create (World.init Val) [] 7 [] []) [ConnOp.read, ConnOp.read]

/-- A fresh connection on descriptor 7 on which `read()` has been called once while the
input buffer was empty: promise 0 (cell 0) is in the pending read slot. -/
def Sys.example_one_read : Sys :=
  (TcpConnection.read (TcpConnection.create (World.init Val) [] 7 [] [])).2

/-! ## The bytes written through a connection -/

/-- The bytes an operation asks the connection to send: for `write(p)` the bytes `p`
views when it is called, for the other operations none. -/
def ConnOp.payload (s : Sys) : ConnOp → List Byte
  | .write p => p.to_string s.heap
  | _ => []

/-- The bytes of the packets passed to `write` by a sequence of operations, in call
order: for every `write(p)` the bytes `p` views when it is called. -/
def ConnOp.written : Sys → List ConnOp → List Byte
  | _, [] => []
  | s, op :: ops => ConnOp.payload s op ++ ConnOp.written (ConnOp.apply s op) ops

/-- The bytes of the output buffer that have not been handed to the descriptor yet. -/
def TcpConnection.unsent (c : TcpConnection) : List Byte :=
  c.output_buffer_.drop c.write_index_

/-- The write cursor lies within the output buffer, whose size fits a `size_t`. -/
def TcpConnection.cursor_ok (c : TcpConnection) : Prop :=
  c.write_index_ ≤ c.output_buffer_.length ∧ c.output_buffer_.length < SIZE_MOD

/-- A `write(p)` that is called on the open connection while no earlier write is pending
in the output buffer, with a well-formed packet, and whose fast path meets no write
error; any other operation. -/
def ConnOp.in_turn (s : Sys) : ConnOp → Bool
  | .write p =>
    !s.conn.closed_ && s.conn.output_buffer_.isEmpty && p.wf s.heap &&
      (match (TcpConnection.write_loop (p.to_string s.heap) s.writes 0 p.size
          s.syscalls).1 with
        | .exit _ _ => true
        | _ => false)
  | _ => true

/-- A sequence of operations in which every `write(p)` is called on the open connection
while no earlier write is pending in the output buffer, with a well-formed packet, and
meets no write error in its fast path; and in which the kernel accepts no more bytes
than it is offered. -/
def ConnOp.serial : Sys → List ConnOp → Bool
  | _, [] => true
  | s, op :: ops =>
    ConnOp.in_turn s op &&
    (ConnOp.apply s op).syscalls.all Syscall.conforms &&
    ConnOp.serial (ConnOp.apply s op) ops

/-- A heap holding the three bytes 10, 20, 30 and the three bytes 40, 50, 60, with a
packet for each. -/
def Sys.example_two_packets : (Packet × Packet) × Heap :=
  ((Sys.example_packet.1, (Packet.from_string Sys.example_packet.2 [40, 50, 60]).1),
    (Packet.from_string Sys.example_packet.2 [40, 50, 60]).2)

/-- A fresh connection on descriptor 7: the kernel will accept one byte and then report
`EAGAIN`, and afterwards accept three bytes and two bytes. -/
def Sys.example_overtake : Sys :=
  TcpConnection.create (World.init Val) Sys.example_two_packets.2 7 []
    [WriteResult.ok 1, WriteResult.eagain, WriteResult.ok 3, WriteResult.ok 2]

/-- A fresh connection on descriptor 7: the kernel will twice accept one byte and then
report `EAGAIN`. -/
def Sys.example_replace : Sys :=
  TcpConnection.create (World.init Val) Sys.example_two_packets.2 7 []
    [WriteResult.ok 1, WriteResult.eagain, WriteResult.ok 1, WriteResult.eagain]

/-- A fresh connection on descriptor 7: the kernel will accept one byte and then report
`EAGAIN`, and afterwards accept two bytes and three bytes. -/
def Sys.example_in_turn : Sys :=
  TcpConnection.create (World.init Val) Sys.example_two_packets.2 7 []
    [WriteResult.ok 1, WriteResult.eagain, WriteResult.ok 2, WriteResult.ok 3]



/-! ## Sequences of calls on the slab pool -/

/-- A call on the pool made by its thread: `allocate()`, `deallocate(ptr)`, or the
construction of an object in the node `ptr`, which overwrites the storage of the node. -/
inductive PoolOp where
  | allocate
  | deallocate (ptr : Nat)
  | construct (ptr : Nat) (bytes : NodePtr)
deriving DecidableEq, Repr

/-- One call on the pool, with the ghost list `live` of the nodes currently allocated:
`allocate` adds the node it returns, `deallocate` removes its argument. -/
def PoolOp.step (p : ThreadLocalPool) (live : List Nat) :
    PoolOp → Option (ThreadLocalPool × List Nat)
  | .allocate =>
    match p.allocate with
    | none => none
    | some (a, p1) => some (p1, a :: live)
  | .deallocate ptr =>
    match p.deallocate ptr with
    | none => none
    | some p1 => some (p1, live.erase ptr)
  | .construct ptr bytes => some (p.construct ptr bytes, live)

/-- A sequence of calls on the pool, from left to right. -/
def PoolOp.run (p : ThreadLocalPool) (live : List Nat) :
    List PoolOp → Option (ThreadLocalPool × List Nat)
  | [] => some (p, live)
  | op :: ops =>
    match PoolOp.step p live op with
    | none => none
    | some (p1, live1) => PoolOp.run p1 live1 ops

/-- The calls respect the contract of the pool: `deallocate` is applied, and an object is
constructed, only in a node that is currently allocated. -/
def PoolOp.admissible (p : ThreadLocalPool) (live : List Nat) : List PoolOp → Bool
  | [] => true
  | op :: ops =>
    (match op with
      | .allocate => true
      | .deallocate ptr => decide (ptr ∈ live)
      | .construct ptr _ => decide (ptr ∈ live)) &&
    (match PoolOp.step p live op with
      | none => true
      | some (p1, live1) => PoolOp.admissible p1 live1 ops)

/-- The invariant of a pool with chunks of `K` nodes, with the ghost list `live` of the
nodes currently allocated and the list `free` of the nodes of the free list: the free
list leads through `free` to null, neither list has a duplicate, no node is in both, and
the two lists together are exactly the nodes of the chunks, which lie one after the
other in the memory of the pool. -/
def ThreadLocalPool.well_formed (p : ThreadLocalPool) (K : Nat) (live free : List Nat) :
    Prop :=
  p.ChunkSize = K ∧
  ThreadLocalPool.lseg p.memory p.head_ free none ∧
  free.Nodup ∧ live.Nodup ∧ (∀ a ∈ free, a ∉ live) ∧
  (∀ a, a < p.memory.length ↔ a ∈ free ∨ a ∈ live) ∧
  p.memory.length = p.chunks_.length * K ∧
  p.chunks_ = (List.range p.chunks_.length).map (fun i => i * K)

/-- The calls of a small program on the pool: two nodes are allocated, the first is
given back, and a node is allocated again. -/
def PoolOp.example_ops : List PoolOp :=
  [.allocate, .allocate, .construct 0 (some 7), .deallocate 0, .allocate]

/-! ## TcpConnection.h (first generation): the input buffer and `read_until`

Of the first-generation connection the input buffer and its read cursor are modelled.
`check_buffer_for_line` returns the string it passes to `promise->set_value`, or `none`
when it finds no delimiter and defers to `do_read_from_socket`. -/

/-- The fields `input_buffer_` and `read_index_` of the first-generation
`TcpConnection`. -/
structure FirstGen.TcpConnection where
  input_buffer_ : List Byte
  read_index_ : Nat
deriving DecidableEq, Repr

/-- The method `TcpConnection::readable_bytes`. -/
def FirstGen.TcpConnection.readable_bytes (c : FirstGen.TcpConnection) : Nat :=
  (c.input_buffer_.length + SIZE_MOD - c.read_index_) % SIZE_MOD

/-- The bytes from `peek()` to the end of the input buffer. -/
def FirstGen.TcpConnection.peek (c : FirstGen.TcpConnection) : List Byte :=
  c.input_buffer_.drop c.read_index_

/-- The method `TcpConnection::retrieve_all`. -/
def FirstGen.TcpConnection.retrieve_all (_c : FirstGen.TcpConnection) :
    FirstGen.TcpConnection :=
  { input_buffer_ := [], read_index_ := 0 }

/-- The algorithm `std::copy(first, last, d_first)` on positions of one vector: the
elements are assigned one by one, from the first on. -/
def std_copy (buf : List Byte) (first last d_first : Nat) : List Byte :=
  (List.range (last - first)).foldl
    (fun b i =>
      match b[first + i]? with
      | some x => b.set (d_first + i) x
      | none => b) buf

/-- The method `TcpConnection::make_room`. -/
def FirstGen.TcpConnection.make_room (c : FirstGen.TcpConnection) : FirstGen.TcpConnection :=
  let copied :=
    if c.readable_bytes > 0 then std_copy c.input_buffer_ c.read_index_ c.input_buffer_.length 0
    else c.input_buffer_
  { input_buffer_ := vector_resize copied c.readable_bytes, read_index_ := 0 }

/-- The method `TcpConnection::retrieve`. -/
def FirstGen.TcpConnection.retrieve (c : FirstGen.TcpConnection) (len : Nat) :
    FirstGen.TcpConnection :=
  if len ≥ c.readable_bytes then c.retrieve_all
  else
    let c1 : FirstGen.TcpConnection := { c with read_index_ := (c.read_index_ + len) % SIZE_MOD }
    if c1.read_index_ ≥ 1024 ∧ c1.read_index_ > c1.readable_bytes then c1.make_room else c1

/-- The algorithm `std::search` on the range `hay` for the sequence `needle`: the offset
of the first occurrence, or the length of `hay` when there is none. -/
def std_search : List Byte → List Byte → Nat
  | [], _ => 0
  | x :: xs, needle =>
    if (x :: xs).take needle.length = needle then 0 else std_search xs needle + 1

/-- The method `TcpConnection::check_buffer_for_line`: the string passed to
`promise->set_value`, if any, and the connection afterwards. -/
def FirstGen.TcpConnection.check_buffer_for_line (c : FirstGen.TcpConnection)
    (delimiter : List Byte) : Option (List Byte) × FirstGen.TcpConnection :=
  let found := std_search c.peek delimiter
  if c.read_index_ + found ≠ c.input_buffer_.length then
    let len := (found + delimiter.length) % SIZE_MOD
    (some (c.peek.take len), c.retrieve len)
  else (none, c)

/-- An input buffer of 1030 bytes of which the first 1020 have been read; the unread
bytes are `GET`, carriage return, line feed, and five bytes of the next line. -/
def FirstGen.TcpConnection.example_buffer : FirstGen.TcpConnection :=
  { input_buffer_ := List.replicate 1020 0 ++ [71, 69, 84, 13, 10, 1, 2, 3, 4, 5]
    read_index_ := 1020 }

/-! ## Theorems: Packet -/

theorem Heap.acquire_getElem? (h : Heap) (b : Nat) (blk : Block) (hb : h[b]? = some blk) :
    (h.acquire (some b))[b]? = some { blk with use_count := blk.use_count + 1 } := by
  have hlt : b < h.length := by
    rcases Nat.lt_or_ge b h.length with hl | hl
    · exact hl
    · rw [List.getElem?_eq_none hl] at hb
      cases hb
  simp [Heap.acquire, hb, hlt]

theorem Heap.acquire_length (h : Heap) (d : Option Nat) : (h.acquire d).length = h.length := by
  cases d with
  | none => rfl
  | some b =>
    cases hb : h[b]? <;> simp [Heap.acquire, hb]

theorem Packet.wf_some {p : Packet} {h : Heap} {b : Nat} (hd : p.data_ = some b)
    (hwf : p.wf h = true) :
    ∃ blk, h[b]? = some blk ∧ p.offset_ + p.size_ ≤ blk.bytes.length ∧
      blk.bytes.length < SIZE_MOD ∧ 0 < blk.use_count := by
  unfold Packet.wf at hwf
  rw [hd] at hwf
  cases hg : h[b]? with
  | none => simp [hg] at hwf
  | some blk =>
    simp [hg] at hwf
    exact ⟨blk, rfl, hwf⟩

theorem Packet.wf_none {p : Packet} {h : Heap} (hd : p.data_ = none) (hwf : p.wf h = true) :
    p.offset_ = 0 ∧ p.size_ = 0 := by
  unfold Packet.wf at hwf
  rw [hd] at hwf
  simpa using hwf

theorem Packet.from_string_wf (h : Heap) (str : List Byte) (hlen : str.length < SIZE_MOD) :
    (Packet.from_string h str).1.wf (Packet.from_string h str).2 = true := by
  by_cases h0 : 0 < str.length
  · simp [Packet.from_string, Packet.new_copy, Packet.new_size, h0, Heap.memcpy, Packet.wf,
      hlen]
  · have hnil : str = [] := List.eq_nil_of_length_eq_zero (by omega)
    subst hnil
    simp [Packet.from_string, Packet.new_copy, Packet.new_size, Packet.wf]

theorem Packet.share_wf (p : Packet) (h : Heap) (hwf : p.wf h = true) :
    (p.share h).1.wf (p.share h).2 = true ∧ p.wf (p.share h).2 = true := by
  cases hd : p.data_ with
  | none =>
    have := Packet.wf_none hd hwf
    simp [Packet.share, Packet.wf, hd, this]
  | some b =>
    obtain ⟨blk, hb, hbound, hmax, hpos⟩ := Packet.wf_some hd hwf
    have hacq := Heap.acquire_getElem? h b blk hb
    simp [Packet.share, Packet.wf, hd, hacq, hbound, hmax]

theorem Packet.slice_wf (p : Packet) (h : Heap) (k len : Nat) (hwf : p.wf h = true)
    (hk : k + len < SIZE_MOD) :
    (p.slice h k len).1.wf (p.slice h k len).2 = true := by
  by_cases hge : k ≥ p.size_
  · simp [Packet.slice, hge, Packet.new, Packet.wf]
  · cases hd : p.data_ with
    | none =>
      have := (Packet.wf_none hd hwf).2
      omega
    | some b =>
      obtain ⟨blk, hb, hbound, hmax, hpos⟩ := Packet.wf_some hd hwf
      have hacq := Heap.acquire_getElem? h b blk hb
      have h1 : (k + len) % SIZE_MOD = k + len := Nat.mod_eq_of_lt hk
      have h2 : (p.offset_ + k) % SIZE_MOD = p.offset_ + k := Nat.mod_eq_of_lt (by omega)
      simp only [Packet.slice, hge, h1, h2, if_false, Packet.wf, hd, hacq]
      by_cases hgt : k + len > p.size_
      · simp [hgt, hmax]
        omega
      · simp [hgt, hmax]
        omega

/-- C1: for a well-formed packet of length L and k + len ≤ L, `slice(k, len)` has size
`len` and its bytes are the `len` bytes of the original starting at position `k`. -/
theorem Packet.slice_bytes (p : Packet) (h : Heap) (k len : Nat)
    (hwf : p.wf h = true) (hk : k + len ≤ p.size) :
    (p.slice h k len).1.size = len ∧
    (p.slice h k len).1.to_string (p.slice h k len).2 = ((p.to_string h).drop k).take len ∧
    ((p.slice h k len).1.to_string (p.slice h k len).2).length = len := by
  unfold Packet.size at hk
  by_cases hge : k ≥ p.size_
  · have hlen : len = 0 := by omega
    subst hlen
    simp [Packet.slice, hge, Packet.new, Packet.size, Packet.to_string]
  · cases hd : p.data_ with
    | none =>
      have := (Packet.wf_none hd hwf).2
      omega
    | some b =>
      obtain ⟨blk, hb, hbound, hmax, _⟩ := Packet.wf_some hd hwf
      have h1 : (k + len) % SIZE_MOD = k + len := Nat.mod_eq_of_lt (by omega)
      have h2 : (p.offset_ + k) % SIZE_MOD = p.offset_ + k := Nat.mod_eq_of_lt (by omega)
      have h3 : ¬ (k + len > p.size_) := by omega
      have hacq := Heap.acquire_getElem? h b blk hb
      simp only [Packet.slice, hge, h1, h2, h3, if_false, Packet.size, Packet.to_string, hd,
        hacq, hb]
      refine ⟨trivial, ?_, ?_⟩
      · rw [List.drop_take, List.take_take, List.drop_drop]
        congr 1
        omega
      · simp
        omega

/-- Witness for C1: `full.slice(8, 7)` of the packet test is `"Payload"`. -/
theorem Packet.slice_bytes_witness :
    test_full.1.wf test_full.2 = true ∧ 8 + 7 ≤ test_full.1.size ∧
    (test_full.1.slice test_full.2 8 7).1.to_string (test_full.1.slice test_full.2 8 7).2
      = [80, 97, 121, 108, 111, 97, 100] :=
  ⟨by decide, by decide,
    (Packet.slice_bytes test_full.1 test_full.2 8 7 (by decide) (by decide)).2.1.trans
      (by decide)⟩

/-- Counterexample for C2: at the boundary `k = L`, `len = 0` the slice of a non-empty
packet is the default packet, whose `data()` is null and not `data(original) + L`. -/
theorem Packet.slice_data_boundary_counterexample :
    test_full.1.wf test_full.2 = true ∧ 15 + 0 ≤ test_full.1.size ∧
    (test_full.1.slice test_full.2 15 0).1.data = none ∧
    Ptr.add test_full.1.data 15 = some { block := 0, off := 15 } ∧
    (test_full.1.slice test_full.2 15 0).1.data ≠ Ptr.add test_full.1.data 15 := by
  decide

/-- C2 (amended): for a well-formed packet of length L and k + len ≤ L, the slice is a
view at offset k, `data(slice(k, len)) = data(original) + k`, whenever k < L; at the
boundary k = L the slice is the default packet and its `data()` is null. -/
theorem Packet.slice_data (p : Packet) (h : Heap) (k len : Nat)
    (hwf : p.wf h = true) (hk : k + len ≤ p.size) :
    (k < p.size → (p.slice h k len).1.data = Ptr.add p.data k ∧
      (p.slice h k len).1.data_ = p.data_) ∧
    (k = p.size → (p.slice h k len).1 = Packet.new ∧ (p.slice h k len).1.data = none) := by
  unfold Packet.size at hk
  unfold Packet.size
  constructor
  · intro hlt
    cases hd : p.data_ with
    | none =>
      have := (Packet.wf_none hd hwf).2
      omega
    | some b =>
      obtain ⟨blk, hb, hbound, hmax, _⟩ := Packet.wf_some hd hwf
      have h2 : (p.offset_ + k) % SIZE_MOD = p.offset_ + k := Nat.mod_eq_of_lt (by omega)
      have hge : ¬ (k ≥ p.size_) := by omega
      simp [Packet.slice, hge, h2, Packet.data, hd, Ptr.add]
  · intro heq
    have hge : k ≥ p.size_ := by omega
    simp [Packet.slice, hge, Packet.new, Packet.data]

/-- Witness for C2 (amended): the pointer check of the packet test,
`payload.data() == full.data() + 8`. -/
theorem Packet.slice_data_witness :
    test_full.1.wf test_full.2 = true ∧ 8 + 7 ≤ test_full.1.size ∧
    (test_full.1.slice test_full.2 8 7).1.data = Ptr.add test_full.1.data 8 :=
  ⟨by decide, by decide,
    ((Packet.slice_data test_full.1 test_full.2 8 7 (by decide) (by decide)).1
      (by decide)).1⟩

/-- Counterexample for C3: sharing the default (storage-less) packet does not raise the
use count, which is 0 before and after. -/
theorem Packet.share_count_counterexample :
    Packet.new.wf [] = true ∧ Packet.new.use_count [] = 0 ∧
    Packet.new.use_count (Packet.new.share []).2 = 0 ∧
    Packet.new.use_count (Packet.new.share []).2 ≠ Packet.new.use_count [] + 1 := by
  decide

/-- C3 (amended): `share()` of a well-formed packet yields a packet with the same
storage, offset, size, `data()` and bytes and leaves the bytes of the original unchanged;
when the packet owns storage the use count grows by exactly one and returns to its
previous value once the shared view is destroyed; when it owns none the count stays 0. -/
theorem Packet.share_spec (p : Packet) (h : Heap) (hwf : p.wf h = true) :
    (p.share h).1.data_ = p.data_ ∧ (p.share h).1.offset_ = p.offset_ ∧
    (p.share h).1.size = p.size ∧ (p.share h).1.data = p.data ∧
    (p.share h).1.to_string (p.share h).2 = p.to_string h ∧
    p.to_string (p.share h).2 = p.to_string h ∧
    (p.data_ ≠ none →
      p.use_count (p.share h).2 = p.use_count h + 1 ∧
      (p.share h).1.use_count (p.share h).2 = p.use_count h + 1 ∧
      p.use_count ((p.share h).1.destroy (p.share h).2) = p.use_count h ∧
      p.to_string ((p.share h).1.destroy (p.share h).2) = p.to_string h) ∧
    (p.data_ = none →
      p.use_count (p.share h).2 = 0 ∧ p.use_count h = 0 ∧ (p.share h).2 = h) := by
  cases hd : p.data_ with
  | none =>
    simp [Packet.share, Packet.size, Packet.data, Packet.to_string, Packet.use_count, hd,
      Heap.acquire]
  | some b =>
    obtain ⟨blk, hb, hbound, hmax, hpos⟩ := Packet.wf_some hd hwf
    have hacq := Heap.acquire_getElem? h b blk hb
    have hlt : b < h.length := by
      rcases Nat.lt_or_ge b h.length with hl | hl
      · exact hl
      · rw [List.getElem?_eq_none hl] at hb
        cases hb
    have hne : ¬ (blk.use_count = 0) := by omega
    have hlt2 : b < (h.acquire (some b)).length := by rw [Heap.acquire_length]; exact hlt
    simp [Packet.share, Packet.size, Packet.data, Packet.to_string, Packet.use_count, hd,
      hacq, hb, Packet.destroy, Heap.release, hne, hlt2]

/-- Witness for C3 (amended): the share test, where the count goes from 1 to 2. -/
theorem Packet.share_spec_witness :
    test_full.1.wf test_full.2 = true ∧ test_full.1.use_count test_full.2 = 1 ∧
    test_full.1.use_count (test_full.1.share test_full.2).2 = 2 :=
  ⟨by decide, by decide,
    ((Packet.share_spec test_full.1 test_full.2 (by decide)).2.2.2.2.2.2.1
      (by decide)).1.trans (by decide)⟩

/-! ## Theorems: list lookups -/

theorem lookup_lt {α : Type} {l : List α} {i : Nat} {a : α} (h : l[i]? = some a) :
    i < l.length := by
  rcases Nat.lt_or_ge i l.length with hl | hl
  · exact hl
  · rw [List.getElem?_eq_none hl] at h
    cases h

theorem lookup_append_left {α : Type} {l : List α} {i : Nat} {a : α} (h : l[i]? = some a)
    (l2 : List α) : (l ++ l2)[i]? = some a := by
  rw [List.getElem?_append_left (lookup_lt h)]
  exact h

theorem lookup_append_new {α : Type} (l : List α) (a : α) : (l ++ [a])[l.length]? = some a := by
  simp

theorem lookup_set_self {α : Type} {l : List α} {i : Nat} {a : α} (h : l[i]? = some a)
    (b : α) : (l.set i b)[i]? = some b := by
  simp [lookup_lt h]

theorem lookup_set_ne {α : Type} {l : List α} {i j : Nat} (hne : i ≠ j) (b : α) :
    (l.set i b)[j]? = l[j]? := by
  simp [hne]

/-! ## Theorems: the effect of each operation on promises and cells -/

@[simp] theorem schedule_task_states {V : Type} (w : World V) (t : Task) :
    (schedule_task w t).states = w.states := by
  unfold schedule_task
  cases w.instance_ <;> rfl

@[simp] theorem schedule_task_promises {V : Type} (w : World V) (t : Task) :
    (schedule_task w t).promises = w.promises := by
  unfold schedule_task
  cases w.instance_ <;> rfl

theorem Promise.get_future_first {V : Type} (w : World V) (p : Nat) (pr : Promise) (s : Nat)
    (hp : w.promises[p]? = some pr) (hs : pr.state = some s)
    (hr : pr.future_retrieved_ = false) :
    Promise.get_future w p =
      (.ok { state := some s },
        { w with promises := w.promises.set p { pr with future_retrieved_ := true } }) := by
  simp [Promise.get_future, hp, hs, hr]

theorem Promise.get_future_again {V : Type} (w : World V) (p : Nat) (pr : Promise)
    (hp : w.promises[p]? = some pr) (hr : pr.future_retrieved_ = true) :
    Promise.get_future w p = (.error "Future already retrieved", w) := by
  simp [Promise.get_future, hp, hr]

theorem Promise.set_value_fresh {V : Type} (w : World V) (p : Nat) (pr : Promise) (s : Nat)
    (st : State V) (val : V) (hp : w.promises[p]? = some pr) (hs : pr.state = some s)
    (hst : w.states[s]? = some st) (hr : st.ready = false) :
    Promise.set_value w p val =
      (.ok (),
        match st.callback with
        | some _ =>
          schedule_task
            { w with
              states := w.states.set s { st with value := val, ready := true }
              trace := w.trace ++ [Event.resolved s val] } (Task.bound_task s)
        | none =>
          { w with
            states := w.states.set s { st with value := val, ready := true }
            trace := w.trace ++ [Event.resolved s val] }) := by
  simp only [Promise.set_value, hp, hs, hst, hr]
  cases st.callback <;> simp

theorem Promise.set_value_ready {V : Type} (w : World V) (p : Nat) (pr : Promise) (s : Nat)
    (st : State V) (val : V) (hp : w.promises[p]? = some pr) (hs : pr.state = some s)
    (hst : w.states[s]? = some st) (hr : st.ready = true) :
    Promise.set_value w p val = (.error "Promise already satisfied", w) := by
  simp [Promise.set_value, hp, hs, hst, hr]

@[simp] theorem Promise.set_value_promises {V : Type} (w : World V) (p : Nat) (val : V) :
    (Promise.set_value w p val).2.promises = w.promises := by
  unfold Promise.set_value
  split
  · rfl
  · split
    · rfl
    · split
      · rfl
      · split
        · rfl
        · split <;> simp

theorem Promise.set_value_cell {V : Type} (w : World V) (p : Nat) (val : V) (s : Nat) (st : State V)
    (h : w.states[s]? = some st) :
    ∃ st2, (Promise.set_value w p val).2.states[s]? = some st2 ∧
      st2.callback = st.callback ∧ (st.ready = true → st2 = st) := by
  unfold Promise.set_value
  split
  · exact ⟨st, h, rfl, fun _ => rfl⟩
  · split
    · exact ⟨st, h, rfl, fun _ => rfl⟩
    · rename_i s0 _
      split
      · exact ⟨st, h, rfl, fun _ => rfl⟩
      · rename_i st0 hst0
        split
        · exact ⟨st, h, rfl, fun _ => rfl⟩
        · rename_i hnr
          have key : ∃ st2, (w.states.set s0 { st0 with value := val, ready := true })[s]?
              = some st2 ∧ st2.callback = st.callback ∧ (st.ready = true → st2 = st) := by
            by_cases hss : s0 = s
            · subst hss
              rw [h] at hst0
              cases hst0
              refine ⟨_, lookup_set_self h _, rfl, ?_⟩
              intro hr
              exact absurd hr hnr
            · rw [lookup_set_ne hss]
              exact ⟨st, h, rfl, fun _ => rfl⟩
          split <;> simpa using key

theorem Callback.call_promises {V : Type} (cb : Callback V) (w : World V) (v : V) :
    (cb.call w v).2.promises = w.promises := by
  simp [Callback.call]

theorem Callback.call_cell {V : Type} (cb : Callback V) (w : World V) (v : V) (s : Nat)
    (st : State V)
    (h : w.states[s]? = some st) :
    ∃ st2, (cb.call w v).2.states[s]? = some st2 ∧
      st2.callback = st.callback ∧ (st.ready = true → st2 = st) := by
  unfold Callback.call
  exact Promise.set_value_cell _ _ _ s st h

theorem foldl_schedule_states {V : Type} (ts : List Task) (w : World V) :
    (ts.foldl schedule_task w).states = w.states := by
  induction ts generalizing w with
  | nil => rfl
  | cons t ts ih => simp [List.foldl, ih]

theorem foldl_schedule_promises {V : Type} (ts : List Task) (w : World V) :
    (ts.foldl schedule_task w).promises = w.promises := by
  induction ts generalizing w with
  | nil => rfl
  | cons t ts ih => simp [List.foldl, ih]

theorem Task.run_promises {V : Type} (t : Task) (w : World V) :
    (t.run w).2.promises = w.promises := by
  cases t with
  | bound_task s =>
    simp only [Task.run]
    split
    · rfl
    · split
      · rfl
      · exact Callback.call_promises _ _ _
  | user u => simp [Task.run, foldl_schedule_promises]

theorem Task.run_cell {V : Type} (t : Task) (w : World V) (s : Nat) (st : State V)
    (h : w.states[s]? = some st) :
    ∃ st2, (t.run w).2.states[s]? = some st2 ∧
      st2.callback = st.callback ∧ (st.ready = true → st2 = st) := by
  cases t with
  | bound_task s0 =>
    simp only [Task.run]
    split
    · exact ⟨st, h, rfl, fun _ => rfl⟩
    · split
      · exact ⟨st, h, rfl, fun _ => rfl⟩
      · exact Callback.call_cell _ _ _ s st h
  | user u =>
    refine ⟨st, ?_, rfl, fun _ => rfl⟩
    simp [Task.run, foldl_schedule_states, h]

theorem Future.then_ready {V : Type} [Inhabited V] (fut : Future) (w : World V) (func : Func V)
    (s : Nat)
    (st : State V) (hf : fut.state = some s) (hst : w.states[s]? = some st)
    (hr : st.ready = true) :
    fut.then_ w func =
      (.ok { state := some w.states.length },
        { states := (w.states ++
            [({ value := default, ready := false, callback := none } : State V)]).set
            w.states.length { value := func.fn st.value, ready := true, callback := none }
          promises := w.promises ++
            [{ state := some w.states.length, future_retrieved_ := true }]
          instance_ := w.instance_
          trace := w.trace ++ [Event.applied func.id st.value,
            Event.resolved w.states.length (func.fn st.value)] }) := by
  have h1 := lookup_append_left hst
    [({ value := default, ready := false, callback := none } : State V)]
  simp [Future.then_, Promise.new, Promise.get_future, hf, h1, hr, Callback.call,
    Promise.set_value]

theorem Future.then_pending {V : Type} [Inhabited V] (fut : Future) (w : World V)
    (func : Func V) (s : Nat)
    (st : State V) (hf : fut.state = some s) (hst : w.states[s]? = some st)
    (hr : st.ready = false) :
    fut.then_ w func =
      (.ok { state := some w.states.length },
        { states := (w.states ++
            [({ value := default, ready := false, callback := none } : State V)]).set
            s { st with callback := some { p := w.promises.length, f := func } }
          promises := w.promises ++
            [{ state := some w.states.length, future_retrieved_ := true }]
          instance_ := w.instance_
          trace := w.trace }) := by
  have h1 := lookup_append_left hst
    [({ value := default, ready := false, callback := none } : State V)]
  simp [Future.then_, Promise.new, Promise.get_future, hf, h1, hr]

theorem Promise.get_future_new {V : Type} [Inhabited V] (w : World V) :
    Promise.get_future (Promise.new w).2 (Promise.new w).1 =
      (.ok { state := some w.states.length },
        { states := w.states ++ [({ value := default, ready := false, callback := none } : State V)]
          promises := w.promises ++
            [{ state := some w.states.length, future_retrieved_ := true }]
          instance_ := w.instance_
          trace := w.trace }) := by
  simp [Promise.new, Promise.get_future]

theorem Future.then_promises {V : Type} [Inhabited V] (fut : Future) (w : World V) (func : Func V) :
    (fut.then_ w func).2.promises =
      w.promises ++ [{ state := some w.states.length, future_retrieved_ := true }] := by
  simp only [Future.then_, Promise.get_future_new]
  split
  · rfl
  · split
    · rfl
    · split
      · split
        · rename_i heq
          have h2 := congrArg (fun r => r.2.promises) heq
          simp only [Callback.call_promises] at h2
          exact h2.symm
        · rename_i heq
          have h2 := congrArg (fun r => r.2.promises) heq
          simp only [Callback.call_promises] at h2
          exact h2.symm
      · rfl

theorem Future.then_cell {V : Type} [Inhabited V] (fut : Future) (w : World V) (func : Func V)
    (s : Nat)
    (st : State V) (h : w.states[s]? = some st) :
    ∃ st2, (fut.then_ w func).2.states[s]? = some st2 ∧ (st.ready = true → st2 = st) ∧
      (st2.callback = st.callback ∨ (st.ready = false ∧ fut.state = some s)) := by
  have h1 := lookup_append_left h
    [({ value := default, ready := false, callback := none } : State V)]
  simp only [Future.then_, Promise.get_future_new]
  split
  · exact ⟨st, h1, fun _ => rfl, Or.inl rfl⟩
  · rename_i s0 hs0
    split
    · exact ⟨st, h1, fun _ => rfl, Or.inl rfl⟩
    · rename_i st0 hst0
      split
      · rename_i hr0
        have key := Callback.call_cell ({ p := (Promise.new w).1, f := func } : Callback V)
          { states := w.states ++
              [({ value := default, ready := false, callback := none } : State V)]
            promises := w.promises ++
              [{ state := some w.states.length, future_retrieved_ := true }]
            instance_ := w.instance_
            trace := w.trace } st0.value s st h1
        obtain ⟨st2, k1, k2, k3⟩ := key
        split
        · rename_i heq
          rw [heq] at k1
          exact ⟨st2, k1, k3, Or.inl k2⟩
        · rename_i heq
          rw [heq] at k1
          exact ⟨st2, k1, k3, Or.inl k2⟩
      · rename_i hr0
        by_cases hss : s0 = s
        · subst hss
          rw [h1] at hst0
          cases hst0
          refine ⟨_, lookup_set_self h1 _, ?_, Or.inr ⟨by simpa using hr0, hs0⟩⟩
          intro hr
          exact absurd hr hr0
        · refine ⟨st, ?_, fun _ => rfl, Or.inl rfl⟩
          simp only
          rw [lookup_set_ne hss]
          exact h1

theorem Op.apply_run_front {V : Type} [Inhabited V] (w : World V) :
    Op.apply w Op.run_front = w ∨ ∃ (task : Task) (rest : List Task),
      Op.apply w Op.run_front =
        (task.run { w with instance_ := some { pending_tasks := rest } }).2 := by
  simp only [Op.apply]
  split
  · exact Or.inl rfl
  · split
    · exact Or.inl rfl
    · exact Or.inr ⟨_, _, rfl⟩

theorem Op.apply_cell {V : Type} [Inhabited V] (w : World V) (op : Op V) (s : Nat) (st : State V)
    (h : w.states[s]? = some st) :
    ∃ st2, (Op.apply w op).states[s]? = some st2 ∧ (st.ready = true → st2 = st) ∧
      (st2.callback = st.callback ∨
        (st.ready = false ∧ ∃ func, op = Op.then_ { state := some s } func)) := by
  cases op with
  | new_promise =>
    exact ⟨st, lookup_append_left h _, fun _ => rfl, Or.inl rfl⟩
  | move_ctor other =>
    refine ⟨st, ?_, fun _ => rfl, Or.inl rfl⟩
    simp only [Op.apply, Promise.move_ctor]
    split <;> exact h
  | move_assign this other =>
    refine ⟨st, ?_, fun _ => rfl, Or.inl rfl⟩
    simp only [Op.apply, Promise.move_assign]
    split
    · split <;> exact h
    · exact h
  | get_future p =>
    refine ⟨st, ?_, fun _ => rfl, Or.inl rfl⟩
    simp only [Op.apply, Promise.get_future]
    split
    · exact h
    · split
      · exact h
      · split <;> exact h
  | set_value p val =>
    obtain ⟨st2, k1, k2, k3⟩ := Promise.set_value_cell w p val s st h
    exact ⟨st2, k1, k3, Or.inl k2⟩
  | then_ fut func =>
    obtain ⟨st2, k1, k2, k3⟩ := Future.then_cell fut w func s st h
    refine ⟨st2, k1, k2, ?_⟩
    rcases k3 with k3 | ⟨k3, k4⟩
    · exact Or.inl k3
    · refine Or.inr ⟨k3, func, ?_⟩
      cases fut
      simp only at k4
      rw [k4]
  | make_ready val =>
    exact ⟨st, lookup_append_left h _, fun _ => rfl, Or.inl rfl⟩
  | schedule task =>
    refine ⟨st, ?_, fun _ => rfl, Or.inl rfl⟩
    simp only [Op.apply, schedule_task_states]
    exact h
  | run_front =>
    rcases Op.apply_run_front w with he | ⟨task, rest, he⟩
    · rw [he]
      exact ⟨st, h, fun _ => rfl, Or.inl rfl⟩
    · rw [he]
      obtain ⟨st2, k1, k2, k3⟩ := Task.run_cell task
        { w with instance_ := some { pending_tasks := rest } } s st h
      exact ⟨st2, k1, k3, Or.inl k2⟩

theorem Op.apply_all_frozen {V : Type} [Inhabited V] (ops : List (Op V)) (w : World V) (s : Nat)
    (st : State V)
    (h : w.states[s]? = some st) (hr : st.ready = true) :
    (Op.apply_all w ops).states[s]? = some st := by
  induction ops generalizing w with
  | nil => exact h
  | cons op ops ih =>
    obtain ⟨st2, k1, k2, _⟩ := Op.apply_cell w op s st h
    rw [k2 hr] at k1
    exact ih _ k1

theorem Op.apply_retrieved {V : Type} [Inhabited V] (w : World V) (op : Op V) (q : Nat)
    (pr : Promise)
    (h : w.promises[q]? = some pr) (hr : pr.future_retrieved_ = true) :
    ∀ q2 ∈ Op.follow w q op, ∃ pr2, (Op.apply w op).promises[q2]? = some pr2 ∧
      pr2.future_retrieved_ = true := by
  intro q2 hq2
  cases op with
  | new_promise =>
    simp only [Op.follow, List.mem_singleton] at hq2
    subst hq2
    exact ⟨pr, lookup_append_left h _, hr⟩
  | move_ctor other =>
    simp only [Op.follow] at hq2
    simp only [Op.apply, Promise.move_ctor]
    by_cases ho : other = q
    · subst ho
      simp only [if_true, List.mem_cons, List.mem_singleton, List.mem_nil_iff, or_false] at hq2
      simp only [h]
      rcases hq2 with hq2 | hq2
      · rw [hq2]
        exact ⟨_, lookup_append_left (lookup_set_self h _) _, hr⟩
      · rw [hq2]
        refine ⟨{ state := pr.state, future_retrieved_ := pr.future_retrieved_ }, ?_, hr⟩
        have := lookup_append_new (w.promises.set other { pr with state := none })
          ({ state := pr.state, future_retrieved_ := pr.future_retrieved_ } : Promise)
        rw [List.length_set] at this
        exact this
    · simp only [ho, if_false, List.mem_singleton] at hq2
      rw [hq2]
      cases hoo : w.promises[other]? with
      | none => exact ⟨pr, h, hr⟩
      | some po =>
        refine ⟨pr, lookup_append_left ?_ _, hr⟩
        rw [lookup_set_ne ho]
        exact h
  | move_assign this other =>
    simp only [Op.follow] at hq2
    simp only [Op.apply, Promise.move_assign]
    by_cases hto : this = other
    · simp only [hto, if_true, List.mem_singleton] at hq2
      rw [hq2]
      simp only [hto, ne_eq, not_true_eq_false, if_false]
      exact ⟨pr, h, hr⟩
    · simp only [hto, if_false] at hq2
      simp only [ne_eq, hto, not_false_eq_true, if_true]
      by_cases ho : other = q
      · subst ho
        simp only [if_true] at hq2
        cases ht : w.promises[this]? with
        | none =>
          simp only [ht, List.mem_singleton] at hq2
          rw [hq2]
          exact ⟨pr, h, hr⟩
        | some pt =>
          simp only [ht, List.mem_cons, List.mem_singleton, List.mem_nil_iff, or_false] at hq2
          simp only [h]
          have ht2 : (w.promises.set other { pr with state := none })[this]? = some pt := by
            rw [lookup_set_ne (fun e => hto e.symm)]
            exact ht
          rcases hq2 with hq2 | hq2
          · rw [hq2]
            refine ⟨{ pr with state := none }, ?_, hr⟩
            rw [lookup_set_ne hto]
            exact lookup_set_self h _
          · rw [hq2]
            exact ⟨{ state := pr.state, future_retrieved_ := pr.future_retrieved_ },
              lookup_set_self ht2 _, hr⟩
      · simp only [ho, if_false] at hq2
        by_cases htq : this = q
        · subst htq
          simp only [if_true] at hq2
          cases hoo : w.promises[other]? with
          | none =>
            simp only [hoo, List.mem_singleton] at hq2
            rw [hq2]
            simp only [h]
            exact ⟨pr, rfl, hr⟩
          | some po =>
            simp [hoo] at hq2
        · simp only [htq, if_false, List.mem_singleton] at hq2
          rw [hq2]
          cases ht : w.promises[this]? with
          | none => exact ⟨pr, h, hr⟩
          | some pt =>
            cases hoo : w.promises[other]? with
            | none => exact ⟨pr, h, hr⟩
            | some po =>
              refine ⟨pr, ?_, hr⟩
              simp only
              rw [lookup_set_ne htq, lookup_set_ne ho]
              exact h
  | get_future p =>
    simp only [Op.follow, List.mem_singleton] at hq2
    subst hq2
    simp only [Op.apply, Promise.get_future]
    split
    · exact ⟨pr, h, hr⟩
    · rename_i pr0 hp0
      split
      · exact ⟨pr, h, hr⟩
      · split
        · exact ⟨pr, h, hr⟩
        · by_cases hpq : p = q2
          · subst hpq
            exact ⟨_, lookup_set_self h _, rfl⟩
          · refine ⟨pr, ?_, hr⟩
            simp only
            rw [lookup_set_ne hpq]
            exact h
  | set_value p val =>
    simp only [Op.follow, List.mem_singleton] at hq2
    subst hq2
    simp only [Op.apply, Promise.set_value_promises]
    exact ⟨pr, h, hr⟩
  | then_ fut func =>
    simp only [Op.follow, List.mem_singleton] at hq2
    subst hq2
    simp only [Op.apply, Future.then_promises]
    exact ⟨pr, lookup_append_left h _, hr⟩
  | make_ready val =>
    simp only [Op.follow, List.mem_singleton] at hq2
    subst hq2
    exact ⟨pr, h, hr⟩
  | schedule task =>
    simp only [Op.follow, List.mem_singleton] at hq2
    subst hq2
    simp only [Op.apply, schedule_task_promises]
    exact ⟨pr, h, hr⟩
  | run_front =>
    simp only [Op.follow, List.mem_singleton] at hq2
    subst hq2
    rcases Op.apply_run_front w with he | ⟨task, rest, he⟩
    · rw [he]
      exact ⟨pr, h, hr⟩
    · rw [he, Task.run_promises]
      exact ⟨pr, h, hr⟩

theorem Op.apply_all_retrieved {V : Type} [Inhabited V] (ops : List (Op V)) (w : World V)
    (qs : List Nat)
    (h : ∀ q ∈ qs, ∃ pr, w.promises[q]? = some pr ∧ pr.future_retrieved_ = true) :
    ∀ q ∈ Op.follow_all w qs ops, ∃ pr, (Op.apply_all w ops).promises[q]? = some pr ∧
      pr.future_retrieved_ = true := by
  induction ops generalizing w qs with
  | nil => exact h
  | cons op ops ih =>
    apply ih
    intro q2 hq2
    rw [List.mem_flatMap] at hq2
    obtain ⟨q, hq, hq2⟩ := hq2
    obtain ⟨pr, hp, hr⟩ := h q hq
    exact Op.apply_retrieved w op q pr hp hr q2 hq2

/-! ## Theorems: promises and futures -/

/-- C4: on a promise that holds a cell and whose future was not retrieved, `get_future`
returns the future of that cell and sets `future_retrieved_`; after that, whatever
operations follow (moves of the promise included), every `get_future` on that promise,
wherever it was moved to and on the moved-from object, fails with
`Future already retrieved` and changes nothing. -/
theorem Promise.get_future_once {V : Type} [Inhabited V] (w : World V) (p : Nat) (pr : Promise)
    (s : Nat)
    (hp : w.promises[p]? = some pr) (hs : pr.state = some s)
    (hr : pr.future_retrieved_ = false) :
    Promise.get_future w p =
      (.ok { state := some s },
        { w with promises := w.promises.set p { pr with future_retrieved_ := true } }) ∧
    ∀ (ops : List (Op V)) (q : Nat), q ∈ Op.follow_all (Promise.get_future w p).2 [p] ops →
      Promise.get_future (Op.apply_all (Promise.get_future w p).2 ops) q =
        (.error "Future already retrieved", Op.apply_all (Promise.get_future w p).2 ops) := by
  have h1 := Promise.get_future_first w p pr s hp hs hr
  refine ⟨h1, ?_⟩
  intro ops q hq
  have hinv : ∀ q ∈ [p], ∃ pr2, (Promise.get_future w p).2.promises[q]? = some pr2 ∧
      pr2.future_retrieved_ = true := by
    intro q hq
    rw [List.mem_singleton] at hq
    subst hq
    rw [h1]
    exact ⟨_, lookup_set_self hp _, rfl⟩
  obtain ⟨pr2, k1, k2⟩ := Op.apply_all_retrieved ops _ _ hinv q hq
  exact Promise.get_future_again _ q pr2 k1 k2

/-- Witness for C4: after `get_future` on promise 0 and a move of it into a new object,
`get_future` on the new object fails. -/
theorem Promise.get_future_once_witness :
    Promise.get_future
        (Op.apply_all (Promise.get_future World.one_promise 0).2 [Op.move_ctor 0]) 1 =
      (.error "Future already retrieved",
        Op.apply_all (Promise.get_future World.one_promise 0).2 [Op.move_ctor 0]) :=
  (Promise.get_future_once World.one_promise 0 { state := some 0, future_retrieved_ := false }
    0 (by decide) rfl rfl).2 [Op.move_ctor 0] 1 (by decide)

/-- C5: `set_value` on a cell that is not ready stores the value and sets `ready`, and
then every later `set_value` on that cell fails; on a ready cell (one made by `make_ready`
included) it fails with `Promise already satisfied` and leaves the whole thread state
unchanged; no sequence of operations changes a ready cell, so `ready` is never reset. -/
theorem Promise.set_value_once {V : Type} [Inhabited V] (w : World V) (p : Nat) (pr : Promise)
    (s : Nat)
    (st : State V) (val : V) (hp : w.promises[p]? = some pr) (hs : pr.state = some s)
    (hst : w.states[s]? = some st) :
    (st.ready = false →
      (Promise.set_value w p val).1 = .ok () ∧
      (Promise.set_value w p val).2.states[s]? =
        some { st with value := val, ready := true } ∧
      ∀ (ops : List (Op V)) (q : Nat) (prq : Promise) (v2 : V),
        (Op.apply_all (Promise.set_value w p val).2 ops).promises[q]? = some prq →
        prq.state = some s →
        Promise.set_value (Op.apply_all (Promise.set_value w p val).2 ops) q v2 =
          (.error "Promise already satisfied",
            Op.apply_all (Promise.set_value w p val).2 ops)) ∧
    (st.ready = true →
      Promise.set_value w p val = (.error "Promise already satisfied", w) ∧
      ∀ ops : List (Op V), (Op.apply_all w ops).states[s]? = some st) ∧
    (∀ (w0 : World V) (v0 : V), ∃ s0 st0,
      (Future.make_ready w0 v0).1.state = some s0 ∧
      (Future.make_ready w0 v0).2.states[s0]? = some st0 ∧ st0.ready = true ∧
      ∀ (q : Nat) (prq : Promise) (v2 : V),
        (Future.make_ready w0 v0).2.promises[q]? = some prq → prq.state = some s0 →
        Promise.set_value (Future.make_ready w0 v0).2 q v2 =
          (.error "Promise already satisfied", (Future.make_ready w0 v0).2)) := by
  refine ⟨?_, ?_, ?_⟩
  · intro hr
    have h1 := Promise.set_value_fresh w p pr s st val hp hs hst hr
    have hcell : (Promise.set_value w p val).2.states[s]? =
        some { st with value := val, ready := true } := by
      rw [h1]
      cases st.callback <;> simp [lookup_lt hst]
    refine ⟨by rw [h1], hcell, ?_⟩
    intro ops q prq v2 hq hqs
    have hfr := Op.apply_all_frozen ops _ s _ hcell rfl
    exact Promise.set_value_ready _ q prq s _ v2 hq hqs hfr rfl
  · intro hr
    exact ⟨Promise.set_value_ready w p pr s st val hp hs hst hr,
      fun ops => Op.apply_all_frozen ops w s st hst hr⟩
  · intro w0 v0
    refine ⟨w0.states.length, { value := v0, ready := true, callback := none }, rfl,
      lookup_append_new _ _, rfl, ?_⟩
    intro q prq v2 hq hqs
    exact Promise.set_value_ready _ q prq _ _ v2 hq hqs (lookup_append_new _ _) rfl

/-- Witness for C5: the first `set_value` on a fresh promise succeeds and the second
fails. -/
theorem Promise.set_value_once_witness :
    (Promise.set_value World.one_promise 0 (5 : Int)).1 = .ok () ∧
    Promise.set_value (Promise.set_value World.one_promise 0 (5 : Int)).2 0 (6 : Int) =
      (.error "Promise already satisfied", (Promise.set_value World.one_promise 0 (5 : Int)).2) :=
  ⟨((Promise.set_value_once World.one_promise 0 { state := some 0, future_retrieved_ := false }
      0 { value := 0, ready := false, callback := none } 5 (by decide) rfl rfl).1 rfl).1,
    ((Promise.set_value_once World.one_promise 0 { state := some 0, future_retrieved_ := false }
      0 { value := 0, ready := false, callback := none } 5 (by decide) rfl rfl).1 rfl).2.2
      [] 0 { state := some 0, future_retrieved_ := false } 6 (by decide) rfl⟩

/-- C6: with a reactor on the thread, a successful `set_value` records only the
resolution (no callable is applied inside the call), appends exactly the task
`bound_task` to the back of the pending queue when a continuation is installed and leaves
the queue unchanged when none is; running that task is calling the continuation with the
stored value. -/
theorem Promise.set_value_defers {V : Type} (w : World V) (p : Nat) (pr : Promise) (s : Nat)
    (st : State V) (val : V) (r : Reactor) (hp : w.promises[p]? = some pr)
    (hs : pr.state = some s) (hst : w.states[s]? = some st) (hr : st.ready = false)
    (hi : w.instance_ = some r) :
    (Promise.set_value w p val).1 = .ok () ∧
    (Promise.set_value w p val).2.trace = w.trace ++ [Event.resolved s val] ∧
    (Promise.set_value w p val).2.states =
      w.states.set s { st with value := val, ready := true } ∧
    (Promise.set_value w p val).2.promises = w.promises ∧
    (∀ cb, st.callback = some cb →
      (Promise.set_value w p val).2.instance_ =
        some { pending_tasks := r.pending_tasks ++ [Task.bound_task s] } ∧
      (Task.bound_task s).run (Promise.set_value w p val).2 =
        cb.call (Promise.set_value w p val).2 val) ∧
    (st.callback = none → (Promise.set_value w p val).2.instance_ = some r) := by
  have h1 := Promise.set_value_fresh w p pr s st val hp hs hst hr
  rw [h1]
  cases hcb : st.callback with
  | none => simp [hi]
  | some cb0 =>
    simp [schedule_task, hi, Reactor.schedule, Task.run, lookup_lt hst, hcb]

/-- Witness for C6: resolving the promise of a cell with a continuation records the
resolution and queues the task. -/
theorem Promise.set_value_defers_witness :
    (Promise.set_value World.pending_then 0 5).2.trace =
      World.pending_then.trace ++ [Event.resolved 0 5] ∧
    (Promise.set_value World.pending_then 0 5).2.instance_ =
      some { pending_tasks := [] ++ [Task.bound_task 0] } :=
  ⟨(Promise.set_value_defers World.pending_then 0 { state := some 0, future_retrieved_ := false }
      0 { value := 0, ready := false, callback := some { p := 1, f := Func.plus_one 1 } } 5
      { pending_tasks := [] } (by decide) rfl rfl rfl rfl).2.1,
    ((Promise.set_value_defers World.pending_then 0 { state := some 0, future_retrieved_ := false }
      0 { value := 0, ready := false, callback := some { p := 1, f := Func.plus_one 1 } } 5
      { pending_tasks := [] } (by decide) rfl rfl rfl rfl).2.2.2.2.1
      { p := 1, f := Func.plus_one 1 } rfl).1⟩

theorem Future.then_chain_ready_aux {V : Type} [Inhabited V] (fs : List (Func V)) :
    ∀ (w : World V) (fut : Future) (s : Nat) (st : State V), fut.state = some s →
      w.states[s]? = some st → st.ready = true →
      ∃ s2 st2, (fut.then_chain w fs).1 = .ok { state := some s2 } ∧
        (fut.then_chain w fs).2.states[s2]? = some st2 ∧ st2.ready = true ∧
        st2.value = fs.foldl (fun a f => f.fn a) st.value ∧
        (fut.then_chain w fs).2.instance_ = w.instance_ ∧
        (fut.then_chain w fs).2.trace =
          w.trace ++ Future.chain_trace w.states.length st.value fs := by
  induction fs with
  | nil =>
    intro w fut s st hf hst hr
    cases fut
    simp only at hf
    subst hf
    exact ⟨s, st, rfl, hst, hr, rfl, rfl, by simp [Future.then_chain, Future.chain_trace]⟩
  | cons f fs ih =>
    intro w fut s st hf hst hr
    have h1 := Future.then_ready fut w f s st hf hst hr
    have hstep : fut.then_chain w (f :: fs) =
        Future.then_chain { state := some w.states.length } (fut.then_ w f).2 fs := by
      simp only [Future.then_chain, h1]
    have hnew : (fut.then_ w f).2.states[w.states.length]? =
        some { value := f.fn st.value, ready := true, callback := none } := by
      rw [h1]
      exact lookup_set_self (lookup_append_new _ _) _
    have hlen : (fut.then_ w f).2.states.length = w.states.length + 1 := by
      rw [h1]
      simp
    have hinst : (fut.then_ w f).2.instance_ = w.instance_ := by rw [h1]
    have htr : (fut.then_ w f).2.trace = w.trace ++ [Event.applied f.id st.value,
        Event.resolved w.states.length (f.fn st.value)] := by rw [h1]
    rw [hstep]
    obtain ⟨s2, st2, k1, k2, k3, k4, k5, k6⟩ := ih (fut.then_ w f).2
      { state := some w.states.length } w.states.length
      { value := f.fn st.value, ready := true, callback := none } rfl hnew rfl
    refine ⟨s2, st2, k1, k2, k3, ?_, ?_, ?_⟩
    · rw [k4]
      rfl
    · rw [k5, hinst]
    · rw [k6, htr, hlen]
      simp [Future.chain_trace]

/-- C8: for a future whose cell is ready with value `v` and any chain
`then(f1)...then(fk)`, every call succeeds, the final future is ready with
`fk(...f1(v))`, the callables were applied in order inside the calls (the trace holds
exactly their applications and the resolutions of the fresh cells), and after every
prefix of the chain the reactor and its pending queue are unchanged. -/
theorem Future.then_chain_ready {V : Type} [Inhabited V] (w : World V) (fut : Future) (s : Nat)
    (st : State V)
    (fs : List (Func V)) (hf : fut.state = some s) (hst : w.states[s]? = some st)
    (hr : st.ready = true) :
    (∃ s2 st2, (fut.then_chain w fs).1 = .ok { state := some s2 } ∧
      (fut.then_chain w fs).2.states[s2]? = some st2 ∧ st2.ready = true ∧
      st2.value = fs.foldl (fun a f => f.fn a) st.value) ∧
    (fut.then_chain w fs).2.trace =
      w.trace ++ Future.chain_trace w.states.length st.value fs ∧
    ∀ k, (fut.then_chain w (fs.take k)).2.instance_ = w.instance_ := by
  obtain ⟨s2, st2, k1, k2, k3, k4, _, k6⟩ := Future.then_chain_ready_aux fs w fut s st hf hst hr
  refine ⟨⟨s2, st2, k1, k2, k3, k4⟩, k6, ?_⟩
  intro k
  obtain ⟨_, _, _, _, _, _, k5, _⟩ :=
    Future.then_chain_ready_aux (fs.take k) w fut s st hf hst hr
  exact k5

/-- Witness for C8: `make_ready(1)` followed by three `then(+1)` yields 4 and posts no
task. -/
theorem Future.then_chain_ready_witness :
    (((Future.make_ready (World.init Int) 1).1.then_chain
        (Future.make_ready (World.init Int) 1).2
        [Func.plus_one 1, Func.plus_one 2, Func.plus_one 3]).2.states[3]?.map
      (fun st => (st.ready, st.value))) = some (true, 4) ∧
    ((Future.make_ready (World.init Int) 1).1.then_chain
        (Future.make_ready (World.init Int) 1).2
        [Func.plus_one 1, Func.plus_one 2, Func.plus_one 3]).2.trace =
      (Future.make_ready (World.init Int) 1).2.trace ++
        Future.chain_trace (Future.make_ready (World.init Int) 1).2.states.length 1
          [Func.plus_one 1, Func.plus_one 2, Func.plus_one 3] ∧
    ((Future.make_ready (World.init Int) 1).1.then_chain
        (Future.make_ready (World.init Int) 1).2
        ([Func.plus_one 1, Func.plus_one 2, Func.plus_one 3].take 3)).2.instance_ =
      some { pending_tasks := [] } :=
  ⟨by decide,
    (Future.then_chain_ready (Future.make_ready (World.init Int) 1).2
      (Future.make_ready (World.init Int) 1).1 0 { value := 1, ready := true, callback := none }
      [Func.plus_one 1, Func.plus_one 2, Func.plus_one 3] rfl rfl rfl).2.1,
    (Future.then_chain_ready (Future.make_ready (World.init Int) 1).2
      (Future.make_ready (World.init Int) 1).1 0 { value := 1, ready := true, callback := none }
      [Func.plus_one 1, Func.plus_one 2, Func.plus_one 3] rfl rfl rfl).2.2 3⟩

/-- Counterexample for C9: a second `then` on the same unresolved future replaces the
continuation stored by the first one, and after `set_value(5)` and a drain only the
second callable was applied. -/
theorem Future.then_rebinds_counterexample :
    (((Future.mk (some 0)).then_ World.one_promise (Func.plus_one 1)).2.states[0]?.map
      (fun st => (st.ready, st.callback.map (fun cb => (cb.p, cb.f.id))))) =
        some (false, some (1, 1)) ∧
    (((Future.mk (some 0)).then_
        ((Future.mk (some 0)).then_ World.one_promise (Func.plus_one 1)).2
        (Func.plus_one 2)).2.states[0]?.map
      (fun st => (st.ready, st.callback.map (fun cb => (cb.p, cb.f.id))))) =
        some (false, some (2, 2)) ∧
    (Reactor.drain 4 (Promise.set_value ((Future.mk (some 0)).then_
        ((Future.mk (some 0)).then_ World.one_promise (Func.plus_one 1)).2
        (Func.plus_one 2)).2 0 5).2).map (fun r => r.2.trace) =
      some [Event.resolved 0 5, Event.applied 2 5, Event.resolved 2 6] := by
  decide

/-- C9 (amended): `then` on a future of an unresolved cell stores its continuation in the
cell unconditionally, replacing one stored earlier; every other operation leaves the
continuation of the cell as it is; and once the cell is ready no sequence of operations
changes the cell, so its continuation slot is never rebound. -/
theorem State.callback_installed_by_then {V : Type} [Inhabited V] (w : World V) (s : Nat)
    (st : State V)
    (hst : w.states[s]? = some st) :
    (st.ready = false → ∀ (fut : Future) (func : Func V), fut.state = some s →
      ∃ st2, (fut.then_ w func).2.states[s]? = some st2 ∧
        st2.callback = some { p := w.promises.length, f := func }) ∧
    (∀ op : Op V, (∀ func, op ≠ Op.then_ { state := some s } func) →
      ∃ st2, (Op.apply w op).states[s]? = some st2 ∧ st2.callback = st.callback) ∧
    (st.ready = true → ∀ ops : List (Op V), (Op.apply_all w ops).states[s]? = some st) := by
  refine ⟨?_, ?_, ?_⟩
  · intro hr fut func hf
    rw [Future.then_pending fut w func s st hf hst hr]
    exact ⟨_, lookup_set_self (lookup_append_left hst _) _, rfl⟩
  · intro op hop
    obtain ⟨st2, k1, _, k3⟩ := Op.apply_cell w op s st hst
    refine ⟨st2, k1, ?_⟩
    rcases k3 with k3 | ⟨_, func, hf⟩
    · exact k3
    · exact absurd hf (hop func)
  · intro hr ops
    exact Op.apply_all_frozen ops w s st hst hr

/-- Witness for C9 (amended): `then` on the future of a fresh promise installs its task. -/
theorem State.callback_installed_by_then_witness :
    ∃ st2, ((Future.mk (some 0)).then_ World.one_promise (Func.plus_one 1)).2.states[0]?
        = some st2 ∧
      st2.callback = some { p := World.one_promise.promises.length, f := Func.plus_one 1 } :=
  (State.callback_installed_by_then World.one_promise 0
    { value := 0, ready := false, callback := none } rfl).1 rfl (Future.mk (some 0))
    (Func.plus_one 1) rfl

/-! ## Theorems: the pending queue -/

theorem Reactor.drain_nil {V : Type} (fuel : Nat) (w : World V) (r : Reactor)
    (hi : w.instance_ = some r) (hq : r.pending_tasks = []) :
    Reactor.drain fuel w = some (.ok (), w) := by
  cases fuel <;> simp [Reactor.drain, hi, hq]

theorem Reactor.drain_cons {V : Type} (n : Nat) (w : World V) (r : Reactor) (task : Task)
    (rest : List Task) (hi : w.instance_ = some r) (hq : r.pending_tasks = task :: rest) :
    Reactor.drain (n + 1) w =
      match task.run { w with instance_ := some { pending_tasks := rest } } with
      | (.error e, w1) => some (.error e, w1)
      | (.ok _, w1) => Reactor.drain n w1 := by
  rw [Reactor.drain]
  simp only [hi, hq]

theorem Task.run_bound {V : Type} (w : World V) (s : Nat) (st : State V) (cb : Callback V)
    (hst : w.states[s]? = some st) (hcb : st.callback = some cb) :
    (Task.bound_task s).run w = cb.call w st.value := by
  simp [Task.run, hst, hcb]

theorem UserTask.weight_eq (t : UserTask) : t.weight = 1 + UserTask.weight_list t.posts := by
  cases t with
  | mk i ps => simp [UserTask.weight, UserTask.posts]

theorem UserTask.weight_list_append (a b : List UserTask) :
    UserTask.weight_list (a ++ b) = UserTask.weight_list a + UserTask.weight_list b := by
  induction a with
  | nil => simp [UserTask.weight_list]
  | cons t a ih => simp [UserTask.weight_list, ih, Nat.add_assoc]

theorem UserTask.weight_list_posts (q : List UserTask) :
    UserTask.weight_list q = q.length + UserTask.weight_list (q.flatMap UserTask.posts) := by
  induction q with
  | nil => simp [UserTask.weight_list]
  | cons t q ih =>
    simp only [UserTask.weight_list, List.flatMap_cons, UserTask.weight_list_append,
      List.length_cons, UserTask.weight_eq]
    omega

theorem UserTask.generations_nil (d : Nat) : UserTask.generations d [] = [] := by
  induction d with
  | zero => rfl
  | succ d ih => simp [UserTask.generations, ih]

theorem foldl_schedule_task {V : Type} (ts : List Task) (w : World V) (r : Reactor)
    (hi : w.instance_ = some r) :
    ts.foldl schedule_task w =
      { w with instance_ := some { pending_tasks := r.pending_tasks ++ ts } } := by
  induction ts generalizing w r with
  | nil =>
    cases w
    cases r
    simp only at hi
    simp [hi]
  | cons t ts ih =>
    have h1 : (schedule_task w t).instance_ = some (r.schedule t) := by
      simp [schedule_task, hi]
    rw [List.foldl_cons, ih _ _ h1]
    simp [schedule_task, hi, Reactor.schedule]

theorem Task.run_user {V : Type} (t : UserTask) (w : World V) (r : Reactor)
    (hi : w.instance_ = some r) :
    (Task.user t).run w =
      (.ok (), { w with
        instance_ := some { pending_tasks := r.pending_tasks ++ t.posts.map Task.user }
        trace := w.trace ++ [Event.ran t.id] }) := by
  simp only [Task.run]
  rw [foldl_schedule_task _ { w with trace := w.trace ++ [Event.ran t.id] } r hi]

theorem Reactor.drain_prefix {V : Type} (q : List UserTask) :
    ∀ (acc : List Task) (fuel : Nat) (w : World V),
      w.instance_ = some { pending_tasks := q.map Task.user ++ acc } →
      Reactor.drain (q.length + fuel) w =
        Reactor.drain fuel
          { w with
            instance_ := some
              { pending_tasks := acc ++ (q.flatMap UserTask.posts).map Task.user }
            trace := w.trace ++ q.map (fun t => Event.ran t.id) } := by
  induction q with
  | nil =>
    intro acc fuel w hi
    cases w
    simp only at hi
    simp [hi]
  | cons t q ih =>
    intro acc fuel w hi
    have hfuel : (t :: q).length + fuel = (q.length + fuel) + 1 := by
      simp only [List.length_cons]
      omega
    rw [hfuel, Reactor.drain_cons _ w _ (Task.user t) (q.map Task.user ++ acc) hi
      (by simp)]
    rw [Task.run_user t _ { pending_tasks := q.map Task.user ++ acc } rfl]
    simp only
    rw [ih (acc ++ t.posts.map Task.user) fuel _ (by simp)]
    simp

theorem Reactor.drain_user {V : Type} (d : Nat) :
    ∀ (q : List UserTask) (fuel : Nat) (w : World V),
      UserTask.weight_list q ≤ d → UserTask.weight_list q ≤ fuel →
      w.instance_ = some { pending_tasks := q.map Task.user } →
      Reactor.drain fuel w = some (.ok (),
        { w with
          instance_ := some { pending_tasks := [] }
          trace := w.trace ++ (UserTask.generations d q).map Event.ran }) := by
  induction d with
  | zero =>
    intro q fuel w hd hf hi
    have hw := UserTask.weight_list_posts q
    have hq : q = [] := List.eq_nil_of_length_eq_zero (by omega)
    subst hq
    rw [Reactor.drain_nil fuel w _ hi rfl]
    cases w
    simp only at hi
    simp [hi, UserTask.generations]
  | succ d ih =>
    intro q fuel w hd hf hi
    have hw := UserTask.weight_list_posts q
    obtain ⟨fuel2, rfl⟩ : ∃ fuel2, fuel = q.length + fuel2 := ⟨fuel - q.length, by omega⟩
    rw [Reactor.drain_prefix q [] fuel2 w (by simpa using hi)]
    simp only [List.nil_append]
    have hd2 : UserTask.weight_list (q.flatMap UserTask.posts) ≤ d := by
      cases q with
      | nil => simp [UserTask.weight_list]
      | cons t q =>
        simp only [List.length_cons] at hw
        omega
    rw [ih (q.flatMap UserTask.posts) fuel2 _ hd2 (by omega) (by simp)]
    simp [UserTask.generations]

theorem Reactor.drain_ok_empty {V : Type} (fuel : Nat) :
    ∀ (w w3 : World V), Reactor.drain fuel w = some (.ok (), w3) →
      w3.instance_ = some { pending_tasks := [] } := by
  induction fuel with
  | zero =>
    intro w w3 h
    cases hi : w.instance_ with
    | none => simp [Reactor.drain, hi] at h
    | some r =>
      cases hq : r.pending_tasks with
      | nil =>
        rw [Reactor.drain_nil 0 w r hi hq] at h
        simp only [Option.some.injEq, Prod.mk.injEq, true_and] at h
        subst h
        rw [hi]
        cases r
        simp only at hq
        rw [hq]
      | cons task rest => simp [Reactor.drain, hi, hq] at h
  | succ n ih =>
    intro w w3 h
    cases hi : w.instance_ with
    | none => simp [Reactor.drain, hi] at h
    | some r =>
      cases hq : r.pending_tasks with
      | nil =>
        rw [Reactor.drain_nil (n + 1) w r hi hq] at h
        simp only [Option.some.injEq, Prod.mk.injEq, true_and] at h
        subst h
        rw [hi]
        cases r
        simp only at hq
        rw [hq]
      | cons task rest =>
        rw [Reactor.drain_cons n w r task rest hi hq] at h
        split at h
        · simp at h
        · exact ih _ _ h

theorem Promise.set_value_queue {V : Type} (w : World V) (p : Nat) (val : V) (r : Reactor)
    (hi : w.instance_ = some r) :
    ∃ added, (Promise.set_value w p val).2.instance_ =
      some { pending_tasks := r.pending_tasks ++ added } := by
  have h0 : w.instance_ = some { pending_tasks := r.pending_tasks ++ [] } := by
    rw [hi, List.append_nil]
  unfold Promise.set_value
  split
  · exact ⟨[], h0⟩
  · split
    · exact ⟨[], h0⟩
    · split
      · exact ⟨[], h0⟩
      · split
        · exact ⟨[], h0⟩
        · split
          · rename_i sb _ _ _ _ _ _ _ _
            refine ⟨[Task.bound_task sb], ?_⟩
            simp only [schedule_task, hi, Reactor.schedule]
          · exact ⟨[], h0⟩

theorem Task.run_queue {V : Type} (task : Task) (w : World V) (r : Reactor)
    (hi : w.instance_ = some r) :
    ∃ added, (task.run w).2.instance_ = some { pending_tasks := r.pending_tasks ++ added } := by
  have h0 : w.instance_ = some { pending_tasks := r.pending_tasks ++ [] } := by
    rw [hi, List.append_nil]
  cases task with
  | bound_task s =>
    simp only [Task.run]
    split
    · exact ⟨[], h0⟩
    · split
      · exact ⟨[], h0⟩
      · exact Promise.set_value_queue _ _ _ r hi
  | user t =>
    rw [Task.run_user t w r hi]
    exact ⟨_, rfl⟩

theorem Promise.set_value_posted {V : Type} (w : World V) (p : Nat) (pr : Promise) (s : Nat)
    (st : State V) (cb : Callback V) (val : V) (r : Reactor)
    (hp : w.promises[p]? = some pr) (hs : pr.state = some s) (hst : w.states[s]? = some st)
    (hr : st.ready = false) (hcb : st.callback = some cb) (hi : w.instance_ = some r) :
    Promise.set_value w p val =
      (.ok (),
        { states := w.states.set s { st with value := val, ready := true }
          promises := w.promises
          instance_ := some { pending_tasks := r.pending_tasks ++ [Task.bound_task s] }
          trace := w.trace ++ [Event.resolved s val] }) := by
  rw [Promise.set_value_fresh w p pr s st val hp hs hst hr]
  simp [hcb, schedule_task, hi, Reactor.schedule]

theorem Reactor.drain_bound_step {V : Type} (w : World V) (s : Nat) (st : State V)
    (cb : Callback V) (prn : Promise) (sn : Nat) (stn : State V) (rest : List Task)
    (hi : w.instance_ = some { pending_tasks := Task.bound_task s :: rest })
    (hst : w.states[s]? = some st) (hcb : st.callback = some cb)
    (hpn : w.promises[cb.p]? = some prn) (hsn : prn.state = some sn)
    (hstn : w.states[sn]? = some stn) (hrn : stn.ready = false) (hcn : stn.callback = none)
    (n : Nat) :
    Reactor.drain (n + 1) w = Reactor.drain n
      { states := w.states.set sn { stn with value := cb.f.fn st.value, ready := true }
        promises := w.promises
        instance_ := some { pending_tasks := rest }
        trace := w.trace ++ [Event.applied cb.f.id st.value,
          Event.resolved sn (cb.f.fn st.value)] } := by
  rw [Reactor.drain_cons n w _ (Task.bound_task s) rest hi rfl]
  rw [Task.run_bound { w with instance_ := some { pending_tasks := rest } } s st cb hst hcb]
  simp only [Callback.call]
  rw [Promise.set_value_fresh
    { states := w.states, promises := w.promises, instance_ := some { pending_tasks := rest },
      trace := w.trace ++ [Event.applied cb.f.id st.value] } cb.p prn sn stn _ hpn hsn hstn hrn]
  simp only [hcn, List.append_assoc, List.singleton_append]

/-- C10: the pending queue is FIFO and drained to a fixpoint. For a queue of user tasks
one loop iteration, given enough turns, runs the tasks by generation (the queued tasks in
queue order, then the tasks they posted in posting order, and so on, all in the same
drain), ends with an empty queue and only then enters the wait. `schedule` calls enqueue
in call order; one turn of the drain runs exactly the front task, which can only append
to the rest of the queue; and whenever an iteration reaches the wait the queue is
empty. -/
theorem Reactor.pending_fifo {V : Type} (w : World V) (q : List UserTask) (fuel : Nat)
    (hi : w.instance_ = some { pending_tasks := q.map Task.user })
    (hfuel : UserTask.weight_list q ≤ fuel) :
    Reactor.run_to_wait fuel w = some (.ok (),
      { w with
        instance_ := some { pending_tasks := [] }
        trace := w.trace ++ (UserTask.generations (UserTask.weight_list q) q).map Event.ran ++
          [Event.epoll_wait] }) ∧
    (∀ (r : Reactor) (ts : List Task),
      (ts.foldl Reactor.schedule r).pending_tasks = r.pending_tasks ++ ts) ∧
    (∀ (n : Nat) (w2 : World V) (r2 : Reactor) (task : Task) (rest : List Task),
      w2.instance_ = some r2 → r2.pending_tasks = task :: rest →
      ∃ added, (task.run { w2 with instance_ := some { pending_tasks := rest } }).2.instance_ =
          some { pending_tasks := rest ++ added } ∧
        Reactor.drain (n + 1) w2 =
          match task.run { w2 with instance_ := some { pending_tasks := rest } } with
          | (.error e, w1) => some (.error e, w1)
          | (.ok _, w1) => Reactor.drain n w1) ∧
    (∀ (fuel2 : Nat) (w2 w3 : World V), Reactor.run_to_wait fuel2 w2 = some (.ok (), w3) →
      w3.instance_ = some { pending_tasks := [] } ∧
      ∃ tr, w3.trace = tr ++ [Event.epoll_wait]) := by
  refine ⟨?_, ?_, ?_, ?_⟩
  · unfold Reactor.run_to_wait
    rw [Reactor.drain_user (UserTask.weight_list q) q fuel w (Nat.le_refl _) hfuel hi]
  · intro r ts
    induction ts generalizing r with
    | nil => simp
    | cons t ts ih => simp [List.foldl_cons, ih, Reactor.schedule]
  · intro n w2 r2 task rest hi2 hq2
    obtain ⟨added, ha⟩ := Task.run_queue task
      { w2 with instance_ := some { pending_tasks := rest } } { pending_tasks := rest } rfl
    exact ⟨added, ha, Reactor.drain_cons n w2 r2 task rest hi2 hq2⟩
  · intro fuel2 w2 w3 h
    unfold Reactor.run_to_wait at h
    split at h
    · rename_i w1 hd
      simp only [Option.some.injEq, Prod.mk.injEq, true_and] at h
      subst h
      exact ⟨Reactor.drain_ok_empty fuel2 w2 w1 hd, _, rfl⟩
    · rename_i hne
      exact absurd h (hne _ w3)

/-- Witness for C10: `A` posts `B` then `C` and `B` posts `D`; the tasks run in the order
`A`, `B`, `C`, `D` and the wait comes last. -/
theorem Reactor.pending_fifo_witness :
    (Reactor.run_to_wait 4 World.scheduled_A).map (fun r => r.2.trace) =
      some [Event.ran 1, Event.ran 2, Event.ran 3, Event.ran 4, Event.epoll_wait] :=
  (congrArg (Option.map (fun r => r.2.trace))
    (Reactor.pending_fifo World.scheduled_A [UserTask.example_A] 4 rfl (by decide)).1).trans
    (by decide)

/-- C7: for a future whose cell is not ready, `then(f)` does not run `f` and posts
nothing; after `set_value(v)` on the promise of the cell and one drain of the pending
queue (which may already hold user tasks), `f` has been applied exactly once, to `v`,
after the resolution of the cell: the events since the start are the resolution with
`v`, the user tasks queued before, the application of `f` to `v` with the resolution of
the returned future's cell with `f(v)`, and the tasks posted by the user tasks; that cell
is ready with value `f(v)` and the queue is empty. -/
theorem Future.then_pending_runs_once {V : Type} [Inhabited V] (w : World V) (fut : Future)
    (func : Func V) (p : Nat) (pr : Promise) (s : Nat) (st : State V) (val : V)
    (q : List UserTask)
    (hf : fut.state = some s) (hst : w.states[s]? = some st) (hr : st.ready = false)
    (hp : w.promises[p]? = some pr) (hs : pr.state = some s)
    (hi : w.instance_ = some { pending_tasks := q.map Task.user }) :
    (fut.then_ w func).1 = .ok { state := some w.states.length } ∧
    (fut.then_ w func).2.trace = w.trace ∧
    (fut.then_ w func).2.instance_ = w.instance_ ∧
    (Promise.set_value (fut.then_ w func).2 p val).1 = .ok () ∧
    (Promise.set_value (fut.then_ w func).2 p val).2.trace =
      w.trace ++ [Event.resolved s val] ∧
    ∀ fuel, UserTask.weight_list q + 1 ≤ fuel → ∃ w3,
      Reactor.drain fuel (Promise.set_value (fut.then_ w func).2 p val).2 = some (.ok (), w3) ∧
      w3.trace = w.trace ++ [Event.resolved s val] ++ q.map (fun t => Event.ran t.id) ++
        [Event.applied func.id val, Event.resolved w.states.length (func.fn val)] ++
        (UserTask.generations (UserTask.weight_list q)
          (q.flatMap UserTask.posts)).map Event.ran ∧
      w3.states[w.states.length]? =
        some { value := func.fn val, ready := true, callback := none } ∧
      w3.instance_ = some { pending_tasks := [] } := by
  have hlt := lookup_lt hst
  have hne : s ≠ w.states.length := Nat.ne_of_lt hlt
  have h1 := Future.then_pending fut w func s st hf hst hr
  have a1 : (fut.then_ w func).2.states[s]? =
      some { st with callback := some { p := w.promises.length, f := func } } := by
    rw [h1]
    exact lookup_set_self (lookup_append_left hst _) _
  have a2 : (fut.then_ w func).2.states[w.states.length]? =
      some { value := default, ready := false, callback := none } := by
    rw [h1]
    simp only
    rw [lookup_set_ne hne]
    exact lookup_append_new _ _
  have a3 : (fut.then_ w func).2.promises[p]? = some pr := by
    rw [h1]
    exact lookup_append_left hp _
  have a4 : (fut.then_ w func).2.promises[w.promises.length]? =
      some { state := some w.states.length, future_retrieved_ := true } := by
    rw [h1]
    exact lookup_append_new _ _
  have a5 : (fut.then_ w func).2.instance_ = some { pending_tasks := q.map Task.user } := by
    rw [h1]
    exact hi
  have a6 : (fut.then_ w func).2.trace = w.trace := by rw [h1]
  have hsv := Promise.set_value_posted (fut.then_ w func).2 p pr s _
    { p := w.promises.length, f := func } val { pending_tasks := q.map Task.user } a3 hs a1 hr
    rfl a5
  have b1 : (Promise.set_value (fut.then_ w func).2 p val).1 = .ok () := by rw [hsv]
  have b2 : (Promise.set_value (fut.then_ w func).2 p val).2.trace =
      (fut.then_ w func).2.trace ++ [Event.resolved s val] := by rw [hsv]
  have b3 : (Promise.set_value (fut.then_ w func).2 p val).2.states =
      (fut.then_ w func).2.states.set s
        { value := val, ready := true,
          callback := some { p := w.promises.length, f := func } } := by rw [hsv]
  have b4 : (Promise.set_value (fut.then_ w func).2 p val).2.promises =
      (fut.then_ w func).2.promises := by rw [hsv]
  have b6 : (Promise.set_value (fut.then_ w func).2 p val).2.instance_ =
      some { pending_tasks := q.map Task.user ++ [Task.bound_task s] } := by rw [hsv]
  refine ⟨by rw [h1], a6, by rw [a5, hi], b1, by rw [b2, a6], ?_⟩
  intro fuel hfuel
  have hw := UserTask.weight_list_posts q
  obtain ⟨n, rfl⟩ : ∃ n, fuel = q.length + (n + 1) := ⟨fuel - q.length - 1, by omega⟩
  have c1 : (Promise.set_value (fut.then_ w func).2 p val).2.states[s]? =
      some { value := val, ready := true,
             callback := some { p := w.promises.length, f := func } } := by
    rw [b3]
    exact lookup_set_self a1 _
  have c2 : (Promise.set_value (fut.then_ w func).2 p val).2.states[w.states.length]? =
      some { value := default, ready := false, callback := none } := by
    rw [b3, lookup_set_ne hne]
    exact a2
  have c3 : (Promise.set_value (fut.then_ w func).2 p val).2.promises[w.promises.length]? =
      some { state := some w.states.length, future_retrieved_ := true } := by
    rw [b4]
    exact a4
  rw [Reactor.drain_prefix q [Task.bound_task s] (n + 1) _ b6]
  generalize (Promise.set_value (fut.then_ w func).2 p val).2 = W2 at b2 c1 c2 c3 ⊢
  rw [Reactor.drain_bound_step
    { states := W2.states, promises := W2.promises,
      instance_ := some { pending_tasks :=
        [Task.bound_task s] ++ (q.flatMap UserTask.posts).map Task.user },
      trace := W2.trace ++ q.map (fun t => Event.ran t.id) }
    s _ { p := w.promises.length, f := func } _ w.states.length _
    ((q.flatMap UserTask.posts).map Task.user) rfl c1 rfl c3 rfl c2 rfl rfl n]
  rw [Reactor.drain_user (UserTask.weight_list q) (q.flatMap UserTask.posts) n _ (by omega)
    (by omega) rfl]
  refine ⟨_, rfl, ?_, ?_, rfl⟩
  · simp only [b2, a6, List.append_assoc, List.singleton_append]
  · exact lookup_set_self c2 _

/-- Witness for C7: with the user task `A` already queued, `then(+1)` on the future of
promise 0, `set_value(41)` and a drain apply the callable once, to 41, after the
resolution. -/
theorem Future.then_pending_runs_once_witness :
    (∃ w3, Reactor.drain 5 (Promise.set_value
        ((Future.mk (some 0)).then_ World.one_promise_busy (Func.plus_one 7)).2 0 41).2 =
        some (.ok (), w3) ∧
      w3.states[1]? = some { value := 42, ready := true, callback := none }) ∧
    (Reactor.drain 5 (Promise.set_value
        ((Future.mk (some 0)).then_ World.one_promise_busy (Func.plus_one 7)).2 0 41).2).map
      (fun r => r.2.trace) =
      some [Event.resolved 0 41, Event.ran 1, Event.applied 7 41, Event.resolved 1 42,
        Event.ran 2, Event.ran 3, Event.ran 4] :=
  ⟨match (Future.then_pending_runs_once World.one_promise_busy (Future.mk (some 0))
      (Func.plus_one 7) 0 { state := some 0, future_retrieved_ := false } 0
      { value := 0, ready := false, callback := none } 41 [UserTask.example_A] rfl rfl rfl
      (by decide) rfl rfl).2.2.2.2.2 5 (by decide) with
    | ⟨w3, h1, _, h3, _⟩ => ⟨w3, h1, h3⟩,
    by decide⟩

/-! ## Theorems: the connection -/

theorem list_set_append_new {α : Type} (l : List α) (a b : α) :
    (l ++ [a]).set l.length b = l ++ [b] := by
  induction l with
  | nil => rfl
  | cons x l ih => simp [List.set, ih]

theorem Sys.resolve_fresh (s : Sys) (init v : Val) :
    Sys.resolve_and_return { s with world := (Promise.new_of s.world init).2 }
        (Promise.new_of s.world init).1 v =
      (.ok { state := some s.world.states.length },
        { s with
          world :=
            { states := s.world.states ++ [{ value := v, ready := true, callback := none }]
              promises := s.world.promises ++
                [{ state := some s.world.states.length, future_retrieved_ := true }]
              instance_ := s.world.instance_
              trace := s.world.trace ++ [Event.resolved s.world.states.length v] } }) := by
  simp [Sys.resolve_and_return, Promise.new_of, Promise.set_value, Promise.get_future,
    list_set_append_new]

theorem Packet.from_string_bytes (h : Heap) (src : List Byte) :
    (Packet.from_string h src).1.to_string (Packet.from_string h src).2 = src ∧
    (Packet.from_string h src).1.size = src.length := by
  by_cases h0 : 0 < src.length
  · simp [Packet.from_string, Packet.new_copy, Packet.new_size, h0, Heap.memcpy,
      Packet.to_string, Packet.size]
  · have hnil : src = [] := List.eq_nil_of_length_eq_zero (by omega)
    subst hnil
    simp [Packet.from_string, Packet.new_copy, Packet.new_size, Packet.to_string, Packet.size]

theorem TcpConnection.readable_bytes_eq (c : TcpConnection)
    (hi : c.read_index_ ≤ c.input_buffer_.length) (hl : c.input_buffer_.length < SIZE_MOD) :
    c.readable_bytes = c.peek.length := by
  unfold TcpConnection.readable_bytes TcpConnection.peek
  rw [List.length_drop]
  have h1 : c.input_buffer_.length + SIZE_MOD - c.read_index_ =
      (c.input_buffer_.length - c.read_index_) + SIZE_MOD := by omega
  rw [h1, Nat.add_mod_right]
  exact Nat.mod_eq_of_lt (by omega)

/-- C16: on a closed connection `read()` returns a future whose cell is already ready
with the empty packet `Packet()`; the fields of the connection (the pending read slot
included) are unchanged, no syscall is made and no reactor call is issued. -/
theorem TcpConnection.read_closed (s : Sys) (hc : s.conn.closed_ = true) :
    (TcpConnection.read s).1 = .ok { state := some s.world.states.length } ∧
    (TcpConnection.read s).2.world.states[s.world.states.length]? =
      some { value := Val.packet Packet.new, ready := true, callback := none } ∧
    Packet.new.size = 0 ∧ Packet.new.to_string (TcpConnection.read s).2.heap = [] ∧
    (TcpConnection.read s).2.conn = s.conn ∧
    (TcpConnection.read s).2.syscalls = s.syscalls ∧
    (TcpConnection.read s).2.reads = s.reads ∧
    (TcpConnection.read s).2.writes = s.writes ∧
    (TcpConnection.read s).2.reactor_calls = s.reactor_calls := by
  have h1 : TcpConnection.read s =
      Sys.resolve_and_return
        { s with world := (Promise.new_of s.world (Val.packet Packet.new)).2 }
        (Promise.new_of s.world (Val.packet Packet.new)).1 (Val.packet Packet.new) := by
    simp [TcpConnection.read, hc]
  rw [h1, Sys.resolve_fresh]
  refine ⟨rfl, lookup_append_new _ _, rfl, rfl, rfl, rfl, rfl, rfl, rfl⟩

/-- C17: on an open connection with unread bytes in the input buffer `read()` returns a
future whose cell is already ready with a packet holding exactly the unread bytes in
order; afterwards the input buffer is empty, the read cursor is 0, the pending read slot
is unchanged and no syscall was made. -/
theorem TcpConnection.read_buffered (s : Sys) (hc : s.conn.closed_ = false)
    (hi : s.conn.read_index_ < s.conn.input_buffer_.length)
    (hl : s.conn.input_buffer_.length < SIZE_MOD) :
    ∃ pkt : Packet,
      (TcpConnection.read s).1 = .ok { state := some s.world.states.length } ∧
      (TcpConnection.read s).2.world.states[s.world.states.length]? =
        some { value := Val.packet pkt, ready := true, callback := none } ∧
      pkt.to_string (TcpConnection.read s).2.heap =
        s.conn.input_buffer_.drop s.conn.read_index_ ∧
      pkt.size = s.conn.input_buffer_.length - s.conn.read_index_ ∧
      (TcpConnection.read s).2.conn =
        { s.conn with input_buffer_ := [], read_index_ := 0 } ∧
      (TcpConnection.read s).2.syscalls = s.syscalls ∧
      (TcpConnection.read s).2.reads = s.reads ∧
      (TcpConnection.read s).2.writes = s.writes ∧
      (TcpConnection.read s).2.reactor_calls = s.reactor_calls := by
  have hrb := TcpConnection.readable_bytes_eq s.conn (Nat.le_of_lt hi) hl
  have hpos : 0 < s.conn.peek.length := by
    unfold TcpConnection.peek
    rw [List.length_drop]
    omega
  have hb := Packet.from_string_bytes s.heap s.conn.peek
  have h1 : TcpConnection.read s =
      Sys.resolve_and_return
        { s with
          world := (Promise.new_of s.world (Val.packet Packet.new)).2
          heap := (Packet.from_string s.heap s.conn.peek).2
          conn := s.conn.retrieve_all }
        (Promise.new_of s.world (Val.packet Packet.new)).1
        (Val.packet (Packet.from_string s.heap s.conn.peek).1) := by
    simp [TcpConnection.read, hc, hrb, hpos, Packet.from_string]
  refine ⟨(Packet.from_string s.heap s.conn.peek).1, ?_⟩
  rw [h1]
  have h2 := Sys.resolve_fresh
    { s with heap := (Packet.from_string s.heap s.conn.peek).2, conn := s.conn.retrieve_all }
    (Val.packet Packet.new) (Val.packet (Packet.from_string s.heap s.conn.peek).1)
  simp only at h2
  rw [h2]
  refine ⟨rfl, lookup_append_new _ _, hb.1, ?_, rfl, rfl, rfl, rfl, rfl⟩
  rw [hb.2]
  unfold TcpConnection.peek
  rw [List.length_drop]

theorem TcpConnection.write_loop_accepts (data : List Byte) :
    ∀ (script : List WriteResult) (off rem : Nat) (log : List Syscall), rem < SIZE_MOD →
      WriteResult.accepts_all script rem = true →
      ∃ off2 rest log2,
        TcpConnection.write_loop data script off rem log = (.exit off2 0, rest, log2) := by
  intro script
  induction script with
  | nil =>
    intro off rem log _ ha
    cases rem with
    | zero => exact ⟨off, [], log, by simp [TcpConnection.write_loop]⟩
    | succ r => simp [WriteResult.accepts_all] at ha
  | cons r rs ih =>
    intro off rem log hlt ha
    cases rem with
    | zero => exact ⟨off, r :: rs, log, by simp [TcpConnection.write_loop]⟩
    | succ m =>
      cases r with
      | ok n =>
        simp only [WriteResult.accepts_all, Bool.and_eq_true, decide_eq_true_eq] at ha
        have hmod : (m + 1 + SIZE_MOD - n) % SIZE_MOD = m + 1 - n := by
          have h1 : m + 1 + SIZE_MOD - n = (m + 1 - n) + SIZE_MOD := by omega
          rw [h1, Nat.add_mod_right]
          exact Nat.mod_eq_of_lt (by omega)
        by_cases hn : n > 0
        · obtain ⟨off2, rest, log2, h2⟩ := ih (off + n) (m + 1 - n)
            (log ++ [Syscall.write ((data.drop off).take (m + 1)) (.ok n)]) (by omega) ha.2
          exact ⟨off2, rest, log2, by simp [TcpConnection.write_loop, hn, hmod, h2]⟩
        · have hn0 : n = 0 := by omega
          subst hn0
          obtain ⟨off2, rest, log2, h2⟩ := ih off (m + 1)
            (log ++ [Syscall.write ((data.drop off).take (m + 1)) (.ok 0)]) hlt
            (by simpa using ha.2)
          exact ⟨off2, rest, log2, by simp [TcpConnection.write_loop, h2]⟩
      | eagain => simp [WriteResult.accepts_all] at ha
      | error => simp [WriteResult.accepts_all] at ha

theorem TcpConnection.write_loop_fails (data : List Byte) :
    ∀ (script : List WriteResult) (off rem : Nat) (log : List Syscall), rem < SIZE_MOD →
      WriteResult.fails script rem = true →
      ∃ rest log2, TcpConnection.write_loop data script off rem log = (.failed, rest, log2) := by
  intro script
  induction script with
  | nil =>
    intro off rem log _ ha
    cases rem <;> simp [WriteResult.fails] at ha
  | cons r rs ih =>
    intro off rem log hlt ha
    cases rem with
    | zero => simp [WriteResult.fails] at ha
    | succ m =>
      cases r with
      | ok n =>
        simp only [WriteResult.fails, Bool.and_eq_true, decide_eq_true_eq] at ha
        have hmod : (m + 1 + SIZE_MOD - n) % SIZE_MOD = m + 1 - n := by
          have h1 : m + 1 + SIZE_MOD - n = (m + 1 - n) + SIZE_MOD := by omega
          rw [h1, Nat.add_mod_right]
          exact Nat.mod_eq_of_lt (by omega)
        by_cases hn : n > 0
        · obtain ⟨rest, log2, h2⟩ := ih (off + n) (m + 1 - n)
            (log ++ [Syscall.write ((data.drop off).take (m + 1)) (.ok n)]) (by omega) ha.2
          exact ⟨rest, log2, by simp [TcpConnection.write_loop, hn, hmod, h2]⟩
        · have hn0 : n = 0 := by omega
          subst hn0
          obtain ⟨rest, log2, h2⟩ := ih off (m + 1)
            (log ++ [Syscall.write ((data.drop off).take (m + 1)) (.ok 0)]) hlt
            (by simpa using ha.2)
          exact ⟨rest, log2, by simp [TcpConnection.write_loop, h2]⟩
      | eagain => simp [WriteResult.fails] at ha
      | error =>
        exact ⟨rs, log ++ [Syscall.write ((data.drop off).take (m + 1)) .error],
          by simp [TcpConnection.write_loop]⟩

theorem to_ssize_small (n : Nat) (h : n < 2 ^ 63) : to_ssize n = (n : Int) := by
  have h1 : n % SIZE_MOD = n := Nat.mod_eq_of_lt (by unfold SIZE_MOD; omega)
  have h2 : n < 9223372036854775808 := by omega
  simp [to_ssize, h1, h2]

/-- C19: on an open connection, for a packet of L > 0 bytes: when the write syscalls
accept all L bytes before any `EAGAIN` or error, `write()` returns a future whose cell
is already ready with L, issues no reactor call and leaves every field of the connection
(output buffer, pending write, event mask) unchanged; when a syscall fails with an error
other than `EAGAIN`, the cell is ready with -1. -/
theorem TcpConnection.write_fast_path (s : Sys) (p : Packet) (hc : s.conn.closed_ = false)
    (hL : 0 < p.size) (hmax : p.size < 2 ^ 63) :
    (WriteResult.accepts_all s.writes p.size = true →
      (TcpConnection.write s p).1 = .ok { state := some s.world.states.length } ∧
      (TcpConnection.write s p).2.world.states[s.world.states.length]? =
        some { value := Val.ssize p.size, ready := true, callback := none } ∧
      (TcpConnection.write s p).2.reactor_calls = s.reactor_calls ∧
      (TcpConnection.write s p).2.conn = s.conn) ∧
    (WriteResult.fails s.writes p.size = true →
      (TcpConnection.write s p).1 = .ok { state := some s.world.states.length } ∧
      (TcpConnection.write s p).2.world.states[s.world.states.length]? =
        some { value := Val.ssize (-1), ready := true, callback := none }) := by
  have hlt : p.size < SIZE_MOD := by unfold SIZE_MOD; omega
  have hne : ¬ (p.size = 0) := by omega
  constructor
  · intro ha
    obtain ⟨off2, rest, log2, h2⟩ := TcpConnection.write_loop_accepts
      (p.to_string s.heap) s.writes 0 p.size s.syscalls hlt ha
    have h1 : TcpConnection.write s p =
        Sys.drop_packet (Sys.resolve_and_return
          { s with
            world := (Promise.new_of s.world (Val.ssize 0)).2
            writes := rest
            syscalls := log2 }
          (Promise.new_of s.world (Val.ssize 0)).1 (Val.ssize p.size)) p := by
      simp [TcpConnection.write, hc, hne, h2, to_ssize_small p.size hmax]
    have h3 := Sys.resolve_fresh { s with writes := rest, syscalls := log2 } (Val.ssize 0)
      (Val.ssize p.size)
    simp only at h3
    rw [h1, h3]
    exact ⟨rfl, lookup_append_new _ _, rfl, rfl⟩
  · intro ha
    obtain ⟨rest, log2, h2⟩ := TcpConnection.write_loop_fails
      (p.to_string s.heap) s.writes 0 p.size s.syscalls hlt ha
    have h1 : TcpConnection.write s p =
        Sys.drop_packet (Sys.resolve_and_return
          { s with
            world := (Promise.new_of s.world (Val.ssize 0)).2
            writes := rest
            syscalls := log2 }
          (Promise.new_of s.world (Val.ssize 0)).1 (Val.ssize (-1))) p := by
      simp [TcpConnection.write, hc, hne, h2]
    have h3 := Sys.resolve_fresh { s with writes := rest, syscalls := log2 } (Val.ssize 0)
      (Val.ssize (-1))
    simp only at h3
    rw [h1, h3]
    exact ⟨rfl, lookup_append_new _ _⟩

/-- C20 (amended): `write()` of a zero-byte packet performs no write syscall and leaves
the connection unchanged; it returns a future whose cell is already ready with 0 when
the connection is open, and with -1 when it is closed. -/
theorem TcpConnection.write_zero (s : Sys) (p : Packet) (hz : p.size = 0) :
    (TcpConnection.write s p).1 = .ok { state := some s.world.states.length } ∧
    (TcpConnection.write s p).2.world.states[s.world.states.length]? =
      some { value := Val.ssize (if s.conn.closed_ then -1 else 0), ready := true,
             callback := none } ∧
    (TcpConnection.write s p).2.syscalls = s.syscalls ∧
    (TcpConnection.write s p).2.writes = s.writes ∧
    (TcpConnection.write s p).2.conn = s.conn := by
  cases hc : s.conn.closed_ with
  | true =>
    have h1 : TcpConnection.write s p =
        Sys.drop_packet (Sys.resolve_and_return
          { s with world := (Promise.new_of s.world (Val.ssize 0)).2 }
          (Promise.new_of s.world (Val.ssize 0)).1 (Val.ssize (-1))) p := by
      simp [TcpConnection.write, hc]
    rw [h1, Sys.resolve_fresh]
    exact ⟨rfl, lookup_append_new _ _, rfl, rfl, rfl⟩
  | false =>
    have h1 : TcpConnection.write s p =
        Sys.drop_packet (Sys.resolve_and_return
          { s with world := (Promise.new_of s.world (Val.ssize 0)).2 }
          (Promise.new_of s.world (Val.ssize 0)).1 (Val.ssize 0)) p := by
      simp [TcpConnection.write, hc, hz]
    rw [h1, Sys.resolve_fresh]
    exact ⟨rfl, lookup_append_new _ _, rfl, rfl, rfl⟩

theorem vector_resize_back (buf : List Byte) (k : Nat) :
    vector_resize (vector_resize buf (buf.length + k)) buf.length = buf := by
  simp [vector_resize]

theorem TcpConnection.read_into_eq (old bytes : List Byte) (h : bytes.length ≤ kReadBufSize) :
    TcpConnection.read_into old bytes = old ++ bytes := by
  unfold TcpConnection.read_into vector_resize
  have h1 : bytes.take kReadBufSize = bytes := List.take_of_length_le h
  rw [h1]
  have h2 : old.length + bytes.length -
      (old ++ (bytes ++ List.replicate (kReadBufSize - bytes.length) 0)).length = 0 := by
    simp
  rw [h2]
  simp [List.take_append_eq_append_take]

theorem TcpConnection.drain_loop_full (chunks : List (List Byte)) :
    ∀ (tail : List ReadResult) (buf : List Byte) (log : List Syscall),
      (∀ c ∈ chunks, c.length = kReadBufSize) →
      TcpConnection.drain_loop (chunks.map ReadResult.ok ++ tail) buf log =
        TcpConnection.drain_loop tail (buf ++ chunks.flatten)
          (log ++ chunks.map (fun c => Syscall.read (ReadResult.ok c))) := by
  induction chunks with
  | nil =>
    intro tail buf log _
    simp
  | cons c cs ih =>
    intro tail buf log hfull
    have hc : c.length = kReadBufSize := hfull c (List.mem_cons_self _ _)
    have hpos : c.length > 0 := by rw [hc]; decide
    have hnot : ¬ (c.length < kReadBufSize) := by omega
    have hcs : ∀ x ∈ cs, x.length = kReadBufSize :=
      fun x hx => hfull x (List.mem_cons_of_mem _ hx)
    simp only [List.map_cons, List.cons_append, TcpConnection.drain_loop, hpos, hnot,
      if_true, if_false, List.append_eq]
    rw [TcpConnection.read_into_eq buf c (by omega), ih tail _ _ hcs]
    simp

theorem TcpConnection.drain_loop_short (chunks : List (List Byte)) (short : List Byte)
    (rest : List ReadResult) (buf : List Byte) (log : List Syscall)
    (hfull : ∀ c ∈ chunks, c.length = kReadBufSize) (h0 : 0 < short.length)
    (h1 : short.length < kReadBufSize) :
    TcpConnection.drain_loop (chunks.map ReadResult.ok ++ ReadResult.ok short :: rest) buf log =
      (.returned, buf ++ chunks.flatten ++ short, rest,
        log ++ chunks.map (fun c => Syscall.read (ReadResult.ok c)) ++
          [Syscall.read (ReadResult.ok short)]) := by
  rw [TcpConnection.drain_loop_full chunks _ buf log hfull]
  simp only [TcpConnection.drain_loop, h0, h1, if_true]
  rw [TcpConnection.read_into_eq _ short (by omega)]

theorem TcpConnection.drain_loop_eagain (chunks : List (List Byte))
    (rest : List ReadResult) (buf : List Byte) (log : List Syscall)
    (hfull : ∀ c ∈ chunks, c.length = kReadBufSize) :
    TcpConnection.drain_loop (chunks.map ReadResult.ok ++ ReadResult.eagain :: rest) buf log =
      (.returned, buf ++ chunks.flatten, rest,
        log ++ chunks.map (fun c => Syscall.read (ReadResult.ok c)) ++
          [Syscall.read ReadResult.eagain]) := by
  rw [TcpConnection.drain_loop_full chunks _ buf log hfull]
  simp only [TcpConnection.drain_loop]
  rw [vector_resize_back]

theorem Promise.set_value_resolves {V : Type} (w : World V) (p : Nat) (pr : Promise)
    (c : Nat) (st : State V) (val : V) (hp : w.promises[p]? = some pr)
    (hs : pr.state = some c) (hst : w.states[c]? = some st) (hr : st.ready = false) :
    (Promise.set_value w p val).1 = .ok () ∧
    (Promise.set_value w p val).2.states[c]? = some { st with value := val, ready := true } := by
  rw [Promise.set_value_fresh w p pr c st val hp hs hst hr]
  cases st.callback <;> simp [lookup_lt hst]

theorem TcpConnection.handle_events_readable (s : Sys) (events : Nat)
    (hE : events &&& (EPOLLERR ||| EPOLLHUP) = 0) (hI : events &&& EPOLLIN ≠ 0)
    (hO : events &&& EPOLLOUT = 0) :
    TcpConnection.handle_events s events = TcpConnection.handle_readable s := by
  simp only [TcpConnection.handle_events, hE, hI, hO, ne_eq, not_true_eq_false, if_false,
    not_false_eq_true, if_true]
  split
  · rename_i e s1 heq
    rw [heq]
  · rename_i u s1 heq
    rw [heq]

theorem TcpConnection.handle_readable_fulfils (s : Sys) (p : Nat) (pr : Promise) (c : Nat)
    (st : State Val) (appended : List Byte) (rest : List ReadResult) (log : List Syscall)
    (hd : TcpConnection.drain_loop s.reads s.conn.input_buffer_ s.syscalls =
      (.returned, s.conn.input_buffer_ ++ appended, rest, log))
    (hpend : s.conn.pending_read_ = some p) (hp : s.world.promises[p]? = some pr)
    (hs : pr.state = some c) (hst : s.world.states[c]? = some st) (hr : st.ready = false)
    (hri : s.conn.read_index_ = s.conn.input_buffer_.length) (hne : appended ≠ [])
    (hlen : (s.conn.input_buffer_ ++ appended).length < SIZE_MOD) :
    ∃ pkt : Packet,
      (TcpConnection.handle_readable s).1 = .ok () ∧
      (TcpConnection.handle_readable s).2.world.states[c]? =
        some { st with value := Val.packet pkt, ready := true } ∧
      pkt.to_string (TcpConnection.handle_readable s).2.heap = appended ∧
      (TcpConnection.handle_readable s).2.conn =
        { s.conn with input_buffer_ := [], read_index_ := 0, pending_read_ := none } ∧
      (TcpConnection.handle_readable s).2.reads = rest := by
  have hpos : 0 < appended.length := List.length_pos.mpr hne
  have hpeek : ({ s.conn with input_buffer_ := s.conn.input_buffer_ ++ appended } :
      TcpConnection).peek = appended := by
    simp [TcpConnection.peek, hri]
  have hrb := TcpConnection.readable_bytes_eq
    { s.conn with input_buffer_ := s.conn.input_buffer_ ++ appended }
    (by simp [hri]) hlen
  rw [hpeek] at hrb
  have hb := Packet.from_string_bytes s.heap appended
  have h1 : TcpConnection.handle_readable s =
      Sys.fulfil
        { s with
          heap := (Packet.from_string s.heap appended).2
          conn := { s.conn with input_buffer_ := [], read_index_ := 0, pending_read_ := none }
          reads := rest
          syscalls := log } p (Val.packet (Packet.from_string s.heap appended).1) := by
    simp only [TcpConnection.readable_bytes, TcpConnection.peek] at hrb hpeek
    simp only [TcpConnection.handle_readable, TcpConnection.drain_socket, hd, hpend,
      TcpConnection.readable_bytes, TcpConnection.peek, hrb, hpos, hpeek, gt_iff_lt, if_true,
      Packet.from_string, TcpConnection.retrieve_all]
  obtain ⟨k1, k2⟩ := Promise.set_value_resolves s.world p pr c st
    (Val.packet (Packet.from_string s.heap appended).1) hp hs hst hr
  refine ⟨(Packet.from_string s.heap appended).1, ?_⟩
  rw [h1]
  unfold Sys.fulfil
  exact ⟨k1, k2, hb.1, rfl, rfl⟩

/-- C18: on an open connection without unread bytes `read()` makes no syscall, stores
its promise in the pending read slot and returns a future whose cell is not ready. For a
connection in which such a read is pending, a readable event whose drain receives full
chunks followed by a short read, or at least one full chunk followed by `EAGAIN`,
resolves the cell with a packet holding exactly the bytes received, empties the input
buffer and the pending slot; a drain that meets `EAGAIN` at once changes neither the
connection nor the cell. -/
theorem TcpConnection.read_pending (s : Sys) (hc : s.conn.closed_ = false)
    (hri : s.conn.read_index_ = s.conn.input_buffer_.length) :
    ((TcpConnection.read s).1 = .ok { state := some s.world.states.length } ∧
      (TcpConnection.read s).2.world.states[s.world.states.length]? =
        some { value := Val.packet Packet.new, ready := false, callback := none } ∧
      (TcpConnection.read s).2.world.promises[s.world.promises.length]? =
        some { state := some s.world.states.length, future_retrieved_ := true } ∧
      (TcpConnection.read s).2.conn =
        { s.conn with pending_read_ := some s.world.promises.length } ∧
      (TcpConnection.read s).2.syscalls = s.syscalls) ∧
    ∀ (s2 : Sys) (p : Nat) (pr : Promise) (c : Nat) (st : State Val) (events : Nat)
      (chunks : List (List Byte)) (rest : List ReadResult),
      s2.conn.closed_ = false → s2.conn.pending_read_ = some p →
      s2.world.promises[p]? = some pr → pr.state = some c →
      s2.world.states[c]? = some st → st.ready = false →
      s2.conn.read_index_ = s2.conn.input_buffer_.length →
      events &&& (EPOLLERR ||| EPOLLHUP) = 0 → events &&& EPOLLIN ≠ 0 →
      events &&& EPOLLOUT = 0 →
      (∀ ch ∈ chunks, ch.length = kReadBufSize) →
      (∀ short : List Byte, 0 < short.length → short.length < kReadBufSize →
        s2.reads = chunks.map ReadResult.ok ++ ReadResult.ok short :: rest →
        (s2.conn.input_buffer_ ++ (chunks.flatten ++ short)).length < SIZE_MOD →
        ∃ pkt : Packet,
          (TcpConnection.handle_events s2 events).1 = .ok () ∧
          (TcpConnection.handle_events s2 events).2.world.states[c]? =
            some { st with value := Val.packet pkt, ready := true } ∧
          pkt.to_string (TcpConnection.handle_events s2 events).2.heap =
            chunks.flatten ++ short ∧
          (TcpConnection.handle_events s2 events).2.conn =
            { s2.conn with input_buffer_ := [], read_index_ := 0, pending_read_ := none }) ∧
      (chunks ≠ [] →
        s2.reads = chunks.map ReadResult.ok ++ ReadResult.eagain :: rest →
        (s2.conn.input_buffer_ ++ chunks.flatten).length < SIZE_MOD →
        ∃ pkt : Packet,
          (TcpConnection.handle_events s2 events).1 = .ok () ∧
          (TcpConnection.handle_events s2 events).2.world.states[c]? =
            some { st with value := Val.packet pkt, ready := true } ∧
          pkt.to_string (TcpConnection.handle_events s2 events).2.heap = chunks.flatten ∧
          (TcpConnection.handle_events s2 events).2.conn =
            { s2.conn with input_buffer_ := [], read_index_ := 0, pending_read_ := none }) ∧
      (s2.reads = ReadResult.eagain :: rest →
        (TcpConnection.handle_events s2 events).1 = .ok () ∧
        (TcpConnection.handle_events s2 events).2.conn = s2.conn ∧
        (TcpConnection.handle_events s2 events).2.world = s2.world ∧
        (TcpConnection.handle_events s2 events).2.heap = s2.heap) := by
  constructor
  · have hrb : s.conn.readable_bytes = 0 := by
      unfold TcpConnection.readable_bytes
      rw [hri]
      have : s.conn.input_buffer_.length + SIZE_MOD - s.conn.input_buffer_.length = SIZE_MOD := by
        omega
      rw [this, Nat.mod_self]
    have h1 : TcpConnection.read s =
        (.ok { state := some s.world.states.length },
          { s with
            world :=
              { states := s.world.states ++
                  [{ value := Val.packet Packet.new, ready := false, callback := none }]
                promises := s.world.promises ++
                  [{ state := some s.world.states.length, future_retrieved_ := true }]
                instance_ := s.world.instance_
                trace := s.world.trace }
            conn := { s.conn with pending_read_ := some s.world.promises.length } }) := by
      simp [TcpConnection.read, hc, hrb, Promise.new_of, Promise.get_future,
        list_set_append_new]
    rw [h1]
    exact ⟨rfl, lookup_append_new _ _, lookup_append_new _ _, rfl, rfl⟩
  · intro s2 p pr c st events chunks rest _ hpend hp hs hst hr hri2 hE hI hO hfull
    rw [TcpConnection.handle_events_readable s2 events hE hI hO]
    refine ⟨?_, ?_, ?_⟩
    · intro short h0 h1 hreads hlen
      have hd := TcpConnection.drain_loop_short chunks short rest s2.conn.input_buffer_
        s2.syscalls hfull h0 h1
      rw [← hreads, List.append_assoc] at hd
      have hne : chunks.flatten ++ short ≠ [] := by
        intro h
        have h2 := List.append_eq_nil.mp h
        rw [h2.2] at h0
        exact absurd h0 (by decide)
      obtain ⟨pkt, k1, k2, k3, k4, _⟩ := TcpConnection.handle_readable_fulfils s2 p pr c st
        (chunks.flatten ++ short) rest _ hd hpend hp hs hst hr hri2 hne hlen
      exact ⟨pkt, k1, k2, k3, k4⟩
    · intro hne0 hreads hlen
      have hd := TcpConnection.drain_loop_eagain chunks rest s2.conn.input_buffer_
        s2.syscalls hfull
      rw [← hreads] at hd
      have hne : chunks.flatten ≠ [] := by
        cases chunks with
        | nil => exact absurd rfl hne0
        | cons ch cs =>
          intro h
          have h2 := congrArg List.length h
          have h3 := hfull ch (List.mem_cons_self _ _)
          simp [h3, kReadBufSize] at h2
      obtain ⟨pkt, k1, k2, k3, k4, _⟩ := TcpConnection.handle_readable_fulfils s2 p pr c st
        chunks.flatten rest _ hd hpend hp hs hst hr hri2 hne hlen
      exact ⟨pkt, k1, k2, k3, k4⟩
    · intro hreads
      have hrb : s2.conn.readable_bytes = 0 := by
        unfold TcpConnection.readable_bytes
        rw [hri2]
        have : s2.conn.input_buffer_.length + SIZE_MOD - s2.conn.input_buffer_.length =
            SIZE_MOD := by omega
        rw [this, Nat.mod_self]
      simp only [TcpConnection.readable_bytes] at hrb
      simp [TcpConnection.handle_readable, TcpConnection.drain_socket, hreads,
        TcpConnection.drain_loop, vector_resize_back, hpend, TcpConnection.readable_bytes, hrb]
      rw [← hpend]

/-- Witness for C16: `read()` on the closed example connection. -/
theorem TcpConnection.read_closed_witness :
    Sys.example_closed.conn.closed_ = true ∧
    (TcpConnection.read Sys.example_closed).2.world.states[
        Sys.example_closed.world.states.length]? =
      some { value := Val.packet Packet.new, ready := true, callback := none } ∧
    (TcpConnection.read Sys.example_closed).2.syscalls = Sys.example_closed.syscalls :=
  ⟨by decide, (TcpConnection.read_closed Sys.example_closed (by decide)).2.1,
    (TcpConnection.read_closed Sys.example_closed (by decide)).2.2.2.2.2.1⟩

/-- Witness for C17: `read()` on the example connection holding three unread bytes. -/
theorem TcpConnection.read_buffered_witness :
    Sys.example_buffered.conn.input_buffer_ = [1, 2, 3] ∧
    ∃ pkt : Packet,
      (TcpConnection.read Sys.example_buffered).2.world.states[
          Sys.example_buffered.world.states.length]? =
        some { value := Val.packet pkt, ready := true, callback := none } ∧
      pkt.to_string (TcpConnection.read Sys.example_buffered).2.heap =
        Sys.example_buffered.conn.input_buffer_.drop Sys.example_buffered.conn.read_index_ :=
  ⟨by decide,
    match TcpConnection.read_buffered Sys.example_buffered (by decide) (by decide)
      (by decide) with
    | ⟨pkt, _, h2, h3, _⟩ => ⟨pkt, h2, h3⟩⟩

/-- Witness for C18: `read()` on the fresh example connection, then a readable event that
delivers three bytes. -/
theorem TcpConnection.read_pending_witness :
    ∃ pkt : Packet,
      (TcpConnection.handle_events (TcpConnection.read Sys.example_open).2 EPOLLIN).2.world.states[
          0]? = some { value := Val.packet pkt, ready := true, callback := none } ∧
      pkt.to_string
        (TcpConnection.handle_events (TcpConnection.read Sys.example_open).2 EPOLLIN).2.heap =
        [] ++ [1, 2, 3] :=
  match ((TcpConnection.read_pending Sys.example_open (by decide) (by decide)).2
      (TcpConnection.read Sys.example_open).2 0
      { state := some 0, future_retrieved_ := true } 0
      { value := Val.packet Packet.new, ready := false, callback := none } EPOLLIN []
      [ReadResult.eagain] (by decide) (by decide) (by decide) rfl rfl rfl (by decide)
      (by decide) (by decide) (by decide) (by simp)).1 [1, 2, 3] (by decide) (by decide)
      (by decide) (by decide) with
  | ⟨pkt, _, h2, h3, _⟩ => ⟨pkt, h2, h3⟩

/-- Witness for C19: the kernel accepts the three bytes of the example packet at once. -/
theorem TcpConnection.write_fast_path_witness :
    (TcpConnection.write Sys.example_open Sys.example_packet.1).2.world.states[
        Sys.example_open.world.states.length]? =
      some { value := Val.ssize Sys.example_packet.1.size, ready := true, callback := none } ∧
    (TcpConnection.write Sys.example_open Sys.example_packet.1).2.reactor_calls =
      Sys.example_open.reactor_calls :=
  ⟨((TcpConnection.write_fast_path Sys.example_open Sys.example_packet.1 (by decide)
      (by decide) (by decide)).1 (by decide)).2.1,
    ((TcpConnection.write_fast_path Sys.example_open Sys.example_packet.1 (by decide)
      (by decide) (by decide)).1 (by decide)).2.2.1⟩

/-- Counterexample for C20: on a closed connection `write()` of the zero-byte packet
`Packet()` resolves the future with -1, not with 0. -/
theorem TcpConnection.write_zero_closed_counterexample :
    Sys.example_closed.conn.closed_ = true ∧ Packet.new.size = 0 ∧
    ((TcpConnection.write Sys.example_closed Packet.new).2.world.states[
        Sys.example_closed.world.states.length]?.map (fun st => (st.value, st.ready))) =
      some (Val.ssize (-1), true) ∧
    ((TcpConnection.write Sys.example_closed Packet.new).2.world.states[
        Sys.example_closed.world.states.length]?.map (fun st => st.value)) ≠
      some (Val.ssize 0) := by
  decide

/-- Witness for C20 (amended): `write(Packet())` on the open example connection. -/
theorem TcpConnection.write_zero_witness :
    (TcpConnection.write Sys.example_open Packet.new).2.world.states[
        Sys.example_open.world.states.length]? =
      some { value := Val.ssize (if Sys.example_open.conn.closed_ then -1 else 0),
             ready := true, callback := none } ∧
    (TcpConnection.write Sys.example_open Packet.new).2.syscalls = Sys.example_open.syscalls :=
  ⟨(TcpConnection.write_zero Sys.example_open Packet.new (by decide)).2.1,
    (TcpConnection.write_zero Sys.example_open Packet.new (by decide)).2.2.1⟩

/-! ## Theorems: the slab pool -/

theorem ThreadLocalPool.link_chunk_eq (K : Nat) (memory : List NodePtr) (n : Nat)
    (hn : n ≤ K) :
    (List.range n).foldl (fun m i => m.set (memory.length + i) (some (memory.length + i + 1)))
      (memory ++ List.replicate K none) =
    memory ++ (List.range n).map (fun i => some (memory.length + i + 1)) ++
      List.replicate (K - n) none := by
  induction n with
  | zero => simp
  | succ n ih =>
    rw [List.range_succ, List.foldl_append, ih (by omega)]
    have h1 : K - n = (K - (n + 1)) + 1 := by omega
    rw [h1, List.replicate_succ]
    simp only [List.foldl_cons, List.foldl_nil, List.map_append, List.map_cons, List.map_nil]
    have h2 : memory.length + n =
        (memory ++ (List.range n).map (fun i => some (memory.length + i + 1))).length := by
      simp
    rw [h2, List.set_append_right _ _ (le_refl _)]
    simp

theorem ThreadLocalPool.allocate_chunk_memory (p : ThreadLocalPool) (hK : 0 < p.ChunkSize) :
    p.allocate_chunk.memory =
      p.memory ++ (List.range (p.ChunkSize - 1)).map (fun i => some (p.memory.length + i + 1))
        ++ [p.head_] := by
  simp only [ThreadLocalPool.allocate_chunk, ThreadLocalPool.link_chunk]
  rw [ThreadLocalPool.link_chunk_eq _ _ _ (by omega)]
  have h1 : p.ChunkSize - (p.ChunkSize - 1) = 1 := by omega
  rw [h1]
  have h2 : p.memory.length + (p.ChunkSize - 1) =
      (p.memory ++
        (List.range (p.ChunkSize - 1)).map (fun i => some (p.memory.length + i + 1))).length := by
    simp
  rw [h2, List.set_append_right _ _ (le_refl _)]
  simp

theorem ThreadLocalPool.allocate_chunk_length (p : ThreadLocalPool) (hK : 0 < p.ChunkSize) :
    p.allocate_chunk.memory.length = p.memory.length + p.ChunkSize := by
  rw [ThreadLocalPool.allocate_chunk_memory p hK]
  simp
  omega

theorem ThreadLocalPool.lseg_append (memory : List NodePtr) (l1 l2 : List Nat) :
    ∀ (hd mid tl : NodePtr), ThreadLocalPool.lseg memory hd l1 mid →
      ThreadLocalPool.lseg memory mid l2 tl → ThreadLocalPool.lseg memory hd (l1 ++ l2) tl := by
  induction l1 with
  | nil =>
    intro hd mid tl h1 h2
    simp only [ThreadLocalPool.lseg] at h1
    subst h1
    simpa using h2
  | cons a l ih =>
    intro hd mid tl h1 h2
    obtain ⟨ha, next, hn, hrest⟩ := h1
    exact ⟨ha, next, hn, ih next mid tl hrest h2⟩

/-- Writes outside the nodes of a segment of the free list keep the segment. -/
theorem ThreadLocalPool.lseg_congr (m1 m2 : List NodePtr) (l : List Nat)
    (h : ∀ a ∈ l, m2[a]? = m1[a]?) :
    ∀ (hd tl : NodePtr), ThreadLocalPool.lseg m1 hd l tl → ThreadLocalPool.lseg m2 hd l tl := by
  induction l with
  | nil => intro hd tl h1; exact h1
  | cons a l ih =>
    intro hd tl h1
    obtain ⟨ha, next, hn, hrest⟩ := h1
    refine ⟨ha, next, ?_, ih (fun b hb => h b (List.mem_cons_of_mem _ hb)) next tl hrest⟩
    rw [h a (List.mem_cons_self _ _)]
    exact hn

/-- After `deallocate` of pairwise distinct nodes of the pool, the free list leads through
them in reverse order to the old head; the chunks and the other slots are untouched. -/
theorem ThreadLocalPool.deallocate_all_lseg (ps : List Nat) :
    ∀ (p : ThreadLocalPool), ps.Nodup → (∀ a ∈ ps, a < p.memory.length) →
      ∃ p1, p.deallocate_all ps = some p1 ∧ p1.chunks_ = p.chunks_ ∧
        p1.ChunkSize = p.ChunkSize ∧
        p1.memory.length = p.memory.length ∧
        (∀ b, b ∉ ps → p1.memory[b]? = p.memory[b]?) ∧
        ThreadLocalPool.lseg p1.memory p1.head_ ps.reverse p.head_ := by
  induction ps with
  | nil =>
    intro p _ _
    exact ⟨p, rfl, rfl, rfl, rfl, fun _ _ => rfl, rfl⟩
  | cons a rest ih =>
    intro p hd hb
    have ha : a < p.memory.length := hb a (List.mem_cons_self _ _)
    have hnd := List.nodup_cons.mp hd
    obtain ⟨p1, h1, h2, h3, h4, h5, h6⟩ :=
      ih { p with memory := p.memory.set a p.head_, head_ := some a } hnd.2
        (fun b hb2 => by simpa using hb b (List.mem_cons_of_mem _ hb2))
    refine ⟨p1, ?_, h2, h3, by simpa using h4, ?_, ?_⟩
    · simp only [ThreadLocalPool.deallocate_all, ThreadLocalPool.deallocate, ha, if_true]
      exact h1
    · intro b hb2
      have hba : b ≠ a := fun h => hb2 (h ▸ List.mem_cons_self _ _)
      have hbr : b ∉ rest := fun h => hb2 (List.mem_cons_of_mem _ h)
      rw [h5 b hbr]
      simp only
      rw [List.getElem?_set_ne (Ne.symm hba)]
    · rw [List.reverse_cons]
      refine ThreadLocalPool.lseg_append _ _ _ _ _ _ h6 ⟨rfl, p.head_, ?_, rfl⟩
      rw [h5 a hnd.1]
      simp [ha]

/-- Allocating as many times as a segment of the free list is long returns its nodes in
order, moves the head to the end of the segment and changes nothing else. -/
theorem ThreadLocalPool.allocate_n_lseg (l : List Nat) :
    ∀ (p : ThreadLocalPool) (tl : NodePtr), ThreadLocalPool.lseg p.memory p.head_ l tl →
      p.allocate_n l.length = some (l, { p with head_ := tl }) := by
  induction l with
  | nil =>
    intro p tl h
    simp only [ThreadLocalPool.lseg] at h
    simp [ThreadLocalPool.allocate_n, ← h]
  | cons a l ih =>
    intro p tl h
    obtain ⟨ha, next, hn, hrest⟩ := h
    have h1 : p.allocate = some (a, { p with head_ := next }) := by
      simp [ThreadLocalPool.allocate, ha, hn]
    simp only [List.length_cons, ThreadLocalPool.allocate_n, h1]
    rw [ih { p with head_ := next } tl hrest]

theorem ThreadLocalPool.new_handed_out (K : Nat) (hK : 0 < K) :
    (ThreadLocalPool.new K).handed_out K 1 0 := by
  have hm := ThreadLocalPool.allocate_chunk_memory
    { ChunkSize := K, head_ := none, chunks_ := [], memory := [] } hK
  have hl := ThreadLocalPool.allocate_chunk_length
    { ChunkSize := K, head_ := none, chunks_ := [], memory := [] } hK
  simp only [List.length_nil, List.nil_append, Nat.zero_add] at hm hl
  refine ⟨rfl, le_refl _, Nat.zero_le _, Or.inl rfl, ?_, ?_, ?_, ?_⟩
  · simp [ThreadLocalPool.new, ThreadLocalPool.allocate_chunk, List.range_succ]
  · simpa [ThreadLocalPool.new] using hl
  · simp [ThreadLocalPool.new, ThreadLocalPool.allocate_chunk, hK]
  · intro a _ ha
    simp only [Nat.one_mul] at ha ⊢
    simp only [ThreadLocalPool.new]
    rw [hm]
    by_cases h : a + 1 < K
    · rw [List.getElem?_append_left (by simp; omega)]
      simp [h]
      exact List.getElem?_range (by omega)
    · have ha2 : a = K - 1 := by omega
      rw [List.getElem?_append_right (by simp; omega)]
      simp only [List.length_map, List.length_range, ha2, Nat.sub_self, List.getElem?_cons_zero]
      rw [if_neg (by omega)]

theorem ThreadLocalPool.allocate_handed_out (p : ThreadLocalPool) (K c m : Nat) (hK : 0 < K)
    (h : p.handed_out K c m) :
    ∃ c1 p1, p.allocate = some (m, p1) ∧
      ∀ bytes, (p1.construct m bytes).handed_out K c1 (m + 1) := by
  obtain ⟨hk, hc, hm, hlow, hch, hlen, hhead, hmem⟩ := h
  by_cases hfull : m < c * K
  · simp only [hfull, if_true] at hhead
    have hcell := hmem m (le_refl _) hfull
    refine ⟨c, { p with head_ := if m + 1 < c * K then some (m + 1) else none }, ?_, ?_⟩
    · simp [ThreadLocalPool.allocate, hhead, hcell]
    · intro bytes
      refine ⟨hk, hc, by omega, ?_, hch, ?_, rfl, ?_⟩
      · rcases hlow with h1 | h1
        · exact Or.inl h1
        · exact Or.inr (by omega)
      · simpa [ThreadLocalPool.construct] using hlen
      · intro a ha1 ha2
        simp only [ThreadLocalPool.construct]
        rw [List.getElem?_set_ne (by omega)]
        exact hmem a (by omega) ha2
  · have hmc : m = c * K := by omega
    simp only [hfull, if_false] at hhead
    have hK2 : 0 < p.ChunkSize := by omega
    have hm2 := ThreadLocalPool.allocate_chunk_memory p hK2
    have hl2 := ThreadLocalPool.allocate_chunk_length p hK2
    rw [hk, hlen, hhead] at hm2
    rw [hk, hlen] at hl2
    have hhd : p.allocate_chunk.head_ = some m := by
      simp [ThreadLocalPool.allocate_chunk, hlen, hmc]
    have hchunks : p.allocate_chunk.chunks_ = (List.range (c + 1)).map (fun i => i * K) := by
      simp [ThreadLocalPool.allocate_chunk, hch, hlen, List.range_succ]
    have hcs : p.allocate_chunk.ChunkSize = K := by
      simp [ThreadLocalPool.allocate_chunk, hk]
    have hcell : ∀ a, m ≤ a → a < (c + 1) * K →
        p.allocate_chunk.memory[a]? =
          some (if a + 1 < (c + 1) * K then some (a + 1) else none) := by
      intro a ha1 ha2
      have hsucc : (c + 1) * K = c * K + K := by ring
      rw [hm2]
      by_cases hlast : a + 1 < (c + 1) * K
      · rw [List.getElem?_append_left (by simp; omega)]
        rw [List.getElem?_append_right (by omega)]
        simp [hlast, hlen]
        exact ⟨a - c * K, List.getElem?_range (by omega), by omega⟩
      · rw [List.getElem?_append_right (by simp; omega)]
        have : a - (p.memory ++ List.map (fun i => some (c * K + i + 1))
            (List.range (K - 1))).length = 0 := by
          simp [hlen]
          omega
        rw [this]
        simp [hlast]
    refine ⟨c + 1, { p.allocate_chunk with
      head_ := if m + 1 < (c + 1) * K then some (m + 1) else none }, ?_, ?_⟩
    · have := hcell m (le_refl _) (by rw [hmc]; nlinarith)
      simp [ThreadLocalPool.allocate, hhead, hhd, this]
    · intro bytes
      have hsucc : (c + 1) * K = c * K + K := by ring
      refine ⟨hcs, by omega, by omega, Or.inr (by simp; omega), hchunks, ?_, rfl, ?_⟩
      · simp only [ThreadLocalPool.construct, List.length_set]
        rw [hl2, hsucc]
      · intro a ha1 ha2
        simp only [ThreadLocalPool.construct]
        rw [List.getElem?_set_ne (by omega)]
        exact hcell a (by omega) ha2

theorem ThreadLocalPool.new_objects_handed_out (K : Nat) (hK : 0 < K) (objects : List NodePtr) :
    ∀ (p : ThreadLocalPool) (c m : Nat), p.handed_out K c m →
      ∃ c1 p1, p.new_objects objects = some (List.range' m objects.length, p1) ∧
        p1.handed_out K c1 (m + objects.length) := by
  induction objects with
  | nil =>
    intro p c m h
    exact ⟨c, p, rfl, h⟩
  | cons bytes rest ih =>
    intro p c m h
    obtain ⟨c1, p1, h1, h2⟩ := ThreadLocalPool.allocate_handed_out p K c m hK h
    obtain ⟨c2, p2, h3, h4⟩ := ih (p1.construct m bytes) c1 (m + 1) (h2 bytes)
    refine ⟨c2, p2, ?_, ?_⟩
    · simp only [ThreadLocalPool.new_objects, h1, h3, List.length_cons, List.range'_succ]
    · have : m + (bytes :: rest).length = m + 1 + rest.length := by
        simp only [List.length_cons]; omega
      rw [this]
      exact h4

theorem ThreadLocalPool.handed_out_chunks (p : ThreadLocalPool) (K c m : Nat) (hK : 0 < K)
    (h : p.handed_out K c m) :
    p.chunks_.length = max 1 ((m + K - 1) / K) ∧ p.memory.length = p.chunks_.length * K := by
  obtain ⟨_, hc, hm, hlow, hch, hlen, _, _⟩ := h
  have hcl : p.chunks_.length = c := by simp [hch]
  rw [hcl]
  refine ⟨?_, hlen⟩
  have hle : (m + K - 1) / K ≤ c := by
    rw [Nat.div_le_iff_le_mul_add_pred hK]
    have : K * c = c * K := Nat.mul_comm _ _
    omega
  rcases hlow with h1 | h1
  · omega
  · have hge : c ≤ (m + K - 1) / K := by
      rw [Nat.le_div_iff_mul_le hK]
      have : c * K = (c - 1) * K + K := by
        have : c = (c - 1) + 1 := by omega
        nth_rewrite 1 [this]
        ring
      omega
    omega

/-- C13: the free list of the slab pool is LIFO. For every pool and every node `a` of
its memory, `deallocate(a)` immediately followed by `allocate()` returns `a`; and for
pairwise distinct nodes `p1, ..., pn` of its memory, deallocating them in this order and
then allocating `n` times returns `pn, ..., p1`, with the same chunks (no new chunk is
obtained), the same amount of memory and the head of the free list as it was before. -/
theorem ThreadLocalPool.free_list_lifo (p : ThreadLocalPool) (ps : List Nat)
    (hd : ps.Nodup) (hb : ∀ a ∈ ps, a < p.memory.length) :
    (∀ a, a < p.memory.length →
      ∃ p1 p2, p.deallocate a = some p1 ∧ p1.allocate = some (a, p2) ∧
        p2.chunks_ = p.chunks_ ∧ p2.head_ = p.head_) ∧
    ∃ p1 p2, p.deallocate_all ps = some p1 ∧
      p1.allocate_n ps.length = some (ps.reverse, p2) ∧
      p2.chunks_ = p.chunks_ ∧ p2.memory.length = p.memory.length ∧ p2.head_ = p.head_ := by
  constructor
  · intro a ha
    refine ⟨{ p with memory := p.memory.set a p.head_, head_ := some a },
      { p with memory := p.memory.set a p.head_ }, ?_, ?_, rfl, rfl⟩
    · simp only [ThreadLocalPool.deallocate, ha, if_true]
    · simp [ThreadLocalPool.allocate, ha]
  · obtain ⟨p1, h1, h2, _, h4, _, h6⟩ := ThreadLocalPool.deallocate_all_lseg ps p hd hb
    refine ⟨p1, { p1 with head_ := p.head_ }, h1, ?_, h2, h4, rfl⟩
    have := ThreadLocalPool.allocate_n_lseg ps.reverse p1 p.head_ h6
    simpa using this

/-- Witness for C13: the four nodes of a fresh pool with chunks of four are handed out,
then the nodes 2, 0 and 3 are given back in this order. -/
theorem ThreadLocalPool.free_list_lifo_witness :
    ([2, 0, 3] : List Nat).Nodup ∧
    (∀ a ∈ ([2, 0, 3] : List Nat), a < ThreadLocalPool.example_in_use.memory.length) ∧
    ((∀ a, a < ThreadLocalPool.example_in_use.memory.length →
      ∃ p1 p2, ThreadLocalPool.example_in_use.deallocate a = some p1 ∧
        p1.allocate = some (a, p2) ∧
        p2.chunks_ = ThreadLocalPool.example_in_use.chunks_ ∧
        p2.head_ = ThreadLocalPool.example_in_use.head_) ∧
    ∃ p1 p2, ThreadLocalPool.example_in_use.deallocate_all [2, 0, 3] = some p1 ∧
      p1.allocate_n ([2, 0, 3] : List Nat).length = some (([2, 0, 3] : List Nat).reverse, p2) ∧
      p2.chunks_ = ThreadLocalPool.example_in_use.chunks_ ∧
      p2.memory.length = ThreadLocalPool.example_in_use.memory.length ∧
      p2.head_ = ThreadLocalPool.example_in_use.head_) :=
  ⟨by decide, by decide,
    ThreadLocalPool.free_list_lifo ThreadLocalPool.example_in_use [2, 0, 3] (by decide)
      (by decide)⟩

/-- C14: the slab pool obtains memory only in chunks of exactly `K` nodes (`K ≥ 1`).
The constructor obtains one chunk of `K` nodes. `allocate` on a pool whose head, when
not null, is a node of the pool returns a node and obtains one more chunk of exactly `K`
nodes when the free list is empty, and no chunk otherwise. `deallocate` of a node of the
pool keeps the chunks and the memory. The chunks before either call are kept, in order,
as the first chunks afterwards. Hence after `m` objects have been created in a fresh
pool with nothing given back, the nodes handed out are the slots `0, ..., m - 1` and the
pool holds `max(1, ceil(m / K))` chunks of `K` nodes each. -/
theorem ThreadLocalPool.chunk_growth (K : Nat) (hK : 0 < K) :
    ((ThreadLocalPool.new K).chunks_.length = 1 ∧ (ThreadLocalPool.new K).memory.length = K) ∧
    (∀ p : ThreadLocalPool, p.ChunkSize = K →
      (∀ a, p.head_ = some a → a < p.memory.length) →
      ∃ a p1, p.allocate = some (a, p1) ∧
        p1.chunks_ = (if p.head_ = none then p.chunks_ ++ [p.memory.length] else p.chunks_) ∧
        p1.memory.length = p.memory.length + (if p.head_ = none then K else 0)) ∧
    (∀ (p : ThreadLocalPool) (a : Nat), a < p.memory.length →
      ∃ p1, p.deallocate a = some p1 ∧ p1.chunks_ = p.chunks_ ∧
        p1.memory.length = p.memory.length) ∧
    (∀ objects : List NodePtr,
      ∃ p1, (ThreadLocalPool.new K).new_objects objects =
          some (List.range' 0 objects.length, p1) ∧
        p1.chunks_.length = max 1 ((objects.length + K - 1) / K) ∧
        p1.memory.length = p1.chunks_.length * K) := by
  refine ⟨?_, ?_, ?_, ?_⟩
  · have h := ThreadLocalPool.handed_out_chunks _ K 1 0 hK (ThreadLocalPool.new_handed_out K hK)
    have h0 : (0 + K - 1) / K = 0 := by
      rw [Nat.div_eq_zero_iff hK]
      omega
    rw [h0] at h
    obtain ⟨h1, h2⟩ := h
    rw [h1] at h2
    exact ⟨h1, by simpa using h2⟩
  · intro p hk hv
    cases hh : p.head_ with
    | none =>
      have hK2 : 0 < p.ChunkSize := by omega
      have hm := ThreadLocalPool.allocate_chunk_memory p hK2
      have hl := ThreadLocalPool.allocate_chunk_length p hK2
      have hhd : p.allocate_chunk.head_ = some p.memory.length := rfl
      have hin : p.memory.length < p.allocate_chunk.memory.length := by omega
      obtain ⟨next, hnext⟩ : ∃ next, p.allocate_chunk.memory[p.memory.length]? = some next :=
        ⟨_, List.getElem?_eq_getElem hin⟩
      refine ⟨p.memory.length, { p.allocate_chunk with head_ := next }, ?_, ?_, ?_⟩
      · simp [ThreadLocalPool.allocate, hh, hhd, hnext]
      · simp [ThreadLocalPool.allocate_chunk]
      · simp only [if_true]
        rw [hl, hk]
    | some a =>
      have hin := hv a hh
      refine ⟨a, { p with head_ := p.memory[a] }, ?_, ?_, ?_⟩
      · simp [ThreadLocalPool.allocate, hh, List.getElem?_eq_getElem hin]
      · simp
      · simp
  · intro p a ha
    exact ⟨{ p with memory := p.memory.set a p.head_, head_ := some a },
      by simp only [ThreadLocalPool.deallocate, ha, if_true], rfl, by simp⟩
  · intro objects
    obtain ⟨c1, p1, h1, h2⟩ := ThreadLocalPool.new_objects_handed_out K hK objects _ 1 0
      (ThreadLocalPool.new_handed_out K hK)
    refine ⟨p1, h1, ?_⟩
    have := ThreadLocalPool.handed_out_chunks p1 K c1 _ hK h2
    simpa using this

/-- Witness for C14: pools with the default chunk size of 256 nodes. -/
theorem ThreadLocalPool.chunk_growth_witness :
    0 < 256 ∧
    ((ThreadLocalPool.new 256).chunks_.length = 1 ∧
      (ThreadLocalPool.new 256).memory.length = 256) ∧
    (∀ p : ThreadLocalPool, p.ChunkSize = 256 →
      (∀ a, p.head_ = some a → a < p.memory.length) →
      ∃ a p1, p.allocate = some (a, p1) ∧
        p1.chunks_ = (if p.head_ = none then p.chunks_ ++ [p.memory.length] else p.chunks_) ∧
        p1.memory.length = p.memory.length + (if p.head_ = none then 256 else 0)) ∧
    (∀ (p : ThreadLocalPool) (a : Nat), a < p.memory.length →
      ∃ p1, p.deallocate a = some p1 ∧ p1.chunks_ = p.chunks_ ∧
        p1.memory.length = p.memory.length) ∧
    (∀ objects : List NodePtr,
      ∃ p1, (ThreadLocalPool.new 256).new_objects objects =
          some (List.range' 0 objects.length, p1) ∧
        p1.chunks_.length = max 1 ((objects.length + 256 - 1) / 256) ∧
        p1.memory.length = p1.chunks_.length * 256) :=
  ⟨by decide, ThreadLocalPool.chunk_growth 256 (by decide)⟩

/-! ## Theorems: the intrusive pointer -/

theorem Store.accounts_congr (objects : List (Option RefCounted)) (c1 c2 : Nat → Nat)
    (h : Store.accounts objects c1) (heq : ∀ o, c2 o = c1 o) : Store.accounts objects c2 := by
  intro o
  rw [heq o]
  exact h o

theorem Store.handle_count_le (s : Store) (o : Nat) : s.handle_count o ≤ s.handles.length :=
  List.count_le_length _ _

theorem LocalPtr.get_some {s : Store} {h : Nat} {p : Option Nat}
    (hg : LocalPtr.get s h = some p) : s.handles[h]? = some (some { ptr_ := p }) := by
  unfold LocalPtr.get at hg
  split at hg
  · next l hl =>
    cases l
    simp only [Option.some.injEq] at hg
    subst hg
    exact hl
  · exact absurd hg (by simp)

theorem LocalPtr.get_of_lookup {s : Store} {h : Nat} {p : Option Nat}
    (hl : s.handles[h]? = some (some { ptr_ := p })) : LocalPtr.get s h = some p := by
  simp [LocalPtr.get, hl]

theorem Store.handle_count_pos {s : Store} {h o : Nat}
    (hg : LocalPtr.get s h = some (some o)) : 0 < s.handle_count o := by
  unfold Store.handle_count
  rw [List.count_pos_iff, List.mem_iff_getElem?]
  exact ⟨h, LocalPtr.get_some hg⟩

/-- The count of handles after a handle variable has been added. -/
theorem Store.count_append_handle (H : List (Option LocalPtr)) (p : Option Nat) (x : Nat) :
    (H ++ [some (LocalPtr.mk p)]).count (some (LocalPtr.mk (some x))) =
      H.count (some (LocalPtr.mk (some x))) + (if p = some x then 1 else 0) := by
  rw [List.count_append, List.count_singleton]
  simp

/-- The count of handles after the variable `h` has been overwritten or destroyed. -/
theorem Store.count_set_handle (H : List (Option LocalPtr)) (h : Nat) (p : Option Nat)
    (v : Option LocalPtr) (hl : H[h]? = some (some { ptr_ := p })) (x : Nat) :
    (H.set h v).count (some (LocalPtr.mk (some x))) + (if p = some x then 1 else 0) =
      H.count (some (LocalPtr.mk (some x))) +
        (if v = some (LocalPtr.mk (some x)) then 1 else 0) := by
  have hlt : h < H.length := lookup_lt hl
  have hget : H[h] = some { ptr_ := p } := by
    rw [List.getElem?_eq_getElem hlt] at hl
    exact Option.some.inj hl
  rw [List.count_set _ _ _ _ hlt, hget]
  by_cases hp : p = some x
  · have hpos : 0 < H.count (some (LocalPtr.mk (some x))) := by
      rw [List.count_pos_iff, List.mem_iff_getElem?]
      exact ⟨h, by rw [hl, hp]⟩
    simp only [hp, beq_self_eq_true, if_true, beq_iff_eq]
    omega
  · have hne : ((some (LocalPtr.mk p)) == some (LocalPtr.mk (some x))) = false := by
      simp [hp]
    simp only [hne, hp, if_false, beq_iff_eq]
    simp

theorem RefCounted.add_ref_accounts (objects : List (Option RefCounted))
    (H : List (Option LocalPtr)) (cnt : Nat → Nat) (o : Nat)
    (hacc : Store.accounts objects cnt) (hpos : 0 < cnt o) (hlt : cnt o + 1 < UINT32_MOD) :
    RefCounted.add_ref { objects := objects, handles := H } o =
      some { objects := objects.set o (some { ref_count_ := cnt o + 1 }), handles := H } ∧
    Store.accounts (objects.set o (some { ref_count_ := cnt o + 1 }))
      (fun x => if x = o then cnt o + 1 else cnt x) := by
  have ho : objects[o]? = some (some { ref_count_ := cnt o }) := by
    rcases hacc o with h | h
    · exact h.2
    · omega
  constructor
  · simp [RefCounted.add_ref, ho, Nat.mod_eq_of_lt hlt]
  · intro x
    by_cases hx : x = o
    · subst hx
      left
      simp [lookup_lt ho]
    · simp only [hx, if_false]
      rw [List.getElem?_set_ne (Ne.symm hx)]
      exact hacc x

theorem RefCounted.release_accounts (objects : List (Option RefCounted))
    (H : List (Option LocalPtr)) (cnt : Nat → Nat) (o : Nat)
    (hacc : Store.accounts objects cnt) (hpos : 0 < cnt o) (hlt : cnt o < UINT32_MOD) :
    RefCounted.release { objects := objects, handles := H } o =
      some (Store.mk
        (objects.set o (if cnt o = 1 then none else some (RefCounted.mk (cnt o - 1)))) H) ∧
    Store.accounts
      (objects.set o (if cnt o = 1 then none else some (RefCounted.mk (cnt o - 1))))
      (fun x => if x = o then cnt o - 1 else cnt x) := by
  have ho : objects[o]? = some (some { ref_count_ := cnt o }) := by
    rcases hacc o with h | h
    · exact h.2
    · omega
  have hmod : (cnt o + UINT32_MOD - 1) % UINT32_MOD = cnt o - 1 := by
    have : cnt o + UINT32_MOD - 1 = (cnt o - 1) + UINT32_MOD := by omega
    rw [this, Nat.add_mod_right, Nat.mod_eq_of_lt (by omega)]
  constructor
  · by_cases h1 : cnt o = 1
    · simp [RefCounted.release, ho, hmod, h1]
    · have h2 : ¬ cnt o - 1 = 0 := by omega
      simp [RefCounted.release, ho, hmod, h1, h2]
  · intro x
    by_cases hx : x = o
    · subst hx
      by_cases h1 : cnt x = 1
      · right
        simp [h1, lookup_lt ho]
      · left
        simp only [if_true, h1, if_false]
        refine ⟨by omega, ?_⟩
        simp [lookup_lt ho]
    · simp only [hx, if_false]
      rw [List.getElem?_set_ne (Ne.symm hx)]
      exact hacc x

theorem Store.counted_alive {s : Store} (hc : s.counted) {h o : Nat}
    (hg : LocalPtr.get s h = some (some o)) :
    s.objects[o]? = some (some { ref_count_ := s.handle_count o }) := by
  have hpos := Store.handle_count_pos hg
  rcases hc o with h1 | h1
  · exact h1.2
  · omega

theorem LocalPtr.copy_spec (s : Store) (other o : Nat) (hc : s.counted)
    (hlen : s.handles.length + 1 < UINT32_MOD) (hg : LocalPtr.get s other = some (some o)) :
    LocalPtr.copy s other = some (s.handles.length,
      Store.mk (s.objects.set o (some (RefCounted.mk (s.handle_count o + 1))))
        (s.handles ++ [some (LocalPtr.mk (some o))])) ∧
    Store.counted (Store.mk (s.objects.set o (some (RefCounted.mk (s.handle_count o + 1))))
        (s.handles ++ [some (LocalPtr.mk (some o))])) := by
  have hpos := Store.handle_count_pos hg
  have hle := Store.handle_count_le s o
  obtain ⟨h1, h2⟩ := RefCounted.add_ref_accounts s.objects
    (s.handles ++ [some (LocalPtr.mk (some o))]) s.handle_count o hc hpos (by omega)
  constructor
  · simp only [LocalPtr.copy, hg, h1]
  · refine Store.accounts_congr _ _ _ h2 (fun x => ?_)
    simp only [Store.handle_count]
    rw [Store.count_append_handle]
    by_cases hx : x = o
    · simp [hx]
    · have : ¬ o = x := fun h => hx h.symm
      simp [hx, this]

theorem LocalPtr.copy_null_spec (s : Store) (other : Nat) (hc : s.counted)
    (hg : LocalPtr.get s other = some none) :
    LocalPtr.copy s other = some (s.handles.length,
      Store.mk s.objects (s.handles ++ [some (LocalPtr.mk none)])) ∧
    Store.counted (Store.mk s.objects (s.handles ++ [some (LocalPtr.mk none)])) := by
  constructor
  · simp only [LocalPtr.copy, hg]
  · refine Store.accounts_congr _ _ _ hc (fun x => ?_)
    simp only [Store.handle_count]
    rw [Store.count_append_handle]
    simp

theorem LocalPtr.null_spec (s : Store) (hc : s.counted) : (LocalPtr.null s).2.counted := by
  refine Store.accounts_congr _ _ _ hc (fun x => ?_)
  simp only [Store.handle_count, LocalPtr.null]
  rw [Store.count_append_handle]
  simp

theorem make_local_spec (s : Store) (hc : s.counted) :
    make_local s = some (s.handles.length,
      Store.mk (s.objects ++ [some (RefCounted.mk 1)])
        (s.handles ++ [some (LocalPtr.mk (some s.objects.length))])) ∧
    Store.counted (Store.mk (s.objects ++ [some (RefCounted.mk 1)])
        (s.handles ++ [some (LocalPtr.mk (some s.objects.length))])) := by
  constructor
  · simp [make_local, LocalPtr.of_raw, RefCounted.add_ref, UINT32_MOD, list_set_append_new]
  · intro x
    simp only [Store.handle_count]
    rw [Store.count_append_handle]
    by_cases hx : x = s.objects.length
    · subst hx
      left
      have h0 : s.handle_count s.objects.length = 0 := by
        rcases hc s.objects.length with h1 | h1
        · have := lookup_lt h1.2
          omega
        · exact h1.1
      simp only [Store.handle_count] at h0
      simp [h0]
    · have hne : ¬ s.objects.length = x := fun h => hx h.symm
      simp only [hne, Option.some.injEq, if_false, Nat.add_zero]
      rcases hc x with h1 | h1
      · left
        refine ⟨h1.1, ?_⟩
        rw [List.getElem?_append_left (lookup_lt h1.2)]
        exact h1.2
      · right
        refine ⟨h1.1, ?_⟩
        rcases h1.2 with h2 | h2
        · left
          rw [List.getElem?_append_left (lookup_lt h2)]
          exact h2
        · right
          rw [List.getElem?_eq_none_iff] at h2 ⊢
          simp
          omega

theorem LocalPtr.destroy_spec (s : Store) (h o : Nat) (hc : s.counted)
    (hlen : s.handles.length < UINT32_MOD) (hg : LocalPtr.get s h = some (some o)) :
    LocalPtr.destroy s h = some (Store.mk
      (s.objects.set o (if s.handle_count o = 1 then none
        else some (RefCounted.mk (s.handle_count o - 1))))
      (s.handles.set h none)) ∧
    Store.counted (Store.mk
      (s.objects.set o (if s.handle_count o = 1 then none
        else some (RefCounted.mk (s.handle_count o - 1))))
      (s.handles.set h none)) := by
  have hpos := Store.handle_count_pos hg
  have hle := Store.handle_count_le s o
  have hl := LocalPtr.get_some hg
  obtain ⟨h1, h2⟩ := RefCounted.release_accounts s.objects (s.handles.set h none)
    s.handle_count o hc hpos (by omega)
  constructor
  · simp only [LocalPtr.destroy, hl, h1]
  · refine Store.accounts_congr _ _ _ h2 (fun x => ?_)
    simp only [Store.handle_count]
    have := Store.count_set_handle s.handles h (some o) none hl x
    by_cases hx : x = o
    · subst hx
      simp at this ⊢
      omega
    · have hne : ¬ o = x := fun h => hx h.symm
      simp [hne] at this
      simp [hx, this]

theorem LocalPtr.destroy_null_spec (s : Store) (h : Nat) (hc : s.counted)
    (hg : LocalPtr.get s h = some none) :
    LocalPtr.destroy s h = some (Store.mk s.objects (s.handles.set h none)) ∧
    Store.counted (Store.mk s.objects (s.handles.set h none)) := by
  have hl := LocalPtr.get_some hg
  constructor
  · simp only [LocalPtr.destroy, hl]
  · refine Store.accounts_congr _ _ _ hc (fun x => ?_)
    simp only [Store.handle_count]
    have := Store.count_set_handle s.handles h none none hl x
    simpa using this

theorem LocalPtr.move_spec (s : Store) (other : Nat) (p : Option Nat) (hc : s.counted)
    (hg : LocalPtr.get s other = some p) :
    LocalPtr.move s other = some (s.handles.length,
      Store.mk s.objects
        ((s.handles ++ [some (LocalPtr.mk p)]).set other (some (LocalPtr.mk none)))) ∧
    Store.counted (Store.mk s.objects
        ((s.handles ++ [some (LocalPtr.mk p)]).set other (some (LocalPtr.mk none)))) := by
  have hl := LocalPtr.get_some hg
  constructor
  · simp only [LocalPtr.move, hg]
  · refine Store.accounts_congr _ _ _ hc (fun x => ?_)
    simp only [Store.handle_count]
    have h1 := Store.count_set_handle (s.handles ++ [some (LocalPtr.mk p)]) other p
      (some (LocalPtr.mk none)) (lookup_append_left hl _) x
    rw [Store.count_append_handle] at h1
    simp at h1
    omega

theorem LocalPtr.swap_ptr_spec (s : Store) (a b : Nat) (p q : Option Nat) (hc : s.counted)
    (ha : LocalPtr.get s a = some p) (hb : LocalPtr.get s b = some q) :
    LocalPtr.swap_ptr s a b = some (Store.mk s.objects
      ((s.handles.set a (some (LocalPtr.mk q))).set b (some (LocalPtr.mk p)))) ∧
    Store.counted (Store.mk s.objects
      ((s.handles.set a (some (LocalPtr.mk q))).set b (some (LocalPtr.mk p)))) := by
  have hla := LocalPtr.get_some ha
  have hlb := LocalPtr.get_some hb
  constructor
  · simp only [LocalPtr.swap_ptr, ha, hb]
  · refine Store.accounts_congr _ _ _ hc (fun x => ?_)
    simp only [Store.handle_count]
    have h1 := Store.count_set_handle s.handles a p (some (LocalPtr.mk q)) hla x
    by_cases hab : a = b
    · subst hab
      rw [hla] at hlb
      have hpq : p = q := by simpa using hlb
      subst hpq
      have h2 := Store.count_set_handle (s.handles.set a (some (LocalPtr.mk p))) a p
        (some (LocalPtr.mk p)) (lookup_set_self hla _) x
      by_cases hp : p = some x
      · subst hp
        rw [if_pos rfl, if_pos rfl] at h1 h2
        omega
      · have hv : ¬ (some (LocalPtr.mk p) = some (LocalPtr.mk (some x))) := by simp [hp]
        rw [if_neg hp, if_neg hv] at h1 h2
        omega
    · have h2 := Store.count_set_handle (s.handles.set a (some (LocalPtr.mk q))) b q
        (some (LocalPtr.mk p)) (by rw [lookup_set_ne hab]; exact hlb) x
      simp at h1 h2
      omega

theorem LocalPtr.move_assign_spec (s : Store) (this other o : Nat) (q : Option Nat)
    (hc : s.counted) (hlen : s.handles.length < UINT32_MOD) (hne : this ≠ other)
    (ht : LocalPtr.get s this = some (some o)) (hg : LocalPtr.get s other = some q) :
    LocalPtr.move_assign s this other = some (Store.mk
      (s.objects.set o (if s.handle_count o = 1 then none
        else some (RefCounted.mk (s.handle_count o - 1))))
      ((s.handles.set this (some (LocalPtr.mk q))).set other (some (LocalPtr.mk none)))) ∧
    Store.counted (Store.mk
      (s.objects.set o (if s.handle_count o = 1 then none
        else some (RefCounted.mk (s.handle_count o - 1))))
      ((s.handles.set this (some (LocalPtr.mk q))).set other (some (LocalPtr.mk none)))) := by
  have hpos := Store.handle_count_pos ht
  have hle := Store.handle_count_le s o
  have hlt := LocalPtr.get_some ht
  have hlo := LocalPtr.get_some hg
  obtain ⟨h1, h2⟩ := RefCounted.release_accounts s.objects s.handles
    s.handle_count o hc hpos (by omega)
  constructor
  · simp only [LocalPtr.move_assign, ht, hg, hne, ne_eq, not_false_eq_true, if_true, h1]
  · refine Store.accounts_congr _ _ _ h2 (fun x => ?_)
    simp only [Store.handle_count]
    have h3 := Store.count_set_handle s.handles this (some o) (some (LocalPtr.mk q)) hlt x
    have h4 := Store.count_set_handle (s.handles.set this (some (LocalPtr.mk q))) other q
      (some (LocalPtr.mk none)) (by rw [lookup_set_ne hne]; exact hlo) x
    by_cases hx : x = o
    · subst hx
      simp at h3 h4 ⊢
      omega
    · have hne2 : ¬ o = x := fun h => hx h.symm
      simp [hne2] at h3 h4
      simp only [hx, if_false]
      omega

theorem LocalPtr.move_assign_null_spec (s : Store) (this other : Nat) (q : Option Nat)
    (hc : s.counted) (hne : this ≠ other)
    (ht : LocalPtr.get s this = some none) (hg : LocalPtr.get s other = some q) :
    LocalPtr.move_assign s this other = some (Store.mk s.objects
      ((s.handles.set this (some (LocalPtr.mk q))).set other (some (LocalPtr.mk none)))) ∧
    Store.counted (Store.mk s.objects
      ((s.handles.set this (some (LocalPtr.mk q))).set other (some (LocalPtr.mk none)))) := by
  have hlt := LocalPtr.get_some ht
  have hlo := LocalPtr.get_some hg
  constructor
  · simp only [LocalPtr.move_assign, ht, hg, hne, ne_eq, not_false_eq_true, if_true]
  · refine Store.accounts_congr _ _ _ hc (fun x => ?_)
    simp only [Store.handle_count]
    have h3 := Store.count_set_handle s.handles this none (some (LocalPtr.mk q)) hlt x
    have h4 := Store.count_set_handle (s.handles.set this (some (LocalPtr.mk q))) other q
      (some (LocalPtr.mk none)) (by rw [lookup_set_ne hne]; exact hlo) x
    simp at h3 h4
    omega

theorem LocalPtr.copy_counted (s : Store) (other : Nat) (q : Option Nat) (hc : s.counted)
    (hlen : s.handles.length + 1 < UINT32_MOD) (hg : LocalPtr.get s other = some q) :
    ∃ objs, LocalPtr.copy s other =
        some (s.handles.length, Store.mk objs (s.handles ++ [some (LocalPtr.mk q)])) ∧
      Store.counted (Store.mk objs (s.handles ++ [some (LocalPtr.mk q)])) := by
  cases q with
  | none => exact ⟨_, LocalPtr.copy_null_spec s other hc hg⟩
  | some o => exact ⟨_, LocalPtr.copy_spec s other o hc hlen hg⟩

theorem LocalPtr.destroy_counted (s : Store) (h : Nat) (p : Option Nat) (hc : s.counted)
    (hlen : s.handles.length < UINT32_MOD) (hg : LocalPtr.get s h = some p) :
    ∃ objs, LocalPtr.destroy s h = some (Store.mk objs (s.handles.set h none)) ∧
      Store.counted (Store.mk objs (s.handles.set h none)) := by
  cases p with
  | none => exact ⟨_, LocalPtr.destroy_null_spec s h hc hg⟩
  | some o => exact ⟨_, LocalPtr.destroy_spec s h o hc hlen hg⟩

theorem LocalPtr.move_assign_counted (s : Store) (this other : Nat) (p q : Option Nat)
    (hc : s.counted) (hlen : s.handles.length < UINT32_MOD) (hne : this ≠ other)
    (ht : LocalPtr.get s this = some p) (hg : LocalPtr.get s other = some q) :
    ∃ objs, LocalPtr.move_assign s this other = some (Store.mk objs
        ((s.handles.set this (some (LocalPtr.mk q))).set other (some (LocalPtr.mk none)))) ∧
      Store.counted (Store.mk objs
        ((s.handles.set this (some (LocalPtr.mk q))).set other (some (LocalPtr.mk none)))) := by
  cases p with
  | none => exact ⟨_, LocalPtr.move_assign_null_spec s this other q hc hne ht hg⟩
  | some o => exact ⟨_, LocalPtr.move_assign_spec s this other o q hc hlen hne ht hg⟩

theorem LocalPtr.move_assign_self (s : Store) (h : Nat) (p : Option Nat)
    (hg : LocalPtr.get s h = some p) : LocalPtr.move_assign s h h = some s := by
  simp [LocalPtr.move_assign, hg]

theorem LocalPtr.copy_assign_counted (s : Store) (this other : Nat) (p q : Option Nat)
    (hc : s.counted) (hlen : s.handles.length + 1 < UINT32_MOD)
    (ht : LocalPtr.get s this = some p) (hg : LocalPtr.get s other = some q) :
    ∃ objs, LocalPtr.copy_assign s this other =
        some (Store.mk objs (s.handles.set this (some (LocalPtr.mk q)) ++ [none])) ∧
      Store.counted (Store.mk objs (s.handles.set this (some (LocalPtr.mk q)) ++ [none])) := by
  have hlt := LocalPtr.get_some ht
  have hthis : this < s.handles.length := lookup_lt hlt
  obtain ⟨objs1, h1, hc1⟩ := LocalPtr.copy_counted s other q hc hlen hg
  have ht1 : LocalPtr.get (Store.mk objs1 (s.handles ++ [some (LocalPtr.mk q)])) this =
      some p := LocalPtr.get_of_lookup (lookup_append_left hlt _)
  have hq1 : LocalPtr.get (Store.mk objs1 (s.handles ++ [some (LocalPtr.mk q)]))
      s.handles.length = some q := LocalPtr.get_of_lookup (lookup_append_new _ _)
  obtain ⟨h2, hc2⟩ := LocalPtr.swap_ptr_spec _ this s.handles.length p q hc1 ht1 hq1
  have hset : ((s.handles ++ [some (LocalPtr.mk q)]).set this (some (LocalPtr.mk q))).set
      s.handles.length (some (LocalPtr.mk p)) =
      s.handles.set this (some (LocalPtr.mk q)) ++ [some (LocalPtr.mk p)] := by
    rw [List.set_append_left _ _ hthis]
    simp
  simp only [hset] at h2 hc2
  have hp2 : LocalPtr.get (Store.mk objs1
      (s.handles.set this (some (LocalPtr.mk q)) ++ [some (LocalPtr.mk p)]))
      s.handles.length = some p := by
    apply LocalPtr.get_of_lookup
    simp
  obtain ⟨objs3, h3, hc3⟩ := LocalPtr.destroy_counted _ s.handles.length p hc2
    (by simp; omega) hp2
  have hset2 : (s.handles.set this (some (LocalPtr.mk q)) ++ [some (LocalPtr.mk p)]).set
      s.handles.length none = s.handles.set this (some (LocalPtr.mk q)) ++ [none] := by
    simp
  simp only [hset2] at h3 hc3
  refine ⟨objs3, ?_, hc3⟩
  simp only [LocalPtr.copy_assign, ht, h1, h2, h3]

theorem PtrOp.apply_counted (s s1 : Store) (op : PtrOp) (hc : s.counted)
    (hlen : s.handles.length + 1 < UINT32_MOD) (h : PtrOp.apply s op = some s1) :
    s1.counted ∧ s1.handles.length ≤ s.handles.length + 1 := by
  cases op with
  | make_local =>
    obtain ⟨h1, h2⟩ := make_local_spec s hc
    simp only [PtrOp.apply, h1, Option.map_some', Option.some.injEq] at h
    subst h
    exact ⟨h2, by simp⟩
  | null =>
    simp only [PtrOp.apply, Option.some.injEq] at h
    subst h
    exact ⟨LocalPtr.null_spec s hc, by simp [LocalPtr.null]⟩
  | copy other =>
    cases hg : LocalPtr.get s other with
    | none => simp [PtrOp.apply, LocalPtr.copy, hg] at h
    | some q =>
      obtain ⟨objs, h1, h2⟩ := LocalPtr.copy_counted s other q hc hlen hg
      simp only [PtrOp.apply, h1, Option.map_some', Option.some.injEq] at h
      subst h
      exact ⟨h2, by simp⟩
  | move other =>
    cases hg : LocalPtr.get s other with
    | none => simp [PtrOp.apply, LocalPtr.move, hg] at h
    | some q =>
      obtain ⟨h1, h2⟩ := LocalPtr.move_spec s other q hc hg
      simp only [PtrOp.apply, h1, Option.map_some', Option.some.injEq] at h
      subst h
      exact ⟨h2, by simp⟩
  | copy_assign this other =>
    cases ht : LocalPtr.get s this with
    | none => simp [PtrOp.apply, LocalPtr.copy_assign, ht] at h
    | some p =>
      cases hg : LocalPtr.get s other with
      | none => simp [PtrOp.apply, LocalPtr.copy_assign, LocalPtr.copy, ht, hg] at h
      | some q =>
        obtain ⟨objs, h1, h2⟩ := LocalPtr.copy_assign_counted s this other p q hc hlen ht hg
        simp only [PtrOp.apply, h1, Option.some.injEq] at h
        subst h
        exact ⟨h2, by simp⟩
  | move_assign this other =>
    cases ht : LocalPtr.get s this with
    | none => simp [PtrOp.apply, LocalPtr.move_assign, ht] at h
    | some p =>
      cases hg : LocalPtr.get s other with
      | none => simp [PtrOp.apply, LocalPtr.move_assign, ht, hg] at h
      | some q =>
        by_cases hne : this = other
        · subst hne
          rw [PtrOp.apply, LocalPtr.move_assign_self s this p ht] at h
          simp only [Option.some.injEq] at h
          subst h
          exact ⟨hc, by omega⟩
        · obtain ⟨objs, h1, h2⟩ := LocalPtr.move_assign_counted s this other p q hc
            (by omega) hne ht hg
          simp only [PtrOp.apply, h1, Option.some.injEq] at h
          subst h
          exact ⟨h2, by simp⟩
  | destroy x =>
    cases hg : LocalPtr.get s x with
    | none =>
      have : s.handles[x]? = none ∨ s.handles[x]? = some none := by
        unfold LocalPtr.get at hg
        split at hg
        · simp at hg
        · next hn =>
          cases hx : s.handles[x]? with
          | none => exact Or.inl rfl
          | some v =>
            cases v with
            | none => exact Or.inr rfl
            | some l => exact absurd hx (hn l)
      rcases this with h1 | h1 <;> simp [PtrOp.apply, LocalPtr.destroy, h1] at h
    | some p =>
      obtain ⟨objs, h1, h2⟩ := LocalPtr.destroy_counted s x p hc (by omega) hg
      simp only [PtrOp.apply, h1, Option.some.injEq] at h
      subst h
      exact ⟨h2, by simp⟩

theorem PtrOp.run_counted (ops : List PtrOp) :
    ∀ (s s1 : Store), s.counted → s.handles.length + ops.length < UINT32_MOD →
      PtrOp.run s ops = some s1 →
      s1.counted ∧ s1.handles.length ≤ s.handles.length + ops.length := by
  induction ops with
  | nil =>
    intro s s1 hc _ h
    simp only [PtrOp.run, Option.some.injEq] at h
    subst h
    exact ⟨hc, by simp⟩
  | cons op ops ih =>
    intro s s1 hc hlen h
    simp only [List.length_cons] at hlen
    cases hop : PtrOp.apply s op with
    | none => simp [PtrOp.run, hop] at h
    | some s2 =>
      simp only [PtrOp.run, hop] at h
      obtain ⟨hc2, hl2⟩ := PtrOp.apply_counted s s2 op hc (by omega) hop
      obtain ⟨hc3, hl3⟩ := ih s2 s1 hc2 (by omega) h
      exact ⟨hc3, by simp only [List.length_cons]; omega⟩

theorem Store.empty_counted : Store.empty.counted := by
  intro o
  right
  simp [Store.empty, Store.handle_count]

theorem Store.counted_use_count (s : Store) (hc : s.counted) (o : Nat) :
    RefCounted.use_count s o =
      if s.handle_count o = 0 then none else some (s.handle_count o) := by
  rcases hc o with h | h
  · have : ¬ s.handle_count o = 0 := by omega
    simp [RefCounted.use_count, h.2, this]
  · rcases h.2 with h2 | h2 <;> simp [RefCounted.use_count, h.1, h2]

/-- The number of handles to `x` after a variable has been overwritten and a dead
variable has been appended. -/
theorem Store.count_assigned (H : List (Option LocalPtr)) (this : Nat) (p q : Option Nat)
    (hl : H[this]? = some (some (LocalPtr.mk p))) (x : Nat) :
    (H.set this (some (LocalPtr.mk q)) ++ [none]).count (some (LocalPtr.mk (some x))) +
        (if p = some x then 1 else 0) =
      H.count (some (LocalPtr.mk (some x))) + (if q = some x then 1 else 0) := by
  have h1 := Store.count_set_handle H this p (some (LocalPtr.mk q)) hl x
  rw [List.count_append, List.count_singleton]
  simp at h1 ⊢
  omega

/-- C15 (amended): the intrusive reference count. In every state `s` reached from the empty store
by fewer than `2^32 - 1` operations on handles (`make_local`, default, copy and move
construction, copy and move assignment, destruction): the counter of every object that
exists is the number of live handles pointing to it, and an object exists exactly when
it has such a handle. `make_local` yields a new object with count 1. For a handle
`other` to an object `o` with count `n`: copying it gives count `n + 1`; move
construction keeps `n`, nulls `other` and makes the new handle point to `o`; destroying
it leaves count `n - 1`, and `o` is deleted exactly when `n = 1`; self copy-assignment
keeps `n` and the handle; self move-assignment changes nothing. For a different handle
`this` holding `p`: `this = other` makes `this` point to `o`, with count `n + 1` (`n`
when `this` already pointed to `o`), and `this = std::move(other)` makes `this` point to
`o` and nulls `other`, with count `n` (`n - 1` when `this` already pointed to `o`); in
both the object `x` that `this` pointed to before, if another one, goes from count `m`
to `m - 1` and is deleted exactly when `m = 1`. -/
theorem LocalPtr.refcount_discipline (ops : List PtrOp) (s : Store)
    (hrun : PtrOp.run Store.empty ops = some s) (hlen : ops.length + 1 < UINT32_MOD) :
    (∀ o, (∀ r, s.objects[o]? = some (some r) → r.ref_count_ = s.handle_count o) ∧
      (0 < s.handle_count o ↔ ∃ r, s.objects[o]? = some (some r))) ∧
    (∃ h s1, make_local s = some (h, s1) ∧
      LocalPtr.get s1 h = some (some s.objects.length) ∧
      RefCounted.use_count s s.objects.length = none ∧
      RefCounted.use_count s1 s.objects.length = some 1) ∧
    (∀ other o n, LocalPtr.get s other = some (some o) → RefCounted.use_count s o = some n →
      (∃ h s1, LocalPtr.copy s other = some (h, s1) ∧ LocalPtr.get s1 h = some (some o) ∧
        LocalPtr.get s1 other = some (some o) ∧ RefCounted.use_count s1 o = some (n + 1)) ∧
      (∃ h s1, LocalPtr.move s other = some (h, s1) ∧ LocalPtr.get s1 h = some (some o) ∧
        LocalPtr.get s1 other = some none ∧ RefCounted.use_count s1 o = some n) ∧
      (∃ s1, LocalPtr.destroy s other = some s1 ∧ LocalPtr.get s1 other = none ∧
        s1.objects[o]? = some (if n = 1 then none else some (RefCounted.mk (n - 1)))) ∧
      (∃ s1, LocalPtr.copy_assign s other other = some s1 ∧
        LocalPtr.get s1 other = some (some o) ∧ RefCounted.use_count s1 o = some n) ∧
      LocalPtr.move_assign s other other = some s ∧
      (∀ this p, this ≠ other → LocalPtr.get s this = some p →
        (∃ s1, LocalPtr.copy_assign s this other = some s1 ∧
          LocalPtr.get s1 this = some (some o) ∧ LocalPtr.get s1 other = some (some o) ∧
          RefCounted.use_count s1 o = some (if p = some o then n else n + 1) ∧
          (∀ x m, p = some x → x ≠ o → RefCounted.use_count s x = some m →
            RefCounted.use_count s1 x = if m = 1 then none else some (m - 1))) ∧
        (∃ s1, LocalPtr.move_assign s this other = some s1 ∧
          LocalPtr.get s1 this = some (some o) ∧ LocalPtr.get s1 other = some none ∧
          RefCounted.use_count s1 o = some (if p = some o then n - 1 else n) ∧
          (∀ x m, p = some x → x ≠ o → RefCounted.use_count s x = some m →
            RefCounted.use_count s1 x = if m = 1 then none else some (m - 1))))) := by
  obtain ⟨hc, hH⟩ := PtrOp.run_counted ops Store.empty s Store.empty_counted
    (by simp [Store.empty]; omega) hrun
  simp only [Store.empty, List.length_nil, Nat.zero_add] at hH
  have hb : s.handles.length + 1 < UINT32_MOD := by omega
  refine ⟨?_, ?_, ?_⟩
  · intro o
    rcases hc o with h | h
    · refine ⟨fun r hr => ?_, fun _ => ⟨_, h.2⟩, fun _ => h.1⟩
      rw [h.2] at hr
      simp only [Option.some.injEq] at hr
      rw [← hr]
    · constructor
      · intro r hr
        rcases h.2 with h2 | h2 <;> simp [h2] at hr
      · constructor
        · intro hp
          omega
        · rintro ⟨r, hr⟩
          rcases h.2 with h2 | h2 <;> simp [h2] at hr
  · obtain ⟨h1, h2⟩ := make_local_spec s hc
    refine ⟨_, _, h1, ?_, ?_, ?_⟩
    · exact LocalPtr.get_of_lookup (lookup_append_new _ _)
    · simp [RefCounted.use_count]
    · simp [RefCounted.use_count]
  · intro other o n hg hn
    have hn2 := Store.counted_use_count s hc o
    have hpos := Store.handle_count_pos hg
    have hl := LocalPtr.get_some hg
    rw [hn, if_neg (by omega)] at hn2
    simp only [Option.some.injEq] at hn2
    have hothlt : other < s.handles.length := lookup_lt hl
    refine ⟨?_, ?_, ?_, ?_, LocalPtr.move_assign_self s other _ hg, ?_⟩
    · obtain ⟨h1, h2⟩ := LocalPtr.copy_spec s other o hc hb hg
      refine ⟨_, _, h1, LocalPtr.get_of_lookup (lookup_append_new _ _),
        LocalPtr.get_of_lookup (lookup_append_left hl _), ?_⟩
      simp [RefCounted.use_count, lookup_lt (Store.counted_alive hc hg), hn2]
    · obtain ⟨h1, h2⟩ := LocalPtr.move_spec s other (some o) hc hg
      refine ⟨_, _, h1, ?_, ?_, ?_⟩
      · apply LocalPtr.get_of_lookup
        simp only
        rw [List.getElem?_set_ne (by omega)]
        exact lookup_append_new _ _
      · apply LocalPtr.get_of_lookup
        simp only
        exact lookup_set_self (lookup_append_left hl _) _
      · simp only [RefCounted.use_count, Store.counted_alive hc hg, hn2]
    · obtain ⟨h1, h2⟩ := LocalPtr.destroy_spec s other o hc (by omega) hg
      refine ⟨_, h1, ?_, ?_⟩
      · simp [LocalPtr.get, hothlt]
      · simp [lookup_lt (Store.counted_alive hc hg), hn2]
    · obtain ⟨objs, h1, h2⟩ :=
        LocalPtr.copy_assign_counted s other other (some o) (some o) hc hb hg hg
      refine ⟨_, h1, ?_, ?_⟩
      · apply LocalPtr.get_of_lookup
        exact lookup_append_left (lookup_set_self hl _) _
      · rw [Store.counted_use_count _ h2 o]
        have h3 := Store.count_assigned s.handles other (some o) (some o) hl o
        simp only [Store.handle_count] at hn2 hpos ⊢
        simp only [if_true] at h3
        rw [if_neg (by omega)]
        congr 1
        omega
    · intro this p hne ht
      have hlt := LocalPtr.get_some ht
      constructor
      · obtain ⟨objs, h1, h2⟩ :=
          LocalPtr.copy_assign_counted s this other p (some o) hc hb ht hg
        refine ⟨_, h1, ?_, ?_, ?_, ?_⟩
        · apply LocalPtr.get_of_lookup
          exact lookup_append_left (lookup_set_self hlt _) _
        · apply LocalPtr.get_of_lookup
          refine lookup_append_left ?_ _
          rw [lookup_set_ne hne]
          exact hl
        · rw [Store.counted_use_count _ h2 o]
          have h3 := Store.count_assigned s.handles this p (some o) hlt o
          simp only [Store.handle_count] at hn2 hpos ⊢
          simp only [if_true] at h3
          by_cases hp : p = some o
          · simp only [hp, if_true] at h3 ⊢
            rw [if_neg (by omega)]
            congr 1
            omega
          · simp only [hp, if_false] at h3 ⊢
            rw [if_neg (by omega)]
            congr 1
            omega
        · intro x m hp hxo hm
          rw [Store.counted_use_count _ h2 x]
          have hm2 := Store.counted_use_count s hc x
          have hposx : 0 < s.handle_count x := Store.handle_count_pos (hp ▸ ht)
          rw [hm, if_neg (by omega)] at hm2
          simp only [Option.some.injEq] at hm2
          have h3 := Store.count_assigned s.handles this p (some o) hlt x
          have hox : ¬ (some o = some x) := by
            simp only [Option.some.injEq]
            exact fun h => hxo h.symm
          simp only [Store.handle_count] at hm2 hposx ⊢
          rw [if_pos hp, if_neg hox] at h3
          by_cases h1 : m = 1
          · rw [if_pos (by omega), if_pos h1]
          · rw [if_neg (by omega), if_neg h1]
            congr 1
            omega
      · obtain ⟨objs, h1, h2⟩ :=
          LocalPtr.move_assign_counted s this other p (some o) hc (by omega) hne ht hg
        have hcount : ∀ x, ((s.handles.set this (some (LocalPtr.mk (some o)))).set other
            (some (LocalPtr.mk none))).count (some (LocalPtr.mk (some x))) +
            (if p = some x then 1 else 0) = s.handles.count (some (LocalPtr.mk (some x))) := by
          intro x
          have h3 := Store.count_set_handle s.handles this p
            (some (LocalPtr.mk (some o))) hlt x
          have h4 := Store.count_set_handle (s.handles.set this (some (LocalPtr.mk (some o))))
            other (some o) (some (LocalPtr.mk none)) (by rw [lookup_set_ne hne]; exact hl) x
          simp at h3 h4
          omega
        refine ⟨_, h1, ?_, ?_, ?_, ?_⟩
        · apply LocalPtr.get_of_lookup
          simp only
          rw [lookup_set_ne (Ne.symm hne)]
          exact lookup_set_self hlt _
        · apply LocalPtr.get_of_lookup
          simp only
          exact lookup_set_self (by rw [lookup_set_ne hne]; exact hl) _
        · rw [Store.counted_use_count _ h2 o]
          have h3 := hcount o
          have hposo : 0 < ((s.handles.set this (some (LocalPtr.mk (some o)))).set other
              (some (LocalPtr.mk none))).count (some (LocalPtr.mk (some o))) := by
            rw [List.count_pos_iff, List.mem_iff_getElem?]
            refine ⟨this, ?_⟩
            rw [lookup_set_ne (Ne.symm hne)]
            exact lookup_set_self hlt _
          simp only [Store.handle_count] at hn2 hpos ⊢
          by_cases hp : p = some o
          · simp only [hp, if_true] at h3 ⊢
            rw [if_neg (by omega)]
            congr 1
            omega
          · simp only [hp, if_false] at h3 ⊢
            rw [if_neg (by omega)]
            congr 1
            omega
        · intro x m hp hxo hm
          rw [Store.counted_use_count _ h2 x]
          have hm2 := Store.counted_use_count s hc x
          have hposx : 0 < s.handle_count x := Store.handle_count_pos (hp ▸ ht)
          rw [hm, if_neg (by omega)] at hm2
          simp only [Option.some.injEq] at hm2
          have h3 := hcount x
          simp only [Store.handle_count] at hm2 hposx ⊢
          rw [if_pos hp] at h3
          by_cases h1 : m = 1
          · rw [if_pos (by omega), if_pos h1]
          · rw [if_neg (by omega), if_neg h1]
            congr 1
            omega

/-- Witness for C15: the store reached by a small program with two objects; the counter
of the first object is the number of its two handles, the second object is gone. -/
theorem LocalPtr.refcount_discipline_witness :
    PtrOp.run Store.empty PtrOp.example_ops = some Store.example_store ∧
    PtrOp.example_ops.length + 1 < UINT32_MOD ∧
    (∀ o, (∀ r, Store.example_store.objects[o]? = some (some r) →
        r.ref_count_ = Store.example_store.handle_count o) ∧
      (0 < Store.example_store.handle_count o ↔
        ∃ r, Store.example_store.objects[o]? = some (some r))) :=
  ⟨by decide, by decide,
    (LocalPtr.refcount_discipline PtrOp.example_ops Store.example_store (by decide)
      (by decide)).1⟩

/-- Counterexample for C15: a move does not always null its source. After one
`make_local` the handle 0 points to the object 0; the self move-assignment
`h = std::move(h)` is skipped by the guard `this != &other`, so the source still points
to the object afterwards. -/
theorem LocalPtr.move_assign_self_counterexample :
    PtrOp.run Store.empty [PtrOp.make_local] = some Store.example_single ∧
    LocalPtr.get Store.example_single 0 = some (some 0) ∧
    LocalPtr.move_assign Store.example_single 0 0 = some Store.example_single ∧
    (LocalPtr.move_assign Store.example_single 0 0).bind (fun s => LocalPtr.get s 0) ≠
      some none := by
  decide

/-! ## Theorems: the mailbox -/

theorem SpscQueue.mod_eq_iff (N a b : Nat) (hab : a ≤ b) (hd : b - a ≤ N) (hN : 0 < N) :
    a % N = b % N ↔ b = a ∨ b = a + N := by
  constructor
  · intro h
    have h1 : N ∣ b - a := (Nat.modEq_iff_dvd' hab).mp h
    by_cases h0 : b - a = 0
    · left
      omega
    · right
      have := Nat.eq_of_dvd_of_lt_two_mul h0 h1 (by omega)
      omega
  · rintro (h | h)
    · rw [h]
    · rw [h, Nat.add_mod_right]

theorem SpscQueue.mod_ne (N a b : Nat) (hab : a < b) (hd : b - a < N) : a % N ≠ b % N := by
  intro h
  rcases (SpscQueue.mod_eq_iff N a b (by omega) (by omega) (by omega)).mp h with h1 | h1 <;>
    omega

theorem SpscQueue.next_index (k a : Nat) :
    (a % 2 ^ k + 1) &&& (2 ^ k - 1) = (a + 1) % 2 ^ k := by
  rw [Nat.and_pow_two_sub_one_eq_mod, Nat.mod_add_mod]

theorem SpscQueue.new_holds (T : Type) (k : Nat) : (SpscQueue.new T (2 ^ k)).holds [] := by
  refine ⟨k, 0, 0, 0, rfl, by simp [SpscQueue.new], le_refl _, le_refl _, by simp, ?_,
    by simp [SpscQueue.new], by simp [SpscQueue.new], by simp [SpscQueue.new],
    by simp [SpscQueue.new], ?_⟩
  · have : 0 < 2 ^ k := Nat.two_pow_pos k
    simp [SpscQueue.new]
    omega
  · intro i x h
    simp at h

/-- The items held after `construct_at` on the slot of the head. -/
theorem SpscQueue.construct_at_holds {T : Type} (q : SpscQueue T) (l : List T) (x : T)
    (k Tc Tl Hc : Nat) (hcap : q.Capacity = 2 ^ k) (hring : q.ring_data_.length = q.Capacity)
    (h1 : Tc ≤ Tl) (h2 : Tl ≤ Hc) (h3 : Hc ≤ Tl + l.length)
    (h4 : Tl + l.length + 2 ≤ Tc + q.Capacity)
    (ht : q.tail_ = Tl % q.Capacity) (hct : q.cached_tail_ = Tc % q.Capacity)
    (hch : q.cached_head_ = Hc % q.Capacity)
    (hslots : ∀ i y, l[i]? = some y → q.ring_data_[(Tl + i) % q.Capacity]? = some (some y)) :
    (q.construct_at ((Tl + l.length) % q.Capacity) x
      ((Tl + l.length + 1) % q.Capacity)).holds (l ++ [x]) := by
  have hN : 0 < q.Capacity := by rw [hcap]; exact Nat.two_pow_pos k
  refine ⟨k, Tc, Tl, Hc, hcap, by simpa [SpscQueue.construct_at] using hring, h1, h2,
    by simp; omega, by simp [SpscQueue.construct_at]; omega, ht, ?_, hct, hch, ?_⟩
  · simp [SpscQueue.construct_at, Nat.add_assoc]
  · intro i y hy
    simp only [SpscQueue.construct_at]
    by_cases hi : i < l.length
    · rw [List.getElem?_append_left hi] at hy
      rw [List.getElem?_set_ne]
      · exact hslots i y hy
      · exact Ne.symm (SpscQueue.mod_ne _ _ _ (by omega) (by omega))
    · have hlt := lookup_lt hy
      simp only [List.length_append, List.length_singleton] at hlt
      have hil : i = l.length := by omega
      subst hil
      rw [lookup_append_new] at hy
      simp only [Option.some.injEq] at hy
      subst hy
      rw [List.getElem?_set_self]
      rw [hring]
      exact Nat.mod_lt _ hN

theorem SpscQueue.emplace_holds {T : Type} (q : SpscQueue T) (l : List T) (x : T)
    (h : q.holds l) :
    (l.length + 1 < q.Capacity → ∃ q1, q.emplace x = (true, q1) ∧ q1.holds (l ++ [x]) ∧
      q1.Capacity = q.Capacity) ∧
    (¬ l.length + 1 < q.Capacity → ∃ q1, q.emplace x = (false, q1) ∧ q1.holds l ∧
      q1.Capacity = q.Capacity) := by
  obtain ⟨k, Tc, Tl, Hc, hcap, hring, h1, h2, h3, h4, ht, hh, hct, hch, hslots⟩ := h
  have hN : 0 < q.Capacity := by rw [hcap]; exact Nat.two_pow_pos k
  have hnext : (q.head_ + 1) &&& q.Mask = (Tl + l.length + 1) % q.Capacity := by
    rw [hh, SpscQueue.Mask, hcap]
    exact SpscQueue.next_index k _
  by_cases hc : (Tl + l.length + 1) % q.Capacity = Tc % q.Capacity
  · have e1 : (q.head_ + 1) &&& q.Mask = q.cached_tail_ := by rw [hnext, hct, hc]
    have hfull : Tl + l.length + 1 = Tc + q.Capacity := by
      rcases (SpscQueue.mod_eq_iff _ Tc (Tl + l.length + 1) (by omega) (by omega) hN).mp
        hc.symm with h5 | h5 <;> omega
    by_cases hc2 : (Tl + l.length + 1) % q.Capacity = Tl % q.Capacity
    · have e2 : (q.head_ + 1) &&& q.Mask = q.tail_ := by rw [hnext, ht, hc2]
      have hlen : l.length + 1 = q.Capacity := by
        rcases (SpscQueue.mod_eq_iff _ Tl (Tl + l.length + 1) (by omega) (by omega) hN).mp
          hc2.symm with h5 | h5 <;> omega
      constructor
      · intro hlt
        omega
      · intro _
        refine ⟨{ q with cached_tail_ := q.tail_ }, ?_, ?_, rfl⟩
        · simp only [SpscQueue.emplace]
          rw [if_pos e1, if_pos e2]
        · exact ⟨k, Tl, Tl, Hc, hcap, hring, le_refl _, h2, h3, by simp only; omega, ht, hh,
            ht, hch, hslots⟩
    · have e2 : ¬ (q.head_ + 1) &&& q.Mask = q.tail_ := by rw [hnext, ht]; exact hc2
      have hlen : l.length + 1 < q.Capacity := by
        by_contra hge
        have : l.length + 1 = q.Capacity := by omega
        apply hc2
        rw [Nat.add_assoc, this, Nat.add_mod_right]
      constructor
      · intro _
        refine ⟨SpscQueue.construct_at { q with cached_tail_ := q.tail_ }
          ((Tl + l.length) % q.Capacity) x ((Tl + l.length + 1) % q.Capacity), ?_, ?_, rfl⟩
        · simp only [SpscQueue.emplace]
          rw [if_pos e1, if_neg e2, hnext, hh]
        · exact SpscQueue.construct_at_holds { q with cached_tail_ := q.tail_ } l x k Tl Tl Hc
            hcap hring (le_refl _) h2 h3 (by simp only; omega) ht ht hch hslots
      · intro hge
        exact absurd hlen hge
  · have e1 : ¬ (q.head_ + 1) &&& q.Mask = q.cached_tail_ := by rw [hnext, hct]; exact hc
    have hroom : Tl + l.length + 2 ≤ Tc + q.Capacity := by
      by_contra hge
      apply hc
      have : Tl + l.length + 1 = Tc + q.Capacity := by omega
      rw [this, Nat.add_mod_right]
    constructor
    · intro _
      refine ⟨q.construct_at ((Tl + l.length) % q.Capacity) x
        ((Tl + l.length + 1) % q.Capacity), ?_, ?_, rfl⟩
      · simp only [SpscQueue.emplace]
        rw [if_neg e1, hnext, hh]
      · exact SpscQueue.construct_at_holds q l x k Tc Tl Hc hcap hring h1 h2 h3 hroom ht hct
          hch hslots
    · intro hge
      omega

/-- The items held after `take_at` on the slot of the tail. -/
theorem SpscQueue.take_at_holds {T : Type} (q : SpscQueue T) (l : List T) (x : T)
    (k Tc Tl Hc : Nat) (hcap : q.Capacity = 2 ^ k) (hring : q.ring_data_.length = q.Capacity)
    (h1 : Tc ≤ Tl) (h2 : Tl + 1 ≤ Hc) (h3 : Hc ≤ Tl + (l.length + 1))
    (h4 : Tl + (l.length + 1) + 1 ≤ Tc + q.Capacity)
    (hh : q.head_ = (Tl + (l.length + 1)) % q.Capacity)
    (hct : q.cached_tail_ = Tc % q.Capacity) (hch : q.cached_head_ = Hc % q.Capacity)
    (hslots : ∀ i y, (x :: l)[i]? = some y →
      q.ring_data_[(Tl + i) % q.Capacity]? = some (some y)) :
    ∃ q1, q.take_at (Tl % q.Capacity) = some (true, x, q1) ∧ q1.holds l ∧
      q1.Capacity = q.Capacity := by
  have hN : 0 < q.Capacity := by rw [hcap]; exact Nat.two_pow_pos k
  have hx := hslots 0 x (by simp)
  simp only [Nat.add_zero] at hx
  have hnext : (Tl % q.Capacity + 1) &&& q.Mask = (Tl + 1) % q.Capacity := by
    rw [SpscQueue.Mask, hcap]
    exact SpscQueue.next_index k _
  refine ⟨{ q with ring_data_ := q.ring_data_.set (Tl % q.Capacity) none,
                   tail_ := (Tl + 1) % q.Capacity }, ?_, ?_, rfl⟩
  · simp only [SpscQueue.take_at, hx, hnext]
  · refine ⟨k, Tc, Tl + 1, Hc, hcap, by simpa using hring, by omega, h2, by omega, by
      simp only; omega, rfl, ?_, hct, hch, ?_⟩
    · simp only
      rw [hh]
      congr 1
      omega
    · intro i y hy
      simp only
      rw [List.getElem?_set_ne]
      · have := hslots (i + 1) y (by simpa using hy)
        rw [show Tl + 1 + i = Tl + (i + 1) by omega]
        exact this
      · have hlt := lookup_lt hy
        exact SpscQueue.mod_ne _ _ _ (by omega) (by omega)

theorem SpscQueue.pop_holds {T : Type} (q : SpscQueue T) (l : List T) (item : T)
    (h : q.holds l) :
    (l = [] → ∃ q1, q.pop item = some (false, item, q1) ∧ q1.holds [] ∧
      q1.Capacity = q.Capacity) ∧
    (∀ x rest, l = x :: rest → ∃ q1, q.pop item = some (true, x, q1) ∧ q1.holds rest ∧
      q1.Capacity = q.Capacity) := by
  obtain ⟨k, Tc, Tl, Hc, hcap, hring, h1, h2, h3, h4, ht, hh, hct, hch, hslots⟩ := h
  have hN : 0 < q.Capacity := by rw [hcap]; exact Nat.two_pow_pos k
  constructor
  · intro hl
    subst hl
    simp only [List.length_nil, Nat.add_zero] at h3 h4 hh
    have hHc : Hc = Tl := by omega
    subst hHc
    have e1 : q.tail_ = q.cached_head_ := by rw [ht, hch]
    have e2 : q.tail_ = q.head_ := by rw [ht, hh]
    refine ⟨{ q with cached_head_ := q.head_ }, ?_, ?_, rfl⟩
    · simp only [SpscQueue.pop]
      rw [if_pos e1, if_pos e2]
    · exact ⟨k, Tc, Hc, Hc, hcap, hring, h1, le_refl _, by simp, by simpa using h4, ht,
        by simpa using hh, hct, by simpa using hh, by intro i x hx; simp at hx⟩
  · intro x rest hl
    subst hl
    simp only [List.length_cons] at h3 h4 hh
    by_cases hc : Tl % q.Capacity = Hc % q.Capacity
    · have hHc : Hc = Tl := by
        rcases (SpscQueue.mod_eq_iff _ Tl Hc h2 (by omega) hN).mp hc with h5 | h5 <;> omega
      subst hHc
      have hne : Hc % q.Capacity ≠ (Hc + (rest.length + 1)) % q.Capacity :=
        SpscQueue.mod_ne _ _ _ (by omega) (by omega)
      have e1 : q.tail_ = q.cached_head_ := by rw [ht, hch]
      have e2 : ¬ q.tail_ = q.head_ := by rw [ht, hh]; exact hne
      obtain ⟨q1, hq1, hq2, hq3⟩ := SpscQueue.take_at_holds { q with cached_head_ := q.head_ }
        rest x k Tc Hc (Hc + (rest.length + 1)) hcap hring h1 (by omega) (le_refl _) h4 hh hct
        hh hslots
      refine ⟨q1, ?_, hq2, hq3⟩
      simp only [SpscQueue.pop]
      rw [if_pos e1, if_neg e2, ht]
      exact hq1
    · have hlt : Tl + 1 ≤ Hc := by
        by_contra hge
        apply hc
        have : Hc = Tl := by omega
        rw [this]
      have e1 : ¬ q.tail_ = q.cached_head_ := by rw [ht, hch]; exact hc
      obtain ⟨q1, hq1, hq2, hq3⟩ := SpscQueue.take_at_holds q rest x k Tc Tl Hc hcap hring h1
        hlt h3 h4 hh hct hch hslots
      refine ⟨q1, ?_, hq2, hq3⟩
      simp only [SpscQueue.pop]
      rw [if_neg e1, ht]
      exact hq1

/-- A sequence of calls on a queue that holds `l` returns what the reference queue
returns, and the queue then holds what the reference queue holds. -/
theorem SpscQueue.run_holds {T : Type} (ops : List (QueueOp T)) :
    ∀ (q : SpscQueue T) (l : List T) (item : T), q.holds l →
      ∃ q1, SpscQueue.run q item ops =
          some ((Fifo.run (q.Capacity - 1) l item ops).1, q1) ∧
        q1.holds (Fifo.run (q.Capacity - 1) l item ops).2 ∧ q1.Capacity = q.Capacity := by
  induction ops with
  | nil =>
    intro q l item h
    refine ⟨q, ?_, ?_, rfl⟩
    · simp only [SpscQueue.run, Fifo.run]
    · simp only [Fifo.run]
      exact h
  | cons op ops ih =>
    intro q l item h
    cases op with
    | push x =>
      obtain ⟨hroom, hfull⟩ := SpscQueue.emplace_holds q l x h
      by_cases hlt : l.length + 1 < q.Capacity
      · obtain ⟨q1, h1, h2, h3⟩ := hroom hlt
        obtain ⟨q2, h4, h5, h6⟩ := ih q1 (l ++ [x]) item h2
        have hb : l.length < q.Capacity - 1 := by omega
        rw [h3] at h4 h5
        refine ⟨q2, ?_, ?_, by rw [h6, h3]⟩
        · simp only [SpscQueue.run, SpscQueue.push, h1, h4, Fifo.run, hb, if_true]
        · simp only [Fifo.run, hb, if_true]
          exact h5
      · obtain ⟨q1, h1, h2, h3⟩ := hfull hlt
        obtain ⟨q2, h4, h5, h6⟩ := ih q1 l item h2
        have hb : ¬ l.length < q.Capacity - 1 := by omega
        rw [h3] at h4 h5
        refine ⟨q2, ?_, ?_, by rw [h6, h3]⟩
        · simp only [SpscQueue.run, SpscQueue.push, h1, h4, Fifo.run, hb, if_false]
        · simp only [Fifo.run, hb, if_false]
          exact h5
    | pop =>
      obtain ⟨hempty, hcons⟩ := SpscQueue.pop_holds q l item h
      cases l with
      | nil =>
        obtain ⟨q1, h1, h2, h3⟩ := hempty rfl
        obtain ⟨q2, h4, h5, h6⟩ := ih q1 [] item h2
        rw [h3] at h4 h5
        refine ⟨q2, ?_, ?_, by rw [h6, h3]⟩
        · simp only [SpscQueue.run, h1, h4, Fifo.run]
        · simp only [Fifo.run]
          exact h5
      | cons x rest =>
        obtain ⟨q1, h1, h2, h3⟩ := hcons x rest rfl
        obtain ⟨q2, h4, h5, h6⟩ := ih q1 rest x h2
        rw [h3] at h4 h5
        refine ⟨q2, ?_, ?_, by rw [h6, h3]⟩
        · simp only [SpscQueue.run, h1, h4, Fifo.run]
        · simp only [Fifo.run]
          exact h5

/-- On a mailbox that holds `l`, `handle_incoming_tasks` invokes the non-null tasks of
`l` in order and leaves the mailbox empty, within `l.length + 1` iterations. -/
theorem Reactor.handle_incoming_tasks_holds (l : List MailTask) :
    ∀ (q : SpscQueue MailTask) (task : MailTask) (ran : List Nat) (extra : Nat), q.holds l →
      ∃ q1, Reactor.handle_incoming_tasks (l.length + 1 + extra) q task ran =
          some (q1, ran ++ l.filterMap id) ∧ q1.holds [] := by
  induction l with
  | nil =>
    intro q task ran extra h
    obtain ⟨q1, h1, h2, _⟩ := (SpscQueue.pop_holds q [] task h).1 rfl
    refine ⟨q1, ?_, h2⟩
    simp [Reactor.handle_incoming_tasks, Nat.add_comm, h1]
  | cons x rest ih =>
    intro q task ran extra h
    obtain ⟨q1, h1, h2, _⟩ := (SpscQueue.pop_holds q (x :: rest) task h).2 x rest rfl
    have hfuel : (x :: rest).length + 1 + extra = (rest.length + 1 + extra) + 1 := by
      simp only [List.length_cons]
      omega
    rw [hfuel]
    cases x with
    | none =>
      obtain ⟨q2, h3, h4⟩ := ih q1 none ran extra h2
      refine ⟨q2, ?_, h4⟩
      simp only [Reactor.handle_incoming_tasks, h1, h3]
      simp
    | some id =>
      obtain ⟨q2, h3, h4⟩ := ih q1 (some id) (ran ++ [id]) extra h2
      refine ⟨q2, ?_, h4⟩
      simp only [Reactor.handle_incoming_tasks, h1, h3]
      simp

/-- C12: the mailbox is first-in first-out. For every capacity `2^k` and every sequence
of `push` and `pop` calls made by one thread on a new queue, each call returns what the
reference first-in first-out list of at most `2^k - 1` items returns: `pop` returns the
stored items in exactly the order in which they were pushed. On the queue reached,
`handle_incoming_tasks` stops after at most one more iteration than there are items,
has invoked exactly the non-null tasks held, in that order, and leaves the queue empty:
a further `pop` returns false. -/
theorem SpscQueue.fifo_order (k : Nat) (ops : List (QueueOp MailTask)) (item : MailTask) :
    ∃ q, SpscQueue.run (SpscQueue.new MailTask (2 ^ k)) item ops =
        some ((Fifo.run (2 ^ k - 1) [] item ops).1, q) ∧
      ∀ (task : MailTask) (ran : List Nat) (extra : Nat),
        ∃ q1, Reactor.handle_incoming_tasks
            ((Fifo.run (2 ^ k - 1) [] item ops).2.length + 1 + extra) q task ran =
          some (q1, ran ++ (Fifo.run (2 ^ k - 1) [] item ops).2.filterMap id) ∧
          ∀ t, ∃ q2, q1.pop t = some (false, t, q2) := by
  obtain ⟨q, h1, h2, _⟩ := SpscQueue.run_holds ops (SpscQueue.new MailTask (2 ^ k)) [] item
    (SpscQueue.new_holds MailTask k)
  refine ⟨q, h1, ?_⟩
  intro task ran extra
  obtain ⟨q1, h3, h4⟩ := Reactor.handle_incoming_tasks_holds _ q task ran extra h2
  refine ⟨q1, h3, ?_⟩
  intro t
  obtain ⟨q2, h5, _⟩ := (SpscQueue.pop_holds q1 [] t h4).1 rfl
  exact ⟨q2, h5⟩

/-- Witness for C12: a mailbox of capacity 4 and the calls of `QueueOp.example_ops`. -/
theorem SpscQueue.fifo_order_witness :
    ∃ q, SpscQueue.run (SpscQueue.new MailTask (2 ^ 2)) none QueueOp.example_ops =
        some ((Fifo.run (2 ^ 2 - 1) [] none QueueOp.example_ops).1, q) ∧
      ∀ (task : MailTask) (ran : List Nat) (extra : Nat),
        ∃ q1, Reactor.handle_incoming_tasks
            ((Fifo.run (2 ^ 2 - 1) [] none QueueOp.example_ops).2.length + 1 + extra) q task
            ran =
          some (q1, ran ++ (Fifo.run (2 ^ 2 - 1) [] none QueueOp.example_ops).2.filterMap id) ∧
          ∀ t, ∃ q2, q1.pop t = some (false, t, q2) :=
  SpscQueue.fifo_order 2 QueueOp.example_ops none

/-! ## Theorems: the timers -/

theorem PriorityQueue.top_time_spec (l : List TimerTask) :
    (l = [] ∧ PriorityQueue.top_time l = none) ∨
    ∃ m, PriorityQueue.top_time l = some m ∧ (∀ x ∈ l, m ≤ x.expire_time) ∧
      ∃ x ∈ l, x.expire_time = m := by
  induction l with
  | nil => exact Or.inl ⟨rfl, rfl⟩
  | cons t l ih =>
    right
    rcases ih with ⟨hl, hn⟩ | ⟨m, hm, hle, x, hx, hxm⟩
    · subst hl
      exact ⟨t.expire_time, by simp [PriorityQueue.top_time], by simp, t, by simp, rfl⟩
    · refine ⟨min t.expire_time m, by simp [PriorityQueue.top_time, hm], ?_, ?_⟩
      · intro y hy
        rcases List.mem_cons.mp hy with h | h
        · subst h
          exact min_le_left _ _
        · exact le_trans (min_le_right _ _) (hle y h)
      · by_cases h : t.expire_time ≤ m
        · exact ⟨t, by simp, by rw [min_eq_left h]⟩
        · exact ⟨x, List.mem_cons_of_mem _ hx, by rw [hxm, min_eq_right (by omega)]⟩

theorem PriorityQueue.top_spec (choice : Nat) (l : List TimerTask) :
    (l = [] ∧ PriorityQueue.top choice l = none) ∨
    ∃ t, PriorityQueue.top choice l = some t ∧ t ∈ l ∧
      ∀ x ∈ l, t.expire_time ≤ x.expire_time := by
  rcases PriorityQueue.top_time_spec l with ⟨hl, hn⟩ | ⟨m, hm, hle, x, hx, hxm⟩
  · left
    refine ⟨hl, ?_⟩
    simp [PriorityQueue.top, PriorityQueue.candidates, hn]
  · right
    have hc : PriorityQueue.candidates l = l.filter (fun t => t.expire_time = m) := by
      simp [PriorityQueue.candidates, hm]
    have hpos : 0 < (PriorityQueue.candidates l).length := by
      rw [hc]
      exact List.length_pos_of_mem (List.mem_filter.mpr ⟨hx, by simpa using hxm⟩)
    have hlt := Nat.mod_lt choice hpos
    have hmem : ∀ t ∈ PriorityQueue.candidates l, t ∈ l ∧ t.expire_time = m := by
      intro t ht
      rw [hc] at ht
      have := List.mem_filter.mp ht
      exact ⟨this.1, by simpa using this.2⟩
    have hin := hmem _ (List.getElem_mem hlt)
    refine ⟨(PriorityQueue.candidates l)[choice % (PriorityQueue.candidates l).length], ?_,
      hin.1, ?_⟩
    · simp only [PriorityQueue.top]
      exact List.getElem?_eq_getElem hlt
    · intro y hy
      rw [hin.2]
      exact hle y hy

/-- The loop of `handle_timer_events` pops exactly the tasks that have expired, in
non-decreasing order of expiration, and invokes those with a callback. -/
theorem Reactor.fire_expired_spec (now : Int) (n : Nat) :
    ∀ (r : TimerReactor) (choices : List Nat) (extra : Nat), r.timers_.length = n →
      ∃ (r1 : TimerReactor) (popped : List TimerTask),
        Reactor.fire_expired (n + 1 + extra) now choices r = some r1 ∧
        popped.Perm (r.timers_.filter (fun t => t.expire_time ≤ now)) ∧
        popped.Pairwise (fun a b => a.expire_time ≤ b.expire_time) ∧
        r1.invoked = r.invoked ++ popped.filter (fun t => t.callback.isSome) ∧
        r1.timers_.Perm (r.timers_.filter (fun t => now < t.expire_time)) ∧
        r1.settime_calls = r.settime_calls := by
  induction n with
  | zero =>
    intro r choices extra hlen
    have hnil : r.timers_ = [] := List.length_eq_zero.mp hlen
    rcases PriorityQueue.top_spec (choices.headD 0) r.timers_ with ⟨_, hn⟩ | ⟨t, _, ht, _⟩
    · refine ⟨r, [], ?_, by simp [hnil], List.Pairwise.nil, by simp, by simp [hnil], rfl⟩
      simp only [Nat.zero_add, Nat.add_comm 1 extra, Reactor.fire_expired, hn]
    · rw [hnil] at ht
      simp at ht
  | succ n ih =>
    intro r choices extra hlen
    have hfuel : n + 1 + 1 + extra = (n + 1 + extra) + 1 := by omega
    rcases PriorityQueue.top_spec (choices.headD 0) r.timers_ with
      ⟨hnil, _⟩ | ⟨t, htop, ht, hmin⟩
    · rw [hnil] at hlen
      simp at hlen
    · by_cases hexp : t.expire_time ≤ now
      · have hperm : r.timers_.Perm (t :: r.timers_.erase t) := List.perm_cons_erase ht
        have hlen2 : (r.timers_.erase t).length = n := by
          rw [List.length_erase_of_mem ht, hlen]
          rfl
        have hpop : PriorityQueue.pop (choices.headD 0) r.timers_ = r.timers_.erase t := by
          simp only [PriorityQueue.pop, htop]
        cases hcb : t.callback.isSome with
        | true =>
          obtain ⟨r1, popped, h1, h2, h3, h4, h5, h6⟩ :=
            ih { r with timers_ := r.timers_.erase t, invoked := r.invoked ++ [t] }
              choices.tail extra hlen2
          refine ⟨r1, t :: popped, ?_, ?_, ?_, ?_, ?_, h6⟩
          · rw [hfuel]
            simp only [Reactor.fire_expired, htop, hexp, if_true, hpop, hcb]
            exact h1
          · refine List.Perm.trans ?_ (List.Perm.filter _ hperm).symm
            simp only [List.filter_cons, hexp, decide_True, if_true]
            exact List.Perm.cons t h2
          · refine List.Pairwise.cons ?_ h3
            intro x hx
            have hx2 := (List.mem_filter.mp (h2.mem_iff.mp hx)).1
            exact hmin x (List.mem_of_mem_erase hx2)
          · rw [h4]
            simp [List.filter_cons, hcb]
          · refine List.Perm.trans h5 ?_
            refine List.Perm.trans ?_ (List.Perm.filter _ hperm).symm
            have : ¬ now < t.expire_time := by omega
            simp [List.filter_cons, this]
        | false =>
          obtain ⟨r1, popped, h1, h2, h3, h4, h5, h6⟩ :=
            ih { r with timers_ := r.timers_.erase t } choices.tail extra hlen2
          refine ⟨r1, t :: popped, ?_, ?_, ?_, ?_, ?_, h6⟩
          · rw [hfuel]
            simp only [Reactor.fire_expired, htop, hexp, if_true, hpop, hcb]
            exact h1
          · refine List.Perm.trans ?_ (List.Perm.filter _ hperm).symm
            simp only [List.filter_cons, hexp, decide_True, if_true]
            exact List.Perm.cons t h2
          · refine List.Pairwise.cons ?_ h3
            intro x hx
            have hx2 := (List.mem_filter.mp (h2.mem_iff.mp hx)).1
            exact hmin x (List.mem_of_mem_erase hx2)
          · rw [h4]
            simp [List.filter_cons, hcb]
          · refine List.Perm.trans h5 ?_
            refine List.Perm.trans ?_ (List.Perm.filter _ hperm).symm
            have : ¬ now < t.expire_time := by omega
            simp [List.filter_cons, this]
      · have hall : ∀ x ∈ r.timers_, now < x.expire_time := by
          intro x hx
          have := hmin x hx
          omega
        refine ⟨r, [], ?_, ?_, List.Pairwise.nil, by simp, ?_, rfl⟩
        · rw [hfuel]
          simp only [Reactor.fire_expired, htop, hexp, if_false]
        · have : r.timers_.filter (fun t => t.expire_time ≤ now) = [] := by
            rw [List.filter_eq_nil_iff]
            intro x hx
            have := hall x hx
            simp only [decide_eq_true_eq]
            omega
          rw [this]
        · have : r.timers_.filter (fun t => now < t.expire_time) = r.timers_ := by
            rw [List.filter_eq_self]
            intro x hx
            simpa using hall x hx
          rw [this]

theorem Reactor.reset_timer_fd_keeps (r : TimerReactor) (now : Int) :
    (Reactor.reset_timer_fd r now).timers_ = r.timers_ ∧
    (Reactor.reset_timer_fd r now).invoked = r.invoked := by
  unfold Reactor.reset_timer_fd
  split <;> exact ⟨rfl, rfl⟩

/-- C11: timer monotonicity. For every timer heap, instant `now` and layout of the
heap, and callbacks that do not use the timers themselves, `handle_timer_events`
returns within one more iteration than there are tasks; the
tasks `fired` whose callback it has invoked, in the order of invocation, are exactly the
tasks of the heap with `expire_time <= now` that have a callback, in non-decreasing
order of `expire_time`; the heap is left with exactly the tasks with
`expire_time > now`; and for two tasks `a` and `b` of the heap with
`expire_a < expire_b`, whenever the callback of `b` is invoked, that of `a` has been
invoked before. -/
theorem Reactor.timer_monotonicity (r : TimerReactor) (now rearm_now : Int)
    (choices : List Nat) (extra : Nat) :
    ∃ (r1 : TimerReactor) (fired : List TimerTask),
      Reactor.handle_timer_events (r.timers_.length + 1 + extra) now rearm_now choices r =
        some r1 ∧
      r1.invoked = r.invoked ++ fired ∧
      fired.Perm ((r.timers_.filter (fun t => t.expire_time ≤ now)).filter
        (fun t => t.callback.isSome)) ∧
      fired.Pairwise (fun a b => a.expire_time ≤ b.expire_time) ∧
      r1.timers_.Perm (r.timers_.filter (fun t => now < t.expire_time)) ∧
      ∀ a b, a ∈ r.timers_ → b ∈ r.timers_ → a.expire_time < b.expire_time →
        a.callback.isSome → ∀ pre post, fired = pre ++ b :: post → a ∈ pre := by
  obtain ⟨r1, popped, h1, h2, h3, h4, h5, _⟩ :=
    Reactor.fire_expired_spec now r.timers_.length r choices extra rfl
  have hperm : (popped.filter (fun t => t.callback.isSome)).Perm
      ((r.timers_.filter (fun t => t.expire_time ≤ now)).filter
        (fun t => t.callback.isSome)) := List.Perm.filter _ h2
  have hsorted : (popped.filter (fun t => t.callback.isSome)).Pairwise
      (fun a b => a.expire_time ≤ b.expire_time) := List.Pairwise.filter _ h3
  have hlast : ∀ a b, a ∈ r.timers_ → b ∈ r.timers_ → a.expire_time < b.expire_time →
      a.callback.isSome → ∀ pre post,
        popped.filter (fun t => t.callback.isSome) = pre ++ b :: post → a ∈ pre := by
    intro a b ha _ hab hcb pre post heq
    have hb : b ∈ popped.filter (fun t => t.callback.isSome) := by
      rw [heq]
      simp
    have hb2 := (List.mem_filter.mp (hperm.mem_iff.mp hb))
    have hb3 := (List.mem_filter.mp hb2.1).2
    simp only [decide_eq_true_eq] at hb3
    have ha2 : a ∈ popped.filter (fun t => t.callback.isSome) := by
      rw [hperm.mem_iff]
      refine List.mem_filter.mpr ⟨List.mem_filter.mpr ⟨ha, ?_⟩, hcb⟩
      simp only [decide_eq_true_eq]
      omega
    rw [heq] at ha2 hsorted
    rcases List.mem_append.mp ha2 with h | h
    · exact h
    · rcases List.mem_cons.mp h with h | h
      · subst h
        omega
      · have hp := (List.pairwise_append.mp hsorted).2.1
        have := (List.pairwise_cons.mp hp).1 a h
        omega
  by_cases hnil : r1.timers_ = []
  · refine ⟨r1, popped.filter (fun t => t.callback.isSome), ?_, h4, hperm, hsorted, h5,
      hlast⟩
    simp only [Reactor.handle_timer_events, h1, hnil, ne_eq, not_true_eq_false, if_false]
  · obtain ⟨k1, k2⟩ := Reactor.reset_timer_fd_keeps r1 rearm_now
    refine ⟨Reactor.reset_timer_fd r1 rearm_now, popped.filter (fun t => t.callback.isSome),
      ?_, by rw [k2]; exact h4, hperm, hsorted, by rw [k1]; exact h5, hlast⟩
    simp only [Reactor.handle_timer_events, h1, hnil, ne_eq, not_false_eq_true, if_true]

/-- Witness for C11: the four example timers, handled at the instant 20. -/
theorem Reactor.timer_monotonicity_witness :
    ∃ (r1 : TimerReactor) (fired : List TimerTask),
      Reactor.handle_timer_events (TimerReactor.example_timers.timers_.length + 1 + 0) 20 21
        [1] TimerReactor.example_timers = some r1 ∧
      r1.invoked = TimerReactor.example_timers.invoked ++ fired ∧
      fired.Perm ((TimerReactor.example_timers.timers_.filter
        (fun t => t.expire_time ≤ 20)).filter (fun t => t.callback.isSome)) ∧
      fired.Pairwise (fun a b => a.expire_time ≤ b.expire_time) ∧
      r1.timers_.Perm (TimerReactor.example_timers.timers_.filter
        (fun t => 20 < t.expire_time)) ∧
      ∀ a b, a ∈ TimerReactor.example_timers.timers_ →
        b ∈ TimerReactor.example_timers.timers_ → a.expire_time < b.expire_time →
        a.callback.isSome → ∀ pre post, fired = pre ++ b :: post → a ∈ pre :=
  Reactor.timer_monotonicity TimerReactor.example_timers 20 21 [1] 0

/-! ## Theorems: a slice whose bounds wrap around -/

/-- C25: `slice` at a failing input. The packet `test_full` views 15 bytes; for
`slice(8, SIZE_MAX)` the sum `start + length` wraps around to 7, the test
`start + length > size_` fails and the length is not truncated: the view returned has
size `2^64 - 1` instead of `min(length, size - start) = 7`, and it is not contained in
the packet. -/
theorem Packet.slice_overflow_escapes :
    test_full.1.wf test_full.2 = true ∧ test_full.1.size = 15 ∧
    (8 + (SIZE_MOD - 1)) % SIZE_MOD = 7 ∧
    (test_full.1.slice test_full.2 8 (SIZE_MOD - 1)).1.size = SIZE_MOD - 1 ∧
    (test_full.1.slice test_full.2 8 (SIZE_MOD - 1)).1.size ≠
      min (SIZE_MOD - 1) (test_full.1.size - 8) ∧
    ¬ ((test_full.1.slice test_full.2 8 (SIZE_MOD - 1)).1.offset_ +
        (test_full.1.slice test_full.2 8 (SIZE_MOD - 1)).1.size ≤
      test_full.1.offset_ + test_full.1.size) ∧
    (test_full.1.slice test_full.2 8 (SIZE_MOD - 1)).1.wf
      (test_full.1.slice test_full.2 8 (SIZE_MOD - 1)).2 = false := by
  decide

/-! ## Theorems: scheduling timers -/

theorem PriorityQueue.top_expire (choice : Nat) (l : List TimerTask) (t : TimerTask)
    (h : PriorityQueue.top choice l = some t) :
    PriorityQueue.top_time l = some t.expire_time := by
  rcases PriorityQueue.top_spec choice l with ⟨_, hn⟩ | ⟨t2, h2, hmem, hmin⟩
  · rw [hn] at h
    cases h
  · rw [h] at h2
    cases h2
    rcases PriorityQueue.top_time_spec l with ⟨hl, _⟩ | ⟨m, hm, hle, x, hx, hxm⟩
    · rw [hl] at hmem
      simp at hmem
    · rw [hm]
      congr 1
      have h3 := hle t hmem
      have h4 := hmin x hx
      omega

theorem PriorityQueue.top_none (choice : Nat) (l : List TimerTask)
    (h : PriorityQueue.top choice l = none) : l = [] := by
  rcases PriorityQueue.top_spec choice l with ⟨hl, _⟩ | ⟨t2, h2, _, _⟩
  · exact hl
  · rw [h] at h2
    cases h2

theorem int64_wrap_eq (x : Int) (hlo : INT64_MIN ≤ x) (hhi : x ≤ INT64_MAX) :
    int64_wrap x = x := by
  unfold INT64_MIN at hlo
  unfold INT64_MAX at hhi
  unfold int64_wrap
  omega

theorem int64_wrap_range (x : Int) :
    INT64_MIN ≤ int64_wrap x ∧ int64_wrap x ≤ INT64_MAX := by
  unfold INT64_MIN INT64_MAX int64_wrap
  omega

/-- What `reset_timer_fd` programs: nothing on an empty heap, and otherwise the delay to
the least expiration time as `diff_ns` holds it, not less than 100 ns, split into seconds
and nanoseconds. -/
theorem Reactor.reset_timer_fd_eq (r : TimerReactor) (now : Int) :
    (r.timers_ = [] → Reactor.reset_timer_fd r now = r) ∧
    (∀ m, PriorityQueue.top_time r.timers_ = some m →
      Reactor.reset_timer_fd r now =
        { r with
          settime_calls := r.settime_calls ++
            [{ value_tv_sec := (max (int64_wrap (m - now)) 100) / 1000000000
               value_tv_nsec := (max (int64_wrap (m - now)) 100) % 1000000000
               interval_tv_sec := 0
               interval_tv_nsec := 0 }] }) := by
  constructor
  · intro hnil
    rcases PriorityQueue.top_spec 0 r.timers_ with ⟨_, hn⟩ | ⟨t, _, hmem, _⟩
    · simp [Reactor.reset_timer_fd, hn]
    · rw [hnil] at hmem
      simp at hmem
  · intro m hm
    rcases PriorityQueue.top_spec 0 r.timers_ with ⟨hl, _⟩ | ⟨t, ht, _, _⟩
    · rw [hl] at hm
      simp [PriorityQueue.top_time] at hm
    · have hte := PriorityQueue.top_expire 0 r.timers_ t ht
      rw [hm] at hte
      simp only [Option.some.injEq] at hte
      have hd : (if int64_wrap (t.expire_time - now) < 100 then 100
          else int64_wrap (t.expire_time - now)) = max (int64_wrap (m - now)) 100 := by
        rw [← hte]
        split <;> omega
      have hpos : (0 : Int) ≤ max (int64_wrap (m - now)) 100 := by omega
      simp only [Reactor.reset_timer_fd, ht, hd]
      rw [Int.tdiv_eq_ediv hpos (by decide), Int.tmod_eq_emod hpos (by decide)]

/-- What `handle_timer_events` does: the expired tasks are popped, those with a callback
are invoked in the order of popping, the others stay, and the descriptor is re-armed
once exactly when tasks stay. -/
theorem Reactor.handle_timer_events_spec (r : TimerReactor) (now rearm_now : Int)
    (choices : List Nat) (extra : Nat) :
    ∃ (r1 : TimerReactor) (popped : List TimerTask),
      Reactor.handle_timer_events (r.timers_.length + 1 + extra) now rearm_now choices r =
        some r1 ∧
      popped.Perm (r.timers_.filter (fun t => t.expire_time ≤ now)) ∧
      r1.invoked = r.invoked ++ popped.filter (fun t => t.callback.isSome) ∧
      r1.timers_.Perm (r.timers_.filter (fun t => now < t.expire_time)) ∧
      (r1.timers_ = [] → r1.settime_calls = r.settime_calls) ∧
      (r1.timers_ ≠ [] → ∃ spec, r1.settime_calls = r.settime_calls ++ [spec]) := by
  obtain ⟨r1, popped, h1, h2, _, h4, h5, h6⟩ :=
    Reactor.fire_expired_spec now r.timers_.length r choices extra rfl
  by_cases hnil : r1.timers_ = []
  · refine ⟨r1, popped, ?_, h2, h4, h5, fun _ => h6, fun h => absurd hnil h⟩
    simp only [Reactor.handle_timer_events, h1, hnil, ne_eq, not_true_eq_false, if_false]
  · obtain ⟨k1, k2⟩ := Reactor.reset_timer_fd_keeps r1 rearm_now
    refine ⟨Reactor.reset_timer_fd r1 rearm_now, popped, ?_, h2, by rw [k2]; exact h4,
      by rw [k1]; exact h5, fun h => absurd (k1 ▸ h) hnil, fun _ => ?_⟩
    · simp only [Reactor.handle_timer_events, h1, hnil, ne_eq, not_false_eq_true, if_true]
    · rcases PriorityQueue.top_time_spec r1.timers_ with ⟨hl, _⟩ | ⟨m, hm, _, _⟩
      · exact absurd hl hnil
      · rw [(Reactor.reset_timer_fd_eq r1 rearm_now).2 m hm, h6]
        exact ⟨_, rfl⟩

/-- C28: what re-arming programs. With an empty heap `reset_timer_fd` programs nothing.
With a heap whose least expiration time is `m` it makes one call of `timerfd_settime`
and does not change the heap; the value programmed has `0 <= tv_nsec < 10^9`, amounts to
at least 100 ns, so it is not zero, and the interval is zero. When the difference
`m - now` is representable in the `int64_t` that holds it, the delay is
`d = max(m - now, 100)` nanoseconds, also when the head has already expired (then it is
100 ns): `tv_sec = d / 10^9`, `tv_nsec = d mod 10^9` and
`tv_sec * 10^9 + tv_nsec = d`. -/
theorem Reactor.reset_timer_fd_programs (r : TimerReactor) (now : Int) :
    (r.timers_ = [] → Reactor.reset_timer_fd r now = r) ∧
    (∀ m, PriorityQueue.top_time r.timers_ = some m →
      ∃ spec : Itimerspec,
        (Reactor.reset_timer_fd r now).settime_calls = r.settime_calls ++ [spec] ∧
        (Reactor.reset_timer_fd r now).timers_ = r.timers_ ∧
        0 ≤ spec.value_tv_nsec ∧ spec.value_tv_nsec < 1000000000 ∧
        100 ≤ spec.value_tv_sec * 1000000000 + spec.value_tv_nsec ∧
        (spec.value_tv_sec ≠ 0 ∨ spec.value_tv_nsec ≠ 0) ∧
        spec.interval_tv_sec = 0 ∧ spec.interval_tv_nsec = 0 ∧
        (INT64_MIN ≤ m - now → m - now ≤ INT64_MAX →
          spec.value_tv_sec = (max (m - now) 100) / 1000000000 ∧
          spec.value_tv_nsec = (max (m - now) 100) % 1000000000 ∧
          spec.value_tv_sec * 1000000000 + spec.value_tv_nsec = max (m - now) 100 ∧
          100 ≤ max (m - now) 100 ∧
          (m - now < 100 → spec.value_tv_sec = 0 ∧ spec.value_tv_nsec = 100))) := by
  obtain ⟨h1, h2⟩ := Reactor.reset_timer_fd_eq r now
  refine ⟨h1, ?_⟩
  intro m hm
  rw [h2 m hm]
  have key : ∀ d : Int, 100 ≤ d →
      0 ≤ d % 1000000000 ∧ d % 1000000000 < 1000000000 ∧
      d / 1000000000 * 1000000000 + d % 1000000000 = d ∧
      (d / 1000000000 ≠ 0 ∨ d % 1000000000 ≠ 0) := by
    intro d hd
    have hmod := Int.emod_nonneg d (by decide : (1000000000 : Int) ≠ 0)
    have hlt := Int.emod_lt_of_pos d (by decide : (0 : Int) < 1000000000)
    have hsum : d / 1000000000 * 1000000000 + d % 1000000000 = d := by
      rw [Int.mul_comm]
      exact Int.ediv_add_emod _ _
    refine ⟨hmod, hlt, hsum, ?_⟩
    by_contra hboth
    push_neg at hboth
    rw [hboth.1, hboth.2] at hsum
    omega
  have hw : (100 : Int) ≤ max (int64_wrap (m - now)) 100 := le_max_right _ _
  obtain ⟨w1, w2, w3, w4⟩ := key _ hw
  refine ⟨_, rfl, rfl, w1, w2, ?_, w4, rfl, rfl, ?_⟩
  · simp only
    rw [w3]
    exact hw
  · intro hlo hhi
    simp only
    rw [int64_wrap_eq (m - now) hlo hhi]
    have hd : (100 : Int) ≤ max (m - now) 100 := le_max_right _ _
    refine ⟨rfl, rfl, (key _ hd).2.2.1, hd, ?_⟩
    intro hlow
    have : max (m - now) 100 = 100 := max_eq_right (by omega)
    rw [this]
    decide

/-- Witness for C28: the least expiration time of the example timers is 10; re-arming
at the instant -2000000005 programs 2 s and 15 ns. -/
theorem Reactor.reset_timer_fd_programs_witness :
    PriorityQueue.top_time TimerReactor.example_timers.timers_ = some 10 ∧
    INT64_MIN ≤ 10 - (-2000000005) ∧ 10 - (-2000000005) ≤ INT64_MAX ∧
    ∃ spec : Itimerspec,
      (Reactor.reset_timer_fd TimerReactor.example_timers (-2000000005)).settime_calls =
        TimerReactor.example_timers.settime_calls ++ [spec] ∧
      spec.value_tv_sec = (max (10 - (-2000000005)) 100) / 1000000000 ∧
      spec.value_tv_nsec = (max (10 - (-2000000005)) 100) % 1000000000 :=
  ⟨by decide, by decide, by decide,
    match (Reactor.reset_timer_fd_programs TimerReactor.example_timers (-2000000005)).2 10
      (by decide) with
    | ⟨spec, h1, _, _, _, _, _, _, _, h9⟩ =>
      ⟨spec, h1, (h9 (by decide) (by decide)).1, (h9 (by decide) (by decide)).2.1⟩⟩

/-- The delay programmed for an expiration time whose distance from `now` is not
representable in an `int64_t`: for the least instant and `now = 1` the difference is held
as `INT64_MAX`, and 9223372036 s and 854775807 ns are programmed. -/
theorem Reactor.reset_timer_fd_far_past :
    (Reactor.reset_timer_fd
      { timers_ := [{ expire_time := INT64_MIN, callback := some 1, id := 0 }]
        settime_calls := []
        invoked := [] } 1).settime_calls =
      [{ value_tv_sec := 9223372036
         value_tv_nsec := 854775807
         interval_tv_sec := 0
         interval_tv_nsec := 0 }] := by
  decide

/-- The result of `run_at` in its two cases. -/
theorem Reactor.run_at_eq (r : TimerReactor) (t : Int) (cb : Option Nat) (rearm_now : Int) :
    ((r.timers_ = [] ∨ ∃ m, PriorityQueue.top_time r.timers_ = some m ∧ t < m) →
      Reactor.run_at r t cb rearm_now =
        Reactor.reset_timer_fd
          { r with timers_ := r.timers_ ++ [{ expire_time := t, callback := cb, id := 0 }] }
          rearm_now) ∧
    (¬ (r.timers_ = [] ∨ ∃ m, PriorityQueue.top_time r.timers_ = some m ∧ t < m) →
      Reactor.run_at r t cb rearm_now =
        { r with timers_ := r.timers_ ++ [{ expire_time := t, callback := cb, id := 0 }] }) := by
  cases htop : PriorityQueue.top 0 r.timers_ with
  | none =>
    have hnil := PriorityQueue.top_none 0 r.timers_ htop
    constructor
    · intro _
      simp [Reactor.run_at, htop, PriorityQueue.push]
    · intro hn
      exact absurd (Or.inl hnil) hn
  | some top =>
    have hte := PriorityQueue.top_expire 0 r.timers_ top htop
    have hne : r.timers_ ≠ [] := by
      intro hnil
      rw [hnil] at hte
      simp [PriorityQueue.top_time] at hte
    by_cases hlt : t < top.expire_time
    · constructor
      · intro _
        simp [Reactor.run_at, htop, hlt, PriorityQueue.push]
      · intro hn
        exact absurd (Or.inr ⟨_, hte, hlt⟩) hn
    · constructor
      · rintro (h | ⟨m, hm, hlt2⟩)
        · exact absurd h hne
        · rw [hte] at hm
          simp only [Option.some.injEq] at hm
          omega
      · intro _
        simp [Reactor.run_at, htop, hlt, PriorityQueue.push]

/-- The least expiration time after a push. -/
theorem PriorityQueue.top_time_push (l : List TimerTask) (task : TimerTask) :
    PriorityQueue.top_time (l ++ [task]) =
      match PriorityQueue.top_time l with
      | none => some task.expire_time
      | some m => some (min m task.expire_time) := by
  induction l with
  | nil => rfl
  | cons x l ih =>
    have hcons : PriorityQueue.top_time (x :: l ++ [task]) =
        match PriorityQueue.top_time (l ++ [task]) with
        | none => some x.expire_time
        | some m => some (min x.expire_time m) := rfl
    rw [hcons, ih]
    cases h : PriorityQueue.top_time l with
    | none => simp only [PriorityQueue.top_time, h]
    | some m => simp only [PriorityQueue.top_time, h, min_assoc]

/-- C26: `run_at(t, cb)` pushes the task `(t, cb, 0)` onto the heap and invokes no
callback. It re-arms the timer descriptor, with one call of `timerfd_settime`, exactly
when the heap was empty or `t` is strictly earlier than the least expiration time
before, and then the new task has the least expiration time of the heap; otherwise it
programs nothing. The call is for the delay `max(t - now, 100)` ns to the new task when
the difference `t - now` is representable in the `int64_t` that holds it. Consequently
`run_after(0, cb)` at the instant `now` invokes nothing, and a later handling of the
timer events, at any instant `now2 >= now`, invokes `cb`. -/
theorem Reactor.run_at_rearms (r : TimerReactor) (t : Int) (cb : Option Nat)
    (rearm_now : Int) :
    (Reactor.run_at r t cb rearm_now).timers_ =
      r.timers_ ++ [{ expire_time := t, callback := cb, id := 0 }] ∧
    (Reactor.run_at r t cb rearm_now).invoked = r.invoked ∧
    ((r.timers_ = [] ∨ ∃ m, PriorityQueue.top_time r.timers_ = some m ∧ t < m) →
      PriorityQueue.top_time (Reactor.run_at r t cb rearm_now).timers_ = some t ∧
      (∃ spec : Itimerspec,
        (Reactor.run_at r t cb rearm_now).settime_calls = r.settime_calls ++ [spec]) ∧
      (INT64_MIN ≤ t - rearm_now → t - rearm_now ≤ INT64_MAX →
        (Reactor.run_at r t cb rearm_now).settime_calls = r.settime_calls ++
          [{ value_tv_sec := (max (t - rearm_now) 100) / 1000000000
             value_tv_nsec := (max (t - rearm_now) 100) % 1000000000
             interval_tv_sec := 0
             interval_tv_nsec := 0 }])) ∧
    (¬ (r.timers_ = [] ∨ ∃ m, PriorityQueue.top_time r.timers_ = some m ∧ t < m) →
      (Reactor.run_at r t cb rearm_now).settime_calls = r.settime_calls) ∧
    (∀ (id : Nat) (now : Int),
      (Reactor.run_after r 0 (some id) now rearm_now).invoked = r.invoked ∧
      ∀ (now2 rearm2 : Int) (choices : List Nat) (extra : Nat), now ≤ now2 →
        ∃ (r2 : TimerReactor) (fired : List TimerTask),
          Reactor.handle_timer_events
            ((Reactor.run_after r 0 (some id) now rearm_now).timers_.length + 1 + extra)
            now2 rearm2 choices (Reactor.run_after r 0 (some id) now rearm_now) = some r2 ∧
          r2.invoked = r.invoked ++ fired ∧
          { expire_time := now, callback := some id, id := 0 } ∈ fired) := by
  obtain ⟨hyes, hno⟩ := Reactor.run_at_eq r t cb rearm_now
  have htimers : ∀ (t : Int) (cb : Option Nat),
      (Reactor.run_at r t cb rearm_now).timers_ =
        r.timers_ ++ [{ expire_time := t, callback := cb, id := 0 }] ∧
      (Reactor.run_at r t cb rearm_now).invoked = r.invoked := by
    intro t cb
    obtain ⟨hyes, hno⟩ := Reactor.run_at_eq r t cb rearm_now
    by_cases hc : r.timers_ = [] ∨ ∃ m, PriorityQueue.top_time r.timers_ = some m ∧ t < m
    · rw [hyes hc]
      exact Reactor.reset_timer_fd_keeps _ _
    · rw [hno hc]
      exact ⟨rfl, rfl⟩
  refine ⟨(htimers t cb).1, (htimers t cb).2, ?_, ?_, ?_⟩
  · intro hc
    have htop : PriorityQueue.top_time
        (r.timers_ ++ [{ expire_time := t, callback := cb, id := 0 }]) = some t := by
      rw [PriorityQueue.top_time_push]
      rcases hc with hnil | ⟨m, hm, hlt⟩
      · rw [hnil]
        rfl
      · rw [hm]
        simp only
        rw [min_eq_right (by omega)]
    rw [(htimers t cb).1]
    refine ⟨htop, ?_, ?_⟩
    · rw [hyes hc, (Reactor.reset_timer_fd_eq _ rearm_now).2 t htop]
      exact ⟨_, rfl⟩
    · intro hlo hhi
      rw [hyes hc, (Reactor.reset_timer_fd_eq _ rearm_now).2 t htop,
        int64_wrap_eq (t - rearm_now) hlo hhi]
  · intro hc
    rw [hno hc]
  · intro id now
    have hexp : now + 0 * 1000000 = now := by omega
    have hrun : Reactor.run_after r 0 (some id) now rearm_now =
        Reactor.run_at r now (some id) rearm_now := by
      simp only [Reactor.run_after, hexp]
    rw [hrun]
    refine ⟨(htimers now (some id)).2, ?_⟩
    intro now2 rearm2 choices extra hle
    obtain ⟨r2, popped, h1, h2, h3, _⟩ := Reactor.handle_timer_events_spec
      (Reactor.run_at r now (some id) rearm_now) now2 rearm2 choices extra
    refine ⟨r2, popped.filter (fun t => t.callback.isSome), h1, ?_, ?_⟩
    · rw [h3, (htimers now (some id)).2]
    · refine List.mem_filter.mpr ⟨h2.mem_iff.mpr (List.mem_filter.mpr ⟨?_, ?_⟩), rfl⟩
      · rw [(htimers now (some id)).1]
        simp
      · simpa using hle

/-- Witness for C26: a timer for the instant 5 on the example timers, whose least
expiration time is 10. -/
theorem Reactor.run_at_rearms_witness :
    (TimerReactor.example_timers.timers_ = [] ∨
      ∃ m, PriorityQueue.top_time TimerReactor.example_timers.timers_ = some m ∧ 5 < m) ∧
    INT64_MIN ≤ 5 - 2 ∧ 5 - 2 ≤ INT64_MAX ∧
    (Reactor.run_at TimerReactor.example_timers 5 (some 4) 2).settime_calls =
      TimerReactor.example_timers.settime_calls ++
        [{ value_tv_sec := (max (5 - 2) 100) / 1000000000
           value_tv_nsec := (max (5 - 2) 100) % 1000000000
           interval_tv_sec := 0
           interval_tv_nsec := 0 }] :=
  ⟨Or.inr ⟨10, by decide, by decide⟩, by decide, by decide,
    ((Reactor.run_at_rearms TimerReactor.example_timers 5 (some 4) 2).2.2.1
      (Or.inr ⟨10, by decide, by decide⟩)).2.2 (by decide) (by decide)⟩

theorem List.perm_pair_cases {α : Type} (l : List α) (a b : α) (h : l.Perm [a, b]) :
    l = [a, b] ∨ l = [b, a] := by
  have hlen := h.length_eq
  match l, hlen with
  | [x, y], _ =>
    have hx : x ∈ [a, b] := h.mem_iff.mp (by simp)
    have hy : y ∈ [a, b] := h.mem_iff.mp (by simp)
    have ha : a ∈ [x, y] := h.mem_iff.mpr (by simp)
    have hb : b ∈ [x, y] := h.mem_iff.mpr (by simp)
    simp only [List.mem_cons, List.mem_singleton, List.not_mem_nil, or_false] at hx hy ha hb
    rcases hx with rfl | rfl
    · rcases hy with rfl | rfl
      · rcases hb with rfl | rfl <;> exact Or.inl rfl
      · exact Or.inl rfl
    · rcases hy with rfl | rfl
      · exact Or.inr rfl
      · rcases ha with rfl | rfl <;> exact Or.inl rfl

/-- The reactor after the three `run_after` calls of the fan-out scenario: the three
tasks are in the heap and the descriptor has been armed once, for the first one. -/
theorem TimerReactor.fan_out_scheduled (n0 n1 n2 : Int) (h01 : n0 ≤ n1) (h12 : n1 ≤ n2) :
    Reactor.run_after
        (Reactor.run_after (Reactor.run_after TimerReactor.idle 10 (some 1) n0 n0) 10
          (some 2) n1 n1) 20 (some 3) n2 n2 =
      { timers_ := [{ expire_time := n0 + 10000000, callback := some 1, id := 0 },
            { expire_time := n1 + 10000000, callback := some 2, id := 0 },
            { expire_time := n2 + 20000000, callback := some 3, id := 0 }]
        settime_calls :=
          [{ value_tv_sec := (max (n0 + 10000000 - n0) 100) / 1000000000
             value_tv_nsec := (max (n0 + 10000000 - n0) 100) % 1000000000
             interval_tv_sec := 0
             interval_tv_nsec := 0 }]
        invoked := [] } := by
  have e1 : n0 + 10 * 1000000 = n0 + 10000000 := by omega
  have e2 : n1 + 10 * 1000000 = n1 + 10000000 := by omega
  have e3 : n2 + 20 * 1000000 = n2 + 20000000 := by omega
  have hr1 : Reactor.run_at TimerReactor.idle (n0 + 10000000) (some 1) n0 =
      { timers_ := [{ expire_time := n0 + 10000000, callback := some 1, id := 0 }]
        settime_calls :=
          [{ value_tv_sec := (max (n0 + 10000000 - n0) 100) / 1000000000
             value_tv_nsec := (max (n0 + 10000000 - n0) 100) % 1000000000
             interval_tv_sec := 0
             interval_tv_nsec := 0 }]
        invoked := [] } := by
    have hw : int64_wrap (n0 + 10000000 - n0) = n0 + 10000000 - n0 := by
      unfold int64_wrap
      omega
    rw [(Reactor.run_at_eq TimerReactor.idle (n0 + 10000000) (some 1) n0).1 (Or.inl rfl)]
    have he := (Reactor.reset_timer_fd_eq
      { TimerReactor.idle with
        timers_ := TimerReactor.idle.timers_ ++
          [{ expire_time := n0 + 10000000, callback := some 1, id := 0 }] }
      n0).2 (n0 + 10000000) rfl
    rw [hw] at he
    exact he
  have hr2 : ∀ (calls : List Itimerspec),
      Reactor.run_at
        { timers_ := [{ expire_time := n0 + 10000000, callback := some 1, id := 0 }]
          settime_calls := calls
          invoked := [] } (n1 + 10000000) (some 2) n1 =
      { timers_ := [{ expire_time := n0 + 10000000, callback := some 1, id := 0 },
            { expire_time := n1 + 10000000, callback := some 2, id := 0 }]
        settime_calls := calls
        invoked := [] } := by
    intro calls
    rw [(Reactor.run_at_eq _ (n1 + 10000000) (some 2) n1).2 (by
      rintro (h | ⟨m, hm, hlt⟩)
      · simp at h
      · simp only [PriorityQueue.top_time, Option.some.injEq] at hm
        omega)]
    rfl
  have hr3 : ∀ (calls : List Itimerspec),
      Reactor.run_at
        { timers_ := [{ expire_time := n0 + 10000000, callback := some 1, id := 0 },
            { expire_time := n1 + 10000000, callback := some 2, id := 0 }]
          settime_calls := calls
          invoked := [] } (n2 + 20000000) (some 3) n2 =
      { timers_ := [{ expire_time := n0 + 10000000, callback := some 1, id := 0 },
            { expire_time := n1 + 10000000, callback := some 2, id := 0 },
            { expire_time := n2 + 20000000, callback := some 3, id := 0 }]
        settime_calls := calls
        invoked := [] } := by
    intro calls
    rw [(Reactor.run_at_eq _ (n2 + 20000000) (some 3) n2).2 (by
      rintro (h | ⟨m, hm, hlt⟩)
      · simp at h
      · simp only [PriorityQueue.top_time, Option.some.injEq] at hm
        omega)]
    rfl
  simp only [Reactor.run_after, e1, e2, e3]
  rw [hr1, hr2, hr3]

/-- C27 (amended): the timer fan-out scenario. Three timers are scheduled at +10 ms,
+10 ms and +20 ms on a reactor without timers, at instants `n0 <= n1 <= n2`; the timer
events are handled at an instant `t1` at which the first two have expired and the third
has not, and at an instant `t2` at which the third has expired. Then the callbacks of
the first two are invoked, in either order, before that of the third, the heap is empty
at the end, and `timerfd_settime` has been called exactly twice in all: the initial
arming, and one re-arming after the first tier has been drained. After the second tier
the heap is empty and nothing is programmed. -/
theorem TimerReactor.fan_out_rearms_once (n0 n1 n2 t1 t2 : Int)
    (choices1 choices2 : List Nat) (h01 : n0 ≤ n1) (h12 : n1 ≤ n2)
    (h1 : n1 + 10000000 ≤ t1) (h2 : t1 < n2 + 20000000) (h3 : n2 + 20000000 ≤ t2) :
    ∃ r : TimerReactor,
      TimerReactor.fan_out n0 n1 n2 t1 t2 choices1 choices2 = some r ∧
      (r.invoked = [{ expire_time := n0 + 10000000, callback := some 1, id := 0 },
          { expire_time := n1 + 10000000, callback := some 2, id := 0 },
          { expire_time := n2 + 20000000, callback := some 3, id := 0 }] ∨
        r.invoked = [{ expire_time := n1 + 10000000, callback := some 2, id := 0 },
          { expire_time := n0 + 10000000, callback := some 1, id := 0 },
          { expire_time := n2 + 20000000, callback := some 3, id := 0 }]) ∧
      r.timers_ = [] ∧
      r.settime_calls.length = 2 := by
  have hs := TimerReactor.fan_out_scheduled n0 n1 n2 h01 h12
  obtain ⟨r4, popped, k1, k2, k3, k4, _, k6⟩ := Reactor.handle_timer_events_spec
    { timers_ := [{ expire_time := n0 + 10000000, callback := some 1, id := 0 },
          { expire_time := n1 + 10000000, callback := some 2, id := 0 },
          { expire_time := n2 + 20000000, callback := some 3, id := 0 }]
      settime_calls :=
        [{ value_tv_sec := (max (n0 + 10000000 - n0) 100) / 1000000000
           value_tv_nsec := (max (n0 + 10000000 - n0) 100) % 1000000000
           interval_tv_sec := 0
           interval_tv_nsec := 0 }]
      invoked := [] } t1 t1 choices1 0
  have hf1 : n0 + 10000000 ≤ t1 := by omega
  have hf3 : ¬ n2 + 20000000 ≤ t1 := by omega
  have hg1 : ¬ t1 < n0 + 10000000 := by omega
  have hg2 : ¬ t1 < n1 + 10000000 := by omega
  simp only [List.filter_cons, List.filter_nil, hf1, h1, hf3, h2, hg1, hg2, decide_True,
    decide_False, if_true, if_false, Bool.false_eq_true] at k2 k4
  have hrest : r4.timers_ = [{ expire_time := n2 + 20000000, callback := some 3, id := 0 }] :=
    List.perm_singleton.mp k4
  obtain ⟨spec, hspec⟩ := k6 (by rw [hrest]; simp)
  obtain ⟨r5, popped2, m1, m2, m3, m4, m5, _⟩ := Reactor.handle_timer_events_spec r4 t2 t2
    choices2 2
  rw [hrest] at m2 m4
  have hg3 : ¬ t2 < n2 + 20000000 := by omega
  simp only [List.filter_cons, List.filter_nil, h3, hg3, decide_True, decide_False, if_true,
    if_false, Bool.false_eq_true] at m2 m4
  have hp2 : popped2 = [{ expire_time := n2 + 20000000, callback := some 3, id := 0 }] :=
    List.perm_singleton.mp m2
  have hnil : r5.timers_ = [] := List.perm_nil.mp m4
  have k1b : Reactor.handle_timer_events 4 t1 t1 choices1
      { timers_ := [{ expire_time := n0 + 10000000, callback := some 1, id := 0 },
            { expire_time := n1 + 10000000, callback := some 2, id := 0 },
            { expire_time := n2 + 20000000, callback := some 3, id := 0 }]
        settime_calls :=
          [{ value_tv_sec := (max (n0 + 10000000 - n0) 100) / 1000000000
             value_tv_nsec := (max (n0 + 10000000 - n0) 100) % 1000000000
             interval_tv_sec := 0
             interval_tv_nsec := 0 }]
        invoked := [] } = some r4 := k1
  have m1b : Reactor.handle_timer_events 4 t2 t2 choices2 r4 = some r5 := by
    have hm := m1
    rw [hrest] at hm
    exact hm
  refine ⟨r5, ?_, ?_, hnil, ?_⟩
  · unfold TimerReactor.fan_out
    simp only
    rw [hs, k1b]
    exact m1b
  · rw [m3, k3, hp2]
    rcases List.perm_pair_cases popped _ _ k2 with hp | hp
    · left
      rw [hp]
      simp
    · right
      rw [hp]
      simp
  · rw [m5 hnil, hspec]
    simp

/-- Counterexample for C27: the three timers are scheduled at the instant 0 and the
timer events are handled at +10 ms and at +20 ms. All three callbacks are invoked, but
`timerfd_settime` is called twice in all, so that the descriptor is re-armed once after
the initial arming, not twice. -/
theorem TimerReactor.fan_out_counterexample :
    ((TimerReactor.fan_out 0 0 0 10000000 20000000 [] []).map
        (fun r => r.invoked.map (fun t => t.callback))) = some [some 1, some 2, some 3] ∧
    ((TimerReactor.fan_out 0 0 0 10000000 20000000 [] []).map
        (fun r => r.settime_calls.length)) = some 2 ∧
    ((TimerReactor.fan_out 0 0 0 10000000 20000000 [] []).map
        (fun r => r.settime_calls.length)) ≠ some (1 + 2) := by
  decide

/-- Witness for C27 (amended): the scenario with the timers scheduled at the instants 0,
1 and 2 and the timer events handled at +10 ms and +20 ms of the last one. -/
theorem TimerReactor.fan_out_rearms_once_witness :
    (0 : Int) ≤ 1 ∧ (1 : Int) ≤ 2 ∧ (1 : Int) + 10000000 ≤ 10000002 ∧
    (10000002 : Int) < 2 + 20000000 ∧ (2 : Int) + 20000000 ≤ 20000002 ∧
    ∃ r : TimerReactor,
      TimerReactor.fan_out 0 1 2 10000002 20000002 [] [] = some r ∧
      r.timers_ = [] ∧ r.settime_calls.length = 2 :=
  ⟨by decide, by decide, by decide, by decide, by decide,
    match TimerReactor.fan_out_rearms_once 0 1 2 10000002 20000002 [] [] (by decide)
      (by decide) (by decide) (by decide) (by decide) with
    | ⟨r, h1, _, h3, h4⟩ => ⟨r, h1, h3, h4⟩⟩

/-! ## Theorems: handler registration -/

theorem HandlerMap.find_assign (m : List (Int × Nat)) (fd : Int) (handler : Nat) :
    HandlerMap.find (HandlerMap.assign m fd handler) fd = some handler ∧
    ∀ k, k ≠ fd → HandlerMap.find (HandlerMap.assign m fd handler) k = HandlerMap.find m k := by
  induction m with
  | nil =>
    refine ⟨by simp [HandlerMap.assign, HandlerMap.find], ?_⟩
    intro k hk
    have : ¬ fd = k := fun h => hk h.symm
    simp [HandlerMap.assign, HandlerMap.find, this]
  | cons e rest ih =>
    obtain ⟨k0, v0⟩ := e
    by_cases h0 : k0 = fd
    · subst h0
      refine ⟨by simp [HandlerMap.assign, HandlerMap.find], ?_⟩
      intro k hk
      have : ¬ k0 = k := fun h => hk h.symm
      simp [HandlerMap.assign, HandlerMap.find, this]
    · refine ⟨by simp [HandlerMap.assign, HandlerMap.find, h0, ih.1], ?_⟩
      intro k hk
      by_cases h1 : k0 = k
      · subst h1
        simp [HandlerMap.assign, HandlerMap.find, h0]
      · simp [HandlerMap.assign, HandlerMap.find, h0, h1, ih.2 k hk]

theorem HandlerMap.find_erase (m : List (Int × Nat)) (fd : Int) :
    HandlerMap.find (HandlerMap.erase m fd) fd = none ∧
    ∀ k, k ≠ fd → HandlerMap.find (HandlerMap.erase m fd) k = HandlerMap.find m k := by
  induction m with
  | nil => exact ⟨rfl, fun _ _ => rfl⟩
  | cons e rest ih =>
    obtain ⟨k0, v0⟩ := e
    unfold HandlerMap.erase at ih ⊢
    by_cases h0 : k0 = fd
    · subst h0
      refine ⟨by simpa [List.filter_cons] using ih.1, ?_⟩
      intro k hk
      have : ¬ k0 = k := fun h => hk h.symm
      simpa [List.filter_cons, HandlerMap.find, this] using ih.2 k hk
    · refine ⟨by simpa [List.filter_cons, h0, HandlerMap.find] using ih.1, ?_⟩
      intro k hk
      by_cases h1 : k0 = k
      · subst h1
        simp [List.filter_cons, h0, HandlerMap.find]
      · simpa [List.filter_cons, h0, HandlerMap.find, h1] using ih.2 k hk

theorem EPOLLET_set (events : Nat) :
    (events ||| EPOLLET) &&& EPOLLET = EPOLLET ∧
    ∀ i, i ≠ 31 → (events ||| EPOLLET).testBit i = events.testBit i := by
  constructor
  · apply Nat.eq_of_testBit_eq
    intro i
    simp only [Nat.testBit_and, Nat.testBit_or]
    cases events.testBit i <;> simp
  · intro i hi
    have : EPOLLET.testBit i = false := by
      unfold EPOLLET
      rw [Nat.testBit_two_pow]
      simp
      omega
    simp [Nat.testBit_or, this]

/-- The map and the log of `epoll_ctl` calls after `add`: the handler is assigned, one
`EPOLL_CTL_ADD` is made and, when the kernel answers it with `EEXIST`, one
`EPOLL_CTL_MOD`, both with the mask `events | EPOLLET`. -/
theorem Reactor.add_handlers (r : HandlerReactor) (fd : Int) (events : Nat) (handler : Nat) :
    (Reactor.add r fd events handler).2.handlers = HandlerMap.assign r.handlers fd handler ∧
    (Reactor.add r fd events handler).2.epoll_calls =
      r.epoll_calls ++ EpollCtl.ctl_add fd (events ||| EPOLLET) ::
        (if r.results.head? = some .eexist then [EpollCtl.ctl_mod fd (events ||| EPOLLET)]
          else []) := by
  unfold Reactor.add
  simp only
  cases hres : r.results with
  | nil => exact ⟨rfl, rfl⟩
  | cons x rest =>
    cases x with
    | ok => exact ⟨rfl, rfl⟩
    | eexist =>
      cases rest with
      | nil => exact ⟨rfl, by simp⟩
      | cons y rest2 => cases y <;> exact ⟨rfl, by simp⟩
    | error => exact ⟨rfl, rfl⟩

/-- The map and the log of `epoll_ctl` calls after `modify_events`: the map is unchanged
and one `EPOLL_CTL_MOD` with the mask `events | EPOLLET` is made. -/
theorem Reactor.modify_events_handlers (r : HandlerReactor) (fd : Int) (events : Nat) :
    (Reactor.modify_events r fd events).2.handlers = r.handlers ∧
    (Reactor.modify_events r fd events).2.epoll_calls =
      r.epoll_calls ++ [EpollCtl.ctl_mod fd (events ||| EPOLLET)] := by
  unfold Reactor.modify_events
  simp only
  cases hres : r.results with
  | nil => exact ⟨rfl, rfl⟩
  | cons x rest => cases x <;> exact ⟨rfl, rfl⟩

/-- C29: handler registration is a map keyed by descriptor. `add(fd, mask, h)` succeeds
when the kernel accepts the `EPOLL_CTL_ADD`, or reports `EEXIST` and accepts the
`EPOLL_CTL_MOD`; after a successful `add` the handler of `fd` is `h`, whatever it was
before, and the handlers of the other descriptors are unchanged. `modify_events` leaves
the map unchanged. `remove(fd)` leaves no handler for `fd` and the handlers of the other
descriptors unchanged. The `epoll_ctl` calls made are exactly these: `add` makes one
`EPOLL_CTL_ADD` for `fd` and, when the kernel answers it with `EEXIST`, one
`EPOLL_CTL_MOD` for `fd`, `modify_events` makes one `EPOLL_CTL_MOD` for `fd`, each with
the mask `mask | EPOLLET`, and `remove` makes one `EPOLL_CTL_DEL` for `fd`. So every
mask programmed by `add` or `modify_events` is the mask requested with the bit
`EPOLLET` set: the bit is set and the other bits are those requested. -/
theorem Reactor.handler_registration (r : HandlerReactor) (fd : Int) (events : Nat)
    (handler : Nat) :
    (∀ rest, (r.results = .ok :: rest ∨ r.results = .eexist :: .ok :: rest) →
      (Reactor.add r fd events handler).1 = .ok ()) ∧
    ((Reactor.add r fd events handler).1 = .ok () →
      HandlerMap.find (Reactor.add r fd events handler).2.handlers fd = some handler ∧
      ∀ k, k ≠ fd →
        HandlerMap.find (Reactor.add r fd events handler).2.handlers k =
          HandlerMap.find r.handlers k) ∧
    (Reactor.modify_events r fd events).2.handlers = r.handlers ∧
    (HandlerMap.find (Reactor.remove r fd).handlers fd = none ∧
      ∀ k, k ≠ fd →
        HandlerMap.find (Reactor.remove r fd).handlers k = HandlerMap.find r.handlers k) ∧
    (Reactor.add r fd events handler).2.epoll_calls =
      r.epoll_calls ++ EpollCtl.ctl_add fd (events ||| EPOLLET) ::
        (if r.results.head? = some .eexist then [EpollCtl.ctl_mod fd (events ||| EPOLLET)]
          else []) ∧
    (Reactor.modify_events r fd events).2.epoll_calls =
      r.epoll_calls ++ [EpollCtl.ctl_mod fd (events ||| EPOLLET)] ∧
    (Reactor.remove r fd).epoll_calls = r.epoll_calls ++ [EpollCtl.ctl_del fd] ∧
    (∀ c ∈ (Reactor.add r fd events handler).2.epoll_calls,
      c ∈ r.epoll_calls ∨ c.mask = some (events ||| EPOLLET)) ∧
    (∀ c ∈ (Reactor.modify_events r fd events).2.epoll_calls,
      c ∈ r.epoll_calls ∨ c.mask = some (events ||| EPOLLET)) ∧
    (events ||| EPOLLET) &&& EPOLLET = EPOLLET ∧
    (∀ i, i ≠ 31 → (events ||| EPOLLET).testBit i = events.testBit i) := by
  obtain ⟨ha, hlog⟩ := Reactor.add_handlers r fd events handler
  obtain ⟨hm, hmlog⟩ := Reactor.modify_events_handlers r fd events
  refine ⟨?_, ?_, hm, HandlerMap.find_erase r.handlers fd, hlog, hmlog, rfl, ?_, ?_,
    (EPOLLET_set events).1, (EPOLLET_set events).2⟩
  · rintro rest (h | h) <;> simp [Reactor.add, h]
  · intro _
    rw [ha]
    exact HandlerMap.find_assign r.handlers fd handler
  · intro c hc
    rw [hlog] at hc
    rcases List.mem_append.mp hc with h | h
    · exact Or.inl h
    · right
      rcases List.mem_cons.mp h with h | h
      · rw [h]
        rfl
      · split at h
        · rw [List.mem_singleton.mp h]
          rfl
        · cases h
  · intro c hc
    rw [hmlog] at hc
    rcases List.mem_append.mp hc with h | h
    · exact Or.inl h
    · right
      rw [List.mem_singleton.mp h]
      rfl

/-- Witness for C29: on the example reactor, `add(7, EPOLLIN, 71)` replaces the handler
70 of the descriptor 7, keeps the handler of the descriptor 5 and makes one
`EPOLL_CTL_ADD` with the mask `EPOLLIN | EPOLLET`. -/
theorem Reactor.handler_registration_witness :
    (Reactor.add HandlerReactor.example_reactor 7 EPOLLIN 71).1 = .ok () ∧
    HandlerMap.find HandlerReactor.example_reactor.handlers 7 = some 70 ∧
    HandlerMap.find (Reactor.add HandlerReactor.example_reactor 7 EPOLLIN 71).2.handlers 7 =
      some 71 ∧
    HandlerMap.find (Reactor.add HandlerReactor.example_reactor 7 EPOLLIN 71).2.handlers 5 =
      HandlerMap.find HandlerReactor.example_reactor.handlers 5 ∧
    (Reactor.add HandlerReactor.example_reactor 7 EPOLLIN 71).2.epoll_calls =
      [EpollCtl.ctl_add 7 2147483649] :=
  ⟨rfl, by decide,
    ((Reactor.handler_registration HandlerReactor.example_reactor 7 EPOLLIN 71).2.1 rfl).1,
    ((Reactor.handler_registration HandlerReactor.example_reactor 7 EPOLLIN 71).2.1 rfl).2 5
      (by decide),
    by decide⟩

/-- The exception of `add`: when the kernel refuses the `EPOLL_CTL_ADD` with an error
other than `EEXIST`, or refuses the `EPOLL_CTL_MOD` that follows an `EEXIST`, `add`
writes one line with `perror` and throws, with the handler already assigned. -/
theorem Reactor.add_throws (r : HandlerReactor) (fd : Int) (events : Nat) (handler : Nat)
    (rest : List EpollResult)
    (h : r.results = .error :: rest ∨ r.results = .eexist :: .eexist :: rest ∨
      r.results = .eexist :: .error :: rest) :
    (Reactor.add r fd events handler).1 =
      .error ("Reactor::add failed for fd " ++ toString fd) ∧
    (Reactor.add r fd events handler).2.perrors = r.perrors ++ ["epoll_ctl ADD failed"] ∧
    (Reactor.add r fd events handler).2.handlers =
      HandlerMap.assign r.handlers fd handler := by
  rcases h with h | h | h <;> simp [Reactor.add, h]

/-! ## Theorems: operations on a connection -/

theorem Sys.resolve_and_return_frame (s : Sys) (p : Nat) (v : Val) :
    ∃ w, (s.resolve_and_return p v).2 = { s with world := w } := by
  unfold Sys.resolve_and_return
  split
  · exact ⟨_, rfl⟩
  · split
    exact ⟨_, rfl⟩

theorem Sys.fulfil_frame (s : Sys) (p : Nat) (v : Val) :
    (Sys.fulfil s p v).2 = { s with world := (Promise.set_value s.world p v).2 } := by
  unfold Sys.fulfil
  rfl

/-- What `read()` leaves of the connection: everything but the input buffer, the read
cursor and the pending read; the logs and the scripts are unchanged. -/
theorem TcpConnection.read_frame (s : Sys) :
    (∃ buf ri pr, (TcpConnection.read s).2.conn =
      { s.conn with input_buffer_ := buf, read_index_ := ri, pending_read_ := pr }) ∧
    (TcpConnection.read s).2.reactor_calls = s.reactor_calls ∧
    (TcpConnection.read s).2.syscalls = s.syscalls ∧
    (TcpConnection.read s).2.writes = s.writes ∧
    (TcpConnection.read s).2.reads = s.reads := by
  unfold TcpConnection.read
  simp only
  split_ifs
  · obtain ⟨w, hw⟩ := Sys.resolve_and_return_frame
      { s with world := (Promise.new_of s.world (Val.packet Packet.new)).2 }
      (Promise.new_of s.world (Val.packet Packet.new)).1 (Val.packet Packet.new)
    rw [hw]
    exact ⟨⟨_, _, _, rfl⟩, rfl, rfl, rfl, rfl⟩
  · obtain ⟨w, hw⟩ := Sys.resolve_and_return_frame
      { s with
        world := (Promise.new_of s.world (Val.packet Packet.new)).2
        heap := (Packet.new_copy s.heap (some s.conn.peek) s.conn.readable_bytes).2
        conn := s.conn.retrieve_all }
      (Promise.new_of s.world (Val.packet Packet.new)).1
      (Val.packet (Packet.new_copy s.heap (some s.conn.peek) s.conn.readable_bytes).1)
    rw [hw]
    exact ⟨⟨_, _, _, rfl⟩, rfl, rfl, rfl, rfl⟩
  · exact ⟨⟨_, _, _, rfl⟩, rfl, rfl, rfl, rfl⟩

/-- What `handle_close` does to the connection and the logs. -/
theorem TcpConnection.handle_close_frame (s : Sys) :
    (s.conn.closed_ = true → TcpConnection.handle_close s = (.ok (), s)) ∧
    (s.conn.closed_ = false →
      ((∃ pw, (TcpConnection.handle_close s).2.conn =
        { s.conn with closed_ := true, pending_read_ := none, pending_write_ := pw }) ∧
      (TcpConnection.handle_close s).2.reactor_calls =
        s.reactor_calls ++ [ReactorCall.remove s.conn.fd])) ∧
    (TcpConnection.handle_close s).2.syscalls = s.syscalls ∧
    (TcpConnection.handle_close s).2.writes = s.writes ∧
    (TcpConnection.handle_close s).2.reads = s.reads ∧
    (TcpConnection.handle_close s).2.heap = s.heap := by
  obtain ⟨w, h, ⟨fd, ib, ri, pr, ob, wi, pw, tw, cl, ev⟩, rc, sc, rd, wr⟩ := s
  cases cl with
  | true =>
    refine ⟨fun _ => ?_, fun h => Bool.noConfusion h, ?_, ?_, ?_, ?_⟩ <;>
      simp [TcpConnection.handle_close]
  | false =>
    cases pr with
    | none =>
      cases pw with
      | none =>
        refine ⟨fun h => Bool.noConfusion h, fun _ => ⟨⟨none, ?_⟩, ?_⟩, ?_, ?_, ?_, ?_⟩ <;>
          simp [TcpConnection.handle_close]
      | some q =>
        refine ⟨fun h => Bool.noConfusion h, fun _ => ⟨⟨none, ?_⟩, ?_⟩, ?_, ?_, ?_, ?_⟩ <;>
          simp [TcpConnection.handle_close, Sys.fulfil_frame]
    | some p =>
      have hs2 := Sys.fulfil_frame
        (Sys.mk w h (TcpConnection.mk fd ib ri none ob wi pw tw true ev)
          (rc ++ [ReactorCall.remove fd]) sc rd wr) p (Val.packet Packet.new)
      cases hres : Sys.fulfil
        (Sys.mk w h (TcpConnection.mk fd ib ri none ob wi pw tw true ev)
          (rc ++ [ReactorCall.remove fd]) sc rd wr) p (Val.packet Packet.new) with
      | mk res s2 =>
        rw [hres] at hs2
        simp only at hs2
        cases res with
        | error e =>
          refine ⟨fun h => Bool.noConfusion h, fun _ => ⟨⟨pw, ?_⟩, ?_⟩, ?_, ?_, ?_, ?_⟩ <;>
            simp [TcpConnection.handle_close, hres, hs2]
        | ok u =>
          cases pw with
          | none =>
            refine ⟨fun h => Bool.noConfusion h, fun _ => ⟨⟨none, ?_⟩, ?_⟩, ?_, ?_, ?_, ?_⟩ <;>
              simp [TcpConnection.handle_close, hres, hs2]
          | some q =>
            refine ⟨fun h => Bool.noConfusion h, fun _ => ⟨⟨none, ?_⟩, ?_⟩, ?_, ?_, ?_, ?_⟩ <;>
              simp [TcpConnection.handle_close, hres, hs2, Sys.fulfil_frame]

theorem Sys.drop_packet_frame (r : Except String Future × Sys) (p : Packet) :
    (Sys.drop_packet r p).1 = r.1 ∧ (Sys.drop_packet r p).2.conn = r.2.conn ∧
    (Sys.drop_packet r p).2.reactor_calls = r.2.reactor_calls ∧
    (Sys.drop_packet r p).2.syscalls = r.2.syscalls ∧
    (Sys.drop_packet r p).2.writes = r.2.writes ∧
    (Sys.drop_packet r p).2.reads = r.2.reads ∧
    (Sys.drop_packet r p).2.world = r.2.world :=
  ⟨rfl, rfl, rfl, rfl, rfl, rfl, rfl⟩

/-- What `write()` leaves of the connection: nothing changes on a closed connection or
for an empty packet (not even the logs); otherwise the syscall log and the script are
those left by the loop, and the fields either are unchanged with no reactor call, or
are those of the slow path. -/
theorem TcpConnection.write_frame (s : Sys) (p : Packet) :
    ((s.conn.closed_ = true ∨ p.size = 0) →
      (TcpConnection.write s p).2.conn = s.conn ∧
      (TcpConnection.write s p).2.reactor_calls = s.reactor_calls ∧
      (TcpConnection.write s p).2.syscalls = s.syscalls ∧
      (TcpConnection.write s p).2.writes = s.writes ∧
      (TcpConnection.write s p).2.reads = s.reads) ∧
    (s.conn.closed_ = false → p.size ≠ 0 →
      (TcpConnection.write s p).2.syscalls =
        (TcpConnection.write_loop (p.to_string s.heap) s.writes 0 p.size s.syscalls).2.2 ∧
      (TcpConnection.write s p).2.writes =
        (TcpConnection.write_loop (p.to_string s.heap) s.writes 0 p.size s.syscalls).2.1 ∧
      (TcpConnection.write s p).2.reads = s.reads ∧
      (((TcpConnection.write s p).2.conn = s.conn ∧
          (TcpConnection.write s p).2.reactor_calls = s.reactor_calls) ∨
        ∃ off rem,
          (TcpConnection.write_loop (p.to_string s.heap) s.writes 0 p.size s.syscalls).1 =
            WriteLoopEnd.exit off rem ∧ rem ≠ 0 ∧
          (TcpConnection.write s p).2.conn =
            { s.conn with
              output_buffer_ := ((p.to_string s.heap).drop off).take rem
              write_index_ := 0
              total_write_size_ := to_ssize p.size
              pending_write_ := some s.world.promises.length
              current_events_ :=
                if s.conn.current_events_ &&& EPOLLOUT = 0
                then s.conn.current_events_ ||| EPOLLOUT else s.conn.current_events_ } ∧
          (TcpConnection.write s p).2.reactor_calls =
            s.reactor_calls ++
              (if s.conn.current_events_ &&& EPOLLOUT = 0
                then [ReactorCall.modify_events s.conn.fd
                  (s.conn.current_events_ ||| EPOLLOUT)] else []))) := by
  constructor
  · intro h
    cases hc : s.conn.closed_ with
    | true =>
      have h1 : TcpConnection.write s p =
          Sys.drop_packet (Sys.resolve_and_return
            { s with world := (Promise.new_of s.world (Val.ssize 0)).2 }
            (Promise.new_of s.world (Val.ssize 0)).1 (Val.ssize (-1))) p := by
        simp [TcpConnection.write, hc]
      rw [h1, Sys.resolve_fresh]
      exact ⟨rfl, rfl, rfl, rfl, rfl⟩
    | false =>
      have hz : p.size = 0 := by
        rcases h with h | h
        · rw [hc] at h
          exact Bool.noConfusion h
        · exact h
      have h1 : TcpConnection.write s p =
          Sys.drop_packet (Sys.resolve_and_return
            { s with world := (Promise.new_of s.world (Val.ssize 0)).2 }
            (Promise.new_of s.world (Val.ssize 0)).1 (Val.ssize 0)) p := by
        simp [TcpConnection.write, hc, hz]
      rw [h1, Sys.resolve_fresh]
      exact ⟨rfl, rfl, rfl, rfl, rfl⟩
  · intro hc hne
    cases hloop : TcpConnection.write_loop (p.to_string s.heap) s.writes 0 p.size
        s.syscalls with
    | mk e rl =>
      obtain ⟨rest, log⟩ := rl
      cases e with
      | exhausted =>
        have h1 : TcpConnection.write s p =
            Sys.drop_packet (.error "script exhausted",
              { s with
                world := (Promise.new_of s.world (Val.ssize 0)).2
                writes := rest
                syscalls := log }) p := by
          simp [TcpConnection.write, hc, hne, hloop]
        rw [h1]
        exact ⟨rfl, rfl, rfl, Or.inl ⟨rfl, rfl⟩⟩
      | failed =>
        have h1 : TcpConnection.write s p =
            Sys.drop_packet (Sys.resolve_and_return
              { s with
                world := (Promise.new_of s.world (Val.ssize 0)).2
                writes := rest
                syscalls := log }
              (Promise.new_of s.world (Val.ssize 0)).1 (Val.ssize (-1))) p := by
          simp [TcpConnection.write, hc, hne, hloop]
        have h3 := Sys.resolve_fresh { s with writes := rest, syscalls := log } (Val.ssize 0)
          (Val.ssize (-1))
        simp only at h3
        rw [h1, h3]
        exact ⟨rfl, rfl, rfl, Or.inl ⟨rfl, rfl⟩⟩
      | exit off rem =>
        by_cases hr : rem = 0
        · have h1 : TcpConnection.write s p =
              Sys.drop_packet (Sys.resolve_and_return
                { s with
                  world := (Promise.new_of s.world (Val.ssize 0)).2
                  writes := rest
                  syscalls := log }
                (Promise.new_of s.world (Val.ssize 0)).1 (Val.ssize (to_ssize p.size))) p := by
            simp [TcpConnection.write, hc, hne, hloop, hr]
          have h3 := Sys.resolve_fresh { s with writes := rest, syscalls := log }
            (Val.ssize 0) (Val.ssize (to_ssize p.size))
          simp only at h3
          rw [h1, h3]
          exact ⟨rfl, rfl, rfl, Or.inl ⟨rfl, rfl⟩⟩
        · refine ⟨?_, ?_, ?_, Or.inr ⟨off, rem, rfl, hr, ?_, ?_⟩⟩ <;>
            by_cases hb : s.conn.current_events_ &&& EPOLLOUT = 0 <;>
            simp [TcpConnection.write, hc, hne, hloop, hr, TcpConnection.enable_write, hb,
              Sys.drop_packet, Promise.new_of]

theorem EPOLLOUT_or_set (x : Nat) : (x ||| EPOLLOUT) &&& EPOLLOUT ≠ 0 := by
  intro h
  have h2 : Nat.testBit ((x ||| EPOLLOUT) &&& EPOLLOUT) 2 = true := by
    rw [Nat.testBit_and, Nat.testBit_or]
    have : Nat.testBit EPOLLOUT 2 = true := by decide
    simp [this]
  rw [h] at h2
  simp at h2

theorem EPOLLOUT_and_clear (x : Nat) : (x &&& (UINT32_MOD - 1 - EPOLLOUT)) &&& EPOLLOUT = 0 := by
  rw [Nat.and_assoc]
  have : (UINT32_MOD - 1 - EPOLLOUT) &&& EPOLLOUT = 0 := by decide
  rw [this]
  exact Nat.and_zero x

/-- After `disable_write` the bit `EPOLLOUT` of the event mask is clear and nothing but
the mask and the reactor log has changed. -/
theorem TcpConnection.disable_write_frame (s : Sys) :
    (TcpConnection.disable_write s).conn.current_events_ &&& EPOLLOUT = 0 ∧
    (∃ ev, (TcpConnection.disable_write s).conn = { s.conn with current_events_ := ev }) ∧
    (TcpConnection.disable_write s).world = s.world ∧
    (TcpConnection.disable_write s).heap = s.heap ∧
    (TcpConnection.disable_write s).syscalls = s.syscalls ∧
    (TcpConnection.disable_write s).writes = s.writes ∧
    (TcpConnection.disable_write s).reads = s.reads ∧
    (TcpConnection.disable_write s).reactor_calls =
      s.reactor_calls ++
        (if s.conn.current_events_ &&& EPOLLOUT ≠ 0
          then [ReactorCall.modify_events s.conn.fd
            (s.conn.current_events_ &&& (UINT32_MOD - 1 - EPOLLOUT))] else []) := by
  unfold TcpConnection.disable_write
  by_cases hb : s.conn.current_events_ &&& EPOLLOUT = 0
  · rw [if_neg (not_not.mpr hb), if_neg (not_not.mpr hb)]
    exact ⟨hb, ⟨s.conn.current_events_, rfl⟩, rfl, rfl, rfl, rfl, rfl,
      (List.append_nil _).symm⟩
  · rw [if_pos hb, if_pos hb]
    exact ⟨EPOLLOUT_and_clear _, ⟨_, rfl⟩, rfl, rfl, rfl, rfl, rfl, rfl⟩

theorem Sys.settle_write_frame (s1 : Sys) (v : Val) :
    ∃ w pw,
      (match s1.conn.pending_write_ with
        | some p => Sys.fulfil { s1 with conn := { s1.conn with pending_write_ := none } } p v
        | none => ((.ok (), s1) : Except String Unit × Sys)).2 =
      { s1 with world := w, conn := { s1.conn with pending_write_ := pw } } := by
  obtain ⟨w, h, ⟨fd, ib, ri, pr, ob, wi, pw, tw, cl, ev⟩, rc, sc, rd, wr⟩ := s1
  cases pw with
  | none => exact ⟨w, none, rfl⟩
  | some p =>
    simp only
    rw [Sys.fulfil_frame]
    exact ⟨_, none, rfl⟩

/-- What `flush_output` does to the connection, by the way its loop ends. -/
theorem TcpConnection.flush_output_frame (s : Sys) :
    (TcpConnection.flush_output s).2.conn.closed_ = s.conn.closed_ ∧
    (TcpConnection.flush_output s).2.reads = s.reads ∧
    (TcpConnection.flush_output s).2.syscalls =
      (TcpConnection.flush_loop s.conn.output_buffer_ s.writes s.conn.write_index_
        s.syscalls).2.2.2 ∧
    (TcpConnection.flush_output s).2.writes =
      (TcpConnection.flush_loop s.conn.output_buffer_ s.writes s.conn.write_index_
        s.syscalls).2.2.1 ∧
    ((TcpConnection.flush_loop s.conn.output_buffer_ s.writes s.conn.write_index_
        s.syscalls).1 ≠ FlushEnd.failed →
      ((TcpConnection.flush_output s).2.conn.output_buffer_ = s.conn.output_buffer_ ∧
        (TcpConnection.flush_output s).2.conn.current_events_ = s.conn.current_events_) ∨
      ((TcpConnection.flush_output s).2.conn.output_buffer_ = [] ∧
        (TcpConnection.flush_output s).2.conn.current_events_ &&& EPOLLOUT = 0)) := by
  cases hloop : TcpConnection.flush_loop s.conn.output_buffer_ s.writes s.conn.write_index_
      s.syscalls with
  | mk e rl =>
    obtain ⟨wi, rest, log⟩ := rl
    cases e with
    | exhausted =>
      have h1 : TcpConnection.flush_output s = (.error "script exhausted",
          { s with conn := { s.conn with write_index_ := wi }, writes := rest,
                   syscalls := log }) := by
        simp only [TcpConnection.flush_output, hloop]
      rw [h1]
      exact ⟨rfl, rfl, rfl, rfl, fun _ => Or.inl ⟨rfl, rfl⟩⟩
    | would_block =>
      have h1 : TcpConnection.flush_output s = (.ok (),
          { s with conn := { s.conn with write_index_ := wi }, writes := rest,
                   syscalls := log }) := by
        simp only [TcpConnection.flush_output, hloop]
      rw [h1]
      exact ⟨rfl, rfl, rfl, rfl, fun _ => Or.inl ⟨rfl, rfl⟩⟩
    | failed =>
      obtain ⟨_, ⟨ev, k2⟩, _, _, k5, k6, k7, _⟩ := TcpConnection.disable_write_frame
        { s with conn := { s.conn with write_index_ := wi }, writes := rest, syscalls := log }
      have h1 : ∃ w pw, (TcpConnection.flush_output s).2 =
          { TcpConnection.disable_write
              { s with conn := { s.conn with write_index_ := wi }, writes := rest,
                       syscalls := log } with
            world := w
            conn := { (TcpConnection.disable_write
              { s with conn := { s.conn with write_index_ := wi }, writes := rest,
                       syscalls := log }).conn with pending_write_ := pw } } := by
        simp only [TcpConnection.flush_output, hloop]
        exact Sys.settle_write_frame _ _
      obtain ⟨w, pw, h1⟩ := h1
      rw [h1]
      simp only [k2, k5, k6, k7]
      exact ⟨trivial, trivial, trivial, trivial, fun h => absurd rfl h⟩
    | completed =>
      obtain ⟨k1, ⟨ev, k2⟩, _, _, k5, k6, k7, _⟩ := TcpConnection.disable_write_frame
        { s with
          conn := { s.conn with output_buffer_ := [], write_index_ := 0 }
          writes := rest
          syscalls := log }
      have h1 : ∃ w pw, (TcpConnection.flush_output s).2 =
          { TcpConnection.disable_write
              { s with conn := { s.conn with output_buffer_ := [], write_index_ := 0 },
                       writes := rest, syscalls := log } with
            world := w
            conn := { (TcpConnection.disable_write
              { s with conn := { s.conn with output_buffer_ := [], write_index_ := 0 },
                       writes := rest, syscalls := log }).conn with pending_write_ := pw } } := by
        simp only [TcpConnection.flush_output, hloop]
        exact Sys.settle_write_frame _ _
      obtain ⟨w, pw, h1⟩ := h1
      rw [h1]
      rw [k2] at k1
      simp only [k2, k5, k6, k7]
      exact ⟨trivial, trivial, trivial, trivial, fun _ => Or.inr ⟨trivial, k1⟩⟩

/-- After `handle_close` the connection is closed; the output buffer, the event mask,
the write cursor, the scripts and the syscall log are unchanged. -/
theorem TcpConnection.handle_close_keeps (s : Sys) :
    (TcpConnection.handle_close s).2.conn.closed_ = true ∧
    (TcpConnection.handle_close s).2.conn.output_buffer_ = s.conn.output_buffer_ ∧
    (TcpConnection.handle_close s).2.conn.current_events_ = s.conn.current_events_ ∧
    (TcpConnection.handle_close s).2.conn.write_index_ = s.conn.write_index_ ∧
    (TcpConnection.handle_close s).2.writes = s.writes ∧
    (TcpConnection.handle_close s).2.syscalls = s.syscalls := by
  obtain ⟨k1, k2, k3, k4, _, _⟩ := TcpConnection.handle_close_frame s
  cases hc : s.conn.closed_ with
  | true =>
    rw [k1 hc]
    exact ⟨hc, rfl, rfl, rfl, rfl, rfl⟩
  | false =>
    obtain ⟨⟨pw, h1⟩, _⟩ := k2 hc
    rw [h1]
    exact ⟨rfl, rfl, rfl, rfl, k4, k3⟩

/-- What `drain_socket` leaves of the connection: the output buffer, the event mask, the
write cursor and the write script; a closed connection stays closed; the syscall log
only grows. -/
theorem TcpConnection.drain_socket_keeps (s : Sys) :
    (s.conn.closed_ = true → (TcpConnection.drain_socket s).2.conn.closed_ = true) ∧
    (TcpConnection.drain_socket s).2.conn.output_buffer_ = s.conn.output_buffer_ ∧
    (TcpConnection.drain_socket s).2.conn.current_events_ = s.conn.current_events_ ∧
    (TcpConnection.drain_socket s).2.conn.write_index_ = s.conn.write_index_ ∧
    (TcpConnection.drain_socket s).2.writes = s.writes := by
  cases hloop : TcpConnection.drain_loop s.reads s.conn.input_buffer_ s.syscalls with
  | mk e rl =>
    obtain ⟨buf, rest, log⟩ := rl
    cases e with
    | exhausted =>
      simp only [TcpConnection.drain_socket, hloop]
      exact ⟨fun h => h, trivial, trivial, trivial, trivial⟩
    | returned =>
      simp only [TcpConnection.drain_socket, hloop]
      exact ⟨fun h => h, trivial, trivial, trivial, trivial⟩
    | close =>
      simp only [TcpConnection.drain_socket, hloop]
      obtain ⟨k1, k2, k3, k4, k5, _⟩ := TcpConnection.handle_close_keeps
        { s with conn := { s.conn with input_buffer_ := buf }, reads := rest, syscalls := log }
      exact ⟨fun _ => k1, k2, k3, k4, k5⟩

/-- What `handle_readable` leaves of the connection: as for `drain_socket`. -/
theorem TcpConnection.handle_readable_keeps (s : Sys) :
    (s.conn.closed_ = true → (TcpConnection.handle_readable s).2.conn.closed_ = true) ∧
    (TcpConnection.handle_readable s).2.conn.output_buffer_ = s.conn.output_buffer_ ∧
    (TcpConnection.handle_readable s).2.conn.current_events_ = s.conn.current_events_ ∧
    (TcpConnection.handle_readable s).2.conn.write_index_ = s.conn.write_index_ ∧
    (TcpConnection.handle_readable s).2.writes = s.writes := by
  obtain ⟨k1, k2, k3, k4, k5⟩ := TcpConnection.drain_socket_keeps s
  cases hd : TcpConnection.drain_socket s with
  | mk res s1 =>
    rw [hd] at k1 k2 k3 k4 k5
    simp only at k1 k2 k3 k4 k5
    cases res with
    | error e =>
      simp only [TcpConnection.handle_readable, hd]
      exact ⟨k1, k2, k3, k4, k5⟩
    | ok u =>
      simp only [TcpConnection.handle_readable, hd]
      split
      · split
        · rw [Sys.fulfil_frame]
          exact ⟨k1, k2, k3, k4, k5⟩
        · exact ⟨k1, k2, k3, k4, k5⟩
      · exact ⟨k1, k2, k3, k4, k5⟩

/-- A closed connection stays closed under `handle_events`; a call with the error or
hang-up bit leaves it closed. -/
theorem TcpConnection.handle_events_closed (s : Sys) (events : Nat)
    (hc : s.conn.closed_ = true) :
    (TcpConnection.handle_events s events).2.conn.closed_ = true := by
  unfold TcpConnection.handle_events
  split_ifs with hE hI hO
  · exact (TcpConnection.handle_close_keeps s).1
  · have k := (TcpConnection.handle_readable_keeps s).1 hc
    cases hd : TcpConnection.handle_readable s with
    | mk res s1 =>
      rw [hd] at k
      cases res with
      | error e => exact k
      | ok u =>
        simp only [TcpConnection.handle_writable]
        rw [(TcpConnection.flush_output_frame s1).1]
        exact k
  · have k := (TcpConnection.handle_readable_keeps s).1 hc
    cases hd : TcpConnection.handle_readable s with
    | mk res s1 =>
      rw [hd] at k
      cases res with
      | error e => exact k
      | ok u => exact k
  · simp only [TcpConnection.handle_writable]
    rw [(TcpConnection.flush_output_frame s).1]
    exact hc
  · exact hc

theorem ConnOp.apply_closed (s : Sys) (op : ConnOp) (hc : s.conn.closed_ = true) :
    (ConnOp.apply s op).conn.closed_ = true := by
  cases op with
  | read =>
    obtain ⟨⟨buf, ri, pr, h⟩, _⟩ := TcpConnection.read_frame s
    simp only [ConnOp.apply]
    rw [h]
    exact hc
  | write p =>
    simp only [ConnOp.apply]
    rw [((TcpConnection.write_frame s p).1 (Or.inl hc)).1]
    exact hc
  | handle_events events => exact TcpConnection.handle_events_closed s events hc

theorem ConnOp.run_closed (ops : List ConnOp) :
    ∀ s : Sys, s.conn.closed_ = true → (ConnOp.run s ops).conn.closed_ = true := by
  induction ops with
  | nil => intro s hc; exact hc
  | cons op ops ih =>
    intro s hc
    exact ih (ConnOp.apply s op) (ConnOp.apply_closed s op hc)

theorem Promise.set_value_other {V : Type} (w : World V) (p : Nat) (pr : Promise) (c d : Nat)
    (st : State V) (val : V) (hp : w.promises[p]? = some pr) (hs : pr.state = some c)
    (hst : w.states[c]? = some st) (hr : st.ready = false) (hne : c ≠ d) :
    (Promise.set_value w p val).2.states[d]? = w.states[d]? := by
  rw [Promise.set_value_fresh w p pr c st val hp hs hst hr]
  cases st.callback <;> simp [hne]

/-- The first `handle_close` resolves an outstanding pending read with `Packet()`. -/
theorem TcpConnection.handle_close_read_cell (s : Sys) (hc : s.conn.closed_ = false)
    (p : Nat) (pr : Promise) (c : Nat) (st : State Val)
    (hpend : s.conn.pending_read_ = some p) (hp : s.world.promises[p]? = some pr)
    (hs : pr.state = some c) (hst : s.world.states[c]? = some st) (hr : st.ready = false) :
    (TcpConnection.handle_close s).2.world.states[c]? =
      some { st with value := Val.packet Packet.new, ready := true } := by
  obtain ⟨w, h, ⟨fd, ib, ri, pr0, ob, wi, pw, tw, cl, ev⟩, rc, sc, rd, wr⟩ := s
  simp only at hc hpend hp hst
  subst hc hpend
  obtain ⟨k1, k2⟩ := Promise.set_value_resolves w p pr c st (Val.packet Packet.new) hp hs hst hr
  cases hres : Promise.set_value w p (Val.packet Packet.new) with
  | mk res w1 =>
    rw [hres] at k1 k2
    simp only at k1 k2
    subst k1
    cases pw with
    | none => simp [TcpConnection.handle_close, Sys.fulfil, hres, k2]
    | some q =>
      obtain ⟨st2, h1, _, h3⟩ := Promise.set_value_cell w1 q (Val.ssize (-1)) c _ k2
      simp [TcpConnection.handle_close, Sys.fulfil, hres, h1, h3]

/-- The first `handle_close` resolves an outstanding pending write with -1 and empties
the slot, when the pending read slot is empty or holds an unresolved promise of another
cell. -/
theorem TcpConnection.handle_close_write_cell (s : Sys) (hc : s.conn.closed_ = false)
    (q : Nat) (qr : Promise) (d : Nat) (sd : State Val)
    (hpend : s.conn.pending_write_ = some q) (hq : s.world.promises[q]? = some qr)
    (hs : qr.state = some d) (hsd : s.world.states[d]? = some sd) (hr : sd.ready = false)
    (hread : s.conn.pending_read_ = none ∨
      ∃ p pr c st, s.conn.pending_read_ = some p ∧ s.world.promises[p]? = some pr ∧
        pr.state = some c ∧ s.world.states[c]? = some st ∧ st.ready = false ∧ c ≠ d) :
    (TcpConnection.handle_close s).1 = .ok () ∧
    (TcpConnection.handle_close s).2.conn.pending_write_ = none ∧
    (TcpConnection.handle_close s).2.world.states[d]? =
      some { sd with value := Val.ssize (-1), ready := true } := by
  obtain ⟨w, h, ⟨fd, ib, ri, pr0, ob, wi, pw, tw, cl, ev⟩, rc, sc, rd, wr⟩ := s
  simp only at hc hpend hq hsd hread
  subst hc hpend
  rcases hread with hnone | ⟨p, pr, c, st, hp0, hp, hps, hst, hpr, hne⟩
  · subst hnone
    obtain ⟨k1, k2⟩ := Promise.set_value_resolves w q qr d sd (Val.ssize (-1)) hq hs hsd hr
    simp [TcpConnection.handle_close, Sys.fulfil, k1, k2]
  · subst hp0
    obtain ⟨k1, _⟩ := Promise.set_value_resolves w p pr c st (Val.packet Packet.new) hp hps
      hst hpr
    have k3 := Promise.set_value_other w p pr c d st (Val.packet Packet.new) hp hps hst hpr hne
    have k4 := Promise.set_value_promises w p (Val.packet Packet.new)
    cases hres : Promise.set_value w p (Val.packet Packet.new) with
    | mk res w1 =>
      rw [hres] at k1 k3 k4
      simp only at k1 k3 k4
      subst k1
      rw [hsd] at k3
      rw [← k4] at hq
      obtain ⟨m1, m2⟩ := Promise.set_value_resolves w1 q qr d sd (Val.ssize (-1)) hq hs k3 hr
      simp [TcpConnection.handle_close, Sys.fulfil, hres, m1, m2]

/-- C23: `handle_close` on an already closed connection returns the state it was given,
so it changes no field, resolves no promise and issues no reactor call; therefore a
second `handle_close` after a first one leaves the state of the first. The connection is
closed after any `handle_close`, and no operation resets `closed_`: a closed connection
is still closed after any sequence of `read()`, `write(p)` and `handle_events` calls. -/
theorem TcpConnection.close_idempotent (s : Sys) :
    (s.conn.closed_ = true → TcpConnection.handle_close s = (.ok (), s)) ∧
    TcpConnection.handle_close (TcpConnection.handle_close s).2 =
      (.ok (), (TcpConnection.handle_close s).2) ∧
    (TcpConnection.handle_close s).2.conn.closed_ = true ∧
    (s.conn.closed_ = true →
      ∀ ops : List ConnOp, (ConnOp.run s ops).conn.closed_ = true) := by
  refine ⟨(TcpConnection.handle_close_frame s).1, ?_,
    (TcpConnection.handle_close_keeps s).1, fun hc ops => ConnOp.run_closed ops s hc⟩
  exact (TcpConnection.handle_close_frame (TcpConnection.handle_close s).2).1
    (TcpConnection.handle_close_keeps s).1

/-- Witness for C23: the closed example connection, and two closes of the open one. -/
theorem TcpConnection.close_idempotent_witness :
    Sys.example_closed.conn.closed_ = true ∧
    TcpConnection.handle_close Sys.example_closed = (.ok (), Sys.example_closed) ∧
    (ConnOp.run Sys.example_closed
      [ConnOp.read, ConnOp.write Sys.example_packet.1,
        ConnOp.handle_events (EPOLLIN ||| EPOLLOUT)]).conn.closed_ = true :=
  ⟨rfl, (TcpConnection.close_idempotent Sys.example_closed).1 rfl,
    (TcpConnection.close_idempotent Sys.example_closed).2.2.2 rfl _⟩

/-- C24: the first `handle_close` on an open connection sets `closed_`, makes no syscall
and issues exactly one reactor call, `remove(fd)`, after which the handler map of the
reactor has no entry for the descriptor. The pending read slot is empty afterwards, and
a promise that was pending in it with an unresolved cell has been resolved with the empty
packet `Packet()`. A promise pending in the write slot with an unresolved cell has been
resolved with -1 and the write slot is empty (the pending read, if any, being unresolved
on another cell). On the closed connection `read()` then returns a future that is ready
with `Packet()`, and `write(p)` of a non-empty packet returns a future that is ready with
-1 without any syscall. -/
theorem TcpConnection.handle_close_first (s : Sys) (hc : s.conn.closed_ = false) :
    (TcpConnection.handle_close s).2.reactor_calls =
      s.reactor_calls ++ [ReactorCall.remove s.conn.fd] ∧
    (∀ r : HandlerReactor,
      HandlerMap.find (Reactor.remove r s.conn.fd).handlers s.conn.fd = none) ∧
    (TcpConnection.handle_close s).2.conn.closed_ = true ∧
    (TcpConnection.handle_close s).2.syscalls = s.syscalls ∧
    (TcpConnection.handle_close s).2.conn.pending_read_ = none ∧
    (∀ (p : Nat) (pr : Promise) (c : Nat) (st : State Val),
      s.conn.pending_read_ = some p → s.world.promises[p]? = some pr → pr.state = some c →
      s.world.states[c]? = some st → st.ready = false →
      (TcpConnection.handle_close s).2.world.states[c]? =
        some { st with value := Val.packet Packet.new, ready := true }) ∧
    (∀ (q : Nat) (qr : Promise) (d : Nat) (sd : State Val),
      s.conn.pending_write_ = some q → s.world.promises[q]? = some qr → qr.state = some d →
      s.world.states[d]? = some sd → sd.ready = false →
      (s.conn.pending_read_ = none ∨
        ∃ p pr c st, s.conn.pending_read_ = some p ∧ s.world.promises[p]? = some pr ∧
          pr.state = some c ∧ s.world.states[c]? = some st ∧ st.ready = false ∧ c ≠ d) →
      (TcpConnection.handle_close s).1 = .ok () ∧
      (TcpConnection.handle_close s).2.conn.pending_write_ = none ∧
      (TcpConnection.handle_close s).2.world.states[d]? =
        some { sd with value := Val.ssize (-1), ready := true }) ∧
    (s.conn.pending_write_ = none →
      (TcpConnection.handle_close s).2.conn.pending_write_ = none) ∧
    ((TcpConnection.read (TcpConnection.handle_close s).2).1 =
        .ok { state := some (TcpConnection.handle_close s).2.world.states.length } ∧
      (TcpConnection.read (TcpConnection.handle_close s).2).2.world.states[
          (TcpConnection.handle_close s).2.world.states.length]? =
        some { value := Val.packet Packet.new, ready := true, callback := none }) ∧
    (∀ p : Packet, 0 < p.size →
      (TcpConnection.write (TcpConnection.handle_close s).2 p).1 =
        .ok { state := some (TcpConnection.handle_close s).2.world.states.length } ∧
      (TcpConnection.write (TcpConnection.handle_close s).2 p).2.world.states[
          (TcpConnection.handle_close s).2.world.states.length]? =
        some { value := Val.ssize (-1), ready := true, callback := none } ∧
      (TcpConnection.write (TcpConnection.handle_close s).2 p).2.syscalls = s.syscalls ∧
      (TcpConnection.write (TcpConnection.handle_close s).2 p).2.writes = s.writes) := by
  obtain ⟨_, k2, k3, k4, _, _⟩ := TcpConnection.handle_close_frame s
  obtain ⟨⟨pw, kc⟩, krc⟩ := k2 hc
  have hcl := (TcpConnection.handle_close_keeps s).1
  refine ⟨krc, fun r => ?_, hcl, k3, ?_, ?_, ?_, ?_, ?_, ?_⟩
  · simp [Reactor.remove, HandlerMap.find_erase]
  · rw [kc]
  · intro p pr c st hpend hp hs hst hr
    exact TcpConnection.handle_close_read_cell s hc p pr c st hpend hp hs hst hr
  · intro q qr d sd hpend hq hs hsd hr hread
    exact TcpConnection.handle_close_write_cell s hc q qr d sd hpend hq hs hsd hr hread
  · intro hnone
    obtain ⟨w, h, ⟨fd, ib, ri, pr0, ob, wi, pw0, tw, cl, ev⟩, rc, sc, rd, wr⟩ := s
    simp only at hc hnone
    subst hc hnone
    cases pr0 with
    | none => simp [TcpConnection.handle_close]
    | some p =>
      simp only [TcpConnection.handle_close, Sys.fulfil]
      cases hres : Promise.set_value w p (Val.packet Packet.new) with
      | mk res w1 => cases res <;> simp
  · have h1 : TcpConnection.read (TcpConnection.handle_close s).2 =
        Sys.resolve_and_return
          { (TcpConnection.handle_close s).2 with
            world := (Promise.new_of (TcpConnection.handle_close s).2.world
              (Val.packet Packet.new)).2 }
          (Promise.new_of (TcpConnection.handle_close s).2.world (Val.packet Packet.new)).1
          (Val.packet Packet.new) := by
      simp [TcpConnection.read, hcl]
    rw [h1, Sys.resolve_fresh]
    exact ⟨rfl, lookup_append_new _ _⟩
  · intro p hp
    have h1 : TcpConnection.write (TcpConnection.handle_close s).2 p =
        Sys.drop_packet (Sys.resolve_and_return
          { (TcpConnection.handle_close s).2 with
            world := (Promise.new_of (TcpConnection.handle_close s).2.world (Val.ssize 0)).2 }
          (Promise.new_of (TcpConnection.handle_close s).2.world (Val.ssize 0)).1
          (Val.ssize (-1))) p := by
      simp [TcpConnection.write, hcl]
    rw [h1, Sys.resolve_fresh]
    exact ⟨rfl, lookup_append_new _ _, k3, k4⟩

/-- Witness for C24: closing the example connection on which a write (promise 0, cell 0)
and a read (promise 1, cell 1) are pending. -/
theorem TcpConnection.handle_close_first_witness :
    Sys.example_pending.conn.closed_ = false ∧
    Sys.example_pending.conn.pending_write_ = some 0 ∧
    Sys.example_pending.conn.pending_read_ = some 1 ∧
    (TcpConnection.handle_close Sys.example_pending).2.reactor_calls =
      Sys.example_pending.reactor_calls ++ [ReactorCall.remove 7] ∧
    (TcpConnection.handle_close Sys.example_pending).2.world.states[1]? =
      some { value := Val.packet Packet.new, ready := true, callback := none } ∧
    (TcpConnection.handle_close Sys.example_pending).2.world.states[0]? =
      some { value := Val.ssize (-1), ready := true, callback := none } :=
  ⟨rfl, rfl, rfl, (TcpConnection.handle_close_first Sys.example_pending rfl).1,
    (TcpConnection.handle_close_first Sys.example_pending rfl).2.2.2.2.2.1 1
      { state := some 1, future_retrieved_ := true } 1
      { value := Val.packet Packet.new, ready := false, callback := none } rfl rfl rfl rfl rfl,
    ((TcpConnection.handle_close_first Sys.example_pending rfl).2.2.2.2.2.2.1 0
      { state := some 0, future_retrieved_ := true } 0
      { value := Val.ssize 0, ready := false, callback := none } rfl rfl rfl rfl rfl
      (Or.inr ⟨1, { state := some 1, future_retrieved_ := true }, 1,
        { value := Val.packet Packet.new, ready := false, callback := none },
        rfl, rfl, rfl, rfl, rfl, by decide⟩)).2.2⟩

/-- The state after a `flush_output` whose loop ends on a failed write, when a write is
pending. -/
theorem TcpConnection.flush_output_failed (s : Sys) (wi : Nat) (rest : List WriteResult)
    (log : List Syscall) (q : Nat)
    (hloop : TcpConnection.flush_loop s.conn.output_buffer_ s.writes s.conn.write_index_
      s.syscalls = (.failed, wi, rest, log))
    (hpend : s.conn.pending_write_ = some q) :
    TcpConnection.flush_output s =
      ((Promise.set_value s.world q (Val.ssize (-1))).1,
        { s with
          world := (Promise.set_value s.world q (Val.ssize (-1))).2
          conn := { s.conn with
            write_index_ := wi
            pending_write_ := none
            current_events_ :=
              if s.conn.current_events_ &&& EPOLLOUT ≠ 0
              then s.conn.current_events_ &&& (UINT32_MOD - 1 - EPOLLOUT)
              else s.conn.current_events_ }
          reactor_calls := s.reactor_calls ++
            (if s.conn.current_events_ &&& EPOLLOUT ≠ 0
              then [ReactorCall.modify_events s.conn.fd
                (s.conn.current_events_ &&& (UINT32_MOD - 1 - EPOLLOUT))] else [])
          writes := rest
          syscalls := log }) := by
  obtain ⟨w, h, ⟨fd, ib, ri, pr0, ob, wi0, pw, tw, cl, ev⟩, rc, sc, rd, wr⟩ := s
  simp only at hloop hpend
  subst hpend
  by_cases hb : ev &&& EPOLLOUT = 0
  · simp [TcpConnection.flush_output, hloop, TcpConnection.disable_write, hb, Sys.fulfil]
  · simp [TcpConnection.flush_output, hloop, TcpConnection.disable_write, hb, Sys.fulfil]

/-- C22 (amended): a write syscall failing with an error other than `EAGAIN` resolves
the write future with -1 and leaves the connection open. In the fast path of `write()`
on an open connection the returned future is ready with -1, no field of the connection
changes (`closed_` stays false) and no reactor call is issued. In a write-drain whose
loop ends on a failed write the pending write is resolved with -1 and its slot emptied,
`closed_` and the output buffer are unchanged, the bit `EPOLLOUT` is cleared, and the
only reactor call is the `modify_events` that clears it: there is no `remove`. -/
theorem TcpConnection.write_error_keeps_open (s : Sys) :
    (∀ p : Packet, s.conn.closed_ = false → 0 < p.size → p.size < SIZE_MOD →
      WriteResult.fails s.writes p.size = true →
        (TcpConnection.write s p).1 = .ok { state := some s.world.states.length } ∧
        (TcpConnection.write s p).2.world.states[s.world.states.length]? =
          some { value := Val.ssize (-1), ready := true, callback := none } ∧
        (TcpConnection.write s p).2.conn = s.conn ∧
        (TcpConnection.write s p).2.conn.closed_ = false ∧
        (TcpConnection.write s p).2.reactor_calls = s.reactor_calls) ∧
    (∀ (q : Nat) (qr : Promise) (d : Nat) (sd : State Val),
      (TcpConnection.flush_loop s.conn.output_buffer_ s.writes s.conn.write_index_
        s.syscalls).1 = FlushEnd.failed →
      s.conn.pending_write_ = some q → s.world.promises[q]? = some qr → qr.state = some d →
      s.world.states[d]? = some sd → sd.ready = false →
        (TcpConnection.flush_output s).1 = .ok () ∧
        (TcpConnection.flush_output s).2.world.states[d]? =
          some { sd with value := Val.ssize (-1), ready := true } ∧
        (TcpConnection.flush_output s).2.conn.pending_write_ = none ∧
        (TcpConnection.flush_output s).2.conn.closed_ = s.conn.closed_ ∧
        (TcpConnection.flush_output s).2.conn.output_buffer_ = s.conn.output_buffer_ ∧
        (TcpConnection.flush_output s).2.conn.current_events_ &&& EPOLLOUT = 0 ∧
        (TcpConnection.flush_output s).2.reactor_calls =
          s.reactor_calls ++
            (if s.conn.current_events_ &&& EPOLLOUT ≠ 0
              then [ReactorCall.modify_events s.conn.fd
                (s.conn.current_events_ &&& (UINT32_MOD - 1 - EPOLLOUT))] else [])) := by
  constructor
  · intro p hc hL hlt ha
    have hne : ¬ (p.size = 0) := by omega
    obtain ⟨rest, log2, h2⟩ := TcpConnection.write_loop_fails
      (p.to_string s.heap) s.writes 0 p.size s.syscalls hlt ha
    have h1 : TcpConnection.write s p =
        Sys.drop_packet (Sys.resolve_and_return
          { s with
            world := (Promise.new_of s.world (Val.ssize 0)).2
            writes := rest
            syscalls := log2 }
          (Promise.new_of s.world (Val.ssize 0)).1 (Val.ssize (-1))) p := by
      simp [TcpConnection.write, hc, hne, h2]
    have h3 := Sys.resolve_fresh { s with writes := rest, syscalls := log2 } (Val.ssize 0)
      (Val.ssize (-1))
    simp only at h3
    rw [h1, h3]
    exact ⟨rfl, lookup_append_new _ _, rfl, hc, rfl⟩
  · intro q qr d sd hf hpend hq hs hsd hr
    cases hloop : TcpConnection.flush_loop s.conn.output_buffer_ s.writes s.conn.write_index_
        s.syscalls with
    | mk e rl =>
      obtain ⟨wi, rest, log⟩ := rl
      rw [hloop] at hf
      simp only at hf
      subst hf
      obtain ⟨k1, k2⟩ := Promise.set_value_resolves s.world q qr d sd (Val.ssize (-1)) hq hs
        hsd hr
      rw [TcpConnection.flush_output_failed s wi rest log q hloop hpend]
      refine ⟨k1, k2, rfl, rfl, rfl, ?_, rfl⟩
      by_cases hb : s.conn.current_events_ &&& EPOLLOUT = 0
      · simp only [ne_eq, hb, not_true_eq_false, if_false]
      · simp only [ne_eq, hb, not_false_eq_true, if_true]
        exact EPOLLOUT_and_clear _

/-- Counterexample for C22: after a failed first write the future of `write()` is ready
with -1 but the connection is not closed and `remove` was not called; likewise after a
back-pressured write whose write-drain fails. -/
theorem TcpConnection.write_error_counterexample :
    ((TcpConnection.write Sys.example_write_error Sys.example_packet.1).2.world.states[0]? =
        some { value := Val.ssize (-1), ready := true, callback := none } ∧
      (TcpConnection.write Sys.example_write_error Sys.example_packet.1).2.conn.closed_ =
        false ∧
      ReactorCall.remove 7 ∉
        (TcpConnection.write Sys.example_write_error Sys.example_packet.1).2.reactor_calls) ∧
    ((ConnOp.run Sys.example_drain_error
        [ConnOp.write Sys.example_packet.1, ConnOp.handle_events EPOLLOUT]).world.states[0]? =
        some { value := Val.ssize (-1), ready := true, callback := none } ∧
      (ConnOp.run Sys.example_drain_error
        [ConnOp.write Sys.example_packet.1, ConnOp.handle_events EPOLLOUT]).conn.closed_ =
        false ∧
      ReactorCall.remove 7 ∉
        (ConnOp.run Sys.example_drain_error
          [ConnOp.write Sys.example_packet.1, ConnOp.handle_events EPOLLOUT]).reactor_calls) :=
  ⟨⟨rfl, rfl, by decide⟩, ⟨rfl, rfl, by decide⟩⟩

/-- Witness for C22 (amended): the failed first write, and the failed write-drain of the
back-pressured example write. -/
theorem TcpConnection.write_error_keeps_open_witness :
    (TcpConnection.write Sys.example_write_error Sys.example_packet.1).2.conn =
      Sys.example_write_error.conn ∧
    (TcpConnection.flush_output
      (TcpConnection.write Sys.example_drain_error Sys.example_packet.1).2).2.conn.closed_ =
      false ∧
    (TcpConnection.flush_output
      (TcpConnection.write Sys.example_drain_error Sys.example_packet.1).2).2.world.states[0]? =
      some { value := Val.ssize (-1), ready := true, callback := none } :=
  ⟨((TcpConnection.write_error_keeps_open Sys.example_write_error).1 Sys.example_packet.1 rfl
      (by decide) (by decide) rfl).2.2.1,
    ((TcpConnection.write_error_keeps_open
      (TcpConnection.write Sys.example_drain_error Sys.example_packet.1).2).2 0
      { state := some 0, future_retrieved_ := true } 0
      { value := Val.ssize 0, ready := false, callback := none } rfl rfl rfl rfl rfl
      rfl).2.2.2.1,
    ((TcpConnection.write_error_keeps_open
      (TcpConnection.write Sys.example_drain_error Sys.example_packet.1).2).2 0
      { state := some 0, future_retrieved_ := true } 0
      { value := Val.ssize 0, ready := false, callback := none } rfl rfl rfl rfl rfl
      rfl).2.1⟩

theorem Packet.to_string_length (p : Packet) (h : Heap) (hwf : p.wf h = true) :
    (p.to_string h).length = p.size ∧ p.size < SIZE_MOD := by
  cases hd : p.data_ with
  | none =>
    obtain ⟨_, h2⟩ := Packet.wf_none hd hwf
    simp [Packet.to_string, Packet.size, hd, h2, SIZE_MOD]
  | some b =>
    obtain ⟨blk, h1, h2, h3, _⟩ := Packet.wf_some hd hwf
    simp only [Packet.to_string, Packet.size, hd, h1, List.length_take, List.length_drop]
    omega

theorem Syscall.emitted_append (a b : List Syscall) :
    Syscall.emitted (a ++ b) = Syscall.emitted a ++ Syscall.emitted b := by
  induction a with
  | nil => rfl
  | cons x a ih =>
    cases x with
    | read r => simpa [Syscall.emitted] using ih
    | write offered r =>
      cases r with
      | ok n => simp [Syscall.emitted, ih]
      | eagain => simpa [Syscall.emitted] using ih
      | error => simpa [Syscall.emitted] using ih

theorem size_sub_mod (rem n : Nat) (h1 : n ≤ rem) (h2 : rem < SIZE_MOD) :
    (rem + SIZE_MOD - n) % SIZE_MOD = rem - n := by
  have h : rem + SIZE_MOD - n = (rem - n) + SIZE_MOD := by omega
  rw [h, Nat.add_mod_right]
  exact Nat.mod_eq_of_lt (by omega)

theorem take_drop_step (data : List Byte) (off n m : Nat) :
    (data.drop off).take n ++ (data.drop (off + n)).take m = (data.drop off).take (n + m) := by
  rw [List.take_add, List.drop_drop]

/-- The loop of `write` on a script that starts with accepted counts summing to less than
the bytes remaining: the loop goes on with the rest of the script, having offered and
emitted the next bytes of the data. -/
theorem TcpConnection.write_loop_accepted (data : List Byte) (tail : List WriteResult) :
    ∀ (ns : List Nat) (off rem : Nat) (log : List Syscall), rem < SIZE_MOD →
      off + rem ≤ data.length → ns.sum < rem →
      ∃ log2,
        TcpConnection.write_loop data (ns.map WriteResult.ok ++ tail) off rem log =
          TcpConnection.write_loop data tail (off + ns.sum) (rem - ns.sum) log2 ∧
        Syscall.emitted log2 = Syscall.emitted log ++ (data.drop off).take ns.sum := by
  intro ns
  induction ns with
  | nil =>
    intro off rem log _ _ _
    exact ⟨log, by simp, by simp⟩
  | cons n ns ih =>
    intro off rem log hlt hlen hsum
    simp only [List.sum_cons] at hsum
    have hrem : rem > 0 := by omega
    by_cases hn : n > 0
    · obtain ⟨log2, h1, h2⟩ := ih (off + n) (rem - n)
        (log ++ [Syscall.write ((data.drop off).take rem) (.ok n)]) (by omega) (by omega)
        (by omega)
      refine ⟨log2, ?_, ?_⟩
      · simp only [List.map_cons, List.cons_append, List.append_eq, TcpConnection.write_loop,
          hrem, if_true,
          hn, size_sub_mod rem n (by omega) hlt, List.sum_cons]
        rw [h1, Nat.add_assoc, Nat.sub_sub]
      · rw [h2, Syscall.emitted_append]
        simp only [Syscall.emitted, List.append_nil, List.sum_cons]
        rw [List.take_take, Nat.min_eq_left (by omega), List.append_assoc, take_drop_step]
    · have hn0 : n = 0 := by omega
      subst hn0
      obtain ⟨log2, h1, h2⟩ := ih off rem
        (log ++ [Syscall.write ((data.drop off).take rem) (.ok 0)]) hlt hlen (by omega)
      refine ⟨log2, ?_, ?_⟩
      · simp only [List.map_cons, List.cons_append, List.append_eq, TcpConnection.write_loop,
          hrem, if_true,
          gt_iff_lt, Nat.lt_irrefl, if_false, List.sum_cons, Nat.zero_add]
        rw [h1]
      · rw [h2, Syscall.emitted_append]
        simp [Syscall.emitted]

/-- The loop of `flush_output` on a script that starts with accepted counts summing to
less than the bytes left in the output buffer: the loop goes on with the rest of the
script, having emitted the next bytes of the buffer. -/
theorem TcpConnection.flush_loop_accepted (out : List Byte) (tail : List WriteResult)
    (hout : out.length < SIZE_MOD) :
    ∀ (ns : List Nat) (wi : Nat) (log : List Syscall), wi + ns.sum < out.length →
      ∃ log2,
        TcpConnection.flush_loop out (ns.map WriteResult.ok ++ tail) wi log =
          TcpConnection.flush_loop out tail (wi + ns.sum) log2 ∧
        Syscall.emitted log2 = Syscall.emitted log ++ (out.drop wi).take ns.sum := by
  intro ns
  induction ns with
  | nil =>
    intro wi log _
    exact ⟨log, by simp, by simp⟩
  | cons n ns ih =>
    intro wi log hsum
    simp only [List.sum_cons] at hsum
    have hwi : wi < out.length := by omega
    have hrem : (out.length + SIZE_MOD - wi) % SIZE_MOD = out.length - wi :=
      size_sub_mod out.length wi (by omega) hout
    by_cases hn : n > 0
    · obtain ⟨log2, h1, h2⟩ := ih (wi + n)
        (log ++ [Syscall.write ((out.drop wi).take (out.length - wi)) (.ok n)]) (by omega)
      refine ⟨log2, ?_, ?_⟩
      · simp only [List.map_cons, List.cons_append, List.append_eq, TcpConnection.flush_loop,
          hwi, if_true,
          hn, hrem, List.sum_cons]
        rw [Nat.mod_eq_of_lt (by omega), h1, Nat.add_assoc]
      · rw [h2, Syscall.emitted_append]
        simp only [Syscall.emitted, List.append_nil, List.sum_cons]
        rw [List.take_take, Nat.min_eq_left (by omega), List.append_assoc, take_drop_step]
    · have hn0 : n = 0 := by omega
      subst hn0
      obtain ⟨log2, h1, h2⟩ := ih wi
        (log ++ [Syscall.write ((out.drop wi).take (out.length - wi)) (.ok 0)]) (by omega)
      refine ⟨log2, ?_, ?_⟩
      · simp only [List.map_cons, List.cons_append, List.append_eq, TcpConnection.flush_loop,
          hwi, if_true,
          gt_iff_lt, Nat.lt_irrefl, if_false, hrem, List.sum_cons, Nat.zero_add]
        rw [h1]
      · rw [h2, Syscall.emitted_append]
        simp [Syscall.emitted]

theorem TcpConnection.flush_loop_done (out : List Byte) (script : List WriteResult) (wi : Nat)
    (log : List Syscall) (h : ¬ wi < out.length) :
    TcpConnection.flush_loop out script wi log = (.completed, wi, script, log) := by
  cases script <;> simp [TcpConnection.flush_loop, h]

theorem TcpConnection.handle_events_writable (s : Sys) :
    TcpConnection.handle_events s EPOLLOUT = TcpConnection.flush_output s := by
  have h1 : EPOLLOUT &&& (EPOLLERR ||| EPOLLHUP) = 0 := by decide
  have h2 : EPOLLOUT &&& EPOLLIN = 0 := by decide
  have h3 : EPOLLOUT &&& EPOLLOUT ≠ 0 := by decide
  simp only [TcpConnection.handle_events, h1, h2, h3, ne_eq, not_true_eq_false, if_false,
    not_false_eq_true, if_true, TcpConnection.handle_writable]

/-- A write-drain in which the kernel accepts fewer bytes than are left in the output
buffer and then reports `EAGAIN`: only the write cursor advances. -/
theorem TcpConnection.flush_output_would_block (s : Sys) (ns : List Nat)
    (rest : List WriteResult) (hout : s.conn.output_buffer_.length < SIZE_MOD)
    (hsum : s.conn.write_index_ + ns.sum < s.conn.output_buffer_.length)
    (hw : s.writes = ns.map WriteResult.ok ++ WriteResult.eagain :: rest) :
    ∃ log2,
      TcpConnection.flush_output s =
        (.ok (),
          { s with
            conn := { s.conn with write_index_ := s.conn.write_index_ + ns.sum }
            writes := rest
            syscalls := log2 }) ∧
      Syscall.emitted log2 = Syscall.emitted s.syscalls ++
        (s.conn.output_buffer_.drop s.conn.write_index_).take ns.sum := by
  obtain ⟨log1, h1, h2⟩ := TcpConnection.flush_loop_accepted s.conn.output_buffer_
    (WriteResult.eagain :: rest) hout ns s.conn.write_index_ s.syscalls hsum
  have hwi : s.conn.write_index_ + ns.sum < s.conn.output_buffer_.length := hsum
  refine ⟨log1 ++ [Syscall.write
    ((s.conn.output_buffer_.drop (s.conn.write_index_ + ns.sum)).take
      ((s.conn.output_buffer_.length + SIZE_MOD - (s.conn.write_index_ + ns.sum)) % SIZE_MOD))
    WriteResult.eagain], ?_, ?_⟩
  · simp only [TcpConnection.flush_output, hw, h1, TcpConnection.flush_loop, hwi, if_true]
  · rw [Syscall.emitted_append, h2]
    simp [Syscall.emitted]

/-- A write-drain in which the kernel accepts all the bytes left in the output buffer:
the buffer is cleared, the cursor reset, the bit `EPOLLOUT` cleared with one
`modify_events`, and the pending write resolved with `total_write_size_`. -/
theorem TcpConnection.flush_output_completes (s : Sys) (ns : List Nat) (n q : Nat)
    (rest : List WriteResult) (hout : s.conn.output_buffer_.length < SIZE_MOD)
    (hsum : s.conn.write_index_ + ns.sum < s.conn.output_buffer_.length)
    (hfin : s.conn.write_index_ + ns.sum + n = s.conn.output_buffer_.length)
    (hw : s.writes = ns.map WriteResult.ok ++ WriteResult.ok n :: rest)
    (hpend : s.conn.pending_write_ = some q)
    (hbit : s.conn.current_events_ &&& EPOLLOUT ≠ 0) :
    ∃ log2,
      TcpConnection.flush_output s =
        ((Promise.set_value s.world q (Val.ssize s.conn.total_write_size_)).1,
          { s with
            world := (Promise.set_value s.world q (Val.ssize s.conn.total_write_size_)).2
            conn := { s.conn with
              output_buffer_ := []
              write_index_ := 0
              pending_write_ := none
              current_events_ := s.conn.current_events_ &&& (UINT32_MOD - 1 - EPOLLOUT) }
            reactor_calls := s.reactor_calls ++
              [ReactorCall.modify_events s.conn.fd
                (s.conn.current_events_ &&& (UINT32_MOD - 1 - EPOLLOUT))]
            writes := rest
            syscalls := log2 }) ∧
      Syscall.emitted log2 = Syscall.emitted s.syscalls ++
        s.conn.output_buffer_.drop s.conn.write_index_ := by
  obtain ⟨log1, h1, h2⟩ := TcpConnection.flush_loop_accepted s.conn.output_buffer_
    (WriteResult.ok n :: rest) hout ns s.conn.write_index_ s.syscalls hsum
  have hn : n > 0 := by omega
  have hrem : (s.conn.output_buffer_.length + SIZE_MOD - (s.conn.write_index_ + ns.sum))
      % SIZE_MOD = n := by
    rw [size_sub_mod _ _ (by omega) hout]
    omega
  have hnext : (s.conn.write_index_ + ns.sum + n) % SIZE_MOD = s.conn.output_buffer_.length := by
    rw [hfin]
    exact Nat.mod_eq_of_lt hout
  have hloop : TcpConnection.flush_loop s.conn.output_buffer_ s.writes s.conn.write_index_
      s.syscalls = (.completed, s.conn.output_buffer_.length, rest,
        log1 ++ [Syscall.write
          ((s.conn.output_buffer_.drop (s.conn.write_index_ + ns.sum)).take n)
          (WriteResult.ok n)]) := by
    rw [hw, h1]
    simp only [TcpConnection.flush_loop, hsum, if_true, hn, hrem, hnext]
    exact TcpConnection.flush_loop_done _ _ _ _ (Nat.lt_irrefl _)
  refine ⟨log1 ++ [Syscall.write
    ((s.conn.output_buffer_.drop (s.conn.write_index_ + ns.sum)).take n)
    (WriteResult.ok n)], ?_, ?_⟩
  · obtain ⟨w, h, ⟨fd, ib, ri, pr0, ob, wi0, pw, tw, cl, ev⟩, rc, sc, rd, wr⟩ := s
    simp only at hloop hpend hbit
    subst hpend
    simp [TcpConnection.flush_output, hloop, TcpConnection.disable_write, hbit, Sys.fulfil]
  · rw [Syscall.emitted_append, h2]
    simp only [Syscall.emitted, List.append_nil]
    rw [List.append_assoc]
    congr 1
    have hlen : ((s.conn.output_buffer_.drop (s.conn.write_index_ + ns.sum)).take n).take n =
        s.conn.output_buffer_.drop (s.conn.write_index_ + ns.sum) := by
      rw [List.take_take, Nat.min_self]
      apply List.take_of_length_le
      rw [List.length_drop]
      omega
    rw [hlen, ← List.drop_drop]
    exact List.take_append_drop _ _

/-- A series of write-drains that each would-block, followed by one that writes the last
bytes of the output buffer: the bytes emitted are the bytes of the buffer from the write
cursor on, and the last drain completes the pending write. -/
theorem TcpConnection.drains_complete (last : List Nat) (n q : Nat) (tail : List WriteResult) :
    ∀ (drains : List (List Nat)) (s : Sys),
      s.conn.output_buffer_.length < SIZE_MOD →
      s.conn.write_index_ + drains.flatten.sum + last.sum < s.conn.output_buffer_.length →
      s.conn.write_index_ + drains.flatten.sum + last.sum + n = s.conn.output_buffer_.length →
      s.writes = WriteResult.blocked_drains drains ++
        (last.map WriteResult.ok ++ WriteResult.ok n :: tail) →
      s.conn.pending_write_ = some q →
      s.conn.current_events_ &&& EPOLLOUT ≠ 0 →
      ∃ log2,
        ConnOp.run s (List.replicate (drains.length + 1) (ConnOp.handle_events EPOLLOUT)) =
          { s with
            world := (Promise.set_value s.world q (Val.ssize s.conn.total_write_size_)).2
            conn := { s.conn with
              output_buffer_ := []
              write_index_ := 0
              pending_write_ := none
              current_events_ := s.conn.current_events_ &&& (UINT32_MOD - 1 - EPOLLOUT) }
            reactor_calls := s.reactor_calls ++
              [ReactorCall.modify_events s.conn.fd
                (s.conn.current_events_ &&& (UINT32_MOD - 1 - EPOLLOUT))]
            writes := tail
            syscalls := log2 } ∧
        Syscall.emitted log2 = Syscall.emitted s.syscalls ++
          s.conn.output_buffer_.drop s.conn.write_index_ := by
  intro drains
  induction drains with
  | nil =>
    intro s hout hsum hfin hw hpend hbit
    simp only [List.flatten_nil, List.sum_nil, Nat.add_zero] at hsum hfin
    simp only [WriteResult.blocked_drains, List.nil_append] at hw
    obtain ⟨log2, h1, h2⟩ := TcpConnection.flush_output_completes s last n q tail hout hsum
      hfin hw hpend hbit
    refine ⟨log2, ?_, h2⟩
    simp only [List.length_nil, Nat.zero_add, List.replicate_one, ConnOp.run, List.foldl_cons,
      List.foldl_nil, ConnOp.apply, TcpConnection.handle_events_writable, h1]
  | cons seg segs ih =>
    intro s hout hsum hfin hw hpend hbit
    simp only [List.flatten_cons, List.sum_append] at hsum hfin
    simp only [WriteResult.blocked_drains, List.append_assoc, List.cons_append] at hw
    obtain ⟨log1, h1, h2⟩ := TcpConnection.flush_output_would_block s seg _ hout (by omega) hw
    obtain ⟨log2, k1, k2⟩ := ih
      { s with
        conn := { s.conn with write_index_ := s.conn.write_index_ + seg.sum }
        writes := WriteResult.blocked_drains segs ++
          (last.map WriteResult.ok ++ WriteResult.ok n :: tail)
        syscalls := log1 }
      hout (by simp only; omega) (by simp only; omega) rfl hpend hbit
    refine ⟨log2, ?_, ?_⟩
    · have hrun : ConnOp.run s (List.replicate (List.length (seg :: segs) + 1)
          (ConnOp.handle_events EPOLLOUT)) =
          ConnOp.run (TcpConnection.flush_output s).2
            (List.replicate (segs.length + 1) (ConnOp.handle_events EPOLLOUT)) := by
        simp only [List.length_cons, List.replicate_succ, ConnOp.run, List.foldl_cons,
          ConnOp.apply, TcpConnection.handle_events_writable]
      rw [hrun, h1]
      simp only
      rw [k1]
    · rw [k2]
      simp only
      rw [h2, List.append_assoc]
      congr 1
      rw [← List.drop_drop]
      exact List.take_append_drop _ _

/-- The state after a `write()` whose fast path is stopped by `EAGAIN` after the kernel
has accepted fewer bytes than the packet holds. -/
theorem TcpConnection.write_slow_path (s : Sys) (p : Packet) (accepted : List Nat)
    (rest : List WriteResult) (hc : s.conn.closed_ = false)
    (hbit : s.conn.current_events_ &&& EPOLLOUT = 0) (hwf : p.wf s.heap = true)
    (hk : accepted.sum < p.size)
    (hw : s.writes = accepted.map WriteResult.ok ++ WriteResult.eagain :: rest) :
    ∃ log2,
      TcpConnection.write s p =
        (.ok { state := some s.world.states.length },
          { world :=
              { states := s.world.states ++
                  [{ value := Val.ssize 0, ready := false, callback := none }]
                promises := s.world.promises ++
                  [{ state := some s.world.states.length, future_retrieved_ := true }]
                instance_ := s.world.instance_
                trace := s.world.trace }
            heap := p.destroy s.heap
            conn := { s.conn with
              output_buffer_ := (p.to_string s.heap).drop accepted.sum
              write_index_ := 0
              total_write_size_ := to_ssize p.size
              pending_write_ := some s.world.promises.length
              current_events_ := s.conn.current_events_ ||| EPOLLOUT }
            reactor_calls := s.reactor_calls ++
              [ReactorCall.modify_events s.conn.fd (s.conn.current_events_ ||| EPOLLOUT)]
            syscalls := log2
            reads := s.reads
            writes := rest }) ∧
      Syscall.emitted log2 = Syscall.emitted s.syscalls ++
        (p.to_string s.heap).take accepted.sum := by
  obtain ⟨hlen, hlt⟩ := Packet.to_string_length p s.heap hwf
  obtain ⟨log1, h1, h2⟩ := TcpConnection.write_loop_accepted (p.to_string s.heap)
    (WriteResult.eagain :: rest) accepted 0 p.size s.syscalls hlt (by omega) hk
  have hrem : p.size - accepted.sum > 0 := by omega
  have hrem0 : ¬ (p.size - accepted.sum = 0) := by omega
  have hne : ¬ (p.size = 0) := by omega
  have hloop : TcpConnection.write_loop (p.to_string s.heap) s.writes 0 p.size s.syscalls =
      (.exit accepted.sum (p.size - accepted.sum), rest,
        log1 ++ [Syscall.write
          (((p.to_string s.heap).drop accepted.sum).take (p.size - accepted.sum))
          WriteResult.eagain]) := by
    rw [hw, h1]
    simp only [Nat.zero_add, TcpConnection.write_loop, hrem, if_true]
  have hbuf : ((p.to_string s.heap).drop accepted.sum).take (p.size - accepted.sum) =
      (p.to_string s.heap).drop accepted.sum := by
    apply List.take_of_length_le
    rw [List.length_drop]
    omega
  refine ⟨log1 ++ [Syscall.write
    (((p.to_string s.heap).drop accepted.sum).take (p.size - accepted.sum))
    WriteResult.eagain], ?_, ?_⟩
  · simp [TcpConnection.write, hc, hne, hloop, hrem0, hbuf, TcpConnection.enable_write, hbit,
      Promise.new_of, Promise.get_future, list_set_append_new, Sys.drop_packet]
  · rw [Syscall.emitted_append, h2]
    simp [Syscall.emitted]

/-- C21: on an open connection whose writable interest is not enabled (no write is
pending), for a well-formed packet of L < 2^63 bytes of which the kernel accepts k < L in
the fast path before it reports `EAGAIN`: `write()` returns a future that is not ready,
stores exactly the bytes k..L of the packet in the output buffer with write cursor 0,
records `total_write_size_ = L`, installs its promise as the pending write and sets the
bit `EPOLLOUT` with exactly one `modify_events`; the bytes emitted so far are the first k
bytes of the packet. When the kernel then lets a series of write-drains would-block and
accepts the last of the L - k bytes in a final write-drain, the bytes emitted on the
descriptor since the call are the bytes of the packet in order, the output buffer is
empty with cursor 0, the bit `EPOLLOUT` is cleared with one further `modify_events`, the
pending write slot is empty and the future is ready with L (for a packet of 10 MiB: with
10 * 2^20). -/
theorem TcpConnection.write_back_pressure (s : Sys) (p : Packet) (accepted : List Nat)
    (rest : List WriteResult) (hc : s.conn.closed_ = false)
    (hbit : s.conn.current_events_ &&& EPOLLOUT = 0) (hwf : p.wf s.heap = true)
    (hmax : p.size < 2 ^ 63) (hk : accepted.sum < p.size)
    (hw : s.writes = accepted.map WriteResult.ok ++ WriteResult.eagain :: rest) :
    ((TcpConnection.write s p).1 = .ok { state := some s.world.states.length } ∧
      (TcpConnection.write s p).2.world.states[s.world.states.length]? =
        some { value := Val.ssize 0, ready := false, callback := none } ∧
      (TcpConnection.write s p).2.conn =
        { s.conn with
          output_buffer_ := (p.to_string s.heap).drop accepted.sum
          write_index_ := 0
          total_write_size_ := p.size
          pending_write_ := some s.world.promises.length
          current_events_ := s.conn.current_events_ ||| EPOLLOUT } ∧
      (TcpConnection.write s p).2.conn.current_events_ &&& EPOLLOUT ≠ 0 ∧
      (TcpConnection.write s p).2.reactor_calls = s.reactor_calls ++
        [ReactorCall.modify_events s.conn.fd (s.conn.current_events_ ||| EPOLLOUT)] ∧
      Syscall.emitted (TcpConnection.write s p).2.syscalls =
        Syscall.emitted s.syscalls ++ (p.to_string s.heap).take accepted.sum) ∧
    ∀ (drains : List (List Nat)) (last : List Nat) (n : Nat) (tail : List WriteResult),
      rest = WriteResult.blocked_drains drains ++
        (last.map WriteResult.ok ++ WriteResult.ok n :: tail) →
      0 < n → accepted.sum + drains.flatten.sum + last.sum + n = p.size →
      Syscall.emitted (ConnOp.run (TcpConnection.write s p).2
          (List.replicate (drains.length + 1) (ConnOp.handle_events EPOLLOUT))).syscalls =
        Syscall.emitted s.syscalls ++ p.to_string s.heap ∧
      (ConnOp.run (TcpConnection.write s p).2
          (List.replicate (drains.length + 1) (ConnOp.handle_events EPOLLOUT))).conn =
        { s.conn with
          output_buffer_ := []
          write_index_ := 0
          total_write_size_ := p.size
          pending_write_ := none
          current_events_ :=
            (s.conn.current_events_ ||| EPOLLOUT) &&& (UINT32_MOD - 1 - EPOLLOUT) } ∧
      (ConnOp.run (TcpConnection.write s p).2
          (List.replicate (drains.length + 1)
            (ConnOp.handle_events EPOLLOUT))).conn.current_events_ &&& EPOLLOUT = 0 ∧
      (ConnOp.run (TcpConnection.write s p).2
          (List.replicate (drains.length + 1) (ConnOp.handle_events EPOLLOUT))).reactor_calls =
        s.reactor_calls ++
          [ReactorCall.modify_events s.conn.fd (s.conn.current_events_ ||| EPOLLOUT),
            ReactorCall.modify_events s.conn.fd
              ((s.conn.current_events_ ||| EPOLLOUT) &&& (UINT32_MOD - 1 - EPOLLOUT))] ∧
      (ConnOp.run (TcpConnection.write s p).2
          (List.replicate (drains.length + 1)
            (ConnOp.handle_events EPOLLOUT))).world.states[s.world.states.length]? =
        some { value := Val.ssize p.size, ready := true, callback := none } := by
  obtain ⟨hlen, hlt⟩ := Packet.to_string_length p s.heap hwf
  obtain ⟨log1, h1, h2⟩ := TcpConnection.write_slow_path s p accepted rest hc hbit hwf hk hw
  rw [to_ssize_small p.size hmax] at h1
  rw [h1]
  refine ⟨⟨rfl, lookup_append_new _ _, rfl, EPOLLOUT_or_set _, rfl, h2⟩, ?_⟩
  intro drains last n tail hrest hn hsum
  have hdlen : ((p.to_string s.heap).drop accepted.sum).length < SIZE_MOD := by
    rw [List.length_drop]
    omega
  have hdl : ((p.to_string s.heap).drop accepted.sum).length = p.size - accepted.sum := by
    rw [List.length_drop, hlen]
  obtain ⟨log2, k1, k2⟩ := TcpConnection.drains_complete last n s.world.promises.length tail
    drains
    { world :=
        { states := s.world.states ++
            [{ value := Val.ssize 0, ready := false, callback := none }]
          promises := s.world.promises ++
            [{ state := some s.world.states.length, future_retrieved_ := true }]
          instance_ := s.world.instance_
          trace := s.world.trace }
      heap := p.destroy s.heap
      conn := { s.conn with
        output_buffer_ := (p.to_string s.heap).drop accepted.sum
        write_index_ := 0
        total_write_size_ := p.size
        pending_write_ := some s.world.promises.length
        current_events_ := s.conn.current_events_ ||| EPOLLOUT }
      reactor_calls := s.reactor_calls ++
        [ReactorCall.modify_events s.conn.fd (s.conn.current_events_ ||| EPOLLOUT)]
      syscalls := log1
      reads := s.reads
      writes := rest }
    hdlen (by simp only; rw [hdl]; omega) (by simp only; rw [hdl]; omega) hrest rfl
    (EPOLLOUT_or_set _)
  simp only at k1 k2
  rw [k1]
  refine ⟨?_, rfl, EPOLLOUT_and_clear _, ?_, ?_⟩
  · simp only
    rw [k2, h2, List.append_assoc, List.drop_zero, List.take_append_drop]
  · simp
  · exact (Promise.set_value_resolves _ s.world.promises.length
      { state := some s.world.states.length, future_retrieved_ := true }
      s.world.states.length { value := Val.ssize 0, ready := false, callback := none }
      (Val.ssize p.size) (lookup_append_new _ _) rfl (lookup_append_new _ _) rfl).2

/-- Witness for C21: the example packet of three bytes, of which the kernel accepts one
in the fast path, one in a first write-drain and one in a second. -/
theorem TcpConnection.write_back_pressure_witness :
    (TcpConnection.write Sys.example_slow Sys.example_packet.1).2.conn.output_buffer_ =
      [20, 30] ∧
    Syscall.emitted (ConnOp.run (TcpConnection.write Sys.example_slow Sys.example_packet.1).2
      [ConnOp.handle_events EPOLLOUT, ConnOp.handle_events EPOLLOUT]).syscalls =
      [10, 20, 30] ∧
    (ConnOp.run (TcpConnection.write Sys.example_slow Sys.example_packet.1).2
      [ConnOp.handle_events EPOLLOUT, ConnOp.handle_events EPOLLOUT]).world.states[0]? =
      some { value := Val.ssize 3, ready := true, callback := none } :=
  ⟨congrArg TcpConnection.output_buffer_
      (TcpConnection.write_back_pressure Sys.example_slow Sys.example_packet.1 [1]
        [WriteResult.ok 1, WriteResult.eagain, WriteResult.ok 1, WriteResult.error]
        rfl rfl rfl (by decide) (by decide) rfl).1.2.2.1,
    ((TcpConnection.write_back_pressure Sys.example_slow Sys.example_packet.1 [1]
        [WriteResult.ok 1, WriteResult.eagain, WriteResult.ok 1, WriteResult.error]
        rfl rfl rfl (by decide) (by decide) rfl).2 [[1]] [] 1 [WriteResult.error]
        rfl (by decide) rfl).1,
    ((TcpConnection.write_back_pressure Sys.example_slow Sys.example_packet.1 [1]
        [WriteResult.ok 1, WriteResult.eagain, WriteResult.ok 1, WriteResult.error]
        rfl rfl rfl (by decide) (by decide) rfl).2 [[1]] [] 1 [WriteResult.error]
        rfl (by decide) rfl).2.2.2.2⟩

theorem TcpConnection.write_loop_log (data : List Byte) :
    ∀ (script : List WriteResult) (off rem : Nat) (log : List Syscall) (e : Syscall),
      e ∈ log → e ∈ (TcpConnection.write_loop data script off rem log).2.2 := by
  intro script
  induction script with
  | nil =>
    intro off rem log e he
    unfold TcpConnection.write_loop
    split_ifs <;> exact he
  | cons r rs ih =>
    intro off rem log e he
    have he1 : e ∈ log ++ [Syscall.write ((data.drop off).take rem) r] :=
      List.mem_append_left _ he
    unfold TcpConnection.write_loop
    split_ifs with h1
    · cases r with
      | ok n =>
        simp only
        split_ifs
        · exact ih _ _ _ e he1
        · exact ih _ _ _ e he1
      | eagain => exact he1
      | error => exact he1
    · exact he

/-- When the kernel accepts no more than it is offered, the loop of `write` over data of
`off + rem` bytes ends, if it ends on `EAGAIN` or on its condition, with an offset and a
count of remaining bytes that again add up to the length of the data. -/
theorem TcpConnection.write_loop_conforms (data : List Byte) :
    ∀ (script : List WriteResult) (off rem : Nat) (log : List Syscall),
      off + rem = data.length → rem < SIZE_MOD →
      (∀ e ∈ (TcpConnection.write_loop data script off rem log).2.2,
        Syscall.conforms e = true) →
      ∀ off2 rem2, (TcpConnection.write_loop data script off rem log).1 =
        WriteLoopEnd.exit off2 rem2 → off2 + rem2 = data.length := by
  intro script
  induction script with
  | nil =>
    intro off rem log hlen _ _ off2 rem2 hend
    unfold TcpConnection.write_loop at hend
    split_ifs at hend
    simp only [WriteLoopEnd.exit.injEq] at hend
    omega
  | cons r rs ih =>
    intro off rem log hlen hlt hconf off2 rem2 hend
    unfold TcpConnection.write_loop at hend hconf
    split_ifs at hend hconf with h1
    · cases r with
      | ok n =>
        simp only at hend hconf
        split_ifs at hend hconf with h2
        · have hentry := hconf _ (TcpConnection.write_loop_log data rs _ _ _ _
            (List.mem_append_right log (List.mem_singleton.mpr rfl)))
          simp only [Syscall.conforms, decide_eq_true_eq, List.length_take,
            List.length_drop] at hentry
          have hn : n ≤ rem := by omega
          rw [size_sub_mod rem n hn hlt] at hend hconf
          exact ih (off + n) (rem - n) _ (by omega) (by omega) hconf off2 rem2 hend
        · exact ih off rem _ hlen hlt hconf off2 rem2 hend
      | eagain =>
        simp only [WriteLoopEnd.exit.injEq] at hend
        omega
      | error => cases hend
    · simp only [WriteLoopEnd.exit.injEq] at hend
      omega

theorem TcpConnection.writable_iff_output_of_eq (c1 c2 : TcpConnection)
    (h1 : c2.output_buffer_ = c1.output_buffer_) (h2 : c2.current_events_ = c1.current_events_)
    (h : c1.writable_iff_output) : c2.writable_iff_output := by
  unfold TcpConnection.writable_iff_output at h ⊢
  rw [h1, h2]
  exact h

theorem TcpConnection.writable_iff_output_of_clear (c : TcpConnection)
    (h1 : c.output_buffer_ = []) (h2 : c.current_events_ &&& EPOLLOUT = 0) :
    c.writable_iff_output := by
  unfold TcpConnection.writable_iff_output
  rw [h1, h2]
  exact ⟨fun h => absurd rfl h, fun h => absurd rfl h⟩

/-- A `flush_output` whose loop does not end on a failed write keeps the invariant of the
event mask. -/
theorem TcpConnection.flush_output_invariant (s : Sys)
    (hf : (TcpConnection.flush_loop s.conn.output_buffer_ s.writes s.conn.write_index_
      s.syscalls).1 ≠ FlushEnd.failed)
    (hinv : s.conn.writable_iff_output) :
    (TcpConnection.flush_output s).2.conn.writable_iff_output := by
  rcases (TcpConnection.flush_output_frame s).2.2.2.2 hf with ⟨h1, h2⟩ | ⟨h1, h2⟩
  · exact TcpConnection.writable_iff_output_of_eq _ _ h1 h2 hinv
  · exact TcpConnection.writable_iff_output_of_clear _ h1 h2

/-- A `write()` of a well-formed packet to which the kernel answers within its contract
keeps the invariant of the event mask. -/
theorem TcpConnection.write_invariant (s : Sys) (p : Packet) (hwf : p.wf s.heap = true)
    (hconf : ∀ e ∈ (TcpConnection.write s p).2.syscalls, Syscall.conforms e = true)
    (hinv : s.conn.writable_iff_output) :
    (TcpConnection.write s p).2.conn.writable_iff_output := by
  obtain ⟨k1, k2⟩ := TcpConnection.write_frame s p
  by_cases hc : s.conn.closed_ = true
  · rw [(k1 (Or.inl hc)).1]
    exact hinv
  by_cases hz : p.size = 0
  · rw [(k1 (Or.inr hz)).1]
    exact hinv
  have hc2 : s.conn.closed_ = false := by
    cases h : s.conn.closed_
    · rfl
    · exact absurd h hc
  obtain ⟨m1, _, _, m4⟩ := k2 hc2 hz
  rcases m4 with ⟨h1, _⟩ | ⟨off, rem, hend, hrem, hconn, _⟩
  · rw [h1]
    exact hinv
  · obtain ⟨hlen, hlt⟩ := Packet.to_string_length p s.heap hwf
    rw [m1] at hconf
    have hsum := TcpConnection.write_loop_conforms (p.to_string s.heap) s.writes 0 p.size
      s.syscalls (by omega) hlt hconf off rem hend
    unfold TcpConnection.writable_iff_output
    rw [hconn]
    simp only
    constructor
    · intro _ h
      have h3 := congrArg List.length h
      simp only [List.length_take, List.length_drop, List.length_nil] at h3
      omega
    · intro _
      split_ifs with hb
      · exact EPOLLOUT_or_set _
      · exact hb

/-- One admissible operation keeps the invariant of the event mask. -/
theorem ConnOp.apply_invariant (s : Sys) (op : ConnOp)
    (hwf : ∀ p, op = ConnOp.write p → p.wf s.heap = true)
    (hdf : ConnOp.drain_fails s op = false)
    (hconf : ∀ e ∈ (ConnOp.apply s op).syscalls, Syscall.conforms e = true)
    (hinv : s.conn.writable_iff_output) : (ConnOp.apply s op).conn.writable_iff_output := by
  cases op with
  | read =>
    obtain ⟨⟨buf, ri, pr, h⟩, _⟩ := TcpConnection.read_frame s
    exact TcpConnection.writable_iff_output_of_eq s.conn _ (by rw [ConnOp.apply, h])
      (by rw [ConnOp.apply, h]) hinv
  | write p => exact TcpConnection.write_invariant s p (hwf p rfl) hconf hinv
  | handle_events events =>
    simp only [ConnOp.apply, TcpConnection.handle_events]
    simp only [ConnOp.drain_fails] at hdf
    by_cases hE : events &&& (EPOLLERR ||| EPOLLHUP) ≠ 0
    · rw [if_pos hE]
      obtain ⟨_, h2, h3, _⟩ := TcpConnection.handle_close_keeps s
      exact TcpConnection.writable_iff_output_of_eq s.conn _ h2 h3 hinv
    · rw [if_neg hE]
      rw [if_neg hE] at hdf
      have key : ∀ r1 : Except String Unit × Sys, r1.2.conn.writable_iff_output →
          (match r1 with
            | (.error _, _) => false
            | (.ok _, s1) =>
              if events &&& EPOLLOUT ≠ 0 then
                decide ((TcpConnection.flush_loop s1.conn.output_buffer_ s1.writes
                  s1.conn.write_index_ s1.syscalls).1 = FlushEnd.failed)
              else false) = false →
          (match r1 with
            | (.error e, s1) => ((.error e, s1) : Except String Unit × Sys)
            | (.ok _, s1) =>
              if events &&& EPOLLOUT ≠ 0 then TcpConnection.handle_writable s1
              else (.ok (), s1)).2.conn.writable_iff_output := by
        intro r1 hr1 hd
        obtain ⟨res, s1⟩ := r1
        cases res with
        | error e => exact hr1
        | ok u =>
          simp only at hd ⊢
          by_cases hO : events &&& EPOLLOUT ≠ 0
          · rw [if_pos hO] at hd ⊢
            simp only [decide_eq_false_iff_not] at hd
            exact TcpConnection.flush_output_invariant s1 hd hr1
          · rw [if_neg hO]
            exact hr1
      by_cases hI : events &&& EPOLLIN ≠ 0
      · rw [if_pos hI] at hdf ⊢
        obtain ⟨_, h2, h3, _⟩ := TcpConnection.handle_readable_keeps s
        exact key _ (TcpConnection.writable_iff_output_of_eq s.conn _ h2 h3 hinv) hdf
      · rw [if_neg hI] at hdf ⊢
        exact key (.ok (), s) hinv hdf

theorem ConnOp.run_invariant (ops : List ConnOp) :
    ∀ s : Sys, s.conn.writable_iff_output → ConnOp.admissible s ops = true →
      (ConnOp.run s ops).conn.writable_iff_output := by
  induction ops with
  | nil => intro s hinv _; exact hinv
  | cons op ops ih =>
    intro s hinv hadm
    simp only [ConnOp.admissible, Bool.and_eq_true, Bool.not_eq_true', List.all_eq_true]
      at hadm
    obtain ⟨⟨⟨h1, h2⟩, h3⟩, h4⟩ := hadm
    refine ih (ConnOp.apply s op) (ConnOp.apply_invariant s op ?_ h2 h3 hinv) h4
    intro p hp
    subst hp
    exact h1

/-- C30 (amended): in every state that a connection reaches from `create` by a sequence
of `read()`, `write(p)` and `handle_events` calls in which the packets written are well
formed, the kernel accepts no more bytes than it is offered, and no write-drain ends on a
write error other than `EAGAIN`, the bit `EPOLLOUT` of `current_events_` is set if and
only if the output buffer is not empty. -/
theorem TcpConnection.writable_iff_output_reachable (w : World Val) (h : Heap) (fd : Int)
    (reads : List ReadResult) (writes : List WriteResult) (ops : List ConnOp)
    (hadm : ConnOp.admissible (TcpConnection.create w h fd reads writes) ops = true) :
    (ConnOp.run (TcpConnection.create w h fd reads writes) ops).conn.current_events_
        &&& EPOLLOUT ≠ 0 ↔
      (ConnOp.run (TcpConnection.create w h fd reads writes) ops).conn.output_buffer_ ≠ [] := by
  have h0 : (TcpConnection.create w h fd reads writes).conn.writable_iff_output :=
    TcpConnection.writable_iff_output_of_clear _ rfl
      (show EPOLLIN &&& EPOLLOUT = 0 by decide)
  exact ConnOp.run_invariant ops _ h0 hadm

/-- Counterexample for C30: after a back-pressured write whose write-drain fails, the
output buffer still holds the two unwritten bytes while the bit `EPOLLOUT` is clear. -/
theorem TcpConnection.writable_iff_output_counterexample :
    (ConnOp.run Sys.example_drain_error
      [ConnOp.write Sys.example_packet.1, ConnOp.handle_events EPOLLOUT]).conn.output_buffer_ =
      [20, 30] ∧
    (ConnOp.run Sys.example_drain_error
      [ConnOp.write Sys.example_packet.1,
        ConnOp.handle_events EPOLLOUT]).conn.current_events_ &&& EPOLLOUT = 0 ∧
    ¬ ((ConnOp.run Sys.example_drain_error
        [ConnOp.write Sys.example_packet.1,
          ConnOp.handle_events EPOLLOUT]).conn.current_events_ &&& EPOLLOUT ≠ 0 ↔
      (ConnOp.run Sys.example_drain_error
        [ConnOp.write Sys.example_packet.1,
          ConnOp.handle_events EPOLLOUT]).conn.output_buffer_ ≠ []) := by
  decide

/-- Witness for C30 (amended): after a back-pressured write and a write-drain that
would-block the bit is set and the output buffer is not empty. -/
theorem TcpConnection.writable_iff_output_reachable_witness :
    ConnOp.admissible Sys.example_slow
      [ConnOp.write Sys.example_packet.1, ConnOp.handle_events EPOLLOUT] = true ∧
    ((ConnOp.run Sys.example_slow
        [ConnOp.write Sys.example_packet.1,
          ConnOp.handle_events EPOLLOUT]).conn.current_events_ &&& EPOLLOUT ≠ 0 ↔
      (ConnOp.run Sys.example_slow
        [ConnOp.write Sys.example_packet.1,
          ConnOp.handle_events EPOLLOUT]).conn.output_buffer_ ≠ []) :=
  ⟨by decide,
    TcpConnection.writable_iff_output_reachable (World.init Val) Sys.example_packet.2 7 []
      [WriteResult.ok 1, WriteResult.eagain, WriteResult.ok 1, WriteResult.eagain,
        WriteResult.ok 1, WriteResult.error]
      [ConnOp.write Sys.example_packet.1, ConnOp.handle_events EPOLLOUT] (by decide)⟩

/-! ## Theorems: interest in writable events -/

theorem EPOLLOUT_or_keeps_in (x : Nat) : (x ||| EPOLLOUT) &&& EPOLLIN = x &&& EPOLLIN := by
  apply Nat.eq_of_testBit_eq
  intro i
  simp only [Nat.testBit_and, Nat.testBit_or]
  have h : (Nat.testBit EPOLLOUT i && Nat.testBit EPOLLIN i) = false := by
    rw [← Nat.testBit_and]
    have : EPOLLOUT &&& EPOLLIN = 0 := by decide
    rw [this]
    exact Nat.zero_testBit i
  cases h1 : Nat.testBit x i <;> cases h2 : Nat.testBit EPOLLOUT i <;>
    cases h3 : Nat.testBit EPOLLIN i <;> simp_all

theorem EPOLLOUT_and_keeps_in (x : Nat) :
    (x &&& (UINT32_MOD - 1 - EPOLLOUT)) &&& EPOLLIN = x &&& EPOLLIN := by
  rw [Nat.and_assoc]
  have : (UINT32_MOD - 1 - EPOLLOUT) &&& EPOLLIN = EPOLLIN := by decide
  rw [this]

theorem TcpConnection.flush_output_keeps_in (s : Sys) :
    (TcpConnection.flush_output s).2.conn.current_events_ &&& EPOLLIN =
      s.conn.current_events_ &&& EPOLLIN := by
  obtain ⟨w, h, ⟨fd, ib, ri, pr0, ob, wi0, pw, tw, cl, ev⟩, rc, sc, rd, wr⟩ := s
  cases hloop : TcpConnection.flush_loop ob wr wi0 sc with
  | mk e rl =>
    obtain ⟨wi, rest, log⟩ := rl
    cases e <;> by_cases hb : ev &&& EPOLLOUT = 0 <;> cases pw <;>
      simp [TcpConnection.flush_output, hloop, TcpConnection.disable_write, hb, Sys.fulfil,
        EPOLLOUT_and_keeps_in]

/-- No operation on a connection changes the bit `EPOLLIN` of its event mask. -/
theorem ConnOp.apply_keeps_in (s : Sys) (op : ConnOp) :
    (ConnOp.apply s op).conn.current_events_ &&& EPOLLIN =
      s.conn.current_events_ &&& EPOLLIN := by
  cases op with
  | read =>
    obtain ⟨⟨buf, ri, pr, h⟩, _⟩ := TcpConnection.read_frame s
    rw [ConnOp.apply, h]
  | write p =>
    simp only [ConnOp.apply]
    obtain ⟨k1, k2⟩ := TcpConnection.write_frame s p
    by_cases hc : s.conn.closed_ = true
    · rw [(k1 (Or.inl hc)).1]
    by_cases hz : p.size = 0
    · rw [(k1 (Or.inr hz)).1]
    have hc2 : s.conn.closed_ = false := by
      cases h : s.conn.closed_
      · rfl
      · exact absurd h hc
    obtain ⟨_, _, _, m4⟩ := k2 hc2 hz
    rcases m4 with ⟨h1, _⟩ | ⟨off, rem, _, _, hconn, _⟩
    · rw [h1]
    · rw [hconn]
      simp only
      split_ifs
      · exact EPOLLOUT_or_keeps_in _
      · rfl
  | handle_events events =>
    simp only [ConnOp.apply, TcpConnection.handle_events]
    split_ifs with hE hI hO
    · rw [(TcpConnection.handle_close_keeps s).2.2.1]
    · have k := (TcpConnection.handle_readable_keeps s).2.2.1
      cases hd : TcpConnection.handle_readable s with
      | mk res s1 =>
        rw [hd] at k
        cases res with
        | error e => simp only; rw [k]
        | ok u =>
          simp only [TcpConnection.handle_writable]
          rw [TcpConnection.flush_output_keeps_in s1, k]
    · have k := (TcpConnection.handle_readable_keeps s).2.2.1
      cases hd : TcpConnection.handle_readable s with
      | mk res s1 =>
        rw [hd] at k
        cases res with
        | error e => simp only; rw [k]
        | ok u => simp only; rw [k]
    · simp only [TcpConnection.handle_writable]
      exact TcpConnection.flush_output_keeps_in s
    · rfl

theorem ConnOp.run_keeps_in (ops : List ConnOp) :
    ∀ s : Sys, (ConnOp.run s ops).conn.current_events_ &&& EPOLLIN =
      s.conn.current_events_ &&& EPOLLIN := by
  induction ops with
  | nil => intro s; rfl
  | cons op ops ih =>
    intro s
    exact (ih (ConnOp.apply s op)).trans (ConnOp.apply_keeps_in s op)

/-- C31: `enable_write` and `disable_write` are idempotent. A second `enable_write`
right after a first one changes nothing: the two calls together issue the reactor calls
of one call, which is exactly one `modify_events` (with the bit `EPOLLOUT` added to the
mask) when the bit was clear and none when it was already set, and the mask is that
after one call. Likewise for `disable_write`, which issues exactly one `modify_events`
(with the bit cleared) when the bit was set. Both leave the bit `EPOLLIN` of the mask as
it was, and so does every sequence of `read()`, `write(p)` and `handle_events` calls:
the bit is never cleared over the lifetime of the connection. -/
theorem TcpConnection.write_interest_idempotent (s : Sys) :
    (TcpConnection.enable_write (TcpConnection.enable_write s) = TcpConnection.enable_write s ∧
      (TcpConnection.enable_write (TcpConnection.enable_write s)).reactor_calls =
        s.reactor_calls ++
          (if s.conn.current_events_ &&& EPOLLOUT = 0
            then [ReactorCall.modify_events s.conn.fd (s.conn.current_events_ ||| EPOLLOUT)]
            else []) ∧
      (TcpConnection.enable_write s).conn.current_events_ &&& EPOLLOUT ≠ 0 ∧
      (TcpConnection.enable_write s).conn.current_events_ &&& EPOLLIN =
        s.conn.current_events_ &&& EPOLLIN) ∧
    (TcpConnection.disable_write (TcpConnection.disable_write s) =
        TcpConnection.disable_write s ∧
      (TcpConnection.disable_write (TcpConnection.disable_write s)).reactor_calls =
        s.reactor_calls ++
          (if s.conn.current_events_ &&& EPOLLOUT ≠ 0
            then [ReactorCall.modify_events s.conn.fd
              (s.conn.current_events_ &&& (UINT32_MOD - 1 - EPOLLOUT))]
            else []) ∧
      (TcpConnection.disable_write s).conn.current_events_ &&& EPOLLOUT = 0 ∧
      (TcpConnection.disable_write s).conn.current_events_ &&& EPOLLIN =
        s.conn.current_events_ &&& EPOLLIN) ∧
    (∀ ops : List ConnOp, (ConnOp.run s ops).conn.current_events_ &&& EPOLLIN =
      s.conn.current_events_ &&& EPOLLIN) := by
  refine ⟨?_, ?_, fun ops => ConnOp.run_keeps_in ops s⟩
  · by_cases hb : s.conn.current_events_ &&& EPOLLOUT = 0
    · have h1 : TcpConnection.enable_write s =
          { s with
            conn := { s.conn with current_events_ := s.conn.current_events_ ||| EPOLLOUT }
            reactor_calls := s.reactor_calls ++
              [ReactorCall.modify_events s.conn.fd (s.conn.current_events_ ||| EPOLLOUT)] } := by
        simp only [TcpConnection.enable_write, hb, if_true]
      have h2 : TcpConnection.enable_write (TcpConnection.enable_write s) =
          TcpConnection.enable_write s := by
        rw [h1]
        simp only [TcpConnection.enable_write]
        rw [if_neg (EPOLLOUT_or_set _)]
      rw [h2, h1, if_pos hb]
      exact ⟨rfl, rfl, EPOLLOUT_or_set _, EPOLLOUT_or_keeps_in _⟩
    · have h1 : TcpConnection.enable_write s = s := by
        simp only [TcpConnection.enable_write, hb, if_false]
      rw [h1, h1, if_neg hb]
      exact ⟨rfl, (List.append_nil _).symm, hb, rfl⟩
  · by_cases hb : s.conn.current_events_ &&& EPOLLOUT = 0
    · have h1 : TcpConnection.disable_write s = s := by
        simp only [TcpConnection.disable_write, hb, ne_eq, not_true_eq_false, if_false]
      rw [h1, h1, if_neg (not_not.mpr hb)]
      exact ⟨rfl, (List.append_nil _).symm, hb, rfl⟩
    · have h1 : TcpConnection.disable_write s =
          { s with
            conn := { s.conn with
              current_events_ := s.conn.current_events_ &&& (UINT32_MOD - 1 - EPOLLOUT) }
            reactor_calls := s.reactor_calls ++
              [ReactorCall.modify_events s.conn.fd
                (s.conn.current_events_ &&& (UINT32_MOD - 1 - EPOLLOUT))] } := by
        simp only [TcpConnection.disable_write, ne_eq, hb, not_false_eq_true, if_true]
      have h2 : TcpConnection.disable_write (TcpConnection.disable_write s) =
          TcpConnection.disable_write s := by
        rw [h1]
        simp only [TcpConnection.disable_write]
        rw [if_neg (not_not.mpr (EPOLLOUT_and_clear _))]
      rw [h2, h1, if_pos hb]
      exact ⟨rfl, rfl, EPOLLOUT_and_clear _, EPOLLOUT_and_keeps_in _⟩

/-! ## Theorems: the read-drain -/

/-- The loop of `drain_socket` computes what the specification says: it consumes the
results up to and including the first that is not a full chunk, appends the bytes
received, and ends as the last result consumed says. -/
theorem TcpConnection.drain_loop_refines :
    ∀ (script : List ReadResult) (buf : List Byte) (log : List Syscall),
      (∀ r ∈ ReadResult.consumed script, Syscall.conforms (Syscall.read r) = true) →
      TcpConnection.drain_loop script buf log =
        (ReadResult.drain_end script,
          buf ++ (ReadResult.consumed script).flatMap ReadResult.payload,
          script.drop (ReadResult.consumed script).length,
          log ++ (ReadResult.consumed script).map Syscall.read) := by
  intro script
  induction script with
  | nil =>
    intro buf log _
    simp [TcpConnection.drain_loop, ReadResult.drain_end, ReadResult.consumed]
  | cons r rs ih =>
    intro buf log hconf
    cases r with
    | ok bytes =>
      by_cases hfull : bytes.length = kReadBufSize
      · have hf : (ReadResult.ok bytes).is_full = true := by
          simp [ReadResult.is_full, hfull]
        have hpos : bytes.length > 0 := by rw [hfull]; decide
        have hnot : ¬ (bytes.length < kReadBufSize) := by omega
        have hrs : ∀ r ∈ ReadResult.consumed rs, Syscall.conforms (Syscall.read r) = true := by
          intro x hx
          apply hconf
          simp only [ReadResult.consumed, hf, if_true]
          exact List.mem_cons_of_mem _ hx
        simp only [TcpConnection.drain_loop, hpos, hnot, if_true, if_false,
          ReadResult.drain_end, ReadResult.consumed, hf]
        rw [TcpConnection.read_into_eq buf bytes (by omega), ih _ _ hrs]
        simp [ReadResult.payload]
      · have hf : (ReadResult.ok bytes).is_full = false := by
          simp [ReadResult.is_full, hfull]
        have hc := hconf (ReadResult.ok bytes) (by simp [ReadResult.consumed, hf])
        simp only [Syscall.conforms, decide_eq_true_eq] at hc
        by_cases h0 : bytes.length = 0
        · have hnil : bytes = [] := List.eq_nil_of_length_eq_zero h0
          subst hnil
          simp [TcpConnection.drain_loop, ReadResult.drain_end, ReadResult.consumed, hf,
            ReadResult.payload, vector_resize_back]
        · have hpos : bytes.length > 0 := by omega
          have hlt : bytes.length < kReadBufSize := by omega
          simp only [TcpConnection.drain_loop, hpos, hlt, if_true, ReadResult.drain_end,
            ReadResult.consumed, hf, h0, if_false]
          rw [TcpConnection.read_into_eq buf bytes hc]
          simp [ReadResult.payload]
    | eagain =>
      simp [TcpConnection.drain_loop, ReadResult.drain_end, ReadResult.consumed,
        ReadResult.is_full, ReadResult.payload, vector_resize_back]
    | error =>
      simp [TcpConnection.drain_loop, ReadResult.drain_end, ReadResult.consumed,
        ReadResult.is_full, ReadResult.payload, vector_resize_back]

/-- Every result consumed by a read-drain but the last is a full chunk. -/
theorem ReadResult.consumed_full :
    ∀ (script : List ReadResult), ∀ r ∈ (ReadResult.consumed script).dropLast,
      r.is_full = true := by
  intro script
  induction script with
  | nil => intro r hr; simp [ReadResult.consumed] at hr
  | cons x xs ih =>
    intro r hr
    by_cases hf : x.is_full = true
    · simp only [ReadResult.consumed, hf, if_true] at hr
      cases hxs : ReadResult.consumed xs with
      | nil => simp [hxs] at hr
      | cons y ys =>
        rw [hxs, List.dropLast_cons₂] at hr
        rcases List.mem_cons.mp hr with h | h
        · rw [h]; exact hf
        · exact ih r (by rw [hxs]; exact h)
    · simp [ReadResult.consumed, hf] at hr

theorem ReadResult.consumed_ne_nil (r : ReadResult) (rs : List ReadResult) :
    ReadResult.consumed (r :: rs) ≠ [] := by
  unfold ReadResult.consumed
  split_ifs <;> simp

/-- The end of a read-drain is decided by the last result consumed: the script is
exhausted when there is none or it is a full chunk; a short read or `EAGAIN` returns;
a read of 0 bytes or another error closes. -/
theorem ReadResult.drain_end_last :
    ∀ script : List ReadResult,
      ReadResult.drain_end script =
        match (ReadResult.consumed script).getLast? with
        | none => DrainEnd.exhausted
        | some r =>
          if r.is_full then DrainEnd.exhausted
          else
            match r with
            | .ok bytes => if bytes.length = 0 then DrainEnd.close else DrainEnd.returned
            | .eagain => DrainEnd.returned
            | .error => DrainEnd.close := by
  intro script
  induction script with
  | nil => rfl
  | cons x xs ih =>
    by_cases hf : x.is_full = true
    · cases xs with
      | nil => simp [ReadResult.drain_end, ReadResult.consumed, hf]
      | cons y ys =>
        have hne := ReadResult.consumed_ne_nil y ys
        have key : ∀ c : List ReadResult, c ≠ [] → (x :: c).getLast? = c.getLast? := by
          intro c hc
          cases c with
          | nil => exact absurd rfl hc
          | cons a l => exact List.getLast?_cons_cons
        have h1 : ReadResult.drain_end (x :: y :: ys) = ReadResult.drain_end (y :: ys) := by
          simp [ReadResult.drain_end, hf]
        have h2 : ReadResult.consumed (x :: y :: ys) = x :: ReadResult.consumed (y :: ys) := by
          simp [ReadResult.consumed, hf]
        rw [h1, h2, key _ hne]
        exact ih
    · simp only [Bool.not_eq_true] at hf
      cases x <;> simp [ReadResult.drain_end, ReadResult.consumed, hf]

/-- The input buffer and the read cursor are not changed by `handle_close`. -/
theorem TcpConnection.handle_close_input (s : Sys) :
    (TcpConnection.handle_close s).2.conn.input_buffer_ = s.conn.input_buffer_ ∧
    (TcpConnection.handle_close s).2.conn.read_index_ = s.conn.read_index_ := by
  obtain ⟨k1, k2, _⟩ := TcpConnection.handle_close_frame s
  cases hc : s.conn.closed_ with
  | true =>
    rw [k1 hc]
    exact ⟨rfl, rfl⟩
  | false =>
    obtain ⟨⟨pw, h1⟩, _⟩ := k2 hc
    rw [h1]
    exact ⟨rfl, rfl⟩

/-- C32: for every sequence of read results (each delivering at most `kReadBufSize`
bytes), `drain_socket` issues the reads up to and including the first whose result is not
a full chunk of 16384 bytes, so the loop continues only after a full read; afterwards the
input buffer is its previous contents followed by exactly the bytes those reads
returned, in order, with no padding left from the speculative resize. When the last read
is short or reports `EAGAIN` the function returns with no other change to the
connection and no reactor call (it does not close); when the last read returns 0 bytes
or fails with another error it continues as `handle_close`, which leaves the connection
closed. -/
theorem TcpConnection.drain_socket_spec (s : Sys)
    (hconf : ∀ r ∈ ReadResult.consumed s.reads, Syscall.conforms (Syscall.read r) = true) :
    (TcpConnection.drain_socket s).2.conn.input_buffer_ =
      s.conn.input_buffer_ ++ (ReadResult.consumed s.reads).flatMap ReadResult.payload ∧
    (TcpConnection.drain_socket s).2.syscalls =
      s.syscalls ++ (ReadResult.consumed s.reads).map Syscall.read ∧
    (TcpConnection.drain_socket s).2.reads =
      s.reads.drop (ReadResult.consumed s.reads).length ∧
    (∀ r ∈ (ReadResult.consumed s.reads).dropLast, r.is_full = true) ∧
    (∀ last, (ReadResult.consumed s.reads).getLast? = some last →
      ((∃ bytes, last = ReadResult.ok bytes ∧ 0 < bytes.length ∧
          bytes.length < kReadBufSize) ∨ last = ReadResult.eagain →
        (TcpConnection.drain_socket s).1 = .ok () ∧
        (TcpConnection.drain_socket s).2.conn =
          { s.conn with
            input_buffer_ := s.conn.input_buffer_ ++
              (ReadResult.consumed s.reads).flatMap ReadResult.payload } ∧
        (TcpConnection.drain_socket s).2.reactor_calls = s.reactor_calls) ∧
      (last = ReadResult.ok [] ∨ last = ReadResult.error →
        TcpConnection.drain_socket s =
          TcpConnection.handle_close
            { s with
              conn := { s.conn with
                input_buffer_ := s.conn.input_buffer_ ++
                  (ReadResult.consumed s.reads).flatMap ReadResult.payload }
              reads := s.reads.drop (ReadResult.consumed s.reads).length
              syscalls := s.syscalls ++ (ReadResult.consumed s.reads).map Syscall.read } ∧
        (TcpConnection.drain_socket s).2.conn.closed_ = true)) := by
  have hloop := TcpConnection.drain_loop_refines s.reads s.conn.input_buffer_ s.syscalls hconf
  have hend := ReadResult.drain_end_last s.reads
  have hstate : (TcpConnection.drain_socket s).2.conn.input_buffer_ =
        s.conn.input_buffer_ ++ (ReadResult.consumed s.reads).flatMap ReadResult.payload ∧
      (TcpConnection.drain_socket s).2.syscalls =
        s.syscalls ++ (ReadResult.consumed s.reads).map Syscall.read ∧
      (TcpConnection.drain_socket s).2.reads =
        s.reads.drop (ReadResult.consumed s.reads).length := by
    cases he : ReadResult.drain_end s.reads with
    | returned =>
      rw [he] at hloop
      simp only [TcpConnection.drain_socket, hloop]
      exact ⟨trivial, trivial, trivial⟩
    | exhausted =>
      rw [he] at hloop
      simp only [TcpConnection.drain_socket, hloop]
      exact ⟨trivial, trivial, trivial⟩
    | close =>
      rw [he] at hloop
      have h1 : TcpConnection.drain_socket s =
          TcpConnection.handle_close
            { s with
              conn := { s.conn with
                input_buffer_ := s.conn.input_buffer_ ++
                  (ReadResult.consumed s.reads).flatMap ReadResult.payload }
              reads := s.reads.drop (ReadResult.consumed s.reads).length
              syscalls := s.syscalls ++ (ReadResult.consumed s.reads).map Syscall.read } := by
        simp only [TcpConnection.drain_socket, hloop]
      obtain ⟨_, _, k3, _, k5, _⟩ := TcpConnection.handle_close_frame
        { s with
          conn := { s.conn with
            input_buffer_ := s.conn.input_buffer_ ++
              (ReadResult.consumed s.reads).flatMap ReadResult.payload }
          reads := s.reads.drop (ReadResult.consumed s.reads).length
          syscalls := s.syscalls ++ (ReadResult.consumed s.reads).map Syscall.read }
      rw [h1]
      exact ⟨(TcpConnection.handle_close_input _).1, k3, k5⟩
  refine ⟨hstate.1, hstate.2.1, hstate.2.2, ReadResult.consumed_full s.reads, ?_⟩
  intro last hlast
  rw [hlast] at hend
  simp only at hend
  constructor
  · intro h
    have he : ReadResult.drain_end s.reads = DrainEnd.returned := by
      rcases h with ⟨bytes, hb, h0, h1⟩ | h
      · subst hb
        have hnf : (ReadResult.ok bytes).is_full = false := by
          simp only [ReadResult.is_full, decide_eq_false_iff_not]
          omega
        have h00 : ¬ (bytes.length = 0) := by omega
        rw [hend]
        simp [hnf, h00]
      · subst h
        rw [hend]
        simp [ReadResult.is_full]
    rw [he] at hloop
    simp only [TcpConnection.drain_socket, hloop]
    exact ⟨trivial, trivial, trivial⟩
  · intro h
    have he : ReadResult.drain_end s.reads = DrainEnd.close := by
      rcases h with h | h <;> subst h <;> rw [hend] <;> simp [ReadResult.is_full, kReadBufSize]
    rw [he] at hloop
    have h1 : TcpConnection.drain_socket s =
        TcpConnection.handle_close
          { s with
            conn := { s.conn with
              input_buffer_ := s.conn.input_buffer_ ++
                (ReadResult.consumed s.reads).flatMap ReadResult.payload }
            reads := s.reads.drop (ReadResult.consumed s.reads).length
            syscalls := s.syscalls ++ (ReadResult.consumed s.reads).map Syscall.read } := by
      simp only [TcpConnection.drain_socket, hloop]
    refine ⟨h1, ?_⟩
    rw [h1]
    exact (TcpConnection.handle_close_keeps _).1

/-- Witness for C32: the drain of the example connection, to which the kernel delivers
three bytes in a short read. -/
theorem TcpConnection.drain_socket_spec_witness :
    (TcpConnection.drain_socket Sys.example_open).2.conn.input_buffer_ = [1, 2, 3] ∧
    (TcpConnection.drain_socket Sys.example_open).2.reads = [ReadResult.eagain] ∧
    (TcpConnection.drain_socket Sys.example_open).2.conn.closed_ = false :=
  ⟨(TcpConnection.drain_socket_spec Sys.example_open (by decide)).1,
    (TcpConnection.drain_socket_spec Sys.example_open (by decide)).2.2.1,
    congrArg TcpConnection.closed_
      (((TcpConnection.drain_socket_spec Sys.example_open (by decide)).2.2.2.2
        (ReadResult.ok [1, 2, 3]) rfl).1
          (Or.inl ⟨[1, 2, 3], rfl, by decide, by decide⟩)).2.1⟩

/-! ## Theorems: bytes buffered at end of stream -/

/-- A readable event whose drain receives full chunks and then a read of 0 bytes, on an
open connection with a read pending and no write pending: `handle_close` resolves the
pending read with `Packet()`, and the bytes received stay in the input buffer of the
closed connection. -/
theorem TcpConnection.handle_readable_eof (s : Sys) (p : Nat) (chunks : List (List Byte))
    (rest : List ReadResult) (hc : s.conn.closed_ = false)
    (hpend : s.conn.pending_read_ = some p) (hpw : s.conn.pending_write_ = none)
    (hfull : ∀ c ∈ chunks, c.length = kReadBufSize)
    (hreads : s.reads = chunks.map ReadResult.ok ++ ReadResult.ok [] :: rest)
    (hok : (Promise.set_value s.world p (Val.packet Packet.new)).1 = .ok ()) :
    TcpConnection.handle_readable s =
      (.ok (),
        { s with
          world := (Promise.set_value s.world p (Val.packet Packet.new)).2
          conn := { s.conn with
            input_buffer_ := s.conn.input_buffer_ ++ chunks.flatten
            pending_read_ := none
            closed_ := true }
          reactor_calls := s.reactor_calls ++ [ReactorCall.remove s.conn.fd]
          reads := rest
          syscalls := s.syscalls ++ chunks.map (fun c => Syscall.read (ReadResult.ok c)) ++
            [Syscall.read (ReadResult.ok [])] }) := by
  obtain ⟨w, h, ⟨fd, ib, ri, pr0, ob, wi0, pw, tw, cl, ev⟩, rc, sc, rd, wr⟩ := s
  simp only at hc hpend hpw hreads hok
  subst hc hpend hpw hreads
  have hd : TcpConnection.drain_loop
      (chunks.map ReadResult.ok ++ ReadResult.ok [] :: rest) ib sc =
      (.close, ib ++ chunks.flatten, rest,
        sc ++ chunks.map (fun c => Syscall.read (ReadResult.ok c)) ++
          [Syscall.read (ReadResult.ok [])]) := by
    rw [TcpConnection.drain_loop_full chunks _ ib sc hfull]
    simp only [TcpConnection.drain_loop, List.length_nil, gt_iff_lt, Nat.lt_irrefl, if_false]
    rw [vector_resize_back]
  cases hres : Promise.set_value w p (Val.packet Packet.new) with
  | mk res w1 =>
    rw [hres] at hok
    simp only at hok
    subst hok
    simp [TcpConnection.handle_readable, TcpConnection.drain_socket, hd,
      TcpConnection.handle_close, Sys.fulfil, hres]

/-- C33 (the code at the failing input): a read is pending on an open connection; the
peer sends exactly 16384 bytes and closes, so that one readable event drains a full chunk
and then reads 0 bytes. The pending read is resolved with the empty packet `Packet()`
although the 16384 bytes received are in the input buffer, unread; and a later `read()`
on the closed connection again yields the empty packet and leaves them there. -/
theorem TcpConnection.close_drops_buffered_bytes :
    (TcpConnection.handle_events Sys.example_eof EPOLLIN).2.world.states[0]? =
      some { value := Val.packet Packet.new, ready := true, callback := none } ∧
    Packet.new.size = 0 ∧
    (TcpConnection.handle_events Sys.example_eof EPOLLIN).2.conn.input_buffer_ =
      List.replicate kReadBufSize 65 ∧
    (TcpConnection.handle_events Sys.example_eof EPOLLIN).2.conn.read_index_ = 0 ∧
    (TcpConnection.handle_events Sys.example_eof EPOLLIN).2.conn.closed_ = true ∧
    (TcpConnection.read (TcpConnection.handle_events Sys.example_eof EPOLLIN).2).2.world.states[
        1]? = some { value := Val.packet Packet.new, ready := true, callback := none } ∧
    (TcpConnection.read
      (TcpConnection.handle_events Sys.example_eof EPOLLIN).2).2.conn.input_buffer_ =
      List.replicate kReadBufSize 65 := by
  have hE : EPOLLIN &&& (EPOLLERR ||| EPOLLHUP) = 0 := by decide
  have hI : EPOLLIN &&& EPOLLIN ≠ 0 := by decide
  have hO : EPOLLIN &&& EPOLLOUT = 0 := by decide
  have h1 := TcpConnection.handle_readable_eof Sys.example_eof 0
    [List.replicate kReadBufSize 65] [] rfl rfl rfl
    (by intro c hc; rw [List.mem_singleton.mp hc]; exact List.length_replicate _ _) rfl rfl
  rw [TcpConnection.handle_events_readable _ _ hE hI hO, h1]
  have h2 : ∀ s2 : Sys, s2.conn.closed_ = true →
      TcpConnection.read s2 =
        Sys.resolve_and_return
          { s2 with world := (Promise.new_of s2.world (Val.packet Packet.new)).2 }
          (Promise.new_of s2.world (Val.packet Packet.new)).1 (Val.packet Packet.new) := by
    intro s2 h
    simp [TcpConnection.read, h]
  rw [h2 _ rfl, Sys.resolve_fresh]
  refine ⟨rfl, rfl, ?_, rfl, rfl, rfl, ?_⟩
  · show [] ++ [List.replicate kReadBufSize 65].flatten = List.replicate kReadBufSize 65
    simp
  · show [] ++ [List.replicate kReadBufSize 65].flatten = List.replicate kReadBufSize 65
    simp

/-! ## Theorems: events after close -/

/-- C35 (the code at the failing input): one `handle_events` call carrying the readable
and the writable bit, on a connection with two bytes pending in the output buffer, whose
read-drain reads 0 bytes. The read-drain closes the connection (`remove`), and the same
call then still runs the write-drain: it writes the two bytes to the descriptor and
issues a `modify_events` for the descriptor that was just removed. -/
theorem TcpConnection.write_drain_after_close :
    Sys.example_half_closed.conn.closed_ = false ∧
    Sys.example_half_closed.conn.output_buffer_ = [20, 30] ∧
    (TcpConnection.handle_events Sys.example_half_closed
      (EPOLLIN ||| EPOLLOUT)).2.conn.closed_ = true ∧
    (TcpConnection.handle_events Sys.example_half_closed (EPOLLIN ||| EPOLLOUT)).2.syscalls =
      Sys.example_half_closed.syscalls ++
        [Syscall.read (ReadResult.ok []), Syscall.write [20, 30] (WriteResult.ok 2)] ∧
    (TcpConnection.handle_events Sys.example_half_closed
      (EPOLLIN ||| EPOLLOUT)).2.reactor_calls =
      Sys.example_half_closed.reactor_calls ++
        [ReactorCall.remove 7, ReactorCall.modify_events 7 EPOLLIN] := by
  have hE : (EPOLLIN ||| EPOLLOUT) &&& (EPOLLERR ||| EPOLLHUP) = 0 := by decide
  have hI : (EPOLLIN ||| EPOLLOUT) &&& EPOLLIN ≠ 0 := by decide
  have hO : (EPOLLIN ||| EPOLLOUT) &&& EPOLLOUT ≠ 0 := by decide
  have hd : ∀ log : List Syscall,
      TcpConnection.drain_loop [ReadResult.ok []] [] log =
        (.close, [], [], log ++ [Syscall.read (ReadResult.ok [])]) := by
    intro log
    have hv := vector_resize_back [] kReadBufSize
    simp only [List.length_nil] at hv
    simp only [TcpConnection.drain_loop, List.length_nil, gt_iff_lt, Nat.lt_irrefl, if_false,
      hv]
  have hr : TcpConnection.handle_readable Sys.example_half_closed =
      (.ok (), (TcpConnection.handle_close
        { Sys.example_half_closed with
          reads := []
          syscalls := Sys.example_half_closed.syscalls ++
            [Syscall.read (ReadResult.ok [])] }).2) := by
    have h1 : TcpConnection.drain_socket Sys.example_half_closed =
        TcpConnection.handle_close
          { Sys.example_half_closed with
            reads := []
            syscalls := Sys.example_half_closed.syscalls ++
              [Syscall.read (ReadResult.ok [])] } := by
      have h0 := hd Sys.example_half_closed.syscalls
      unfold TcpConnection.drain_socket
      have e1 : Sys.example_half_closed.reads = [ReadResult.ok []] := rfl
      have e2 : Sys.example_half_closed.conn.input_buffer_ = [] := rfl
      rw [e1, e2, h0]
      rfl
    unfold TcpConnection.handle_readable
    rw [h1]
    rfl
  simp only [TcpConnection.handle_events, hE, hI, hO, ne_eq, not_true_eq_false, if_false,
    not_false_eq_true, if_true, hr, TcpConnection.handle_writable]
  exact ⟨rfl, rfl, rfl, rfl, rfl⟩

/-! ## Theorems: termination of the write loops -/

theorem TcpConnection.flush_loop_log (out : List Byte) :
    ∀ (script : List WriteResult) (wi : Nat) (log : List Syscall) (e : Syscall),
      e ∈ log → e ∈ (TcpConnection.flush_loop out script wi log).2.2.2 := by
  intro script
  induction script with
  | nil =>
    intro wi log e he
    unfold TcpConnection.flush_loop
    split_ifs <;> exact he
  | cons r rs ih =>
    intro wi log e he
    have he1 : e ∈ log ++ [Syscall.write
        ((out.drop wi).take ((out.length + SIZE_MOD - wi) % SIZE_MOD)) r] :=
      List.mem_append_left _ he
    unfold TcpConnection.flush_loop
    split_ifs with h1
    · cases r with
      | ok n =>
        simp only
        split_ifs
        · exact ih _ _ e he1
        · exact ih _ _ e he1
      | eagain => exact he1
      | error => exact he1
    · exact he

/-- The loop of `write` stops by itself within `rem` syscalls when no write returns 0
and none accepts more than it is offered. -/
theorem TcpConnection.write_loop_stops (data : List Byte) :
    ∀ (script : List WriteResult) (off rem : Nat) (log : List Syscall),
      off + rem = data.length → rem < SIZE_MOD → rem ≤ script.length →
      (∀ r ∈ script, r ≠ WriteResult.ok 0) →
      (∀ e ∈ (TcpConnection.write_loop data script off rem log).2.2,
        Syscall.conforms e = true) →
      (TcpConnection.write_loop data script off rem log).1 ≠ WriteLoopEnd.exhausted ∧
      (TcpConnection.write_loop data script off rem log).2.2.length ≤ log.length + rem := by
  intro script
  induction script with
  | nil =>
    intro off rem log _ _ hk _ _
    have h0 : rem = 0 := by simpa using hk
    subst h0
    simp [TcpConnection.write_loop]
  | cons r rs ih =>
    intro off rem log hlen hlt hk hnz hconf
    by_cases hrem : rem > 0
    · cases r with
      | ok n =>
        have hn : n > 0 := by
          rcases Nat.eq_zero_or_pos n with h | h
          · subst h
            exact absurd rfl (hnz _ (List.mem_cons_self _ _))
          · exact h
        have heq : TcpConnection.write_loop data (WriteResult.ok n :: rs) off rem log =
            TcpConnection.write_loop data rs (off + n) ((rem + SIZE_MOD - n) % SIZE_MOD)
              (log ++ [Syscall.write ((data.drop off).take rem) (WriteResult.ok n)]) := by
          simp only [TcpConnection.write_loop, hrem, if_true, hn]
        rw [heq] at hconf ⊢
        have hentry := hconf _ (TcpConnection.write_loop_log data rs _ _ _ _
          (List.mem_append_right log (List.mem_singleton.mpr rfl)))
        simp only [Syscall.conforms, decide_eq_true_eq, List.length_take,
          List.length_drop] at hentry
        have hle : n ≤ rem := by omega
        rw [size_sub_mod rem n hle hlt] at hconf ⊢
        simp only [List.length_cons] at hk
        obtain ⟨k1, k2⟩ := ih (off + n) (rem - n) _ (by omega) (by omega) (by omega)
          (fun r hr => hnz r (List.mem_cons_of_mem _ hr)) hconf
        refine ⟨k1, ?_⟩
        simp only [List.length_append, List.length_singleton] at k2
        omega
      | eagain =>
        simp only [TcpConnection.write_loop, hrem, if_true, List.length_append,
          List.length_singleton]
        exact ⟨by simp, by omega⟩
      | error =>
        simp only [TcpConnection.write_loop, hrem, if_true, List.length_append,
          List.length_singleton]
        exact ⟨by simp, by omega⟩
    · simp only [TcpConnection.write_loop, hrem, if_false]
      exact ⟨by simp, by omega⟩

/-- The loop of `flush_output` stops by itself within as many syscalls as bytes are left
in the output buffer when no write returns 0 and none accepts more than it is offered. -/
theorem TcpConnection.flush_loop_stops (out : List Byte) (hout : out.length < SIZE_MOD) :
    ∀ (script : List WriteResult) (wi : Nat) (log : List Syscall),
      out.length - wi ≤ script.length →
      (∀ r ∈ script, r ≠ WriteResult.ok 0) →
      (∀ e ∈ (TcpConnection.flush_loop out script wi log).2.2.2,
        Syscall.conforms e = true) →
      (TcpConnection.flush_loop out script wi log).1 ≠ FlushEnd.exhausted ∧
      (TcpConnection.flush_loop out script wi log).2.2.2.length ≤
        log.length + (out.length - wi) := by
  intro script
  induction script with
  | nil =>
    intro wi log hk _ _
    have h0 : ¬ wi < out.length := by
      simp only [List.length_nil, Nat.le_zero_eq] at hk
      omega
    simp [TcpConnection.flush_loop, h0]
  | cons r rs ih =>
    intro wi log hk hnz hconf
    by_cases hwi : wi < out.length
    · have hrem : (out.length + SIZE_MOD - wi) % SIZE_MOD = out.length - wi :=
        size_sub_mod out.length wi (by omega) hout
      cases r with
      | ok n =>
        have hn : n > 0 := by
          rcases Nat.eq_zero_or_pos n with h | h
          · subst h
            exact absurd rfl (hnz _ (List.mem_cons_self _ _))
          · exact h
        have heq : TcpConnection.flush_loop out (WriteResult.ok n :: rs) wi log =
            TcpConnection.flush_loop out rs ((wi + n) % SIZE_MOD)
              (log ++ [Syscall.write ((out.drop wi).take (out.length - wi))
                (WriteResult.ok n)]) := by
          simp only [TcpConnection.flush_loop, hwi, if_true, hn, hrem]
        rw [heq] at hconf ⊢
        have hentry := hconf _ (TcpConnection.flush_loop_log out rs _ _ _
          (List.mem_append_right log (List.mem_singleton.mpr rfl)))
        simp only [Syscall.conforms, decide_eq_true_eq, List.length_take,
          List.length_drop] at hentry
        have hle : n ≤ out.length - wi := by omega
        rw [Nat.mod_eq_of_lt (by omega)] at hconf ⊢
        simp only [List.length_cons] at hk
        obtain ⟨k1, k2⟩ := ih (wi + n) _ (by omega)
          (fun r hr => hnz r (List.mem_cons_of_mem _ hr)) hconf
        refine ⟨k1, ?_⟩
        simp only [List.length_append, List.length_singleton] at k2
        omega
      | eagain =>
        simp only [TcpConnection.flush_loop, hwi, if_true, List.length_append,
          List.length_singleton]
        exact ⟨by simp, by omega⟩
      | error =>
        simp only [TcpConnection.flush_loop, hwi, if_true, List.length_append,
          List.length_singleton]
        exact ⟨by simp, by omega⟩
    · simp only [TcpConnection.flush_loop, hwi, if_false]
      exact ⟨by simp, by omega⟩

theorem TcpConnection.write_loop_zeros (data : List Byte) :
    ∀ (k off rem : Nat) (log : List Syscall), rem > 0 →
      TcpConnection.write_loop data (List.replicate k (WriteResult.ok 0)) off rem log =
        (.exhausted, [],
          log ++ List.replicate k (Syscall.write ((data.drop off).take rem)
            (WriteResult.ok 0))) := by
  intro k
  induction k with
  | zero => intro off rem log h; simp [TcpConnection.write_loop, h]
  | succ k ih =>
    intro off rem log h
    simp only [List.replicate_succ, TcpConnection.write_loop, h, if_true, gt_iff_lt,
      Nat.lt_irrefl, if_false]
    rw [ih off rem _ h]
    simp

theorem TcpConnection.flush_loop_zeros (out : List Byte) :
    ∀ (k wi : Nat) (log : List Syscall), wi < out.length →
      TcpConnection.flush_loop out (List.replicate k (WriteResult.ok 0)) wi log =
        (.exhausted, wi, [],
          log ++ List.replicate k (Syscall.write
            ((out.drop wi).take ((out.length + SIZE_MOD - wi) % SIZE_MOD))
            (WriteResult.ok 0))) := by
  intro k
  induction k with
  | zero => intro wi log h; simp [TcpConnection.flush_loop, h]
  | succ k ih =>
    intro wi log h
    simp only [List.replicate_succ, TcpConnection.flush_loop, h, if_true, gt_iff_lt,
      Nat.lt_irrefl, if_false]
    rw [ih wi _ h]
    simp

/-- C36 (amended): the write loops terminate when no write returns 0. For every sequence
of write results in which each result is -1 (would-block or another error) or a positive
count not larger than the bytes offered, the fast-path loop of `write()` with `rem` bytes
remaining stops by itself after at most `rem` syscalls, and the loop of `flush_output`
stops by itself after at most as many syscalls as bytes are left in the output buffer.
The sequence may be finite, as long as it holds that many results, or infinite, in which
case the loop reads no more than its first results. -/
theorem TcpConnection.write_loops_terminate (data out : List Byte) (off rem wi : Nat)
    (log : List Syscall) (hlen : off + rem = data.length) (hlt : rem < SIZE_MOD)
    (hout : out.length < SIZE_MOD) :
    (∀ script : List WriteResult, rem ≤ script.length →
      (∀ r ∈ script, r ≠ WriteResult.ok 0) →
      (∀ e ∈ (TcpConnection.write_loop data script off rem log).2.2,
        Syscall.conforms e = true) →
      (TcpConnection.write_loop data script off rem log).1 ≠ WriteLoopEnd.exhausted ∧
      (TcpConnection.write_loop data script off rem log).2.2.length ≤ log.length + rem) ∧
    (∀ script : List WriteResult, out.length - wi ≤ script.length →
      (∀ r ∈ script, r ≠ WriteResult.ok 0) →
      (∀ e ∈ (TcpConnection.flush_loop out script wi log).2.2.2,
        Syscall.conforms e = true) →
      (TcpConnection.flush_loop out script wi log).1 ≠ FlushEnd.exhausted ∧
      (TcpConnection.flush_loop out script wi log).2.2.2.length ≤
        log.length + (out.length - wi)) ∧
    (∀ results : Nat → WriteResult, (∀ i, results i ≠ WriteResult.ok 0) →
      ((∀ e ∈ (TcpConnection.write_loop data ((List.range rem).map results) off rem log).2.2,
          Syscall.conforms e = true) →
        (TcpConnection.write_loop data ((List.range rem).map results) off rem log).1 ≠
          WriteLoopEnd.exhausted) ∧
      ((∀ e ∈ (TcpConnection.flush_loop out ((List.range (out.length - wi)).map results) wi
            log).2.2.2, Syscall.conforms e = true) →
        (TcpConnection.flush_loop out ((List.range (out.length - wi)).map results) wi
          log).1 ≠ FlushEnd.exhausted)) := by
  refine ⟨fun script hk hnz hconf =>
      TcpConnection.write_loop_stops data script off rem log hlen hlt hk hnz hconf,
    fun script hk hnz hconf =>
      TcpConnection.flush_loop_stops out hout script wi log hk hnz hconf, ?_⟩
  intro results hnz
  have hmem : ∀ k : Nat, ∀ r ∈ (List.range k).map results, r ≠ WriteResult.ok 0 := by
    intro k r hr
    obtain ⟨i, _, hi⟩ := List.mem_map.mp hr
    rw [← hi]
    exact hnz i
  constructor
  · intro hconf
    exact (TcpConnection.write_loop_stops data _ off rem log hlen hlt (by simp) (hmem rem)
      hconf).1
  · intro hconf
    exact (TcpConnection.flush_loop_stops out hout _ wi log (by simp) (hmem _) hconf).1

/-- Counterexample for C36: when every write returns 0, the fast-path loop of `write()`
with one byte remaining has not stopped after 1000 syscalls, and neither has the loop of
`flush_output` with one byte in the output buffer; the same holds for every other number
of syscalls, by `write_loop_zeros` and `flush_loop_zeros`. -/
theorem TcpConnection.write_loops_zero_counterexample :
    (TcpConnection.write_loop [10] (List.replicate 1000 (WriteResult.ok 0)) 0 1 []).1 =
      WriteLoopEnd.exhausted ∧
    (TcpConnection.write_loop [10] (List.replicate 1000 (WriteResult.ok 0)) 0 1 []).2.2.length
      = 1000 ∧
    (TcpConnection.flush_loop [10] (List.replicate 1000 (WriteResult.ok 0)) 0 []).1 =
      FlushEnd.exhausted ∧
    (TcpConnection.flush_loop [10] (List.replicate 1000 (WriteResult.ok 0)) 0 []).2.2.2.length
      = 1000 := by
  rw [TcpConnection.write_loop_zeros [10] 1000 0 1 [] (by decide),
    TcpConnection.flush_loop_zeros [10] 1000 0 [] (by decide)]
  refine ⟨rfl, ?_, rfl, ?_⟩ <;> simp only [List.nil_append, List.length_replicate]

/-- Witness for C36 (amended): three bytes written in two syscalls by the loop of
`write()`, and two bytes left in the output buffer written in one syscall. -/
theorem TcpConnection.write_loops_terminate_witness :
    (TcpConnection.write_loop [10, 20, 30]
      [WriteResult.ok 1, WriteResult.ok 2, WriteResult.error] 0 3 []).1 ≠
      WriteLoopEnd.exhausted ∧
    (TcpConnection.flush_loop [10, 20, 30]
      [WriteResult.ok 2, WriteResult.error] 1 []).1 ≠ FlushEnd.exhausted :=
  ⟨((TcpConnection.write_loops_terminate [10, 20, 30] [10, 20, 30] 0 3 1 [] rfl (by decide)
      (by decide)).1 [WriteResult.ok 1, WriteResult.ok 2, WriteResult.error] (by decide)
      (by decide) (by decide)).1,
    ((TcpConnection.write_loops_terminate [10, 20, 30] [10, 20, 30] 0 3 1 [] rfl (by decide)
      (by decide)).2.1 [WriteResult.ok 2, WriteResult.error] (by decide)
      (by decide) (by decide)).1⟩

/-! ## Theorems: a second read while one is pending -/

/-- The state after `read()` on an open connection without unread bytes: a fresh promise
with a fresh cell is stored in the pending read slot, whatever the slot held. -/
theorem TcpConnection.read_pending_eq (s : Sys) (hc : s.conn.closed_ = false)
    (hri : s.conn.read_index_ = s.conn.input_buffer_.length) :
    TcpConnection.read s =
      (.ok { state := some s.world.states.length },
        { s with
          world :=
            { states := s.world.states ++
                [{ value := Val.packet Packet.new, ready := false, callback := none }]
              promises := s.world.promises ++
                [{ state := some s.world.states.length, future_retrieved_ := true }]
              instance_ := s.world.instance_
              trace := s.world.trace }
          conn := { s.conn with pending_read_ := some s.world.promises.length } }) := by
  have hrb : s.conn.readable_bytes = 0 := by
    unfold TcpConnection.readable_bytes
    rw [hri]
    have : s.conn.input_buffer_.length + SIZE_MOD - s.conn.input_buffer_.length = SIZE_MOD := by
      omega
    rw [this, Nat.mod_self]
  simp [TcpConnection.read, hc, hrb, Promise.new_of, Promise.get_future, list_set_append_new]

/-- The thread state after the first `handle_close` when a read but no write is pending:
only the pending read has been resolved. -/
theorem TcpConnection.handle_close_world (s : Sys) (p : Nat) (hc : s.conn.closed_ = false)
    (hpend : s.conn.pending_read_ = some p) (hpw : s.conn.pending_write_ = none) :
    (TcpConnection.handle_close s).2.world =
      (Promise.set_value s.world p (Val.packet Packet.new)).2 := by
  obtain ⟨w, h, ⟨fd, ib, ri, pr0, ob, wi0, pw, tw, cl, ev⟩, rc, sc, rd, wr⟩ := s
  simp only at hc hpend hpw
  subst hc hpend hpw
  simp only [TcpConnection.handle_close, Sys.fulfil]
  cases hres : Promise.set_value w p (Val.packet Packet.new) with
  | mk res w1 => cases res <;> simp

/-- A readable event whose drain returns with bytes appended, while a read is pending
and the input buffer held no unread bytes: the pending read is resolved with a packet of
the bytes appended. -/
theorem TcpConnection.handle_readable_delivers (s : Sys) (p : Nat) (appended : List Byte)
    (rest : List ReadResult) (log : List Syscall)
    (hd : TcpConnection.drain_loop s.reads s.conn.input_buffer_ s.syscalls =
      (.returned, s.conn.input_buffer_ ++ appended, rest, log))
    (hpend : s.conn.pending_read_ = some p)
    (hri : s.conn.read_index_ = s.conn.input_buffer_.length) (hne : appended ≠ [])
    (hlen : (s.conn.input_buffer_ ++ appended).length < SIZE_MOD) :
    TcpConnection.handle_readable s =
      Sys.fulfil
        { s with
          heap := (Packet.from_string s.heap appended).2
          conn := { s.conn with input_buffer_ := [], read_index_ := 0, pending_read_ := none }
          reads := rest
          syscalls := log } p (Val.packet (Packet.from_string s.heap appended).1) := by
  have hpos : 0 < appended.length := List.length_pos.mpr hne
  have hpeek : ({ s.conn with input_buffer_ := s.conn.input_buffer_ ++ appended } :
      TcpConnection).peek = appended := by
    simp [TcpConnection.peek, hri]
  have hrb := TcpConnection.readable_bytes_eq
    { s.conn with input_buffer_ := s.conn.input_buffer_ ++ appended }
    (by simp [hri]) hlen
  rw [hpeek] at hrb
  simp only [TcpConnection.readable_bytes, TcpConnection.peek] at hrb hpeek
  simp only [TcpConnection.handle_readable, TcpConnection.drain_socket, hd, hpend,
    TcpConnection.readable_bytes, TcpConnection.peek, hrb, hpos, hpeek, gt_iff_lt, if_true,
    Packet.from_string, TcpConnection.retrieve_all]

/-- C39 (amended): `read()` on an open connection with no unread bytes stores its fresh
promise in the pending read slot, replacing whatever the slot held. The future it returns
is resolved by close (with the empty packet) and by the next read-drain that returns with
bytes (with a packet of exactly those bytes). A promise that was pending in the slot
before the call is no longer referenced by the connection: its unresolved cell is left
unresolved both by such a read-drain and by close. -/
theorem TcpConnection.read_replaces_pending (s : Sys) (hc : s.conn.closed_ = false)
    (hri : s.conn.read_index_ = s.conn.input_buffer_.length) :
    (TcpConnection.read s).1 = .ok { state := some s.world.states.length } ∧
    (TcpConnection.read s).2.conn.pending_read_ = some s.world.promises.length ∧
    (TcpConnection.handle_close (TcpConnection.read s).2).2.world.states[
        s.world.states.length]? =
      some { value := Val.packet Packet.new, ready := true, callback := none } ∧
    (∀ (appended : List Byte) (rest : List ReadResult) (log : List Syscall),
      TcpConnection.drain_loop s.reads s.conn.input_buffer_ s.syscalls =
        (.returned, s.conn.input_buffer_ ++ appended, rest, log) →
      appended ≠ [] → (s.conn.input_buffer_ ++ appended).length < SIZE_MOD →
      ∃ pkt : Packet,
        (TcpConnection.handle_events (TcpConnection.read s).2 EPOLLIN).2.world.states[
            s.world.states.length]? =
          some { value := Val.packet pkt, ready := true, callback := none } ∧
        pkt.to_string (TcpConnection.handle_events (TcpConnection.read s).2 EPOLLIN).2.heap =
          appended) ∧
    (∀ (q : Nat) (qr : Promise) (d : Nat) (sd : State Val),
      s.conn.pending_read_ = some q → s.world.promises[q]? = some qr → qr.state = some d →
      s.world.states[d]? = some sd → sd.ready = false → s.conn.pending_write_ = none →
      (TcpConnection.handle_close (TcpConnection.read s).2).2.world.states[d]? = some sd ∧
      ∀ (appended : List Byte) (rest : List ReadResult) (log : List Syscall),
        TcpConnection.drain_loop s.reads s.conn.input_buffer_ s.syscalls =
          (.returned, s.conn.input_buffer_ ++ appended, rest, log) →
        appended ≠ [] → (s.conn.input_buffer_ ++ appended).length < SIZE_MOD →
        (TcpConnection.handle_events (TcpConnection.read s).2 EPOLLIN).2.world.states[d]? =
          some sd) := by
  have hE : EPOLLIN &&& (EPOLLERR ||| EPOLLHUP) = 0 := by decide
  have hI : EPOLLIN &&& EPOLLIN ≠ 0 := by decide
  have hO : EPOLLIN &&& EPOLLOUT = 0 := by decide
  have h1 := TcpConnection.read_pending_eq s hc hri
  have ec : (TcpConnection.read s).2.conn =
      { s.conn with pending_read_ := some s.world.promises.length } := by rw [h1]
  have ew : (TcpConnection.read s).2.world =
      { states := s.world.states ++
          [{ value := Val.packet Packet.new, ready := false, callback := none }]
        promises := s.world.promises ++
          [{ state := some s.world.states.length, future_retrieved_ := true }]
        instance_ := s.world.instance_
        trace := s.world.trace } := by rw [h1]
  have er : (TcpConnection.read s).2.reads = s.reads := by rw [h1]
  have es : (TcpConnection.read s).2.syscalls = s.syscalls := by rw [h1]
  have eh : (TcpConnection.read s).2.heap = s.heap := by rw [h1]
  have hc1 : (TcpConnection.read s).2.conn.closed_ = false := by rw [ec]; exact hc
  have hpend1 : (TcpConnection.read s).2.conn.pending_read_ = some s.world.promises.length := by
    rw [ec]
  have hri1 : (TcpConnection.read s).2.conn.read_index_ =
      (TcpConnection.read s).2.conn.input_buffer_.length := by rw [ec]; exact hri
  have hp : (TcpConnection.read s).2.world.promises[s.world.promises.length]? =
      some { state := some s.world.states.length, future_retrieved_ := true } := by
    rw [ew]
    exact lookup_append_new _ _
  have hst : (TcpConnection.read s).2.world.states[s.world.states.length]? =
      some { value := Val.packet Packet.new, ready := false, callback := none } := by
    rw [ew]
    exact lookup_append_new _ _
  have hdrain : ∀ (appended : List Byte) (rest : List ReadResult) (log : List Syscall),
      TcpConnection.drain_loop s.reads s.conn.input_buffer_ s.syscalls =
        (.returned, s.conn.input_buffer_ ++ appended, rest, log) →
      appended ≠ [] → (s.conn.input_buffer_ ++ appended).length < SIZE_MOD →
      TcpConnection.handle_events (TcpConnection.read s).2 EPOLLIN =
        Sys.fulfil
          { (TcpConnection.read s).2 with
            heap := (Packet.from_string s.heap appended).2
            conn := { (TcpConnection.read s).2.conn with
              input_buffer_ := [], read_index_ := 0, pending_read_ := none }
            reads := rest
            syscalls := log } s.world.promises.length
          (Val.packet (Packet.from_string s.heap appended).1) := by
    intro appended rest log hd hne hlen
    have hd1 : TcpConnection.drain_loop (TcpConnection.read s).2.reads
        (TcpConnection.read s).2.conn.input_buffer_ (TcpConnection.read s).2.syscalls =
        (.returned, (TcpConnection.read s).2.conn.input_buffer_ ++ appended, rest, log) := by
      rw [er, es, ec]
      exact hd
    have hlen1 : ((TcpConnection.read s).2.conn.input_buffer_ ++ appended).length < SIZE_MOD := by
      rw [ec]
      exact hlen
    rw [TcpConnection.handle_events_readable _ _ hE hI hO,
      TcpConnection.handle_readable_delivers (TcpConnection.read s).2 s.world.promises.length
        appended rest log hd1 hpend1 hri1 hne hlen1, eh]
  refine ⟨by rw [h1], hpend1, ?_, ?_, ?_⟩
  · exact TcpConnection.handle_close_read_cell (TcpConnection.read s).2 hc1
      s.world.promises.length _ s.world.states.length _ hpend1 hp rfl hst rfl
  · intro appended rest log hd hne hlen
    refine ⟨(Packet.from_string s.heap appended).1, ?_⟩
    rw [hdrain appended rest log hd hne hlen]
    unfold Sys.fulfil
    exact ⟨(Promise.set_value_resolves _ s.world.promises.length _ s.world.states.length _
      _ hp rfl hst rfl).2, (Packet.from_string_bytes s.heap appended).1⟩
  · intro q qr d sd _ _ _ hsd _ hpw
    have hne : s.world.states.length ≠ d := Nat.ne_of_gt (lookup_lt hsd)
    have hsd2 : (TcpConnection.read s).2.world.states[d]? = some sd := by
      rw [ew]
      exact lookup_append_left hsd _
    have hpw1 : (TcpConnection.read s).2.conn.pending_write_ = none := by
      rw [ec]
      exact hpw
    constructor
    · rw [TcpConnection.handle_close_world _ s.world.promises.length hc1 hpend1 hpw1,
        Promise.set_value_other _ s.world.promises.length _ s.world.states.length d _ _ hp
          rfl hst rfl hne]
      exact hsd2
    · intro appended rest log hd hne2 hlen
      rw [hdrain appended rest log hd hne2 hlen]
      unfold Sys.fulfil
      simp only
      rw [Promise.set_value_other _ s.world.promises.length _ s.world.states.length d _ _ hp
        rfl hst rfl hne]
      exact hsd2

/-- Counterexample for C39: after two `read()` calls on an empty input buffer and a
close, the cell of the second future is ready but the cell of the first is not: the
first request was replaced and is never resolved. -/
theorem TcpConnection.read_pending_lost_counterexample :
    Sys.example_two_reads.conn.pending_read_ = some 1 ∧
    (ConnOp.run Sys.example_two_reads [ConnOp.handle_events EPOLLHUP]).conn.closed_ = true ∧
    (ConnOp.run Sys.example_two_reads [ConnOp.handle_events EPOLLHUP]).world.states[0]? =
      some { value := Val.packet Packet.new, ready := false, callback := none } ∧
    (ConnOp.run Sys.example_two_reads [ConnOp.handle_events EPOLLHUP]).world.states[1]? =
      some { value := Val.packet Packet.new, ready := true, callback := none } :=
  ⟨rfl, rfl, rfl, rfl⟩

/-- Witness for C39 (amended): a second `read()` on the example connection on which one
read is pending; after close the new cell 1 is ready and the earlier cell 0 is not. -/
theorem TcpConnection.read_replaces_pending_witness :
    (TcpConnection.read Sys.example_one_read).2.conn.pending_read_ = some 1 ∧
    (TcpConnection.handle_close (TcpConnection.read Sys.example_one_read).2).2.world.states[
        1]? = some { value := Val.packet Packet.new, ready := true, callback := none } ∧
    (TcpConnection.handle_close (TcpConnection.read Sys.example_one_read).2).2.world.states[
        0]? = some { value := Val.packet Packet.new, ready := false, callback := none } :=
  ⟨(TcpConnection.read_replaces_pending Sys.example_one_read rfl rfl).2.1,
    (TcpConnection.read_replaces_pending Sys.example_one_read rfl rfl).2.2.1,
    ((TcpConnection.read_replaces_pending Sys.example_one_read rfl rfl).2.2.2.2 0
        { state := some 0, future_retrieved_ := true } 0
        { value := Val.packet Packet.new, ready := false, callback := none }
        rfl rfl rfl rfl rfl rfl).1⟩

/-! ## Theorems: the bytes written through a connection -/

theorem TcpConnection.drain_loop_emitted :
    ∀ (script : List ReadResult) (buf : List Byte) (log : List Syscall),
      Syscall.emitted (TcpConnection.drain_loop script buf log).2.2.2 =
        Syscall.emitted log := by
  intro script
  induction script with
  | nil => intro buf log; rfl
  | cons r rs ih =>
    intro buf log
    have h1 : Syscall.emitted (log ++ [Syscall.read r]) = Syscall.emitted log := by
      rw [Syscall.emitted_append]
      simp [Syscall.emitted]
    cases r with
    | ok bytes =>
      simp only [TcpConnection.drain_loop]
      split_ifs
      · exact h1
      · rw [ih]
        exact h1
      · exact h1
    | eagain => exact h1
    | error => exact h1

/-- A read-drain, and a readable event, hand no byte to the descriptor and leave the
output buffer and the write cursor as they are. -/
theorem TcpConnection.handle_readable_emitted (s : Sys) :
    Syscall.emitted (TcpConnection.handle_readable s).2.syscalls =
      Syscall.emitted s.syscalls := by
  have hd : Syscall.emitted (TcpConnection.drain_socket s).2.syscalls =
      Syscall.emitted s.syscalls := by
    have h0 := TcpConnection.drain_loop_emitted s.reads s.conn.input_buffer_ s.syscalls
    cases hloop : TcpConnection.drain_loop s.reads s.conn.input_buffer_ s.syscalls with
    | mk e rl =>
      obtain ⟨buf, rest, log⟩ := rl
      rw [hloop] at h0
      simp only at h0
      cases e with
      | exhausted =>
        simp only [TcpConnection.drain_socket, hloop]
        exact h0
      | returned =>
        simp only [TcpConnection.drain_socket, hloop]
        exact h0
      | close =>
        simp only [TcpConnection.drain_socket, hloop]
        rw [(TcpConnection.handle_close_keeps _).2.2.2.2.2]
        exact h0
  cases hds : TcpConnection.drain_socket s with
  | mk res s1 =>
    rw [hds] at hd
    simp only at hd
    cases res with
    | error e =>
      simp only [TcpConnection.handle_readable, hds]
      exact hd
    | ok u =>
      simp only [TcpConnection.handle_readable, hds]
      split
      · split
        · rw [Sys.fulfil_frame]
          exact hd
        · exact hd
      · exact hd

/-- When the kernel accepts no more than it is offered, the loop of `flush_output` moves
the write cursor forward within the output buffer and hands exactly the bytes it passes
to the descriptor; when the loop ends on its condition the cursor is at the end. -/
theorem TcpConnection.flush_loop_conforms (out : List Byte) (hout : out.length < SIZE_MOD) :
    ∀ (script : List WriteResult) (wi : Nat) (log : List Syscall), wi ≤ out.length →
      (∀ e ∈ (TcpConnection.flush_loop out script wi log).2.2.2,
        Syscall.conforms e = true) →
      wi ≤ (TcpConnection.flush_loop out script wi log).2.1 ∧
      (TcpConnection.flush_loop out script wi log).2.1 ≤ out.length ∧
      Syscall.emitted (TcpConnection.flush_loop out script wi log).2.2.2 ++
          out.drop (TcpConnection.flush_loop out script wi log).2.1 =
        Syscall.emitted log ++ out.drop wi ∧
      ((TcpConnection.flush_loop out script wi log).1 = FlushEnd.completed →
        (TcpConnection.flush_loop out script wi log).2.1 = out.length) := by
  intro script
  induction script with
  | nil =>
    intro wi log hwi _
    unfold TcpConnection.flush_loop
    split_ifs with h
    · exact ⟨Nat.le_refl _, hwi, rfl, fun h => by cases h⟩
    · exact ⟨Nat.le_refl _, hwi, rfl, fun _ => by simp only; omega⟩
  | cons r rs ih =>
    intro wi log hwi hconf
    by_cases hlt : wi < out.length
    · have hrem : (out.length + SIZE_MOD - wi) % SIZE_MOD = out.length - wi :=
        size_sub_mod out.length wi (by omega) hout
      cases r with
      | ok n =>
        by_cases hn : n > 0
        · have heq : TcpConnection.flush_loop out (WriteResult.ok n :: rs) wi log =
              TcpConnection.flush_loop out rs ((wi + n) % SIZE_MOD)
                (log ++ [Syscall.write ((out.drop wi).take (out.length - wi))
                  (WriteResult.ok n)]) := by
            simp only [TcpConnection.flush_loop, hlt, if_true, hn, hrem]
          rw [heq] at hconf ⊢
          have hentry := hconf _ (TcpConnection.flush_loop_log out rs _ _ _
            (List.mem_append_right log (List.mem_singleton.mpr rfl)))
          simp only [Syscall.conforms, decide_eq_true_eq, List.length_take,
            List.length_drop] at hentry
          have hle : n ≤ out.length - wi := by omega
          rw [Nat.mod_eq_of_lt (by omega)] at hconf ⊢
          obtain ⟨k1, k2, k3, k4⟩ := ih (wi + n) _ (by omega) hconf
          refine ⟨by omega, k2, ?_, k4⟩
          rw [k3, Syscall.emitted_append]
          simp only [Syscall.emitted, List.append_nil]
          rw [List.take_take, Nat.min_eq_left hle, List.append_assoc, ← List.drop_drop,
            List.take_append_drop]
        · have hn0 : n = 0 := by omega
          subst hn0
          have heq : TcpConnection.flush_loop out (WriteResult.ok 0 :: rs) wi log =
              TcpConnection.flush_loop out rs wi
                (log ++ [Syscall.write ((out.drop wi).take (out.length - wi))
                  (WriteResult.ok 0)]) := by
            simp only [TcpConnection.flush_loop, hlt, if_true, gt_iff_lt, Nat.lt_irrefl,
              if_false, hrem]
          rw [heq] at hconf ⊢
          obtain ⟨k1, k2, k3, k4⟩ := ih wi _ hwi hconf
          refine ⟨k1, k2, ?_, k4⟩
          rw [k3, Syscall.emitted_append]
          simp [Syscall.emitted]
      | eagain =>
        simp only [TcpConnection.flush_loop, hlt, if_true]
        refine ⟨Nat.le_refl _, hwi, ?_, fun h => by cases h⟩
        rw [Syscall.emitted_append]
        simp [Syscall.emitted]
      | error =>
        simp only [TcpConnection.flush_loop, hlt, if_true]
        refine ⟨Nat.le_refl _, hwi, ?_, fun h => by cases h⟩
        rw [Syscall.emitted_append]
        simp [Syscall.emitted]
    · have heq : TcpConnection.flush_loop out (r :: rs) wi log =
          (.completed, wi, r :: rs, log) := by
        simp only [TcpConnection.flush_loop, hlt, if_false]
      rw [heq]
      exact ⟨Nat.le_refl _, hwi, rfl, fun _ => by simp only; omega⟩

/-- The output buffer and the write cursor after `flush_output`, by the way its loop
ends. -/
theorem TcpConnection.flush_output_cursor (s : Sys) :
    ((TcpConnection.flush_loop s.conn.output_buffer_ s.writes s.conn.write_index_
        s.syscalls).1 = FlushEnd.completed →
      (TcpConnection.flush_output s).2.conn.output_buffer_ = [] ∧
      (TcpConnection.flush_output s).2.conn.write_index_ = 0) ∧
    ((TcpConnection.flush_loop s.conn.output_buffer_ s.writes s.conn.write_index_
        s.syscalls).1 ≠ FlushEnd.completed →
      (TcpConnection.flush_output s).2.conn.output_buffer_ = s.conn.output_buffer_ ∧
      (TcpConnection.flush_output s).2.conn.write_index_ =
        (TcpConnection.flush_loop s.conn.output_buffer_ s.writes s.conn.write_index_
          s.syscalls).2.1) := by
  obtain ⟨w, h, ⟨fd, ib, ri, pr0, ob, wi0, pw, tw, cl, ev⟩, rc, sc, rd, wr⟩ := s
  cases hloop : TcpConnection.flush_loop ob wr wi0 sc with
  | mk e rl =>
    obtain ⟨wi, rest, log⟩ := rl
    cases e <;> by_cases hb : ev &&& EPOLLOUT = 0 <;> cases pw <;>
      simp [TcpConnection.flush_output, hloop, TcpConnection.disable_write, hb, Sys.fulfil]

/-- When the kernel accepts no more than it is offered, the loop of `write` hands exactly
the bytes before the offset it reaches to the descriptor. -/
theorem TcpConnection.write_loop_emitted (data : List Byte) :
    ∀ (script : List WriteResult) (off rem : Nat) (log : List Syscall),
      off + rem = data.length → rem < SIZE_MOD →
      (∀ e ∈ (TcpConnection.write_loop data script off rem log).2.2,
        Syscall.conforms e = true) →
      ∀ off2 rem2, (TcpConnection.write_loop data script off rem log).1 =
        WriteLoopEnd.exit off2 rem2 →
        off2 + rem2 = data.length ∧
        Syscall.emitted (TcpConnection.write_loop data script off rem log).2.2 ++
            data.drop off2 = Syscall.emitted log ++ data.drop off := by
  intro script
  induction script with
  | nil =>
    intro off rem log hlen _ _ off2 rem2 hend
    unfold TcpConnection.write_loop at hend ⊢
    split_ifs at hend ⊢
    simp only [WriteLoopEnd.exit.injEq] at hend
    obtain ⟨h1, h2⟩ := hend
    subst h1 h2
    exact ⟨hlen, rfl⟩
  | cons r rs ih =>
    intro off rem log hlen hlt hconf off2 rem2 hend
    by_cases hrem : rem > 0
    · cases r with
      | ok n =>
        by_cases hn : n > 0
        · have heq : TcpConnection.write_loop data (WriteResult.ok n :: rs) off rem log =
              TcpConnection.write_loop data rs (off + n) ((rem + SIZE_MOD - n) % SIZE_MOD)
                (log ++ [Syscall.write ((data.drop off).take rem) (WriteResult.ok n)]) := by
            simp only [TcpConnection.write_loop, hrem, if_true, hn]
          rw [heq] at hconf hend ⊢
          have hentry := hconf _ (TcpConnection.write_loop_log data rs _ _ _ _
            (List.mem_append_right log (List.mem_singleton.mpr rfl)))
          simp only [Syscall.conforms, decide_eq_true_eq, List.length_take,
            List.length_drop] at hentry
          have hle : n ≤ rem := by omega
          rw [size_sub_mod rem n hle hlt] at hconf hend ⊢
          obtain ⟨k1, k2⟩ := ih (off + n) (rem - n) _ (by omega) (by omega) hconf off2 rem2
            hend
          refine ⟨k1, ?_⟩
          rw [k2, Syscall.emitted_append]
          simp only [Syscall.emitted, List.append_nil]
          rw [List.take_take, Nat.min_eq_left hle, List.append_assoc, ← List.drop_drop,
            List.take_append_drop]
        · have hn0 : n = 0 := by omega
          subst hn0
          have heq : TcpConnection.write_loop data (WriteResult.ok 0 :: rs) off rem log =
              TcpConnection.write_loop data rs off rem
                (log ++ [Syscall.write ((data.drop off).take rem) (WriteResult.ok 0)]) := by
            simp only [TcpConnection.write_loop, hrem, if_true, gt_iff_lt, Nat.lt_irrefl,
              if_false]
          rw [heq] at hconf hend ⊢
          obtain ⟨k1, k2⟩ := ih off rem _ hlen hlt hconf off2 rem2 hend
          refine ⟨k1, ?_⟩
          rw [k2, Syscall.emitted_append]
          simp [Syscall.emitted]
      | eagain =>
        have heq : TcpConnection.write_loop data (WriteResult.eagain :: rs) off rem log =
            (.exit off rem, rs,
              log ++ [Syscall.write ((data.drop off).take rem) WriteResult.eagain]) := by
          simp only [TcpConnection.write_loop, hrem, if_true]
        rw [heq] at hend ⊢
        simp only [WriteLoopEnd.exit.injEq] at hend
        obtain ⟨h1, h2⟩ := hend
        subst h1 h2
        refine ⟨hlen, ?_⟩
        rw [Syscall.emitted_append]
        simp [Syscall.emitted]
      | error =>
        have heq : TcpConnection.write_loop data (WriteResult.error :: rs) off rem log =
            (.failed, rs,
              log ++ [Syscall.write ((data.drop off).take rem) WriteResult.error]) := by
          simp only [TcpConnection.write_loop, hrem, if_true]
        rw [heq] at hend
        cases hend
    · have heq : TcpConnection.write_loop data (r :: rs) off rem log =
          (.exit off rem, r :: rs, log) := by
        simp only [TcpConnection.write_loop, hrem, if_false]
      rw [heq] at hend ⊢
      simp only [WriteLoopEnd.exit.injEq] at hend
      obtain ⟨h1, h2⟩ := hend
      subst h1 h2
      exact ⟨hlen, rfl⟩

/-- The syscall log, the output buffer and the write cursor after a `write()` of a
non-empty packet on an open connection whose loop ends on its condition or on
`EAGAIN`. -/
theorem TcpConnection.write_exit (s : Sys) (p : Packet) (off rem : Nat)
    (rest : List WriteResult) (log : List Syscall) (hc : s.conn.closed_ = false)
    (hz : p.size ≠ 0)
    (hloop : TcpConnection.write_loop (p.to_string s.heap) s.writes 0 p.size s.syscalls =
      (.exit off rem, rest, log)) :
    (TcpConnection.write s p).2.syscalls = log ∧
    (rem = 0 → (TcpConnection.write s p).2.conn = s.conn) ∧
    (rem ≠ 0 →
      (TcpConnection.write s p).2.conn.output_buffer_ =
        ((p.to_string s.heap).drop off).take rem ∧
      (TcpConnection.write s p).2.conn.write_index_ = 0) := by
  by_cases hr : rem = 0
  · have h1 : TcpConnection.write s p =
        Sys.drop_packet (Sys.resolve_and_return
          { s with
            world := (Promise.new_of s.world (Val.ssize 0)).2
            writes := rest
            syscalls := log }
          (Promise.new_of s.world (Val.ssize 0)).1 (Val.ssize (to_ssize p.size))) p := by
      simp [TcpConnection.write, hc, hz, hloop, hr]
    have h3 := Sys.resolve_fresh { s with writes := rest, syscalls := log }
      (Val.ssize 0) (Val.ssize (to_ssize p.size))
    simp only at h3
    rw [h1, h3]
    exact ⟨rfl, fun _ => rfl, fun h => absurd hr h⟩
  · refine ⟨?_, fun h => absurd h hr, fun _ => ⟨?_, ?_⟩⟩ <;>
      by_cases hb : s.conn.current_events_ &&& EPOLLOUT = 0 <;>
      simp [TcpConnection.write, hc, hz, hloop, hr, TcpConnection.enable_write, hb,
        Sys.drop_packet, Promise.new_of]

/-- A `write()` issued on an open connection with an empty output buffer, of a
well-formed packet, whose loop does not end on a write error: the bytes emitted and the
bytes left in the output buffer are together the bytes of the packet. -/
theorem TcpConnection.write_accounts (s : Sys) (p : Packet) (hc : s.conn.closed_ = false)
    (hempty : s.conn.output_buffer_ = []) (hwf : p.wf s.heap = true)
    (hexit : ∃ off rem, (TcpConnection.write_loop (p.to_string s.heap) s.writes 0 p.size
      s.syscalls).1 = WriteLoopEnd.exit off rem)
    (hconf : ∀ e ∈ (TcpConnection.write s p).2.syscalls, Syscall.conforms e = true)
    (hinv : s.conn.cursor_ok) :
    (TcpConnection.write s p).2.conn.cursor_ok ∧
    Syscall.emitted (TcpConnection.write s p).2.syscalls ++
        (TcpConnection.write s p).2.conn.unsent =
      Syscall.emitted s.syscalls ++ p.to_string s.heap := by
  obtain ⟨hlen, hlt⟩ := Packet.to_string_length p s.heap hwf
  have huns : s.conn.unsent = [] := by
    unfold TcpConnection.unsent
    rw [hempty]
    exact List.drop_nil
  by_cases hz : p.size = 0
  · obtain ⟨k1, _, k3, _⟩ := (TcpConnection.write_frame s p).1 (Or.inr hz)
    have hnil : p.to_string s.heap = [] := List.eq_nil_of_length_eq_zero (by omega)
    rw [k1, k3, huns, hnil]
    exact ⟨hinv, rfl⟩
  · obtain ⟨off, rem, hend⟩ := hexit
    cases hloop : TcpConnection.write_loop (p.to_string s.heap) s.writes 0 p.size
        s.syscalls with
    | mk e rl =>
      obtain ⟨rest, log⟩ := rl
      rw [hloop] at hend
      simp only at hend
      subst hend
      obtain ⟨m1, m2, m3⟩ := TcpConnection.write_exit s p off rem rest log hc hz hloop
      rw [m1] at hconf ⊢
      have hacc := TcpConnection.write_loop_emitted (p.to_string s.heap) s.writes 0 p.size
        s.syscalls (by omega) hlt
      rw [hloop] at hacc
      obtain ⟨a1, a2⟩ := hacc hconf off rem rfl
      simp only [List.drop_zero] at a2
      by_cases hr : rem = 0
      · rw [m2 hr, huns]
        refine ⟨hinv, ?_⟩
        have hd : (p.to_string s.heap).drop off = [] := by
          apply List.drop_of_length_le
          omega
        rw [hd] at a2
        exact a2
      · obtain ⟨b1, b2⟩ := m3 hr
        have hbuf : ((p.to_string s.heap).drop off).take rem = (p.to_string s.heap).drop off := by
          apply List.take_of_length_le
          rw [List.length_drop]
          omega
        constructor
        · unfold TcpConnection.cursor_ok
          rw [b1, b2, hbuf, List.length_drop]
          omega
        · unfold TcpConnection.unsent
          rw [b1, b2, hbuf, List.drop_zero]
          exact a2

/-- A `flush_output` in which the kernel accepts no more than it is offered keeps the
account of bytes: those emitted and those left in the output buffer are together what
they were. -/
theorem TcpConnection.flush_output_accounts (s : Sys)
    (hconf : ∀ e ∈ (TcpConnection.flush_output s).2.syscalls, Syscall.conforms e = true)
    (hinv : s.conn.cursor_ok) :
    (TcpConnection.flush_output s).2.conn.cursor_ok ∧
    Syscall.emitted (TcpConnection.flush_output s).2.syscalls ++
        (TcpConnection.flush_output s).2.conn.unsent =
      Syscall.emitted s.syscalls ++ s.conn.unsent := by
  obtain ⟨_, _, f3, _, _⟩ := TcpConnection.flush_output_frame s
  obtain ⟨c1, c2⟩ := TcpConnection.flush_output_cursor s
  rw [f3] at hconf ⊢
  obtain ⟨k1, k2, k3, k4⟩ := TcpConnection.flush_loop_conforms s.conn.output_buffer_ hinv.2
    s.writes s.conn.write_index_ s.syscalls hinv.1 hconf
  by_cases he : (TcpConnection.flush_loop s.conn.output_buffer_ s.writes s.conn.write_index_
      s.syscalls).1 = FlushEnd.completed
  · obtain ⟨b1, b2⟩ := c1 he
    have hd : s.conn.output_buffer_.drop (TcpConnection.flush_loop s.conn.output_buffer_
        s.writes s.conn.write_index_ s.syscalls).2.1 = [] := by
      apply List.drop_of_length_le
      rw [k4 he]
    rw [hd] at k3
    constructor
    · unfold TcpConnection.cursor_ok
      rw [b1, b2]
      exact ⟨Nat.le_refl _, by simp [SIZE_MOD]⟩
    · unfold TcpConnection.unsent
      rw [b1, b2]
      exact k3
  · obtain ⟨b1, b2⟩ := c2 he
    constructor
    · unfold TcpConnection.cursor_ok
      rw [b1, b2]
      exact ⟨k2, hinv.2⟩
    · unfold TcpConnection.unsent
      rw [b1, b2]
      exact k3

/-- One operation of a serial sequence keeps the account of bytes: the bytes emitted and
the bytes left in the output buffer are together what they were, followed by the bytes of
the packet written, if any. -/
theorem ConnOp.apply_accounts (s : Sys) (op : ConnOp)
    (hop : ConnOp.in_turn s op = true)
    (hconf : ∀ e ∈ (ConnOp.apply s op).syscalls, Syscall.conforms e = true)
    (hinv : s.conn.cursor_ok) :
    (ConnOp.apply s op).conn.cursor_ok ∧
    Syscall.emitted (ConnOp.apply s op).syscalls ++ (ConnOp.apply s op).conn.unsent =
      Syscall.emitted s.syscalls ++ s.conn.unsent ++ ConnOp.payload s op := by
  cases op with
  | read =>
    obtain ⟨⟨buf, ri, pr, h⟩, _, h3, _⟩ := TcpConnection.read_frame s
    simp only [ConnOp.apply, ConnOp.payload, List.append_nil]
    unfold TcpConnection.cursor_ok TcpConnection.unsent at *
    rw [h, h3]
    exact ⟨hinv, rfl⟩
  | write p =>
    simp only [ConnOp.in_turn, Bool.and_eq_true, Bool.not_eq_true', List.isEmpty_iff] at hop
    obtain ⟨⟨⟨hc, hempty⟩, hwf⟩, hmatch⟩ := hop
    have hexit : ∃ off rem, (TcpConnection.write_loop (p.to_string s.heap) s.writes 0 p.size
        s.syscalls).1 = WriteLoopEnd.exit off rem := by
      cases he : (TcpConnection.write_loop (p.to_string s.heap) s.writes 0 p.size
          s.syscalls).1 with
      | exit off rem => exact ⟨off, rem, rfl⟩
      | failed => rw [he] at hmatch; cases hmatch
      | exhausted => rw [he] at hmatch; cases hmatch
    obtain ⟨k1, k2⟩ := TcpConnection.write_accounts s p hc hempty hwf hexit hconf hinv
    have huns : s.conn.unsent = [] := by
      unfold TcpConnection.unsent
      rw [hempty]
      exact List.drop_nil
    refine ⟨k1, ?_⟩
    simp only [ConnOp.apply, ConnOp.payload]
    rw [k2, huns, List.append_nil]
  | handle_events events =>
    simp only [ConnOp.apply, ConnOp.payload, List.append_nil] at hconf ⊢
    have key : ∀ s1 : Sys, s1.conn.cursor_ok →
        Syscall.emitted s1.syscalls ++ s1.conn.unsent =
          Syscall.emitted s.syscalls ++ s.conn.unsent →
        (∀ e ∈ (TcpConnection.flush_output s1).2.syscalls, Syscall.conforms e = true) →
        (TcpConnection.flush_output s1).2.conn.cursor_ok ∧
        Syscall.emitted (TcpConnection.flush_output s1).2.syscalls ++
            (TcpConnection.flush_output s1).2.conn.unsent =
          Syscall.emitted s.syscalls ++ s.conn.unsent := by
      intro s1 h1 h2 h3
      obtain ⟨a1, a2⟩ := TcpConnection.flush_output_accounts s1 h3 h1
      exact ⟨a1, a2.trans h2⟩
    have hread : (TcpConnection.handle_readable s).2.conn.cursor_ok ∧
        Syscall.emitted (TcpConnection.handle_readable s).2.syscalls ++
            (TcpConnection.handle_readable s).2.conn.unsent =
          Syscall.emitted s.syscalls ++ s.conn.unsent := by
      obtain ⟨_, r2, _, r4, _⟩ := TcpConnection.handle_readable_keeps s
      unfold TcpConnection.cursor_ok TcpConnection.unsent at *
      rw [r2, r4, TcpConnection.handle_readable_emitted]
      exact ⟨hinv, rfl⟩
    unfold TcpConnection.handle_events at hconf ⊢
    split_ifs at hconf ⊢ with hE hI hO
    · obtain ⟨_, c2, _, c4, _, c6⟩ := TcpConnection.handle_close_keeps s
      unfold TcpConnection.cursor_ok TcpConnection.unsent at *
      rw [c2, c4, c6]
      exact ⟨hinv, rfl⟩
    · cases hd : TcpConnection.handle_readable s with
      | mk res s1 =>
        rw [hd] at hread hconf
        cases res with
        | error e => exact hread
        | ok u => exact key s1 hread.1 hread.2 hconf
    · cases hd : TcpConnection.handle_readable s with
      | mk res s1 =>
        rw [hd] at hread
        cases res with
        | error e => exact hread
        | ok u => exact hread
    · exact key s hinv rfl hconf
    · exact ⟨hinv, rfl⟩

theorem ConnOp.run_accounts (ops : List ConnOp) :
    ∀ s : Sys, s.conn.cursor_ok → ConnOp.serial s ops = true →
      Syscall.emitted (ConnOp.run s ops).syscalls ++ (ConnOp.run s ops).conn.unsent =
        Syscall.emitted s.syscalls ++ s.conn.unsent ++ ConnOp.written s ops := by
  induction ops with
  | nil =>
    intro s _ _
    simp [ConnOp.run, ConnOp.written]
  | cons op ops ih =>
    intro s hinv hser
    simp only [ConnOp.serial, Bool.and_eq_true, List.all_eq_true] at hser
    obtain ⟨⟨h1, h2⟩, h3⟩ := hser
    obtain ⟨k1, k2⟩ := ConnOp.apply_accounts s op h1 h2 hinv
    have h4 := ih (ConnOp.apply s op) k1 h3
    have hrun : ConnOp.run s (op :: ops) = ConnOp.run (ConnOp.apply s op) ops := rfl
    rw [hrun, h4, k2]
    simp only [ConnOp.written, List.append_assoc]

/-- C34 (amended): for every sequence of `read()`, `write(p)` and `handle_events` calls
on a connection from `create` in which each `write(p)` is issued on the open connection
while no earlier write is pending in the output buffer (with a well-formed packet, no
write error in its fast path, and a kernel that accepts no more than it is offered), the
bytes handed to the descriptor by the fast paths and the write-drains, followed by the
bytes still waiting in the output buffer, are the concatenation of the packets in call
order: no byte is dropped, duplicated or reordered. When the output buffer is empty the
bytes handed to the descriptor are exactly that concatenation. -/
theorem TcpConnection.writes_in_order (w : World Val) (h : Heap) (fd : Int)
    (reads : List ReadResult) (writes : List WriteResult) (ops : List ConnOp)
    (hser : ConnOp.serial (TcpConnection.create w h fd reads writes) ops = true) :
    Syscall.emitted (ConnOp.run (TcpConnection.create w h fd reads writes) ops).syscalls ++
        (ConnOp.run (TcpConnection.create w h fd reads writes) ops).conn.unsent =
      ConnOp.written (TcpConnection.create w h fd reads writes) ops ∧
    ((ConnOp.run (TcpConnection.create w h fd reads writes) ops).conn.output_buffer_ = [] →
      Syscall.emitted (ConnOp.run (TcpConnection.create w h fd reads writes) ops).syscalls =
        ConnOp.written (TcpConnection.create w h fd reads writes) ops) := by
  have h0 : (TcpConnection.create w h fd reads writes).conn.cursor_ok :=
    ⟨Nat.le_refl _, by simp [TcpConnection.create, SIZE_MOD]⟩
  have h1 := ConnOp.run_accounts ops _ h0 hser
  have h2 : Syscall.emitted (TcpConnection.create w h fd reads writes).syscalls ++
      (TcpConnection.create w h fd reads writes).conn.unsent = [] := rfl
  rw [h2, List.nil_append] at h1
  refine ⟨h1, fun hempty => ?_⟩
  have h3 : (ConnOp.run (TcpConnection.create w h fd reads writes) ops).conn.unsent = [] := by
    unfold TcpConnection.unsent
    rw [hempty]
    exact List.drop_nil
  rw [h3, List.append_nil] at h1
  exact h1

/-- Counterexample for C34: a second `write` issued while the first is pending. When its
fast path succeeds, its bytes 40, 50, 60 reach the descriptor before the bytes 20, 30 of
the first packet that wait in the output buffer; when its fast path would-block, it
replaces the pending write and the output buffer, and the bytes 20, 30 are dropped. -/
theorem TcpConnection.write_overtakes_counterexample :
    ConnOp.written Sys.example_overtake
      [ConnOp.write Sys.example_two_packets.1.1, ConnOp.write Sys.example_two_packets.1.2,
        ConnOp.handle_events EPOLLOUT] = [10, 20, 30, 40, 50, 60] ∧
    Syscall.emitted (ConnOp.run Sys.example_overtake
      [ConnOp.write Sys.example_two_packets.1.1, ConnOp.write Sys.example_two_packets.1.2,
        ConnOp.handle_events EPOLLOUT]).syscalls = [10, 40, 50, 60, 20, 30] ∧
    (ConnOp.run Sys.example_replace
      [ConnOp.write Sys.example_two_packets.1.1]).conn.pending_write_ = some 0 ∧
    (ConnOp.run Sys.example_replace
      [ConnOp.write Sys.example_two_packets.1.1,
        ConnOp.write Sys.example_two_packets.1.2]).conn.pending_write_ = some 1 ∧
    (ConnOp.run Sys.example_replace
      [ConnOp.write Sys.example_two_packets.1.1,
        ConnOp.write Sys.example_two_packets.1.2]).conn.output_buffer_ = [50, 60] ∧
    Syscall.emitted (ConnOp.run Sys.example_replace
      [ConnOp.write Sys.example_two_packets.1.1,
        ConnOp.write Sys.example_two_packets.1.2]).syscalls = [10, 40] := by
  decide

/-- Witness for C34 (amended): the first packet is written with back-pressure and
drained before the second is written. -/
theorem TcpConnection.writes_in_order_witness :
    ConnOp.serial Sys.example_in_turn
      [ConnOp.write Sys.example_two_packets.1.1, ConnOp.handle_events EPOLLOUT,
        ConnOp.write Sys.example_two_packets.1.2] = true ∧
    Syscall.emitted (ConnOp.run Sys.example_in_turn
      [ConnOp.write Sys.example_two_packets.1.1, ConnOp.handle_events EPOLLOUT,
        ConnOp.write Sys.example_two_packets.1.2]).syscalls = [10, 20, 30, 40, 50, 60] :=
  ⟨by decide,
    (TcpConnection.writes_in_order (World.init Val) Sys.example_two_packets.2 7 []
      [WriteResult.ok 1, WriteResult.eagain, WriteResult.ok 2, WriteResult.ok 3]
      [ConnOp.write Sys.example_two_packets.1.1, ConnOp.handle_events EPOLLOUT,
        ConnOp.write Sys.example_two_packets.1.2] (by decide)).2 (by decide)⟩

/-! ## Theorems: the cached indices of the mailbox -/

/-- A queue that holds `l` stores fewer items than its capacity, and its indices are
below the capacity. -/
theorem SpscQueue.holds_bounds {T : Type} (q : SpscQueue T) (l : List T) (h : q.holds l) :
    l.length + 1 ≤ q.Capacity ∧ q.head_ < q.Capacity ∧ q.tail_ < q.Capacity ∧
    q.cached_head_ < q.Capacity ∧ q.cached_tail_ < q.Capacity := by
  obtain ⟨k, Tc, Tl, Hc, hcap, hring, h1, h2, h3, h4, ht, hh, hct, hch, hslots⟩ := h
  have hN : 0 < q.Capacity := by rw [hcap]; exact Nat.two_pow_pos k
  refine ⟨by omega, ?_, ?_, ?_, ?_⟩
  · rw [hh]; exact Nat.mod_lt _ hN
  · rw [ht]; exact Nat.mod_lt _ hN
  · rw [hch]; exact Nat.mod_lt _ hN
  · rw [hct]; exact Nat.mod_lt _ hN

/-- C37: in every state that a queue of capacity N = 2^k reaches from the empty queue by
a sequence of `push` and `pop` calls of one thread, the queue holds the items `l` of the
reference first-in first-out list, at most N - 1 of them, and `head_` and `tail_` are
below N. In that state the cached indices cause no spurious result: `push` returns false
exactly when N - 1 items are held, and then the queue still holds `l`, while a `push`
that returns true has appended its item; `pop` returns false exactly when the queue is
empty, and then leaves its output argument as it was, while a `pop` that returns true
delivers the oldest item and the queue holds the others. -/
theorem SpscQueue.no_spurious_result {T : Type} (k : Nat) (ops : List (QueueOp T))
    (item : T) :
    ∃ q, SpscQueue.run (SpscQueue.new T (2 ^ k)) item ops =
        some ((Fifo.run (2 ^ k - 1) [] item ops).1, q) ∧
      q.holds (Fifo.run (2 ^ k - 1) [] item ops).2 ∧
      (Fifo.run (2 ^ k - 1) [] item ops).2.length ≤ 2 ^ k - 1 ∧
      q.head_ < 2 ^ k ∧ q.tail_ < 2 ^ k ∧
      (∀ x : T,
        ((q.push x).1 = false ↔ (Fifo.run (2 ^ k - 1) [] item ops).2.length = 2 ^ k - 1) ∧
        ((q.push x).1 = false → (q.push x).2.holds (Fifo.run (2 ^ k - 1) [] item ops).2) ∧
        ((q.push x).1 = true →
          (q.push x).2.holds ((Fifo.run (2 ^ k - 1) [] item ops).2 ++ [x])) ∧
        (q.push x).2.head_ < 2 ^ k ∧ (q.push x).2.tail_ < 2 ^ k) ∧
      (∀ out : T, ∃ ok res q1, q.pop out = some (ok, res, q1) ∧
        (ok = false ↔ (Fifo.run (2 ^ k - 1) [] item ops).2 = []) ∧
        (ok = false → res = out ∧ q1.holds []) ∧
        (ok = true → ∃ rest, (Fifo.run (2 ^ k - 1) [] item ops).2 = res :: rest ∧
          q1.holds rest) ∧
        q1.head_ < 2 ^ k ∧ q1.tail_ < 2 ^ k) := by
  obtain ⟨q, h1, h2, h3⟩ := SpscQueue.run_holds ops (SpscQueue.new T (2 ^ k)) [] item
    (SpscQueue.new_holds T k)
  have hcap : q.Capacity = 2 ^ k := h3
  have hcap0 : (SpscQueue.new T (2 ^ k)).Capacity = 2 ^ k := rfl
  rw [hcap0] at h1 h2
  have hN : 0 < 2 ^ k := Nat.two_pow_pos k
  obtain ⟨b1, b2, b3, _, _⟩ := SpscQueue.holds_bounds q _ h2
  rw [hcap] at b1 b2 b3
  refine ⟨q, h1, h2, by omega, b2, b3, ?_, ?_⟩
  · intro x
    obtain ⟨hroom, hfull⟩ := SpscQueue.emplace_holds q _ x h2
    rw [hcap] at hroom hfull
    by_cases hlt : (Fifo.run (2 ^ k - 1) [] item ops).2.length + 1 < 2 ^ k
    · obtain ⟨q1, e1, e2, e3⟩ := hroom hlt
      have e : q.push x = (true, q1) := e1
      obtain ⟨c1, c2, c3, _, _⟩ := SpscQueue.holds_bounds q1 _ e2
      rw [e3] at c2 c3
      rw [e]
      refine ⟨⟨fun h => Bool.noConfusion h, fun h => by omega⟩, fun h => Bool.noConfusion h,
        fun _ => e2, c2, c3⟩
    · obtain ⟨q1, e1, e2, e3⟩ := hfull hlt
      have e : q.push x = (false, q1) := e1
      obtain ⟨c1, c2, c3, _, _⟩ := SpscQueue.holds_bounds q1 _ e2
      rw [e3] at c2 c3
      rw [e]
      refine ⟨⟨fun _ => by omega, fun _ => rfl⟩, fun _ => e2, fun h => Bool.noConfusion h, c2, c3⟩
  · intro out
    obtain ⟨hempty, hsome⟩ := SpscQueue.pop_holds q _ out h2
    cases hl : (Fifo.run (2 ^ k - 1) [] item ops).2 with
    | nil =>
      obtain ⟨q1, e1, e2, e3⟩ := hempty hl
      obtain ⟨c1, c2, c3, _, _⟩ := SpscQueue.holds_bounds q1 _ e2
      rw [e3, hcap] at c2 c3
      exact ⟨false, out, q1, e1, ⟨fun _ => rfl, fun _ => rfl⟩, fun _ => ⟨rfl, e2⟩,
        fun h => Bool.noConfusion h, c2, c3⟩
    | cons x rest =>
      obtain ⟨q1, e1, e2, e3⟩ := hsome x rest hl
      obtain ⟨c1, c2, c3, _, _⟩ := SpscQueue.holds_bounds q1 _ e2
      rw [e3, hcap] at c2 c3
      exact ⟨true, x, q1, e1, ⟨fun h => Bool.noConfusion h, fun h => List.noConfusion h⟩,
        fun h => Bool.noConfusion h, fun _ => ⟨rest, rfl, e2⟩, c2, c3⟩

/-! ## Theorems: sequences of calls on the slab pool -/

/-- The nodes of a fresh chunk, linked in order, form a segment of the free list. -/
theorem ThreadLocalPool.lseg_chunk (memory : List NodePtr) (tl : NodePtr) :
    ∀ (n start : Nat),
      (∀ i, i < n → memory[start + i]? =
        some (if i + 1 < n then some (start + i + 1) else tl)) →
      ThreadLocalPool.lseg memory (if 0 < n then some start else tl)
        (List.range' start n) tl := by
  intro n
  induction n with
  | zero => intro start _; rfl
  | succ n ih =>
    intro start h
    have h0 := h 0 (by omega)
    simp only [Nat.add_zero, Nat.zero_add] at h0
    refine ⟨by simp, (if 0 < n then some (start + 1) else tl), ?_, ?_⟩
    · rw [h0]
      by_cases hn : 0 < n
      · simp [hn]
      · simp [hn]
    · apply ih (start + 1)
      intro i hi
      have hi1 := h (i + 1) (by omega)
      have e : start + (i + 1) = start + 1 + i := by omega
      rw [e] at hi1
      rw [hi1]
      by_cases hn : i + 1 < n
      · have : i + 1 + 1 < n + 1 := by omega
        simp [hn, this]
      · have : ¬ (i + 1 + 1 < n + 1) := by omega
        simp [hn, this]

/-- The free list of a pool whose free list was empty, after `allocate_chunk`: the nodes
of the new chunk in order. -/
theorem ThreadLocalPool.allocate_chunk_lseg (p : ThreadLocalPool) (hK : 0 < p.ChunkSize)
    (hh : p.head_ = none) :
    ThreadLocalPool.lseg p.allocate_chunk.memory p.allocate_chunk.head_
      (List.range' p.memory.length p.ChunkSize) none := by
  have hm := ThreadLocalPool.allocate_chunk_memory p hK
  have hhead : p.allocate_chunk.head_ = some p.memory.length := rfl
  have h := ThreadLocalPool.lseg_chunk p.allocate_chunk.memory none p.ChunkSize
    p.memory.length ?_
  · rw [if_pos hK] at h
    rw [hhead]
    exact h
  · intro i hi
    rw [hm, hh]
    by_cases hlast : i + 1 < p.ChunkSize
    · rw [if_pos hlast]
      rw [List.getElem?_append_left (by simp; omega),
        List.getElem?_append_right (by omega)]
      simp
      exact List.getElem?_range (by omega)
    · rw [if_neg hlast]
      have hi2 : i = p.ChunkSize - 1 := by omega
      rw [List.getElem?_append_right (by simp; omega)]
      simp [hi2]

/-- On a well-formed pool `allocate` succeeds, returns a node that is not allocated, and
leaves the pool well formed with that node among the allocated ones. -/
theorem ThreadLocalPool.allocate_well_formed (p : ThreadLocalPool) (K : Nat) (hK : 0 < K)
    (live free : List Nat) (h : p.well_formed K live free) :
    ∃ a p1 free1, p.allocate = some (a, p1) ∧ a ∉ live ∧
      p1.well_formed K (a :: live) free1 := by
  obtain ⟨hcs, hseg, hfn, hln, hdis, hmem, hlen, hch⟩ := h
  cases free with
  | cons a rest =>
    obtain ⟨hhead, next, hnext, hrest⟩ := hseg
    have hnd := List.nodup_cons.mp hfn
    have hal : a ∉ live := hdis a (List.mem_cons_self _ _)
    refine ⟨a, { p with head_ := next }, rest, ?_, hal, hcs, hrest, hnd.2,
      List.nodup_cons.mpr ⟨hal, hln⟩, ?_, ?_, hlen, hch⟩
    · simp [ThreadLocalPool.allocate, hhead, hnext]
    · intro b hb hbl
      rcases List.mem_cons.mp hbl with e | e
      · rw [e] at hb
        exact hnd.1 hb
      · exact hdis b (List.mem_cons_of_mem _ hb) e
    · intro b
      rw [hmem b]
      simp only [List.mem_cons]
      tauto
  | nil =>
    have hhead : p.head_ = none := hseg
    have hKp : 0 < p.ChunkSize := by rw [hcs]; exact hK
    have hseg2 := ThreadLocalPool.allocate_chunk_lseg p hKp hhead
    have hr : List.range' p.memory.length p.ChunkSize =
        p.memory.length :: List.range' (p.memory.length + 1) (p.ChunkSize - 1) := by
      have e : p.ChunkSize = (p.ChunkSize - 1) + 1 := by omega
      conv_lhs => rw [e]
      rfl
    rw [hr] at hseg2
    obtain ⟨hh2, next, hnext, hrest⟩ := hseg2
    have hlive : ∀ b ∈ live, b < p.memory.length := fun b hb => (hmem b).mpr (Or.inr hb)
    have hal : p.memory.length ∉ live := fun hb => Nat.lt_irrefl _ (hlive _ hb)
    have hlen2 := ThreadLocalPool.allocate_chunk_length p hKp
    refine ⟨p.memory.length, { p.allocate_chunk with head_ := next },
      List.range' (p.memory.length + 1) (p.ChunkSize - 1), ?_, hal, hcs, hrest,
      List.nodup_range' _ _, List.nodup_cons.mpr ⟨hal, hln⟩, ?_, ?_, ?_, ?_⟩
    · simp [ThreadLocalPool.allocate, hhead, hh2, hnext]
    · intro b hb hbl
      have hb2 := (List.mem_range'_1.mp hb).1
      rcases List.mem_cons.mp hbl with e | e
      · omega
      · have := hlive b e
        omega
    · intro b
      simp only [List.mem_cons, List.mem_range'_1]
      rw [hlen2]
      constructor
      · intro hb
        by_cases h1 : b < p.memory.length
        · rcases (hmem b).mp h1 with h2 | h2
          · simp at h2
          · exact Or.inr (Or.inr h2)
        · by_cases h2 : b = p.memory.length
          · exact Or.inr (Or.inl h2)
          · left
            omega
      · rintro (⟨h1, h2⟩ | h1 | h1)
        · omega
        · omega
        · have := hlive b h1
          omega
    · show p.allocate_chunk.memory.length = p.allocate_chunk.chunks_.length * K
      rw [hlen2]
      simp only [ThreadLocalPool.allocate_chunk, List.length_append, List.length_singleton]
      rw [hlen, hcs, Nat.add_mul, Nat.one_mul]
    · show p.allocate_chunk.chunks_ =
        (List.range p.allocate_chunk.chunks_.length).map (fun i => i * K)
      simp only [ThreadLocalPool.allocate_chunk, List.length_append, List.length_singleton]
      rw [List.range_succ, List.map_append, ← hch, hlen]
      simp

/-- On a well-formed pool `deallocate` of an allocated node succeeds and leaves the pool
well formed, with the node at the front of the free list. -/
theorem ThreadLocalPool.deallocate_well_formed (p : ThreadLocalPool) (K : Nat)
    (live free : List Nat) (a : Nat) (h : p.well_formed K live free) (ha : a ∈ live) :
    ∃ p1, p.deallocate a = some p1 ∧ p1.well_formed K (live.erase a) (a :: free) := by
  obtain ⟨hcs, hseg, hfn, hln, hdis, hmem, hlen, hch⟩ := h
  have halt : a < p.memory.length := (hmem a).mpr (Or.inr ha)
  have haf : a ∉ free := fun hf => hdis a hf ha
  refine ⟨{ p with memory := p.memory.set a p.head_, head_ := some a }, ?_, hcs, ?_,
    List.nodup_cons.mpr ⟨haf, hfn⟩, hln.erase a, ?_, ?_, ?_, hch⟩
  · simp [ThreadLocalPool.deallocate, halt]
  · refine ⟨rfl, p.head_, ?_, ?_⟩
    · simp [halt]
    · apply ThreadLocalPool.lseg_congr p.memory _ free _ _ _ hseg
      intro b hb
      have hne : a ≠ b := fun e => haf (e ▸ hb)
      simp only
      rw [List.getElem?_set_ne hne]
  · intro b hb hbl
    rcases List.mem_cons.mp hb with e | e
    · rw [e] at hbl
      exact (List.Nodup.not_mem_erase hln) hbl
    · exact hdis b e (List.mem_of_mem_erase hbl)
  · intro b
    simp only [List.length_set, List.mem_cons]
    rw [hmem b]
    constructor
    · rintro (h1 | h1)
      · exact Or.inl (Or.inr h1)
      · by_cases e : b = a
        · exact Or.inl (Or.inl e)
        · exact Or.inr ((List.mem_erase_of_ne e).mpr h1)
    · rintro ((h1 | h1) | h1)
      · rw [h1]
        exact Or.inr ha
      · exact Or.inl h1
      · exact Or.inr (List.mem_of_mem_erase h1)
  · simp only [List.length_set]
    exact hlen

/-- Constructing an object in an allocated node leaves the pool well formed. -/
theorem ThreadLocalPool.construct_well_formed (p : ThreadLocalPool) (K : Nat)
    (live free : List Nat) (a : Nat) (bytes : NodePtr) (h : p.well_formed K live free)
    (ha : a ∈ live) : (p.construct a bytes).well_formed K live free := by
  obtain ⟨hcs, hseg, hfn, hln, hdis, hmem, hlen, hch⟩ := h
  have haf : a ∉ free := fun hf => hdis a hf ha
  refine ⟨hcs, ?_, hfn, hln, hdis, ?_, ?_, hch⟩
  · apply ThreadLocalPool.lseg_congr p.memory _ free _ _ _ hseg
    intro b hb
    have hne : a ≠ b := fun e => haf (e ▸ hb)
    simp only [ThreadLocalPool.construct]
    rw [List.getElem?_set_ne hne]
  · intro b
    simp only [ThreadLocalPool.construct, List.length_set]
    exact hmem b
  · simp only [ThreadLocalPool.construct, List.length_set]
    exact hlen

theorem ThreadLocalPool.new_well_formed (K : Nat) (hK : 0 < K) :
    (ThreadLocalPool.new K).well_formed K [] (List.range' 0 K) := by
  have hseg := ThreadLocalPool.allocate_chunk_lseg
    { ChunkSize := K, head_ := none, chunks_ := [], memory := [] } hK rfl
  have hlen := ThreadLocalPool.allocate_chunk_length
    { ChunkSize := K, head_ := none, chunks_ := [], memory := [] } hK
  simp only [List.length_nil, Nat.zero_add] at hseg hlen
  refine ⟨rfl, hseg, List.nodup_range' _ _, List.nodup_nil, fun _ _ h => by simp at h, ?_,
    ?_, ?_⟩
  · intro b
    show b < (ThreadLocalPool.new K).memory.length ↔ _
    unfold ThreadLocalPool.new
    rw [hlen]
    simp [List.mem_range'_1]
  · show (ThreadLocalPool.new K).memory.length = (ThreadLocalPool.new K).chunks_.length * K
    unfold ThreadLocalPool.new
    rw [hlen]
    simp [ThreadLocalPool.allocate_chunk]
  · simp [ThreadLocalPool.new, ThreadLocalPool.allocate_chunk, List.range_succ]

/-- Every admissible sequence of calls runs to the end and leaves the pool well formed. -/
theorem PoolOp.run_well_formed (K : Nat) (hK : 0 < K) (ops : List PoolOp) :
    ∀ (p : ThreadLocalPool) (live free : List Nat), p.well_formed K live free →
      PoolOp.admissible p live ops = true →
      ∃ p1 live1 free1, PoolOp.run p live ops = some (p1, live1) ∧
        p1.well_formed K live1 free1 := by
  induction ops with
  | nil =>
    intro p live free h _
    exact ⟨p, live, free, rfl, h⟩
  | cons op ops ih =>
    intro p live free h hadm
    simp only [PoolOp.admissible, Bool.and_eq_true] at hadm
    obtain ⟨h1, h2⟩ := hadm
    cases op with
    | allocate =>
      obtain ⟨a, p1, free1, e1, _, e3⟩ := ThreadLocalPool.allocate_well_formed p K hK live
        free h
      have hs : PoolOp.step p live PoolOp.allocate = some (p1, a :: live) := by
        simp [PoolOp.step, e1]
      rw [hs] at h2
      obtain ⟨p2, live2, free2, r1, r2⟩ := ih p1 (a :: live) free1 e3 h2
      refine ⟨p2, live2, free2, ?_, r2⟩
      simp only [PoolOp.run, hs]
      exact r1
    | deallocate ptr =>
      simp only [decide_eq_true_eq] at h1
      obtain ⟨p1, e1, e2⟩ := ThreadLocalPool.deallocate_well_formed p K live free ptr h h1
      have hs : PoolOp.step p live (PoolOp.deallocate ptr) = some (p1, live.erase ptr) := by
        simp [PoolOp.step, e1]
      rw [hs] at h2
      obtain ⟨p2, live2, free2, r1, r2⟩ := ih p1 (live.erase ptr) (ptr :: free) e2 h2
      refine ⟨p2, live2, free2, ?_, r2⟩
      simp only [PoolOp.run, hs]
      exact r1
    | construct ptr bytes =>
      simp only [decide_eq_true_eq] at h1
      have e2 := ThreadLocalPool.construct_well_formed p K live free ptr bytes h h1
      have hs : PoolOp.step p live (PoolOp.construct ptr bytes) =
          some (p.construct ptr bytes, live) := rfl
      rw [hs] at h2
      obtain ⟨p2, live2, free2, r1, r2⟩ := ih (p.construct ptr bytes) live free e2 h2
      refine ⟨p2, live2, free2, ?_, r2⟩
      simp only [PoolOp.run, hs]
      exact r1

/-- C38: for every sequence of `allocate` and `deallocate` calls on a new pool with
chunks of `K` nodes in which `deallocate` is applied only to nodes that are currently
allocated (objects may be constructed in allocated nodes in between), every call
succeeds, and in the state reached: the allocated nodes are pairwise distinct, the free
list leads through pairwise distinct nodes to null and contains no allocated node, every
allocated or free node lies in one of the chunks of the pool, and the next `allocate`
returns a node that is not currently allocated. -/
theorem ThreadLocalPool.no_double_allocation (K : Nat) (hK : 0 < K) (ops : List PoolOp)
    (hadm : PoolOp.admissible (ThreadLocalPool.new K) [] ops = true) :
    ∃ p live free, PoolOp.run (ThreadLocalPool.new K) [] ops = some (p, live) ∧
      p.well_formed K live free ∧
      live.Nodup ∧ free.Nodup ∧ ThreadLocalPool.lseg p.memory p.head_ free none ∧
      (∀ a ∈ free, a ∉ live) ∧
      (∀ a, a ∈ live ∨ a ∈ free → ∃ c ∈ p.chunks_, c ≤ a ∧ a < c + K) ∧
      ∃ a p1, p.allocate = some (a, p1) ∧ a ∉ live := by
  obtain ⟨p, live, free, h1, h2⟩ := PoolOp.run_well_formed K hK ops (ThreadLocalPool.new K)
    [] (List.range' 0 K) (ThreadLocalPool.new_well_formed K hK) hadm
  obtain ⟨a, p1, free1, e1, e2, _⟩ := ThreadLocalPool.allocate_well_formed p K hK live free h2
  have h2c := h2
  obtain ⟨hcs, hseg, hfn, hln, hdis, hmem, hlen, hch⟩ := h2c
  refine ⟨p, live, free, h1, h2, hln, hfn, hseg, hdis, ?_, a, p1, e1, e2⟩
  intro b hb
  have hlt : b < p.chunks_.length * K := by
    rw [← hlen]
    exact (hmem b).mpr (Or.symm hb)
  refine ⟨(b / K) * K, ?_, Nat.div_mul_le_self b K, Nat.lt_div_mul_add hK⟩
  rw [hch]
  exact List.mem_map.mpr ⟨b / K, List.mem_range.mpr ((Nat.div_lt_iff_lt_mul hK).mpr hlt), rfl⟩

/-- Witness for C38: a pool with chunks of four nodes and the calls of
`PoolOp.example_ops`. -/
theorem ThreadLocalPool.no_double_allocation_witness :
    ∃ p live free, PoolOp.run (ThreadLocalPool.new 4) [] PoolOp.example_ops =
        some (p, live) ∧
      p.well_formed 4 live free ∧
      live.Nodup ∧ free.Nodup ∧ ThreadLocalPool.lseg p.memory p.head_ free none ∧
      (∀ a ∈ free, a ∉ live) ∧
      (∀ a, a ∈ live ∨ a ∈ free → ∃ c ∈ p.chunks_, c ≤ a ∧ a < c + 4) ∧
      ∃ a p1, p.allocate = some (a, p1) ∧ a ∉ live :=
  ThreadLocalPool.no_double_allocation 4 (by decide) PoolOp.example_ops (by decide)

/-! ## Theorems: the input buffer of the first generation -/

theorem FirstGen.TcpConnection.unread_length (c : FirstGen.TcpConnection)
    (hri : c.read_index_ ≤ c.input_buffer_.length) (hlen : c.input_buffer_.length < SIZE_MOD) :
    c.readable_bytes = c.peek.length := by
  unfold FirstGen.TcpConnection.readable_bytes FirstGen.TcpConnection.peek
  rw [List.length_drop]
  exact size_sub_mod _ _ hri hlen

/-- After the first `k` assignments of `std::copy` to the front of a vector, from a
position `first` on, the elements before `k` are those from `first` on and the others are
untouched. -/
theorem std_copy_get (buf : List Byte) (first : Nat) :
    ∀ k, first + k ≤ buf.length →
      ((List.range k).foldl
        (fun b i =>
          match b[first + i]? with
          | some x => b.set (0 + i) x
          | none => b) buf).length = buf.length ∧
      ∀ i, ((List.range k).foldl
        (fun b i =>
          match b[first + i]? with
          | some x => b.set (0 + i) x
          | none => b) buf)[i]? = if i < k then buf[first + i]? else buf[i]? := by
  intro k
  induction k with
  | zero => intro _; simp
  | succ k ih =>
    intro hk
    obtain ⟨h1, h2⟩ := ih (by omega)
    rw [List.range_succ, List.foldl_append]
    simp only [List.foldl_cons, List.foldl_nil]
    have hx : ((List.range k).foldl
        (fun b i =>
          match b[first + i]? with
          | some x => b.set (0 + i) x
          | none => b) buf)[first + k]? = buf[first + k]? := by
      rw [h2]
      have : ¬ (first + k < k) ∨ first = 0 := by omega
      by_cases hlt : first + k < k
      · omega
      · rw [if_neg hlt]
    have hsome : ∃ x, buf[first + k]? = some x := by
      have : first + k < buf.length := by omega
      exact ⟨buf[first + k], List.getElem?_eq_getElem this⟩
    obtain ⟨x, hxs⟩ := hsome
    rw [hx, hxs]
    have e0 : 0 + k = k := Nat.zero_add k
    simp only [List.length_set]
    rw [e0]
    refine ⟨h1, ?_⟩
    intro i
    by_cases hik : i = k
    · subst hik
      rw [List.getElem?_set_self (by rw [h1]; omega)]
      simp [hxs]
    · rw [List.getElem?_set_ne (Ne.symm hik), h2]
      by_cases h3 : i < k
      · have : i < k + 1 := by omega
        simp [h3, this]
      · have : ¬ i < k + 1 := by omega
        simp [h3, this]

/-- The method `make_room` moves the unread bytes to the front of the buffer: the buffer
is exactly the unread bytes and the read cursor is 0. -/
theorem FirstGen.TcpConnection.make_room_eq (c : FirstGen.TcpConnection)
    (hri : c.read_index_ ≤ c.input_buffer_.length) (hlen : c.input_buffer_.length < SIZE_MOD) :
    c.make_room = { input_buffer_ := c.peek, read_index_ := 0 } := by
  have hrb := FirstGen.TcpConnection.unread_length c hri hlen
  have hpl : c.peek.length = c.input_buffer_.length - c.read_index_ := by
    unfold FirstGen.TcpConnection.peek
    rw [List.length_drop]
  unfold FirstGen.TcpConnection.make_room
  simp only [hrb]
  congr 1
  by_cases hpos : c.peek.length > 0
  · rw [if_pos hpos]
    obtain ⟨h1, h2⟩ := std_copy_get c.input_buffer_ c.read_index_
      (c.input_buffer_.length - c.read_index_) (by omega)
    unfold std_copy vector_resize
    rw [h1]
    have h0 : c.peek.length - c.input_buffer_.length = 0 := by omega
    rw [h0, List.replicate_zero, List.append_nil]
    apply List.ext_getElem?
    intro i
    rw [List.getElem?_take]
    unfold FirstGen.TcpConnection.peek at hpl ⊢
    by_cases hi : i < c.input_buffer_.length - c.read_index_
    · rw [if_pos (by rw [hpl]; exact hi), h2, if_pos hi, List.getElem?_drop]
    · rw [if_neg (by rw [hpl]; exact hi), List.getElem?_drop]
      rw [List.getElem?_eq_none (by omega)]
  · rw [if_neg hpos]
    have h0 : c.peek.length = 0 := by omega
    have hnil : c.peek = [] := List.eq_nil_of_length_eq_zero h0
    rw [h0, hnil]
    simp [vector_resize]

/-- The algorithm `std::search` finds the first occurrence of a non-empty needle. -/
theorem std_search_first (needle post : List Byte) (hn : needle ≠ []) :
    ∀ pre : List Byte,
      (∀ j, j < pre.length →
        ((pre ++ needle ++ post).drop j).take needle.length ≠ needle) →
      std_search (pre ++ needle ++ post) needle = pre.length := by
  intro pre
  induction pre with
  | nil =>
    intro _
    cases needle with
    | nil => exact absurd rfl hn
    | cons x ns =>
      have h : ((x :: ns) ++ post).take (x :: ns).length = x :: ns := by
        rw [List.take_left']
        rfl
      simp only [List.nil_append, List.cons_append] at h ⊢
      simp only [std_search]
      rw [if_pos h]
      rfl
  | cons p ps ih =>
    intro hfirst
    have h0 := hfirst 0 (by simp)
    simp only [List.drop_zero, List.cons_append] at h0
    have hrest : ∀ j, j < ps.length →
        ((ps ++ needle ++ post).drop j).take needle.length ≠ needle := by
      intro j hj
      have := hfirst (j + 1) (by simp; omega)
      simpa using this
    simp only [List.cons_append, std_search, List.append_eq]
    rw [if_neg h0, ih hrest]
    rfl

/-- The method `retrieve` removes `len` bytes from the front of the unread bytes and
keeps the others, byte for byte, whether or not it compacts the buffer. -/
theorem FirstGen.TcpConnection.retrieve_peek (c : FirstGen.TcpConnection) (len : Nat)
    (hri : c.read_index_ ≤ c.input_buffer_.length) (hlen : c.input_buffer_.length < SIZE_MOD) :
    (c.retrieve len).peek = c.peek.drop len ∧
    (c.retrieve len).read_index_ ≤ (c.retrieve len).input_buffer_.length ∧
    (len < c.peek.length → c.read_index_ + len ≥ 1024 →
      c.read_index_ + len > c.peek.length - len →
      c.retrieve len = { input_buffer_ := c.peek.drop len, read_index_ := 0 }) := by
  have hrb := FirstGen.TcpConnection.unread_length c hri hlen
  have hpl : c.peek.length = c.input_buffer_.length - c.read_index_ := by
    unfold FirstGen.TcpConnection.peek
    rw [List.length_drop]
  unfold FirstGen.TcpConnection.retrieve
  rw [hrb]
  by_cases hge : len ≥ c.peek.length
  · rw [if_pos hge]
    refine ⟨?_, Nat.le_refl _, fun h => by omega⟩
    rw [List.drop_of_length_le hge]
    rfl
  · rw [if_neg hge]
    have hmod : (c.read_index_ + len) % SIZE_MOD = c.read_index_ + len :=
      Nat.mod_eq_of_lt (by omega)
    simp only [hmod]
    have hri1 : ({ c with read_index_ := c.read_index_ + len } :
        FirstGen.TcpConnection).read_index_ ≤
        ({ c with read_index_ := c.read_index_ + len } :
          FirstGen.TcpConnection).input_buffer_.length := by
      simp only
      omega
    have hpeek1 : ({ c with read_index_ := c.read_index_ + len } :
        FirstGen.TcpConnection).peek = c.peek.drop len := by
      simp only [FirstGen.TcpConnection.peek]
      rw [List.drop_drop, Nat.add_comm]
    have hrb1 := FirstGen.TcpConnection.unread_length
      { c with read_index_ := c.read_index_ + len } hri1 hlen
    rw [hpeek1, List.length_drop] at hrb1
    have hmr := FirstGen.TcpConnection.make_room_eq
      { c with read_index_ := c.read_index_ + len } hri1 hlen
    rw [hpeek1] at hmr
    rw [hrb1]
    by_cases hcomp : c.read_index_ + len ≥ 1024 ∧ c.read_index_ + len > c.peek.length - len
    · rw [if_pos hcomp, hmr]
      refine ⟨?_, Nat.zero_le _, fun _ _ _ => rfl⟩
      simp [FirstGen.TcpConnection.peek]
    · rw [if_neg hcomp]
      exact ⟨hpeek1, hri1, fun _ h2 h3 => absurd ⟨h2, h3⟩ hcomp⟩

theorem FirstGen.TcpConnection.example_buffer_length :
    FirstGen.TcpConnection.example_buffer.input_buffer_.length = 1030 := by
  simp only [FirstGen.TcpConnection.example_buffer, List.length_append,
    List.length_replicate, List.length_cons, List.length_nil]

theorem FirstGen.TcpConnection.example_buffer_peek :
    FirstGen.TcpConnection.example_buffer.peek = [71, 69, 84, 13, 10, 1, 2, 3, 4, 5] := by
  simp only [FirstGen.TcpConnection.example_buffer, FirstGen.TcpConnection.peek]
  exact List.drop_left' (List.length_replicate _ _)

/-- C40: in the first-generation connection, when the unread input is `pre`, then a
non-empty delimiter at its first occurrence, then `post`, `check_buffer_for_line` passes
to `promise->set_value` the unread bytes up to and including that occurrence, and the
unread bytes afterwards are exactly `post`. This holds whether `retrieve` clears the
buffer, only advances the read cursor, or compacts the buffer; when compaction triggers
(the new read cursor is at least 1024 and greater than the unread length) the buffer is
exactly `post` with read cursor 0. In general `retrieve(len)` removes the first `len`
unread bytes and `make_room` keeps the unread bytes, byte for byte. -/
theorem FirstGen.TcpConnection.check_buffer_for_line_spec (c : FirstGen.TcpConnection)
    (delimiter pre post : List Byte) (hd : delimiter ≠ [])
    (hri : c.read_index_ ≤ c.input_buffer_.length) (hlen : c.input_buffer_.length < SIZE_MOD)
    (hun : c.peek = pre ++ delimiter ++ post)
    (hfirst : ∀ j, j < pre.length → (c.peek.drop j).take delimiter.length ≠ delimiter) :
    (c.check_buffer_for_line delimiter).1 = some (pre ++ delimiter) ∧
    (c.check_buffer_for_line delimiter).2.peek = post ∧
    (c.check_buffer_for_line delimiter).2.read_index_ ≤
      (c.check_buffer_for_line delimiter).2.input_buffer_.length ∧
    (post ≠ [] → c.read_index_ + (pre ++ delimiter).length ≥ 1024 →
      c.read_index_ + (pre ++ delimiter).length > post.length →
      (c.check_buffer_for_line delimiter).2 = { input_buffer_ := post, read_index_ := 0 }) ∧
    (∀ len, (c.retrieve len).peek = c.peek.drop len) ∧
    c.make_room.peek = c.peek := by
  have hpl : c.peek.length = c.input_buffer_.length - c.read_index_ := by
    unfold FirstGen.TcpConnection.peek
    rw [List.length_drop]
  have hm : 0 < delimiter.length := List.length_pos.mpr hd
  have hlens : c.peek.length = pre.length + delimiter.length + post.length := by
    rw [hun, List.length_append, List.length_append]
  have hfound : std_search c.peek delimiter = pre.length := by
    rw [hun] at hfirst ⊢
    exact std_search_first delimiter post hd pre hfirst
  have hit : c.read_index_ + pre.length ≠ c.input_buffer_.length := by omega
  have hmod : (pre.length + delimiter.length) % SIZE_MOD = pre.length + delimiter.length :=
    Nat.mod_eq_of_lt (by omega)
  have hcheck : c.check_buffer_for_line delimiter =
      (some (c.peek.take (pre.length + delimiter.length)),
        c.retrieve (pre.length + delimiter.length)) := by
    simp only [FirstGen.TcpConnection.check_buffer_for_line, hfound, hmod]
    rw [if_pos hit]
  have htake : c.peek.take (pre.length + delimiter.length) = pre ++ delimiter := by
    rw [hun]
    have e : pre.length + delimiter.length = (pre ++ delimiter).length := by simp
    rw [e, List.take_left']
    rfl
  have hdrop : c.peek.drop (pre.length + delimiter.length) = post := by
    rw [hun]
    have e : pre.length + delimiter.length = (pre ++ delimiter).length := by simp
    rw [e, List.drop_left']
    rfl
  obtain ⟨r1, r2, r3⟩ := FirstGen.TcpConnection.retrieve_peek c
    (pre.length + delimiter.length) hri hlen
  rw [hdrop] at r1 r3
  rw [hcheck, htake]
  refine ⟨rfl, r1, r2, ?_, fun len => (FirstGen.TcpConnection.retrieve_peek c len hri
    hlen).1, ?_⟩
  · intro hpost h1 h2
    have hp : 0 < post.length := List.length_pos.mpr hpost
    simp only [List.length_append] at h1 h2
    exact r3 (by omega) h1 (by omega)
  · rw [FirstGen.TcpConnection.make_room_eq c hri hlen]
    simp [FirstGen.TcpConnection.peek]

/-- Witness for C40: a line ending in carriage return and line feed in the example
buffer, where the read cursor reaches 1025 and compaction triggers. -/
theorem FirstGen.TcpConnection.check_buffer_for_line_spec_witness :
    (FirstGen.TcpConnection.example_buffer.check_buffer_for_line [13, 10]).1 =
      some [71, 69, 84, 13, 10] ∧
    (FirstGen.TcpConnection.example_buffer.check_buffer_for_line [13, 10]).2 =
      { input_buffer_ := [1, 2, 3, 4, 5], read_index_ := 0 } :=
  ⟨(FirstGen.TcpConnection.check_buffer_for_line_spec FirstGen.TcpConnection.example_buffer
      [13, 10] [71, 69, 84] [1, 2, 3, 4, 5] (by decide)
      (FirstGen.TcpConnection.example_buffer_length ▸ (by decide))
      (FirstGen.TcpConnection.example_buffer_length ▸ (by decide))
      FirstGen.TcpConnection.example_buffer_peek
      (FirstGen.TcpConnection.example_buffer_peek ▸ (by decide))).1,
    (FirstGen.TcpConnection.check_buffer_for_line_spec FirstGen.TcpConnection.example_buffer
      [13, 10] [71, 69, 84] [1, 2, 3, 4, 5] (by decide)
      (FirstGen.TcpConnection.example_buffer_length ▸ (by decide))
      (FirstGen.TcpConnection.example_buffer_length ▸ (by decide))
      FirstGen.TcpConnection.example_buffer_peek
      (FirstGen.TcpConnection.example_buffer_peek ▸ (by decide))).2.2.2.1 (by decide)
      (by decide) (by decide)⟩

end MiniSeastar
